import Mathlib

/-!
Process and memory management simulator: a shallow embedding of the scheduler simulator
(`queue.c`, `memoryAlloc.c`, `simulateSched.c`, `cpuInfo.c`, `processInfo.c`, `utilities.c`,
`main.c`).

Conventions of the embedding:

* `long long int` values are `Int`; no arithmetic of the program is near the 64-bit range.
* A `ProcessInfo *` is a `Ptr` (the index of the input record that created the process); the
  contents of all process records form the heap `Ptr → ProcessInfo`.
* A `Queue` is the sequence of process pointers met when following `next` from `head`; following
  `prev` from `last` visits the reversed sequence; `size` is its length.
* An `assert` that fails and a read of an array cell that was never written end the run with a
  `Fault`.
* A `double` of the memory usage is carried as the rational that it stands for, and every
  operation on it rounds as IEEE 754 binary64 does (`fl`); the statistics of
  `record_statistic` and every `long double` are carried as exact rationals.
* The array of a frame table and its length `total_page` are one list; `queue->size / 2` is
  `half` of the length.
* Lines printed to `stdout` are recorded as `Event`s.
-/

namespace PMM

/-! ## Constants (`utilities.h`, `memoryAlloc.c`) -/

def INITIAL : Int := 0
def INVALID : Int := -1
def KB_PAGES : Int := 4
def PAGE_SIZE : Int := 4
def MIN_EXE_PAGE : Int := 4
def LOAD_TIME : Int := 2

/-- Scheduling algorithm flags `FF_A_FLAG`, `RR_A_FLAG`, `CS_A_FLAG`. -/
inductive SchedFlag
  | FF
  | RR
  | CS
  deriving DecidableEq, Repr

/-- Memory allocation flags `UN_M_FLAG`, `SP_M_FLAG`, `VM_M_FLAG`, `CM_M_FLAG`. -/
inductive MemFlag
  | UN
  | SP
  | VM
  | CM
  deriving DecidableEq, Repr

/-- Priority flags `PRIO_ARRIVAL_T`, `PRIO_LAST_EXE_T`, `PRIO_JOB_T`, `PRIO_MAX_PAGE`,
`PRIO_COMPLETE_T` of `queue.h`. -/
inductive PrioFlag
  | ARRT
  | LASTET
  | JOBT
  | MAXPAGE
  | COMPLETET
  deriving DecidableEq, Repr

/-- Ways in which the program stops without finishing. -/
inductive Fault
  | EmptyCollection
  | IndexOutOfRange
  | AllocFailed
  | BadAccess
  | OutOfFuel
  deriving DecidableEq, Repr

/-! ## Data types (`processInfo.h`, `cpuInfo.h`) -/

/-- The record `struct process`; `page_list` is `none` for `NULL`, otherwise the cells of the
array that have been written. -/
structure ProcessInfo where
  arrive_time : Int
  p_id : Int
  mem_size_req : Int
  job_time : Int
  remaining_time : Int
  last_execution_time : Int
  complete_time : Int
  total_require_page : Int
  num_page_in_mem : Int
  page_fault : Int
  load_time : Int
  mem_usage : Int
  page_list : Option (List Int)
  deriving DecidableEq, Repr

/-- The record `struct memory`; the array `is_occupy_lst` and its length `total_page` are one
list. -/
structure MemoryInfo where
  num_holes : Int
  memory_use : Int
  is_occupy_lst : List Int
  deriving DecidableEq, Repr

/-- The field `total_page`: the number of slots of the frame table. -/
def MemoryInfo.total_page (m : MemoryInfo) : Int := m.is_occupy_lst.length

/-- The record `struct cpu`. -/
structure CPUInfo where
  complete_num_process : Int
  curr_time : Int
  total_turnaround : Int
  time_overh : ℚ
  max_time_overh : ℚ
  quantam : Int
  memory : MemoryInfo

/-- A pointer to a process record. -/
abbrev Ptr := Nat

/-- The contents of the process records. -/
abbrev Heap := Ptr → ProcessInfo

/-- A queue of processes, from `head` to `last`. -/
abbrev Queue := List Ptr

/-- One line of the execution transcript. -/
inductive Event
  | running (time id remaining : Int)
  | mem_running (time id remaining load_time mem_usage : Int) (addresses : List Int)
  | evicted (time : Int) (addresses : List Int)
  | finished (time id proc_remaining : Int)
  deriving DecidableEq, Repr

/-- Everything the allocator reads and writes: the process records, the CPU record with its
memory, and the transcript printed so far. -/
structure Sys where
  heap : Heap
  cpu : CPUInfo
  out : List Event

/-- Write one process record. -/
def Sys.setProc (s : Sys) (p : Ptr) (v : ProcessInfo) : Sys :=
  { s with heap := Function.update s.heap p v }

/-- Write the memory record of the CPU. -/
def Sys.setMem (s : Sys) (m : MemoryInfo) : Sys :=
  { s with cpu := { s.cpu with memory := m } }

/-- Append a line to the transcript. -/
def Sys.emit (s : Sys) (e : Event) : Sys :=
  { s with out := s.out ++ [e] }

/-- The record made by `new_ProcessInfo` (`complete_time` is left unset by the source and is
written before it is first read). -/
def new_ProcessInfo : ProcessInfo :=
  { arrive_time := INVALID, p_id := INVALID, mem_size_req := INVALID, job_time := INVALID,
    remaining_time := INITIAL, last_execution_time := INITIAL, complete_time := INITIAL,
    total_require_page := INVALID, num_page_in_mem := INITIAL, page_fault := INITIAL,
    load_time := INITIAL, mem_usage := INITIAL, page_list := none }

/-- The record made by `new_MemoryInfo size`: every slot free. -/
def new_MemoryInfo (size : Nat) : MemoryInfo :=
  { num_holes := size, memory_use := INITIAL, is_occupy_lst := List.replicate size INVALID }

/-- The record made by `new_CPUInfo`, with `quantam` and `memory` as set by `main`. -/
def new_CPUInfo (quantum : Int) (memory : MemoryInfo) : CPUInfo :=
  { complete_num_process := INITIAL, curr_time := INITIAL, total_turnaround := INITIAL,
    time_overh := 0, max_time_overh := 0, quantam := quantum, memory := memory }

/-! ## Queue (`queue.c`) -/

/-- The empty queue of `new_queue`. -/
def new_queue : Queue := []

/-- Number of elements, `get_queue_size`. -/
def get_queue_size (queue : Queue) : Int := queue.length

/-- The priority value selected by the flag, `get_priority`. -/
def get_priority (p : ProcessInfo) : PrioFlag → Int
  | .ARRT => p.arrive_time
  | .JOBT => p.job_time
  | .LASTET => p.last_execution_time
  | .MAXPAGE => p.num_page_in_mem
  | .COMPLETET => p.complete_time

/-- The condition of the `while` loop of `enqueue`: the node `last` has to come after the new
node. -/
def enqueue_cond (H : Heap) (prio_flag : PrioFlag) (node last : Ptr) : Bool :=
  decide (get_priority (H last) prio_flag > get_priority (H node) prio_flag)
    || (decide (get_priority (H last) prio_flag = get_priority (H node) prio_flag)
        && decide ((H last).p_id > (H node).p_id))

/-- The `while` loop of `enqueue` with the relinking that follows it. The argument lists the nodes
from `last` backwards along `prev`; the result lists the new chain in the same direction. Reaching
the end of the argument is the case `last->prev == NULL` (`INSERT_START`). -/
def enqueue_walk (H : Heap) (prio_flag : PrioFlag) (node : Ptr) : List Ptr → List Ptr
  | [] => [node]
  | last :: prevs =>
    if enqueue_cond H prio_flag node last then last :: enqueue_walk H prio_flag node prevs
    else node :: last :: prevs

/-- Add a process to the queue by priority, `enqueue`. -/
def enqueue (H : Heap) (queue : Queue) (process : Ptr) (prio_flag : PrioFlag) : Queue :=
  if get_queue_size queue = 0 then [process]
  else (enqueue_walk H prio_flag process queue.reverse).reverse

/-- Remove and return the first process, `dequeue`; the assertion `queue->size > 0` fails on an
empty queue. -/
def dequeue (queue : Queue) : Except Fault (Ptr × Queue) :=
  if get_queue_size queue > 0 then
    match queue with
    | [] => .error .BadAccess
    | process :: rest => .ok (process, rest)
  else .error .EmptyCollection

/-- Follow `steps` links from the first node of `chain` and return the process found there. -/
def walk_links : List Ptr → Nat → Except Fault Ptr
  | [], _ => .error .BadAccess
  | p :: _, 0 => .ok p
  | _ :: rest, steps + 1 => walk_links rest steps

/-- The quotient `n / 2` of a size. -/
def half : Nat → Nat
  | 0 => 0
  | 1 => 0
  | n + 2 => half n + 1

/-- The process at a given index, `get_queue_point`: from `last` along `prev` when the index is in
the second half (`index >= queue->size / 2`), from `head` along `next` otherwise. -/
def get_queue_point (queue : Queue) (index : Int) : Except Fault Ptr :=
  if get_queue_size queue > index ∧ index ≥ 0 then
    if index ≥ (half queue.length : Int) then
      walk_links queue.reverse (get_queue_size queue - 1 - index).toNat
    else
      walk_links queue index.toNat
  else .error .IndexOutOfRange

/-! ## Utilities (`utilities.c`) -/

/-- The function `my_ceil`: truncate towards zero, and add one unless nothing was cut off. -/
def my_ceil (num : ℚ) : Int :=
  let ld_num : Int := num.num.tdiv num.den
  if num = (ld_num : ℚ) then ld_num else ld_num + 1

/-- The binary exponent of the positive rational `a / b`: the integer `e` with
`2 ^ e ≤ a / b < 2 ^ (e + 1)`. -/
def binade (a b : Nat) : Int :=
  let k : Int := (Nat.log2 a : Int) - (Nat.log2 b : Int)
  if b * 2 ^ k.toNat ≤ a * 2 ^ (-k).toNat then k else k - 1

/-- The integer nearest to `n / d`, the even one of the two when `n / d` is half way. -/
def round_even (n d : Nat) : Nat :=
  if 2 * (n % d) < d then n / d
  else if d < 2 * (n % d) then n / d + 1
  else if n / d % 2 = 0 then n / d else n / d + 1

/-- The value of an operation on `double`s with the exact result `x`: the nearest number with a
significand of 53 bits, the one with an even significand when `x` is half way (IEEE 754
binary64, round to nearest). The numbers of the program are far from the limits of the exponent,
which are not modelled. -/
def fl (x : ℚ) : ℚ :=
  if x = 0 then 0
  else
    let s : Int := binade x.num.natAbs x.den - 52
    let m := round_even (x.num.natAbs * 2 ^ (-s).toNat) (x.den * 2 ^ s.toNat)
    (if x < 0 then -1 else 1) * (m : ℚ) * (2 : ℚ) ^ s

/-- The conversion of a `long long int` to `double`. -/
def double_of (n : Int) : ℚ := fl (n : ℚ)

/-- The product of two `double`s. -/
def double_mul (a b : ℚ) : ℚ := fl (a * b)

/-- The quotient of two `double`s (of a divisor that is not 0). -/
def double_div (a b : ℚ) : ℚ := fl (a / b)

/-! ## Memory allocation (`memoryAlloc.c`) -/

/-- The cells `page_list[0]`, ..., `page_list[n - 1]` of an array. -/
def read_cells (page_list : Option (List Int)) (n : Int) : Except Fault (List Int) :=
  if n ≤ 0 then .ok []
  else
    match page_list with
    | none => .error .BadAccess
    | some cells => if n ≤ cells.length then .ok (cells.take n.toNat) else .error .BadAccess

/-- The line `RUNNING` for unlimited memory, `print_running`. -/
def print_running (s : Sys) (p : Ptr) : Sys :=
  s.emit (.running s.cpu.curr_time (s.heap p).p_id (s.heap p).remaining_time)

/-- The line `RUNNING` for limited memory, `print_mem_running`. -/
def print_mem_running (s : Sys) (p : Ptr) : Except Fault Sys := do
  let cells ← read_cells (s.heap p).page_list (s.heap p).num_page_in_mem
  pure (s.emit (.mem_running s.cpu.curr_time (s.heap p).p_id (s.heap p).remaining_time
    (s.heap p).load_time s.cpu.memory.memory_use cells))

/-- The line `EVICTED`, `print_evicted`. -/
def print_evicted (s : Sys) (page_list : Option (List Int)) (p_size : Int) : Except Fault Sys := do
  let cells ← read_cells page_list p_size
  pure (s.emit (.evicted s.cpu.curr_time cells))

/-- The array made by `remove_n_element`: the cells `n`, ..., `p_size - 1` of `page_list`. -/
def remove_n_element (page_list : Option (List Int)) (n p_size : Int) :
    Except Fault (List Int) :=
  if p_size - n ≤ 0 then .ok []
  else if n < 0 then .error .BadAccess
  else do
    let cells ← read_cells page_list p_size
    pure (cells.drop n.toNat)

/-- The first loop of `free_page`: mark each listed frame of the table as free. -/
def free_cells : List Int → List Int → Except Fault (List Int)
  | [], occupy => .ok occupy
  | ind :: rest, occupy =>
    if 0 ≤ ind ∧ ind < occupy.length then free_cells rest (occupy.set ind.toNat INVALID)
    else .error .BadAccess

/-- Free the first `num_free` pages of a process, `free_page`. The argument `page_list` is the
record of freed pages (`none` for `NULL`), whose length is the argument `start` of the source; the
record with the new pages appended is returned. -/
def free_page (s : Sys) (p : Ptr) (page_list : Option (List Int)) (num_free : Int) :
    Except Fault (Sys × Option (List Int)) := do
  let pr := s.heap p
  let m := s.cpu.memory
  let freed ← read_cells pr.page_list num_free
  let occupy ← free_cells freed m.is_occupy_lst
  let new_list ←
    if num_free = pr.num_page_in_mem then pure none
    else (remove_n_element pr.page_list num_free pr.num_page_in_mem).map some
  let free_usage := my_ceil (double_mul 100 (double_mul
      (double_div (double_mul (double_of num_free) 1) (double_of m.total_page)) 1))
  let s1 := s.setProc p { pr with
    page_list := new_list
    num_page_in_mem := pr.num_page_in_mem - num_free
    mem_usage := pr.mem_usage - free_usage }
  let s2 := s1.setMem { m with
    is_occupy_lst := occupy
    num_holes := m.num_holes + num_free
    memory_use := m.memory_use - free_usage }
  pure (s2, page_list.map (fun l => l ++ freed))

/-- The call of `qsort` with `long_int_comparator`: ascending order. -/
def qsort (l : List Int) : List Int := l.insertionSort (fun a b => a ≤ b)

/-- The `for` loop of `evcit` that fills `resort_queue`. -/
def resort (H : Heap) (queue : Queue) (prio_flag : PrioFlag) : Except Fault Queue :=
  (List.range queue.length).foldlM
    (fun (resort_queue : Queue) (i : Nat) => do
      let p ← get_queue_point queue (i : Int)
      pure (enqueue H resort_queue p prio_flag))
    new_queue

/-- The `while` loop of `evcit`; every round removes one element of `resort_queue`, and the
first argument bounds the number of rounds. -/
def evcit_loop (mem_alloc_f : MemFlag) (curr_require_page : Int) :
    Nat → Sys → Queue → List Int → Except Fault (Sys × List Int)
  | 0, s, _, evict_list =>
    if curr_require_page > s.cpu.memory.num_holes then .error .OutOfFuel
    else .ok (s, evict_list)
  | fuel + 1, s, resort_queue, evict_list =>
    if curr_require_page > s.cpu.memory.num_holes then do
      let (evict_p, rest) ← dequeue resort_queue
      if (s.heap evict_p).page_list ≠ none then
        let num_free := (s.heap evict_p).num_page_in_mem
        let num_free :=
          if (mem_alloc_f = .VM ∨ mem_alloc_f = .CM)
              ∧ num_free ≥ curr_require_page - s.cpu.memory.num_holes then
            curr_require_page - s.cpu.memory.num_holes
          else num_free
        if num_free > 0 then do
          let (s1, record) ← free_page s evict_p (some evict_list) num_free
          evcit_loop mem_alloc_f curr_require_page fuel s1 rest (record.getD evict_list)
        else evcit_loop mem_alloc_f curr_require_page fuel s rest evict_list
      else evcit_loop mem_alloc_f curr_require_page fuel s rest evict_list
    else .ok (s, evict_list)

/-- Evict pages of the processes of the queue until `curr_require_page` frames are free,
`evcit`. -/
def evcit (mem_alloc_f : MemFlag) (queue : Queue) (s : Sys) (curr_require_page : Int) :
    Except Fault Sys := do
  let prio_flag := if mem_alloc_f = .CM then PrioFlag.MAXPAGE else PrioFlag.LASTET
  let resort_queue ← resort s.heap queue prio_flag
  let (s1, evict_list) ←
    evcit_loop mem_alloc_f curr_require_page (resort_queue.length + 1) s resort_queue []
  let sorted := qsort evict_list
  print_evicted s1 (some sorted) sorted.length

/-- The allocation loop of `mem_alloc_func`: scanning the table upwards, give free frames to the
process until `curr_require_page` frames were given; `p_page_ind` counts the frames given. The
result is the new table with the final count. -/
def alloc_frames (p_id curr_require_page : Int) : List Int → Int → List Int × Int
  | [], p_page_ind => ([], p_page_ind)
  | slot :: rest, p_page_ind =>
    if p_page_ind = curr_require_page then (slot :: rest, p_page_ind)
    else if slot = INVALID then
      let r := alloc_frames p_id curr_require_page rest (p_page_ind + 1)
      (p_id :: r.1, r.2)
    else
      let r := alloc_frames p_id curr_require_page rest p_page_ind
      (slot :: r.1, r.2)

/-- The address loop of `mem_alloc_func`: scanning the table upwards from index `i`, list the
frames owned by `p_id` until `occupy` of them were listed. -/
def collect_frames (p_id occupy : Int) : Int → List Int → Int → List Int
  | _, [], _ => []
  | i, slot :: rest, p_page_ind =>
    if p_page_ind = occupy then []
    else if slot = p_id then i :: collect_frames p_id occupy (i + 1) rest (p_page_ind + 1)
    else collect_frames p_id occupy (i + 1) rest p_page_ind

/-- The part of `mem_alloc_func` that decides how many pages are given now, evicting pages of
other processes when needed; the result is the state after any eviction and the final value of
`curr_require_page`. -/
def require_pages (mem_alloc_f : MemFlag) (queue : Queue) (s : Sys) (p : Ptr)
    (curr_require_page : Int) : Except Fault (Sys × Int) :=
  let num_holes := s.cpu.memory.num_holes
  let num_page_in_mem := (s.heap p).num_page_in_mem
  if curr_require_page > num_holes then
    if mem_alloc_f = .SP then do
      let s1 ← evcit mem_alloc_f queue s curr_require_page
      pure (s1, curr_require_page)
    else if mem_alloc_f = .VM ∨ mem_alloc_f = .CM then
      if num_page_in_mem < MIN_EXE_PAGE then
        if num_holes < MIN_EXE_PAGE then
          let curr_require_page :=
            if num_page_in_mem + curr_require_page > MIN_EXE_PAGE then
              MIN_EXE_PAGE - num_page_in_mem
            else curr_require_page
          if curr_require_page > num_holes then do
            let s1 ← evcit mem_alloc_f queue s curr_require_page
            pure (s1, curr_require_page)
          else pure (s, num_holes)
        else pure (s, num_holes)
      else pure (s, num_holes)
    else pure (s, curr_require_page)
  else pure (s, curr_require_page)

/-- Simulate the memory allocation before a process runs, `mem_alloc_func`. -/
def mem_alloc_func (mem_alloc_f : MemFlag) (queue : Queue) (s : Sys) (p : Ptr) :
    Except Fault Sys :=
  if mem_alloc_f = .UN then
    let s1 := s.setProc p { s.heap p with load_time := 0 }
    pure (print_running s1 p)
  else
    let total_require_page := (s.heap p).mem_size_req.tdiv PAGE_SIZE
    let curr_require_page := total_require_page - (s.heap p).num_page_in_mem
    if curr_require_page = 0 then
      let s1 := s.setProc p { s.heap p with load_time := 0, page_fault := 0 }
      print_mem_running s1 p
    else do
      let (s1, curr_require_page) ← require_pages mem_alloc_f queue s p curr_require_page
      let pr := s1.heap p
      let m := s1.cpu.memory
      let given := alloc_frames pr.p_id curr_require_page m.is_occupy_lst 0
      if total_require_page < 0 then throw Fault.AllocFailed
      let occupy := curr_require_page + pr.num_page_in_mem
      let p_page_lst := collect_frames pr.p_id occupy 0 given.1 0
      let num_page_in_mem := pr.num_page_in_mem + curr_require_page
      let page_fault := total_require_page - num_page_in_mem
      let new_usage := my_ceil (double_mul 100 (double_mul
          (double_div (double_mul (double_of curr_require_page) 1) (double_of m.total_page)) 1))
      let s2 := s1.setProc p { pr with
        page_list := some p_page_lst
        load_time := curr_require_page * LOAD_TIME
        num_page_in_mem := num_page_in_mem
        page_fault := page_fault
        remaining_time := pr.remaining_time + page_fault
        mem_usage := pr.mem_usage + new_usage }
      let s3 := s2.setMem { m with
        is_occupy_lst := given.1
        num_holes := m.num_holes - given.2
        memory_use := m.memory_use + new_usage }
      print_mem_running s3 p

/-- Print the finish message, `print_finished`; with limited memory the pages of the process are
reported as evicted and freed first. -/
def print_finished (mem_alloc_f : MemFlag) (s : Sys) (p : Ptr) (queue : Queue) :
    Except Fault Sys := do
  let s1 ←
    if mem_alloc_f ≠ .UN then do
      let s1 ← print_evicted s (s.heap p).page_list (s.heap p).num_page_in_mem
      let r ← free_page s1 p none (s1.heap p).num_page_in_mem
      pure r.1
    else pure s
  pure (s1.emit (.finished s1.cpu.curr_time (s1.heap p).p_id (get_queue_size queue)))

/-! ## Scheduling simulation (`simulateSched.c`) -/

/-- Advance the clock after a process ran, `add_curr_time`. -/
def add_curr_time (sched_algo_f : SchedFlag) (s : Sys) (p : Ptr) : Sys :=
  let pr := s.heap p
  match sched_algo_f with
  | .FF => { s with cpu := { s.cpu with curr_time := s.cpu.curr_time + (pr.job_time + pr.load_time) } }
  | .RR =>
    if pr.remaining_time ≥ s.cpu.quantam then
      let s1 := s.setProc p { pr with remaining_time := pr.remaining_time - s.cpu.quantam }
      { s1 with cpu := { s1.cpu with
          curr_time := s1.cpu.curr_time + (s1.cpu.quantam + pr.load_time) } }
    else
      let s1 : Sys := { s with cpu := { s.cpu with
          curr_time := s.cpu.curr_time + (pr.remaining_time + pr.load_time) } }
      s1.setProc p { pr with remaining_time := 0 }
  | .CS => { s with cpu := { s.cpu with curr_time := s.cpu.curr_time + (pr.job_time + pr.load_time) } }

/-- Update turnaround time and time overhead, `record_statistic`. -/
def record_statistic (s : Sys) (p : Ptr) : Sys :=
  let curr_turnaround : Int := s.cpu.curr_time - (s.heap p).arrive_time
  let time_overh : ℚ := (curr_turnaround : ℚ) / ((s.heap p).job_time : ℚ)
  { s with cpu := { s.cpu with
      total_turnaround := s.cpu.total_turnaround + curr_turnaround
      time_overh := s.cpu.time_overh + time_overh
      max_time_overh :=
        if time_overh > s.cpu.max_time_overh then time_overh else s.cpu.max_time_overh } }

/-- The state of `simulation`: the records and transcript, the queue of processes still to
arrive, the waiting queue and the queue of completed processes. -/
structure Sim where
  sys : Sys
  queue : Queue
  waiting_queue : Queue
  complete_queue : Queue

/-- The inner `while` loop of `simulation`: move the processes that arrived up to the current
time into the waiting queue; every round removes one element of `queue`, and the first argument
bounds the number of rounds. -/
def arrivals (sched_algo_f : SchedFlag) (H : Heap) (curr_time : Int) :
    Nat → Queue → Queue → Except Fault (Queue × Queue)
  | 0, queue, waiting_queue =>
    if get_queue_size queue > 0 then .error .OutOfFuel else .ok (queue, waiting_queue)
  | fuel + 1, queue, waiting_queue =>
    if get_queue_size queue > 0 then do
      let p ← get_queue_point queue 0
      if (H p).arrive_time ≤ curr_time then do
        let (q, rest) ← dequeue queue
        match sched_algo_f with
        | .CS => arrivals sched_algo_f H curr_time fuel rest (enqueue H waiting_queue q .JOBT)
        | .FF => arrivals sched_algo_f H curr_time fuel rest (enqueue H waiting_queue q .ARRT)
        | .RR => arrivals sched_algo_f H curr_time fuel rest (enqueue H waiting_queue q .ARRT)
      else pure (queue, waiting_queue)
    else pure (queue, waiting_queue)

/-- The body of the outer `while` loop of `simulation`. -/
def sim_step (sched_algo_f : SchedFlag) (mem_alloc_f : MemFlag) (st : Sim) : Except Fault Sim :=
  if get_queue_size st.waiting_queue > 0 then do
    let (p, waiting_queue) ← dequeue st.waiting_queue
    let s1 ← mem_alloc_func mem_alloc_f waiting_queue st.sys p
    let s2 := add_curr_time sched_algo_f s1 p
    let (queue, waiting_queue) ←
      arrivals sched_algo_f s2.heap s2.cpu.curr_time st.queue.length st.queue waiting_queue
    let s3 := s2.setProc p { s2.heap p with last_execution_time := s2.cpu.curr_time }
    if sched_algo_f = .RR ∧ (s3.heap p).remaining_time ≠ 0 then
      pure { st with
        sys := s3
        queue := queue
        waiting_queue := enqueue s3.heap waiting_queue p .LASTET }
    else do
      let s4 := record_statistic s3 p
      let s5 ← print_finished mem_alloc_f s4 p waiting_queue
      let s6 := s5.setProc p { s5.heap p with complete_time := s5.cpu.curr_time }
      let complete_queue := enqueue s6.heap st.complete_queue p .COMPLETET
      let s7 : Sys := { s6 with cpu := { s6.cpu with
        complete_num_process := s6.cpu.complete_num_process + 1 } }
      pure { sys := s7, queue := queue, waiting_queue := waiting_queue,
             complete_queue := complete_queue }
  else if get_queue_size st.queue > 0 then do
    let (p, queue) ← dequeue st.queue
    let waiting_queue := enqueue st.sys.heap st.waiting_queue p .ARRT
    let s1 : Sys := { st.sys with cpu := { st.sys.cpu with
      curr_time := (st.sys.heap p).arrive_time } }
    pure { st with sys := s1, queue := queue, waiting_queue := waiting_queue }
  else pure st

/-- The outer `while` loop of `simulation`, for at most the given number of rounds. -/
def sim_loop (sched_algo_f : SchedFlag) (mem_alloc_f : MemFlag) : Nat → Sim → Except Fault Sim
  | 0, st =>
    if get_queue_size st.waiting_queue > 0 ∨ get_queue_size st.queue > 0 then .error .OutOfFuel
    else .ok st
  | fuel + 1, st =>
    if get_queue_size st.waiting_queue > 0 ∨ get_queue_size st.queue > 0 then do
      let st1 ← sim_step sched_algo_f mem_alloc_f st
      sim_loop sched_algo_f mem_alloc_f fuel st1
    else .ok st

/-- The state of `simulation` when the outer loop is entered. -/
def sim_init (queue : Queue) (s : Sys) : Except Fault Sim :=
  if get_queue_size queue > 0 then do
    let (p, rest) ← dequeue queue
    pure { sys := s, queue := rest, waiting_queue := enqueue s.heap new_queue p .ARRT,
           complete_queue := new_queue }
  else pure { sys := s, queue := queue, waiting_queue := new_queue, complete_queue := new_queue }

/-- Simulate the run of the processes of `queue`, `simulation`; the outer loop runs for at most
`fuel` rounds. The result holds the queue of completed processes and the final records. -/
def simulation (sched_algo_f : SchedFlag) (mem_alloc_f : MemFlag) (queue : Queue) (s : Sys)
    (fuel : Nat) : Except Fault Sim := do
  let st ← sim_init queue s
  sim_loop sched_algo_f mem_alloc_f fuel st

/-! ## Reading the input (`main.c`) -/

/-- One line of the input file: arrival time, process id, memory size, job time. -/
structure Record where
  arrive_time : Int
  p_id : Int
  mem_size_req : Int
  job_time : Int
  deriving DecidableEq, Repr

/-- The process record that `read_file` makes from one input line. -/
def Record.toProcess (r : Record) : ProcessInfo :=
  { new_ProcessInfo with
    arrive_time := r.arrive_time, p_id := r.p_id, mem_size_req := r.mem_size_req,
    job_time := r.job_time, remaining_time := r.job_time }

/-- The loop of `read_file`: the record of line `i` is stored at pointer `next + i` and is put in
the queue by arrival time. -/
def read_lines : List Record → Ptr → Heap → Queue → Heap × Queue
  | [], _, H, queue => (H, queue)
  | r :: rest, next, H, queue =>
    let H1 := Function.update H next r.toProcess
    read_lines rest (next + 1) H1 (enqueue H1 queue next .ARRT)

/-- The process records and the queue made by `read_file`. -/
def read_file (records : List Record) : Heap × Queue :=
  read_lines records 0 (fun _ => new_ProcessInfo) new_queue

/-- The initial records of `main`: the processes read from the input, a fresh CPU record, and an
empty transcript. -/
def init_sys (records : List Record) (frames : Nat) (quantum : Int) : Sys :=
  { heap := (read_file records).1, cpu := new_CPUInfo quantum (new_MemoryInfo frames), out := [] }

/-- The run of `main` on the given input lines and options: `-a`, `-m`, the number of frames
`mem_size / KB_PAGES`, and `-q`. -/
def run (records : List Record) (sched_algo : SchedFlag) (mem_alloc : MemFlag)
    (frames : Nat) (quantum : Int) (fuel : Nat) : Except Fault Sim :=
  simulation sched_algo mem_alloc (read_file records).2 (init_sys records frames quantum) fuel

/-! ## Relations used to state the properties -/

/-- The order of the queue: `a` may stand before `b` when its priority value is smaller, or equal
with a process id that is not larger. -/
def prio_le (H : Heap) (prio_flag : PrioFlag) (a b : Ptr) : Prop :=
  get_priority (H a) prio_flag < get_priority (H b) prio_flag
    ∨ (get_priority (H a) prio_flag = get_priority (H b) prio_flag ∧ (H a).p_id ≤ (H b).p_id)

/-- Call `dequeue` until the queue is empty (as the loop at the end of `evcit` does), for at most
the given number of rounds, and list the processes in the order they were returned. -/
def dequeue_all : Nat → Queue → Except Fault (List Ptr)
  | 0, queue => if get_queue_size queue > 0 then .error .OutOfFuel else .ok []
  | fuel + 1, queue =>
    if get_queue_size queue > 0 then do
      let (p, rest) ← dequeue queue
      let others ← dequeue_all fuel rest
      pure (p :: others)
    else .ok []

/-- Insert the listed processes one after the other into a queue. -/
def enqueue_list (H : Heap) (prio_flag : PrioFlag) (queue : Queue) (ps : List Ptr) : Queue :=
  ps.foldl (fun q p => enqueue H q p prio_flag) queue

/-- The written cells of the page list of a process (none for `NULL`). -/
def cells (p : ProcessInfo) : List Int := p.page_list.getD []

/-- The indices of the frames owned by `p_id`, in ascending order, in a table whose first slot has
index `i`. -/
def owned (p_id : Int) : Int → List Int → List Int
  | _, [] => []
  | i, slot :: rest =>
    if slot = p_id then i :: owned p_id (i + 1) rest else owned p_id (i + 1) rest

/-- The number of free slots of a frame table. -/
def free_count (occupy : List Int) : Int := occupy.count INVALID

/-- The sum of `num_page_in_mem` over the listed processes. -/
def resident_sum (H : Heap) (all : List Ptr) : Int :=
  (all.map (fun p => (H p).num_page_in_mem)).sum

/-- Two states agree on everything the frame accounting reads: the frame table with its counter,
and the id, memory size, page count and page list of every process. -/
def same_memory (s s' : Sys) : Prop :=
  s'.cpu.memory.is_occupy_lst = s.cpu.memory.is_occupy_lst
    ∧ s'.cpu.memory.num_holes = s.cpu.memory.num_holes
    ∧ ∀ p, (s'.heap p).p_id = (s.heap p).p_id
        ∧ (s'.heap p).mem_size_req = (s.heap p).mem_size_req
        ∧ (s'.heap p).num_page_in_mem = (s.heap p).num_page_in_mem
        ∧ (s'.heap p).page_list = (s.heap p).page_list

/-- The states that a run over the processes `all` can reach from the state `s0`: by an admission
(`mem_alloc_func`), an eviction (`evcit`), a finish (`print_finished`), each for any process and
queue of `all`, or by a step that leaves the frame accounting alone (the clock, the statistics,
the times of a process). -/
inductive Reach (s0 : Sys) (all : List Ptr) : Sys → Prop
  | start : Reach s0 all s0
  | admission {s s' : Sys} (mem_alloc_f : MemFlag) (queue : Queue) (p : Ptr) :
      Reach s0 all s → p ∈ all → (∀ q ∈ queue, q ∈ all) →
      mem_alloc_func mem_alloc_f queue s p = .ok s' → Reach s0 all s'
  | evict {s s' : Sys} (mem_alloc_f : MemFlag) (queue : Queue) (curr_require_page : Int) :
      Reach s0 all s → (∀ q ∈ queue, q ∈ all) →
      evcit mem_alloc_f queue s curr_require_page = .ok s' → Reach s0 all s'
  | finish {s s' : Sys} (mem_alloc_f : MemFlag) (queue : Queue) (p : Ptr) :
      Reach s0 all s → p ∈ all →
      print_finished mem_alloc_f s p queue = .ok s' → Reach s0 all s'
  | other {s s' : Sys} : Reach s0 all s → same_memory s s' → Reach s0 all s'

/-- The input gives every process its own id, none of them `INVALID`. -/
def unique_ids (records : List Record) : Prop :=
  (records.map (fun r => r.p_id)).Nodup ∧ INVALID ∉ records.map (fun r => r.p_id)

/-- The frame accounting is consistent for the processes `all`: ids are valid and distinct, the
counter of holes is the number of free slots, every page list is the ascending list of the frames
owned by the process and has `num_page_in_mem` cells, no process holds more pages than it
requires, and holes and resident pages add up to the size of the table. -/
structure Inv (all : List Ptr) (s : Sys) : Prop where
  nodup : all.Nodup
  id_valid : ∀ p ∈ all, (s.heap p).p_id ≠ INVALID
  id_inj : ∀ p ∈ all, ∀ q ∈ all, (s.heap p).p_id = (s.heap q).p_id → p = q
  holes : s.cpu.memory.num_holes = free_count s.cpu.memory.is_occupy_lst
  pages : ∀ p ∈ all, cells (s.heap p) = owned (s.heap p).p_id 0 s.cpu.memory.is_occupy_lst
  count : ∀ p ∈ all, (s.heap p).num_page_in_mem = (cells (s.heap p)).length
  bound : ∀ p ∈ all, (s.heap p).num_page_in_mem = 0
      ∨ (s.heap p).num_page_in_mem ≤ (s.heap p).mem_size_req.tdiv PAGE_SIZE
  sum : s.cpu.memory.num_holes + resident_sum s.heap all = s.cpu.memory.total_page

/-- The order of the queue can be decided. -/
instance prio_le_decidable (H : Heap) (prio_flag : PrioFlag) (a b : Ptr) :
    Decidable (prio_le H prio_flag a b) := by
  unfold prio_le
  infer_instance

/-- The state after an admission, or the state before it when the admission fails. -/
def after_admission (mem_alloc_f : MemFlag) (queue : Queue) (s : Sys) (p : Ptr) : Sys :=
  match mem_alloc_func mem_alloc_f queue s p with
  | .ok s' => s'
  | .error _ => s

/-- A sample input: three processes that require 5, 4 and 6 pages. -/
def sample_records : List Record := [⟨0, 1, 20, 5⟩, ⟨0, 2, 16, 5⟩, ⟨1, 3, 24, 7⟩]

/-- The sample input with 8 frames, after the first process was admitted under swapping. -/
def sample_first : Sys := after_admission .SP [1, 2] (init_sys sample_records 8 3) 0

/-- The sample input with 8 frames, after the first and then the second process were admitted
under swapping; the second admission evicts the pages of the first process. -/
def sample_second : Sys := after_admission .SP [0, 2] sample_first 1

/-- The value of `total_require_page` that `mem_alloc_func` computes for a process. -/
def required_pages (pr : ProcessInfo) : Int := pr.mem_size_req.tdiv PAGE_SIZE

/-- The part of `mem_alloc_func` that follows the decision: the allocation loop, the address
loop, the updates of the process and of the memory, and the message, for the totals
`total_require_page` and `curr_require_page` decided before. -/
def grant_pages (s1 : Sys) (p : Ptr) (total_require_page curr_require_page : Int) :
    Except Fault Sys := do
  let pr := s1.heap p
  let m := s1.cpu.memory
  let given := alloc_frames pr.p_id curr_require_page m.is_occupy_lst 0
  if total_require_page < 0 then throw Fault.AllocFailed
  let occupy := curr_require_page + pr.num_page_in_mem
  let p_page_lst := collect_frames pr.p_id occupy 0 given.1 0
  let num_page_in_mem := pr.num_page_in_mem + curr_require_page
  let page_fault := total_require_page - num_page_in_mem
  let new_usage := my_ceil (double_mul 100 (double_mul
      (double_div (double_mul (double_of curr_require_page) 1) (double_of m.total_page)) 1))
  let s2 := s1.setProc p { pr with
    page_list := some p_page_lst
    load_time := curr_require_page * LOAD_TIME
    num_page_in_mem := num_page_in_mem
    page_fault := page_fault
    remaining_time := pr.remaining_time + page_fault
    mem_usage := pr.mem_usage + new_usage }
  let s3 := s2.setMem { m with
    is_occupy_lst := given.1
    num_holes := m.num_holes - given.2
    memory_use := m.memory_use + new_usage }
  print_mem_running s3 p

/-- Two records of a process agree on every field but the page list, the page count and the
memory usage. -/
def same_but_pages (a b : ProcessInfo) : Prop :=
  b = { a with page_list := b.page_list, num_page_in_mem := b.num_page_in_mem,
               mem_usage := b.mem_usage }

/-- The line is an `EVICTED` line. -/
def Event.is_evicted : Event → Bool
  | .evicted _ _ => true
  | _ => false

/-- The situation at a dispatch: the process `p` was taken out of the ready queue, no process is
in the queue twice, and every other process that holds pages is in the queue. -/
def dispatched (all : List Ptr) (s : Sys) (queue : Queue) (p : Ptr) : Prop :=
  p ∈ all ∧ p ∉ queue ∧ queue.Nodup ∧ (∀ q ∈ queue, q ∈ all)
    ∧ ∀ q ∈ all, q ≠ p → q ∉ queue → (s.heap q).num_page_in_mem = 0

/-- The sample input with 8 frames, after the first process was admitted under virtual memory:
it holds its 5 pages and 3 frames stay free. -/
def sample_vm_first : Sys := after_admission .VM [1, 2] (init_sys sample_records 8 3) 0

/-- The sample input with 8 frames, after the first and then the second process were admitted
under virtual memory; the second admission evicts one page of the first process. -/
def sample_vm_second : Sys := after_admission .VM [0, 2] sample_vm_first 1

/-- An input whose only process requests 6 units of memory, not a multiple of `PAGE_SIZE`. -/
def odd_size_records : List Record := [⟨0, 1, 6, 5⟩]

/-- The states of `simulation` that the rounds of its outer loop reach from the state `st0`. -/
inductive SimReach (sched_algo_f : SchedFlag) (mem_alloc_f : MemFlag) (st0 : Sim) : Sim → Prop
  | start : SimReach sched_algo_f mem_alloc_f st0 st0
  | step {st st' : Sim} : SimReach sched_algo_f mem_alloc_f st0 st →
      sim_step sched_algo_f mem_alloc_f st = .ok st' → SimReach sched_algo_f mem_alloc_f st0 st'

/-- The state of `simulation` is consistent for the processes `all`: the frame accounting is
consistent, the queue of processes still to arrive and the waiting queue hold processes of `all`,
each at most once and none in both, and every process outside the waiting queue holds no page. -/
structure SimInv (all : List Ptr) (st : Sim) : Prop where
  inv : Inv all st.sys
  waiting_nodup : st.waiting_queue.Nodup
  queue_nodup : st.queue.Nodup
  waiting_mem : ∀ q ∈ st.waiting_queue, q ∈ all
  queue_mem : ∀ q ∈ st.queue, q ∈ all
  disjoint : ∀ q ∈ st.queue, q ∉ st.waiting_queue
  idle : ∀ q ∈ all, q ∉ st.waiting_queue → (st.sys.heap q).num_page_in_mem = 0

/-- The state of `simulation` when its outer loop is entered on the given input, or an empty
state when there is none. -/
def sim_start (records : List Record) (frames : Nat) (quantum : Int) : Sim :=
  match sim_init (read_file records).2 (init_sys records frames quantum) with
  | .ok st => st
  | .error _ => ⟨init_sys records frames quantum, [], [], []⟩

/-- The state after one round of the outer loop of `simulation`, or the state before it when the
round fails. -/
def after_step (sched_algo_f : SchedFlag) (mem_alloc_f : MemFlag) (st : Sim) : Sim :=
  match sim_step sched_algo_f mem_alloc_f st with
  | .ok st1 => st1
  | .error _ => st

/-- The sample input with 8 frames under round robin with quantum 3 and swapping, after the
first round: the first process holds its 5 pages and waits behind the other two. -/
def sample_round : Sim := after_step .RR .SP (sim_start sample_records 8 3)

/-- The processes of a list that hold pages, in the order of the list. -/
def holders (H : Heap) (l : List Ptr) : List Ptr :=
  l.filter (fun q => decide (0 < (H q).num_page_in_mem))

/-- The key by which `evcit` ranks the processes of the queue. -/
def evcit_key (mem_alloc_f : MemFlag) : PrioFlag :=
  if mem_alloc_f = .CM then PrioFlag.MAXPAGE else PrioFlag.LASTET

/-- The state after an eviction, or the state before it when the eviction fails. -/
def after_evcit (mem_alloc_f : MemFlag) (queue : Queue) (s : Sys) (curr_require_page : Int) :
    Sys :=
  match evcit mem_alloc_f queue s curr_require_page with
  | .ok s1 => s1
  | .error _ => s

/-- The sample input with 9 frames, after the first and the second process were admitted under
swapping: they hold 5 and 4 pages and no frame is free. -/
def sample_full : Sys :=
  after_admission .SP [0, 2] (after_admission .SP [1, 2] (init_sys sample_records 9 3) 0) 1

/-- The list `X` holds, each once, exactly the indices of the frames that are owned in the table
`T` and free in the table `T1`; every frame free in `T` is free in `T1`, and every frame owned in
`T1` has the owner it has in `T`. -/
structure Freed (T T1 X : List Int) : Prop where
  nodup : X.Nodup
  nonneg : ∀ x ∈ X, 0 ≤ x
  exact : ∀ i : Nat, (i : Int) ∈ X ↔ (T[i]? ≠ some INVALID ∧ T1[i]? = some INVALID)
  stays_free : ∀ i : Nat, T[i]? = some INVALID → T1[i]? = some INVALID
  keeps_owner : ∀ i : Nat, T1[i]? ≠ some INVALID → T1[i]? = T[i]?

/-- An input whose only process requires 10 pages. -/
def oversize_records : List Record := [⟨0, 1, 40, 5⟩]

/-- An input whose second process requires 10 pages. -/
def late_oversize_records : List Record := [⟨0, 1, 8, 5⟩, ⟨0, 2, 40, 5⟩]

/-- The records after the run of a dispatched process in a round of `simulation`: the clock is
advanced by `add_curr_time` and `last_execution_time` of the process is set to it. -/
def after_run (sched_algo_f : SchedFlag) (s1 : Sys) (p : Ptr) : Sys :=
  let s2 := add_curr_time sched_algo_f s1 p
  s2.setProc p { s2.heap p with last_execution_time := s2.cpu.curr_time }

/-- The records after the completion of a process in a round of `simulation`, from the records
after `print_finished`: `complete_time` is set and the count of completed processes grows. -/
def after_finish (s5 : Sys) (p : Ptr) : Sys :=
  let s6 := s5.setProc p { s5.heap p with complete_time := s5.cpu.curr_time }
  { s6 with cpu := { s6.cpu with complete_num_process := s6.cpu.complete_num_process + 1 } }

/-- The sum of `mem_usage` over the listed processes. -/
def usage_sum (H : Heap) (all : List Ptr) : Int :=
  (all.map (fun p => (H p).mem_usage)).sum

/-- The step from `s` to `s1` only moves pages: of the CPU record only the memory record
changes, the table keeps its size, every process keeps all its fields but the page list, the
page count and the memory usage, and the aggregate `memory_use` changes by as much as the sum of
`mem_usage` over the processes `all`. -/
structure Quiet (all : List Ptr) (s s1 : Sys) : Prop where
  cpu : s1.cpu = { s.cpu with memory := s1.cpu.memory }
  total : s1.cpu.memory.total_page = s.cpu.memory.total_page
  procs : ∀ q, same_but_pages (s.heap q) (s1.heap q)
  usage : s1.cpu.memory.memory_use - usage_sum s1.heap all
    = s.cpu.memory.memory_use - usage_sum s.heap all

/-- Two records of a process agree on every field but the page list, the page count, the memory
usage, the load time, the page faults and the remaining time. -/
def same_but_admitted (a b : ProcessInfo) : Prop :=
  b = { a with page_list := b.page_list, num_page_in_mem := b.num_page_in_mem,
               mem_usage := b.mem_usage, load_time := b.load_time, page_fault := b.page_fault,
               remaining_time := b.remaining_time }

/-- The step from `s` to `s1` is an admission of the process `p`: of the CPU record only the
memory record changes, the table keeps its size, every other process keeps all its fields but
the page list, the page count and the memory usage, the process keeps its identity and times,
and the aggregate `memory_use` changes by as much as the sum of `mem_usage` over `all`. -/
structure Admitted (all : List Ptr) (p : Ptr) (s s1 : Sys) : Prop where
  cpu : s1.cpu = { s.cpu with memory := s1.cpu.memory }
  total : s1.cpu.memory.total_page = s.cpu.memory.total_page
  others : ∀ q, q ≠ p → same_but_pages (s.heap q) (s1.heap q)
  self : same_but_admitted (s.heap p) (s1.heap p)
  usage : s1.cpu.memory.memory_use - usage_sum s1.heap all
    = s.cpu.memory.memory_use - usage_sum s.heap all

/-- Two records of a process agree on every field but the remaining time, the time of the last
execution and the completion time. -/
def same_but_times (a b : ProcessInfo) : Prop :=
  b = { a with remaining_time := b.remaining_time,
               last_execution_time := b.last_execution_time,
               complete_time := b.complete_time }

/-- The processes of the input are spread over the three queues of `simulation`, each in one
place, and the aggregate `memory_use` is the sum of `mem_usage` over the processes. -/
structure SchedInv (all : List Ptr) (st : Sim) : Prop where
  parts : (st.queue ++ st.waiting_queue ++ st.complete_queue).Perm all
  usage : st.sys.cpu.memory.memory_use = usage_sum st.sys.heap all

/-- The clock of `simulation` can only advance from the state `st`: remaining times, job times
and the quantum are not negative, and when the waiting queue is empty the next process to arrive
does not arrive before the current time. -/
structure ClockInv (all : List Ptr) (st : Sim) : Prop where
  remaining : ∀ p ∈ all, 0 ≤ (st.sys.heap p).remaining_time
  job : ∀ p ∈ all, 0 ≤ (st.sys.heap p).job_time
  quantum : 0 ≤ st.sys.cpu.quantam
  next : st.waiting_queue = [] → ∀ p rest, st.queue = p :: rest →
    st.sys.cpu.curr_time ≤ (st.sys.heap p).arrive_time

/-- An input whose only process arrives at time 5. -/
def late_records : List Record := [⟨5, 1, 8, 3⟩]

/-- The turnaround time of a completed process: from its arrival to its completion. -/
def turnaround (pr : ProcessInfo) : Int := pr.complete_time - pr.arrive_time

/-- The time overhead of a completed process: its turnaround time over its job time. -/
def overhead (pr : ProcessInfo) : ℚ := (turnaround pr : ℚ) / (pr.job_time : ℚ)

/-- The bookkeeping of the completed processes in a state of `simulation`: the counter is the
size of the queue of completed processes, the queue is in the order of completion time, then
process id, and the three aggregates are the sum of the turnaround times, the sum of the time
overheads and the largest time overhead (or 0) of the completed processes. -/
structure DoneInv (st : Sim) : Prop where
  count : st.sys.cpu.complete_num_process = st.complete_queue.length
  sorted : st.complete_queue.Pairwise (prio_le st.sys.heap .COMPLETET)
  sum_turnaround : st.sys.cpu.total_turnaround
    = (st.complete_queue.map (fun p => turnaround (st.sys.heap p))).sum
  sum_overhead : st.sys.cpu.time_overh
    = (st.complete_queue.map (fun p => overhead (st.sys.heap p))).sum
  max_bound : ∀ c ∈ st.complete_queue, overhead (st.sys.heap c) ≤ st.sys.cpu.max_time_overh
  max_attained : st.sys.cpu.max_time_overh = 0
    ∨ ∃ c ∈ st.complete_queue, overhead (st.sys.heap c) = st.sys.cpu.max_time_overh

/-- The processes that the rounds of `simulation` dispatch from the state `st0` up to a state, in
the order of dispatch: a round dispatches the first process of the waiting queue, when there is
one. -/
inductive SimTrace (sched_algo_f : SchedFlag) (mem_alloc_f : MemFlag) (st0 : Sim) :
    Sim → List Ptr → Prop
  | start : SimTrace sched_algo_f mem_alloc_f st0 st0 []
  | step {st st' : Sim} {tr : List Ptr} : SimTrace sched_algo_f mem_alloc_f st0 st tr →
      sim_step sched_algo_f mem_alloc_f st = .ok st' →
      SimTrace sched_algo_f mem_alloc_f st0 st' (tr ++ st.waiting_queue.take 1)

/-- An input with two processes that arrive at time 0, the first one with the longer job. -/
def sjf_records : List Record := [⟨0, 1, 8, 10⟩, ⟨0, 2, 8, 2⟩]

/-- No process of the state of `simulation` runs or completes before it arrives: remaining times
and job times are not negative, the quantum is not negative when it is used, every process of
the waiting queue has arrived by the current time, and every completed process was completed
at or after its arrival. -/
structure ArrivedInv (sched_algo_f : SchedFlag) (all : List Ptr) (st : Sim) : Prop where
  remaining : ∀ p ∈ all, 0 ≤ (st.sys.heap p).remaining_time
  job : ∀ p ∈ all, 0 ≤ (st.sys.heap p).job_time
  quantum : sched_algo_f = .RR → 0 ≤ st.sys.cpu.quantam
  arrived : ∀ x ∈ st.waiting_queue, (st.sys.heap x).arrive_time ≤ st.sys.cpu.curr_time
  completed : ∀ c ∈ st.complete_queue,
    (st.sys.heap c).arrive_time ≤ (st.sys.heap c).complete_time

/-- The state of `simulation` between two rounds of a scheduler that does not preempt, with
limited memory: the state is consistent, no process holds a page, and the pages of every
process fit in the table. -/
structure FreeInv (all : List Ptr) (st : Sim) : Prop where
  sim : SimInv all st
  sched : SchedInv all st
  idle : ∀ x ∈ all, (st.sys.heap x).num_page_in_mem = 0
  fit : ∀ x ∈ all, required_pages (st.sys.heap x) ≤ st.sys.cpu.memory.total_page

/-- The number of dispatches that a process with the given remaining time needs under round
robin with the given quantum: one for each started quantum, and one when there is no remaining
time. -/
def slices (quantum remaining : Int) : Nat :=
  max 1 ((remaining + quantum - 1) / quantum).toNat

/-- The number of dispatches that a process needs until it completes: its slices under round
robin, one under the schedulers that do not preempt. -/
def cost (sched_algo_f : SchedFlag) (quantum remaining : Int) : Nat :=
  if sched_algo_f = .RR then slices quantum remaining else 1

/-- A bound on the number of rounds that the loop of `simulation` still makes: the dispatches
that the processes not yet completed need, and one round for each process still to arrive. -/
def rounds_left (sched_algo_f : SchedFlag) (st : Sim) : Nat :=
  ((st.waiting_queue ++ st.queue).map
    (fun x => cost sched_algo_f st.sys.cpu.quantam (st.sys.heap x).remaining_time)).sum
    + st.queue.length

/-- An input with two processes of 5 pages each, for a table of 5 frames. -/
def thrash_records : List Record := [⟨0, 1, 20, 5⟩, ⟨0, 2, 20, 5⟩]

/-- The state of `simulation` on `thrash_records` with 5 frames under round robin with quantum 1
and virtual memory, after the first two rounds: each process was dispatched once. -/
def thrash_start : Sim := after_step .RR .VM (after_step .RR .VM (sim_start thrash_records 5 1))

/-- The states that the run on `thrash_records` stays in: both processes wait, no frame is free,
each process requires 5 pages and holds at most 4 of them, and each has remaining time. -/
structure Thrash (st : Sim) : Prop where
  sim : SimInv [0, 1] st
  sched : SchedInv [0, 1] st
  queue : st.queue = []
  complete : st.complete_queue = []
  quantum : st.sys.cpu.quantam = 1
  holes : st.sys.cpu.memory.num_holes = 0
  total : st.sys.cpu.memory.total_page = 5
  required : ∀ x ∈ [0, 1], required_pages (st.sys.heap x) = 5
  pages : ∀ x ∈ [0, 1], (st.sys.heap x).num_page_in_mem ≤ 4
  remaining : ∀ x ∈ [0, 1], 1 ≤ (st.sys.heap x).remaining_time

/-- An input whose only process requests 28 units of memory, 7 pages. -/
def usage_records : List Record := [⟨0, 1, 28, 5⟩]

/-! # Properties -/

/-! ## Queue: basic facts -/

theorem prio_le_total (H : Heap) (k : PrioFlag) (a b : Ptr) :
    prio_le H k a b ∨ prio_le H k b a := by
  unfold prio_le; omega

theorem prio_le_trans (H : Heap) (k : PrioFlag) {a b c : Ptr}
    (hab : prio_le H k a b) (hbc : prio_le H k b c) : prio_le H k a c := by
  unfold prio_le at *; omega

theorem enqueue_cond_iff (H : Heap) (k : PrioFlag) (node last : Ptr) :
    enqueue_cond H k node last = true ↔ ¬ prio_le H k last node := by
  unfold enqueue_cond prio_le
  simp only [Bool.or_eq_true, Bool.and_eq_true, decide_eq_true_eq]
  omega

theorem enqueue_walk_eq (H : Heap) (k : PrioFlag) (node : Ptr) (chain : List Ptr) :
    enqueue_walk H k node chain
      = chain.takeWhile (enqueue_cond H k node) ++ node :: chain.dropWhile (enqueue_cond H k node) := by
  induction chain with
  | nil => rfl
  | cons last prevs ih =>
    by_cases h : enqueue_cond H k node last = true
    · simp [enqueue_walk, h, ih, List.takeWhile, List.dropWhile]
    · simp [enqueue_walk, h, List.takeWhile, List.dropWhile]

theorem enqueue_eq_walk (H : Heap) (k : PrioFlag) (queue : Queue) (p : Ptr) :
    enqueue H queue p k = (enqueue_walk H k p queue.reverse).reverse := by
  unfold enqueue
  split
  · rename_i h
    have : queue = [] := by
      cases queue with
      | nil => rfl
      | cons a l => simp [get_queue_size] at h; omega
    subst this; rfl
  · rfl

theorem enqueue_split (H : Heap) (k : PrioFlag) (queue : Queue) (p : Ptr) :
    ∃ front back, queue = front ++ back ∧ enqueue H queue p k = front ++ p :: back
      ∧ (∀ x ∈ back, ¬ prio_le H k x p)
      ∧ (∀ x, front.getLast? = some x → prio_le H k x p) := by
  refine ⟨(queue.reverse.dropWhile (enqueue_cond H k p)).reverse,
    (queue.reverse.takeWhile (enqueue_cond H k p)).reverse, ?_, ?_, ?_, ?_⟩
  · rw [← List.reverse_append, List.takeWhile_append_dropWhile, List.reverse_reverse]
  · rw [enqueue_eq_walk, enqueue_walk_eq]; simp
  · intro x hx
    rw [List.mem_reverse] at hx
    exact (enqueue_cond_iff H k p x).1 (List.mem_takeWhile_imp hx)
  · intro x hx
    rw [List.getLast?_reverse] at hx
    by_contra hcon
    have h1 := (enqueue_cond_iff H k p x).2 hcon
    have h2 := List.head?_dropWhile_not (enqueue_cond H k p) queue.reverse
    rw [hx] at h2
    simp [h1] at h2

theorem enqueue_perm (H : Heap) (k : PrioFlag) (queue : Queue) (p : Ptr) :
    (enqueue H queue p k).Perm (p :: queue) := by
  obtain ⟨front, back, h1, h2, -, -⟩ := enqueue_split H k queue p
  rw [h2, h1]
  exact List.perm_middle

theorem enqueue_size (H : Heap) (k : PrioFlag) (queue : Queue) (p : Ptr) :
    get_queue_size (enqueue H queue p k) = get_queue_size queue + 1 := by
  unfold get_queue_size
  rw [(enqueue_perm H k queue p).length_eq]
  simp

theorem enqueue_sorted (H : Heap) (k : PrioFlag) (queue : Queue) (p : Ptr)
    (hs : queue.Pairwise (prio_le H k)) : (enqueue H queue p k).Pairwise (prio_le H k) := by
  obtain ⟨front, back, h1, h2, hb, hf⟩ := enqueue_split H k queue p
  rw [h2]
  rw [h1] at hs
  rw [List.pairwise_append] at hs ⊢
  obtain ⟨hs1, hs2, hs3⟩ := hs
  have hfront : ∀ x ∈ front, prio_le H k x p := by
    intro x hx
    rcases List.eq_nil_or_concat front with h | ⟨l, b, h⟩
    · subst h; simp at hx
    · subst h
      have hb' : prio_le H k b p := hf b (by simp)
      rw [List.concat_eq_append] at hx hs1
      rcases List.mem_append.1 hx with hx | hx
      · exact prio_le_trans H k ((List.pairwise_append.1 hs1).2.2 x hx b (by simp)) hb'
      · simp at hx; subst hx; exact hb'
  refine ⟨hs1, ?_, ?_⟩
  · rw [List.pairwise_cons]
    refine ⟨fun x hx => ?_, hs2⟩
    rcases prio_le_total H k p x with h | h
    · exact h
    · exact absurd h (hb x hx)
  · intro a ha b hb'
    rcases List.mem_cons.1 hb' with h | h
    · subst h; exact hfront a ha
    · exact hs3 a ha b h

theorem dequeue_cons (p : Ptr) (rest : Queue) : dequeue (p :: rest) = .ok (p, rest) := by
  unfold dequeue get_queue_size
  simp

theorem dequeue_nil : dequeue [] = .error .EmptyCollection := by
  simp [dequeue, get_queue_size]

theorem dequeue_all_eq (queue : Queue) (extra : Nat) :
    dequeue_all (queue.length + extra) queue = .ok queue := by
  induction queue with
  | nil => cases extra <;> simp [dequeue_all, get_queue_size]
  | cons p rest ih =>
    have : (p :: rest).length + extra = (rest.length + extra) + 1 := by simp; omega
    rw [this, dequeue_all]
    have hpos : get_queue_size (p :: rest) > 0 := by
      simp only [get_queue_size, List.length_cons]; omega
    rw [if_pos hpos, dequeue_cons]
    simp only [bind, Except.bind, ih]
    rfl

theorem enqueue_list_perm (H : Heap) (k : PrioFlag) (ps : List Ptr) (queue : Queue) :
    (enqueue_list H k queue ps).Perm (queue ++ ps) := by
  induction ps generalizing queue with
  | nil => simp [enqueue_list]
  | cons p rest ih =>
    have h := ih (enqueue H queue p k)
    unfold enqueue_list at h ⊢
    rw [List.foldl_cons]
    refine h.trans ?_
    refine ((enqueue_perm H k queue p).append_right rest).trans ?_
    simp only [List.cons_append]
    exact List.perm_middle.symm

theorem enqueue_list_sorted (H : Heap) (k : PrioFlag) (ps : List Ptr) (queue : Queue)
    (hs : queue.Pairwise (prio_le H k)) : (enqueue_list H k queue ps).Pairwise (prio_le H k) := by
  induction ps generalizing queue with
  | nil => simpa [enqueue_list] using hs
  | cons p rest ih =>
    have h := ih (enqueue H queue p k) (enqueue_sorted H k queue p hs)
    unfold enqueue_list at h ⊢
    rw [List.foldl_cons]
    exact h

theorem walk_links_get (chain : List Ptr) (i : Fin chain.length) :
    walk_links chain i = .ok (chain.get i) := by
  induction chain with
  | nil => exact i.elim0
  | cons p rest ih =>
    obtain ⟨i, hi⟩ := i
    cases i with
    | zero => rfl
    | succ n =>
      simp only [walk_links]
      exact ih ⟨n, by simpa using hi⟩

theorem walk_links_reverse (queue : Queue) (i : Fin queue.length) :
    walk_links queue.reverse (queue.length - 1 - i) = .ok (queue.get i) := by
  have h : queue.length - 1 - (i : Nat) < queue.reverse.length := by
    rw [List.length_reverse]; have := i.isLt; omega
  have := walk_links_get queue.reverse ⟨queue.length - 1 - i, h⟩
  rw [this]
  congr 1
  simp only [List.get_eq_getElem]
  rw [List.getElem_reverse]
  congr 1
  have := i.isLt
  omega

theorem get_queue_point_get (queue : Queue) (i : Fin queue.length) :
    get_queue_point queue ((i : Nat) : Int) = .ok (queue.get i) := by
  unfold get_queue_point get_queue_size
  have hi := i.isLt
  rw [if_pos (by omega)]
  split
  · have : ((queue.length : Int) - 1 - ((i : Nat) : Int)).toNat = queue.length - 1 - i := by omega
    rw [this]
    exact walk_links_reverse queue i
  · rw [Int.toNat_ofNat]
    exact walk_links_get queue i

theorem resort_fold (H : Heap) (queue : Queue) (k : PrioFlag) (idx : List Nat)
    (hidx : ∀ i ∈ idx, i < queue.length) (acc : Queue) :
    idx.foldlM
        (fun (resort_queue : Queue) (i : Nat) => do
          let p ← get_queue_point queue (i : Int)
          pure (enqueue H resort_queue p k))
        acc
      = (.ok (enqueue_list H k acc (idx.map (fun i => queue.getD i 0))) : Except Fault Queue) := by
  induction idx generalizing acc with
  | nil => rfl
  | cons i rest ih =>
    have hi : i < queue.length := hidx i (by simp)
    have hg := get_queue_point_get queue ⟨i, hi⟩
    simp only at hg
    rw [List.foldlM_cons, hg]
    refine (ih (fun j hj => hidx j (List.mem_cons_of_mem _ hj)) _).trans ?_
    simp only [enqueue_list, List.map_cons, List.foldl_cons, List.get_eq_getElem]
    rw [List.getD_eq_getElem _ _ hi]

theorem resort_eq (H : Heap) (queue : Queue) (k : PrioFlag) :
    resort H queue k = .ok (enqueue_list H k new_queue queue) := by
  unfold resort
  rw [resort_fold H queue k (List.range queue.length) (fun i hi => List.mem_range.1 hi)]
  congr 2
  apply List.ext_getElem
  · simp
  · intro n h1 h2
    simp only [List.getElem_map, List.getElem_range]
    exact List.getD_eq_getElem _ _ h2

/-! ## Frame table: facts about `owned` -/

theorem owned_mem (id : Int) (T : List Int) (b j : Int) :
    j ∈ owned id b T ↔ ∃ i : Nat, T[i]? = some id ∧ j = b + i := by
  induction T generalizing b with
  | nil => simp [owned]
  | cons slot rest ih =>
    unfold owned
    constructor
    · intro h
      split at h
      · rename_i hs
        rcases List.mem_cons.1 h with h | h
        · exact ⟨0, by simp [hs], by simp [h]⟩
        · obtain ⟨i, hi, hj⟩ := (ih (b + 1)).1 h
          exact ⟨i + 1, by simpa using hi, by rw [hj]; push_cast; ring⟩
      · obtain ⟨i, hi, hj⟩ := (ih (b + 1)).1 h
        exact ⟨i + 1, by simpa using hi, by rw [hj]; push_cast; ring⟩
    · rintro ⟨i, hi, hj⟩
      cases i with
      | zero =>
        simp at hi
        simp [hi, hj]
      | succ n =>
        have hm : j ∈ owned id (b + 1) rest :=
          (ih (b + 1)).2 ⟨n, by simpa using hi, by rw [hj]; push_cast; ring⟩
        split
        · exact List.mem_cons_of_mem _ hm
        · exact hm

theorem owned_lower (id : Int) (T : List Int) (b j : Int) (h : j ∈ owned id b T) : b ≤ j := by
  obtain ⟨i, -, hj⟩ := (owned_mem id T b j).1 h
  omega

theorem owned_sorted (id : Int) (T : List Int) (b : Int) :
    (owned id b T).Pairwise (fun x y => x < y) := by
  induction T generalizing b with
  | nil => simp [owned]
  | cons slot rest ih =>
    unfold owned
    split
    · rw [List.pairwise_cons]
      refine ⟨fun x hx => ?_, ih (b + 1)⟩
      have := owned_lower id rest (b + 1) x hx
      omega
    · exact ih (b + 1)

theorem owned_length (id : Int) (T : List Int) (b : Int) :
    (owned id b T).length = T.count id := by
  induction T generalizing b with
  | nil => simp [owned]
  | cons slot rest ih =>
    unfold owned
    by_cases h : slot = id
    · simp [h, ih]
    · have h' : (slot == id) = false := by simpa using h
      simp [h, ih, List.count_cons, h']

theorem owned_shift (id : Int) (T : List Int) (b : Int) :
    owned id b T = (owned id 0 T).map (fun x => x + b) := by
  induction T generalizing b with
  | nil => simp [owned]
  | cons slot rest ih =>
    unfold owned
    rw [ih (b + 1), ih (0 + 1)]
    split <;> simp [List.map_map, Function.comp_def] <;> intros <;> ring

/-- Freeing one frame owned by `id`. -/
theorem owned_set_free (id : Int) (hid : id ≠ INVALID) (T : List Int) (j : Nat) (b : Int)
    (hj : T[j]? = some id) :
    (T.set j INVALID).count INVALID = T.count INVALID + 1
    ∧ owned id b (T.set j INVALID) = (owned id b T).filter (fun x => decide (x ≠ b + j))
    ∧ ∀ id', id' ≠ id → id' ≠ INVALID → owned id' b (T.set j INVALID) = owned id' b T := by
  induction T generalizing j b with
  | nil => simp at hj
  | cons slot rest ih =>
    cases j with
    | zero =>
      simp at hj
      subst hj
      refine ⟨?_, ?_, ?_⟩
      · have : (slot == INVALID) = false := by simpa using hid
        simp [List.count_cons, this]
      · simp only [List.set_cons_zero, owned, if_neg (Ne.symm hid), if_true]
        simp only [List.filter_cons]
        simp
        symm
        rw [List.filter_eq_self]
        intro x hx
        have := owned_lower slot rest (b + 1) x hx
        simp; omega
      · intro id' h1 h2
        simp only [List.set_cons_zero, owned, if_neg (Ne.symm h2), if_neg (Ne.symm h1)]
    | succ n =>
      have hn : rest[n]? = some id := by simpa using hj
      obtain ⟨h1, h2, h3⟩ := ih n (b + 1) hn
      have e : b + 1 + (n : Int) = b + ((n + 1 : Nat) : Int) := by push_cast; ring
      refine ⟨?_, ?_, ?_⟩
      · simp only [List.set_cons_succ, List.count_cons, h1]; ring
      · simp only [List.set_cons_succ, owned, h2, e]
        split
        · rw [List.filter_cons]
          have : decide (b ≠ b + ((n + 1 : Nat) : Int)) = true := by
            simp; omega
          rw [if_pos this]
        · rfl
      · intro id' h1' h2'
        simp only [List.set_cons_succ, owned, h3 id' h1' h2']

/-- Freeing the first `n` frames owned by `id`. -/
theorem free_cells_owned (id : Int) (hid : id ≠ INVALID) (n : Nat) (T : List Int)
    (hn : n ≤ (owned id 0 T).length) :
    ∃ T', free_cells ((owned id 0 T).take n) T = .ok T'
      ∧ T'.length = T.length
      ∧ T'.count INVALID = T.count INVALID + n
      ∧ owned id 0 T' = (owned id 0 T).drop n
      ∧ ∀ id', id' ≠ id → id' ≠ INVALID → owned id' 0 T' = owned id' 0 T := by
  induction n generalizing T with
  | zero => exact ⟨T, by simp [free_cells], rfl, by simp, by simp, fun _ _ _ => rfl⟩
  | succ n ih =>
    cases hl : owned id 0 T with
    | nil => rw [hl] at hn; simp at hn
    | cons j l =>
      have hjm : j ∈ owned id 0 T := by rw [hl]; simp
      obtain ⟨i, hi, hji⟩ := (owned_mem id T 0 j).1 hjm
      have hilt : i < T.length := by
        by_contra hcon
        rw [List.getElem?_eq_none (by omega)] at hi
        exact absurd hi (by simp)
      obtain ⟨h1, h2, h3⟩ := owned_set_free id hid T i 0 hi
      have hsorted := owned_sorted id T 0
      rw [hl, List.pairwise_cons] at hsorted
      have hl' : owned id 0 (T.set i INVALID) = l := by
        rw [h2, hl, List.filter_cons]
        have : decide (j ≠ 0 + (i : Int)) = false := by simp; omega
        rw [this]
        simp only [Bool.false_eq_true, if_false]
        rw [List.filter_eq_self]
        intro x hx
        have := hsorted.1 x hx
        simp; omega
      have hn' : n ≤ (owned id 0 (T.set i INVALID)).length := by
        rw [hl'] ; rw [hl] at hn; simp at hn; exact hn
      obtain ⟨T', e1, e2, e3, e4, e5⟩ := ih (T.set i INVALID) hn'
      refine ⟨T', ?_, ?_, ?_, ?_, ?_⟩
      · rw [List.take_succ_cons, free_cells]
        have hc : 0 ≤ j ∧ j < (T.length : Int) := by omega
        rw [if_pos hc]
        have : j.toNat = i := by omega
        rw [this, ← hl']
        exact e1
      · rw [e2]; simp
      · rw [e3, h1]; omega
      · rw [e4, hl']; simp
      · intro id' a b
        rw [e5 id' a b, h3 id' a b]

/-- The allocation loop gives exactly the frames asked for when enough slots are free. -/
theorem alloc_frames_spec (id crp : Int) (hid : id ≠ INVALID) (T : List Int) (k : Int)
    (hk : k ≤ crp) (hfree : crp - k ≤ T.count INVALID) :
    (alloc_frames id crp T k).2 = crp
      ∧ (alloc_frames id crp T k).1.length = T.length
      ∧ ((alloc_frames id crp T k).1.count INVALID : Int) = T.count INVALID - (crp - k)
      ∧ (((alloc_frames id crp T k).1.count id : Nat) : Int) = T.count id + (crp - k)
      ∧ ∀ id' b, id' ≠ id → id' ≠ INVALID →
          owned id' b (alloc_frames id crp T k).1 = owned id' b T := by
  induction T generalizing k with
  | nil =>
    simp at hfree
    have : k = crp := by omega
    subst this
    simp [alloc_frames]
  | cons slot rest ih =>
    unfold alloc_frames
    by_cases h1 : k = crp
    · subst h1; simp
    · rw [if_neg h1]
      by_cases h2 : slot = INVALID
      · rw [if_pos h2]
        subst h2
        have hfree' : crp - (k + 1) ≤ (rest.count INVALID : Int) := by
          simp [List.count_cons] at hfree; omega
        obtain ⟨a1, a2, a3, a4, a5⟩ := ih (k + 1) (by omega) hfree'
        have hne : (id == INVALID) = false := by simpa using hid
        have hne' : (INVALID == id) = false := by simpa using (Ne.symm hid)
        refine ⟨a1, by simp [a2], ?_, ?_, ?_⟩
        · simp only [List.count_cons, hne, beq_self_eq_true, if_true, if_false,
            Bool.false_eq_true]
          push_cast; omega
        · simp only [List.count_cons, hne', beq_self_eq_true, if_true, if_false,
            Bool.false_eq_true]
          push_cast; omega
        · intro id' b c d
          simp only [owned, if_neg (Ne.symm c), if_neg (Ne.symm d), a5 id' (b + 1) c d]
      · rw [if_neg h2]
        have hs : (slot == INVALID) = false := by simpa using h2
        have hfree' : crp - k ≤ (rest.count INVALID : Int) := by
          simp [List.count_cons, hs] at hfree; omega
        obtain ⟨a1, a2, a3, a4, a5⟩ := ih k hk hfree'
        refine ⟨a1, by simp [a2], ?_, ?_, ?_⟩
        · simp only [List.count_cons, hs, if_false, Bool.false_eq_true]
          push_cast; omega
        · simp only [List.count_cons]
          push_cast; omega
        · intro id' b c d
          simp only [owned, a5 id' (b + 1) c d]

/-- The address loop lists the first `occupy` frames owned by the process. -/
theorem collect_frames_eq (id occupy : Int) (T : List Int) (i k : Int) (hk : k ≤ occupy) :
    collect_frames id occupy i T k = (owned id i T).take (occupy - k).toNat := by
  induction T generalizing i k with
  | nil => simp [collect_frames, owned]
  | cons slot rest ih =>
    unfold collect_frames owned
    by_cases h1 : k = occupy
    · subst h1; simp
    · rw [if_neg h1]
      by_cases h2 : slot = id
      · rw [if_pos h2, if_pos h2, ih (i + 1) (k + 1) (by omega)]
        have : (occupy - k).toNat = (occupy - (k + 1)).toNat + 1 := by omega
        rw [this, List.take_succ_cons]
      · rw [if_neg h2, if_neg h2, ih (i + 1) k hk]

theorem resident_sum_update (H : Heap) (all : List Ptr) (p : Ptr) (v : ProcessInfo)
    (hp : p ∈ all) (hnd : all.Nodup) :
    resident_sum (Function.update H p v) all
      = resident_sum H all - (H p).num_page_in_mem + v.num_page_in_mem := by
  induction all with
  | nil => simp at hp
  | cons a l ih =>
    rw [List.nodup_cons] at hnd
    unfold resident_sum at ih ⊢
    simp only [List.map_cons, List.sum_cons]
    rcases List.mem_cons.1 hp with h | h
    · subst h
      have : l.map (fun q => (Function.update H p v q).num_page_in_mem)
          = l.map (fun q => (H q).num_page_in_mem) := by
        apply List.map_congr_left
        intro q hq
        have : q ≠ p := fun e => hnd.1 (e ▸ hq)
        simp [Function.update_noteq this]
      rw [this, Function.update_same]; ring
    · have hne : a ≠ p := fun e => hnd.1 (e ▸ h)
      rw [ih h hnd.2, Function.update_noteq hne]; ring

/-! ## Allocator: the invariant is kept -/

theorem read_cells_ok (pr : ProcessInfo) (n : Int) (hn : n ≤ (cells pr).length) :
    read_cells pr.page_list n = .ok ((cells pr).take n.toNat) := by
  unfold read_cells
  by_cases h : n ≤ 0
  · rw [if_pos h]
    have : n.toNat = 0 := by omega
    rw [this]; rfl
  · rw [if_neg h]
    unfold cells at hn ⊢
    cases hpl : pr.page_list with
    | none => rw [hpl] at hn; simp at hn; omega
    | some l =>
      rw [hpl] at hn
      simp only [Option.getD_some] at hn ⊢
      rw [if_pos hn]

theorem read_cells_some_all (l : List Int) : read_cells (some l) l.length = .ok l := by
  have := read_cells_ok { new_ProcessInfo with page_list := some l } l.length (by simp [cells])
  simpa [cells] using this

/-- What `free_page` returns when the invariant holds and at most the resident pages are freed. -/
theorem free_page_eq (all : List Ptr) (s : Sys) (p : Ptr) (record : Option (List Int))
    (n : Int) (hInv : Inv all s) (hp : p ∈ all) (h0 : 0 ≤ n)
    (hn : n ≤ (s.heap p).num_page_in_mem) :
    ∃ T' new_list, free_page s p record n
          = .ok ((s.setProc p { s.heap p with
                    page_list := new_list
                    num_page_in_mem := (s.heap p).num_page_in_mem - n
                    mem_usage := (s.heap p).mem_usage
                      - my_ceil (double_mul 100 (double_mul
                          (double_div (double_mul (double_of n) 1) (double_of s.cpu.memory.total_page)) 1)) }).setMem
                  { s.cpu.memory with
                    is_occupy_lst := T'
                    num_holes := s.cpu.memory.num_holes + n
                    memory_use := s.cpu.memory.memory_use
                      - my_ceil (double_mul 100 (double_mul
                          (double_div (double_mul (double_of n) 1) (double_of s.cpu.memory.total_page)) 1)) },
                record.map (fun l => l ++ (cells (s.heap p)).take n.toNat))
      ∧ new_list.getD [] = (cells (s.heap p)).drop n.toNat
      ∧ T'.length = s.cpu.memory.is_occupy_lst.length
      ∧ T'.count INVALID = s.cpu.memory.is_occupy_lst.count INVALID + n.toNat
      ∧ owned (s.heap p).p_id 0 T' = (cells (s.heap p)).drop n.toNat
      ∧ ∀ id', id' ≠ (s.heap p).p_id → id' ≠ INVALID →
          owned id' 0 T' = owned id' 0 s.cpu.memory.is_occupy_lst := by
  have hcount := hInv.count p hp
  have hpages := hInv.pages p hp
  have hlen : n ≤ (cells (s.heap p)).length := by omega
  have hread := read_cells_ok (s.heap p) n hlen
  have hnat : n.toNat ≤ (owned (s.heap p).p_id 0 s.cpu.memory.is_occupy_lst).length := by
    rw [← hpages]; omega
  obtain ⟨T', e1, e2, e3, e4, e5⟩ :=
    free_cells_owned (s.heap p).p_id (hInv.id_valid p hp) n.toNat _ hnat
  rw [← hpages] at e1 e4
  have hrem : n ≠ (s.heap p).num_page_in_mem →
      remove_n_element (s.heap p).page_list n (s.heap p).num_page_in_mem
        = .ok ((cells (s.heap p)).drop n.toNat) := by
    intro hc
    unfold remove_n_element
    rw [if_neg (by omega), if_neg (by omega),
      read_cells_ok (s.heap p) (s.heap p).num_page_in_mem (by omega)]
    have : (s.heap p).num_page_in_mem.toNat = (cells (s.heap p)).length := by omega
    rw [this, List.take_length]
    rfl
  refine ⟨T', (if n = (s.heap p).num_page_in_mem then none
          else some ((cells (s.heap p)).drop n.toNat)), ?_, ?_, e2, e3, e4, e5⟩
  · unfold free_page
    by_cases hc : n = (s.heap p).num_page_in_mem
    · simp only [bind, Except.bind, hread, e1, if_pos hc, pure, Except.pure]
    · simp only [bind, Except.bind, hread, e1, if_neg hc, hrem hc, Except.map, pure, Except.pure]
  · by_cases hc : n = (s.heap p).num_page_in_mem
    · simp only [if_pos hc, Option.getD_none]
      symm
      apply List.drop_eq_nil_of_le
      omega
    · simp only [if_neg hc, Option.getD_some]

theorem free_page_inv (all : List Ptr) (s : Sys) (p : Ptr) (record : Option (List Int))
    (n : Int) (hInv : Inv all s) (hp : p ∈ all) (h0 : 0 ≤ n)
    (hn : n ≤ (s.heap p).num_page_in_mem) :
    ∃ s', free_page s p record n
          = .ok (s', record.map (fun l => l ++ (cells (s.heap p)).take n.toNat))
      ∧ Inv all s'
      ∧ s'.out = s.out
      ∧ s'.cpu.memory.num_holes = s.cpu.memory.num_holes + n
      ∧ (∀ q, (s'.heap q).p_id = (s.heap q).p_id
            ∧ (s'.heap q).mem_size_req = (s.heap q).mem_size_req
            ∧ (s'.heap q).num_page_in_mem ≤ (s.heap q).num_page_in_mem)
      ∧ (∀ q, q ≠ p → s'.heap q = s.heap q)
      ∧ (s'.heap p).num_page_in_mem = (s.heap p).num_page_in_mem - n := by
  obtain ⟨T', new_list, heq, hcells', e2, e3, e4, e5⟩ := free_page_eq all s p record n hInv hp h0 hn
  have hcount := hInv.count p hp
  refine ⟨_, heq, ?_, rfl, rfl, ?_, ?_, ?_⟩
  · constructor
    · exact hInv.nodup
    · intro q hq
      by_cases hqp : q = p
      · subst hqp; simpa [Sys.setProc, Sys.setMem] using hInv.id_valid q hq
      · simpa [Sys.setProc, Sys.setMem, Function.update_noteq hqp] using hInv.id_valid q hq
    · intro q hq r hr h
      apply hInv.id_inj q hq r hr
      by_cases hqp : q = p <;> by_cases hrp : r = p
      · rw [hqp, hrp]
      · subst hqp
        simpa [Sys.setProc, Sys.setMem, Function.update_noteq hrp] using h
      · subst hrp
        simpa [Sys.setProc, Sys.setMem, Function.update_noteq hqp] using h
      · simpa [Sys.setProc, Sys.setMem, Function.update_noteq hqp, Function.update_noteq hrp]
          using h
    · simp only [Sys.setProc, Sys.setMem, free_count, e3]
      rw [hInv.holes]; simp only [free_count]; push_cast; omega
    · intro q hq
      by_cases hqp : q = p
      · subst hqp
        simp only [Sys.setProc, Sys.setMem, Function.update_same, cells]
        rw [hcells', e4]
      · simp only [Sys.setProc, Sys.setMem, Function.update_noteq hqp]
        rw [e5 _ (fun h => hqp (hInv.id_inj q hq p hp h)) (hInv.id_valid q hq)]
        exact hInv.pages q hq
    · intro q hq
      by_cases hqp : q = p
      · subst hqp
        simp only [Sys.setProc, Sys.setMem, Function.update_same, cells]
        rw [hcells', List.length_drop]
        omega
      · simp only [Sys.setProc, Sys.setMem, Function.update_noteq hqp]
        exact hInv.count q hq
    · intro q hq
      by_cases hqp : q = p
      · subst hqp
        simp only [Sys.setProc, Sys.setMem, Function.update_same]
        have := hInv.bound q hq
        omega
      · simp only [Sys.setProc, Sys.setMem, Function.update_noteq hqp]
        exact hInv.bound q hq
    · simp only [Sys.setProc, Sys.setMem, MemoryInfo.total_page]
      rw [resident_sum_update _ _ _ _ hp hInv.nodup, e2]
      have := hInv.sum
      simp only [MemoryInfo.total_page] at this
      simp only
      omega
  · intro q
    by_cases hqp : q = p
    · subst hqp; simp [Sys.setProc, Sys.setMem]; omega
    · simp [Sys.setProc, Sys.setMem, Function.update_noteq hqp]
  · intro q hqp
    simp [Sys.setProc, Sys.setMem, Function.update_noteq hqp]
  · simp [Sys.setProc, Sys.setMem]


theorem evcit_loop_inv (all : List Ptr) (f : MemFlag) (crp : Int) (fuel : Nat) :
    ∀ (s : Sys) (rq : Queue) (ev : List Int) (s' : Sys) (ev' : List Int),
      Inv all s → (∀ q ∈ rq, q ∈ all) →
      evcit_loop f crp fuel s rq ev = .ok (s', ev') →
      Inv all s' ∧ crp ≤ s'.cpu.memory.num_holes ∧ s'.out = s.out
        ∧ s'.cpu.curr_time = s.cpu.curr_time
        ∧ ∀ q, (s'.heap q).p_id = (s.heap q).p_id
            ∧ (s'.heap q).mem_size_req = (s.heap q).mem_size_req
            ∧ (s'.heap q).num_page_in_mem ≤ (s.heap q).num_page_in_mem := by
  induction fuel with
  | zero =>
    intro s rq ev s' ev' hInv hq h
    unfold evcit_loop at h
    by_cases hc : crp > s.cpu.memory.num_holes
    · rw [if_pos hc] at h; cases h
    · rw [if_neg hc] at h
      cases h
      exact ⟨hInv, by omega, rfl, rfl, fun q => ⟨rfl, rfl, le_refl _⟩⟩
  | succ fuel ih =>
    intro s rq ev s' ev' hInv hq h
    unfold evcit_loop at h
    by_cases hc : crp > s.cpu.memory.num_holes
    · rw [if_pos hc] at h
      cases rq with
      | nil => rw [dequeue_nil] at h; cases h
      | cons v rest =>
        rw [dequeue_cons] at h
        simp only [bind, Except.bind] at h
        have hv : v ∈ all := hq v (by simp)
        have hrest : ∀ q ∈ rest, q ∈ all := fun q hq' => hq q (List.mem_cons_of_mem _ hq')
        by_cases hpl : (s.heap v).page_list ≠ none
        · rw [if_pos hpl] at h
          have hcnt := hInv.count v hv
          generalize hnf : (if (f = MemFlag.VM ∨ f = MemFlag.CM)
              ∧ (s.heap v).num_page_in_mem ≥ crp - s.cpu.memory.num_holes
            then crp - s.cpu.memory.num_holes else (s.heap v).num_page_in_mem) = nf at h
          have hb : nf ≤ (s.heap v).num_page_in_mem := by
            rw [← hnf]; split <;> omega
          by_cases hpos : nf > 0
          · rw [if_pos hpos] at h
            obtain ⟨s1, heq, hInv1, hout1, hholes1, hmono1, -, -⟩ :=
              free_page_inv all s v (some ev) nf hInv hv (by omega) hb
            have htime : s1.cpu.curr_time = s.cpu.curr_time := by
              obtain ⟨T', nl, heq', -⟩ := free_page_eq all s v (some ev) nf hInv hv (by omega) hb
              rw [heq'] at heq
              cases heq
              rfl
            rw [heq] at h
            obtain ⟨a1, a2, a3, a4, a5⟩ := ih s1 rest _ s' ev' hInv1 hrest h
            refine ⟨a1, a2, a3.trans hout1, a4.trans htime, fun q => ?_⟩
            obtain ⟨b1, b2, b3⟩ := a5 q
            obtain ⟨c1, c2, c3⟩ := hmono1 q
            exact ⟨b1.trans c1, b2.trans c2, le_trans b3 c3⟩
          · rw [if_neg hpos] at h
            exact ih s rest ev s' ev' hInv hrest h
        · rw [if_neg hpl] at h
          exact ih s rest ev s' ev' hInv hrest h
    · rw [if_neg hc] at h
      cases h
      exact ⟨hInv, by omega, rfl, rfl, fun q => ⟨rfl, rfl, le_refl _⟩⟩

theorem enqueue_list_mem (H : Heap) (k : PrioFlag) (queue ps : Queue) (x : Ptr) :
    x ∈ enqueue_list H k queue ps ↔ x ∈ queue ∨ x ∈ ps := by
  rw [(enqueue_list_perm H k ps queue).mem_iff, List.mem_append]

theorem print_evicted_sorted (s : Sys) (l : List Int) :
    print_evicted s (some l) l.length = .ok (s.emit (.evicted s.cpu.curr_time l)) := by
  unfold print_evicted
  rw [read_cells_some_all]
  rfl

theorem inv_emit (all : List Ptr) (s : Sys) (e : Event) (h : Inv all s) : Inv all (s.emit e) :=
  ⟨h.nodup, h.id_valid, h.id_inj, h.holes, h.pages, h.count, h.bound, h.sum⟩

theorem evcit_inv (all : List Ptr) (f : MemFlag) (queue : Queue) (s s' : Sys) (crp : Int)
    (hInv : Inv all s) (hq : ∀ q ∈ queue, q ∈ all) (h : evcit f queue s crp = .ok s') :
    Inv all s' ∧ crp ≤ s'.cpu.memory.num_holes
      ∧ ∀ q, (s'.heap q).p_id = (s.heap q).p_id
          ∧ (s'.heap q).mem_size_req = (s.heap q).mem_size_req
          ∧ (s'.heap q).num_page_in_mem ≤ (s.heap q).num_page_in_mem := by
  simp only [evcit, resort_eq, bind, Except.bind] at h
  split at h
  · cases h
  · rename_i v heq
    obtain ⟨s1, ev⟩ := v
    have hrq : ∀ q ∈ enqueue_list s.heap (if f = MemFlag.CM then PrioFlag.MAXPAGE
        else PrioFlag.LASTET) new_queue queue, q ∈ all := by
      intro q hq'
      rcases (enqueue_list_mem _ _ _ _ _).1 hq' with h' | h'
      · simp [new_queue] at h'
      · exact hq q h'
    obtain ⟨a1, a2, a3, a4, a5⟩ := evcit_loop_inv all f crp _ s _ [] s1 ev hInv hrq heq
    simp only at h
    rw [print_evicted_sorted] at h
    cases h
    exact ⟨inv_emit all s1 _ a1, a2, a5⟩


theorem resident_sum_congr (H H' : Heap) (all : List Ptr)
    (h : ∀ p, (H' p).num_page_in_mem = (H p).num_page_in_mem) :
    resident_sum H' all = resident_sum H all := by
  unfold resident_sum
  congr 1
  apply List.map_congr_left
  intro p _
  exact h p

theorem inv_same_memory (all : List Ptr) (s s' : Sys) (hs : same_memory s s') (h : Inv all s) :
    Inv all s' := by
  obtain ⟨h1, h2, h3⟩ := hs
  constructor
  · exact h.nodup
  · intro p hp; rw [(h3 p).1]; exact h.id_valid p hp
  · intro p hp q hq e; rw [(h3 p).1, (h3 q).1] at e; exact h.id_inj p hp q hq e
  · rw [h1, h2]; exact h.holes
  · intro p hp
    have := h.pages p hp
    unfold cells at this ⊢
    rw [(h3 p).1, (h3 p).2.2.2, h1]; exact this
  · intro p hp
    have := h.count p hp
    unfold cells at this ⊢
    rw [(h3 p).2.2.1, (h3 p).2.2.2]; exact this
  · intro p hp
    rw [(h3 p).2.2.1, (h3 p).2.1]; exact h.bound p hp
  · rw [h2, resident_sum_congr s.heap s'.heap all (fun p => (h3 p).2.2.1)]
    unfold MemoryInfo.total_page
    rw [h1]
    exact h.sum

theorem print_mem_running_ok (s s' : Sys) (p : Ptr) (h : print_mem_running s p = .ok s') :
    ∃ e, s' = s.emit e := by
  unfold print_mem_running at h
  simp only [bind, Except.bind] at h
  split at h
  · cases h
  · cases h; exact ⟨_, rfl⟩

theorem print_finished_inv (all : List Ptr) (f : MemFlag) (s : Sys) (p : Ptr) (queue : Queue)
    (hInv : Inv all s) (hp : p ∈ all) :
    ∃ s', print_finished f s p queue = .ok s' ∧ Inv all s'
      ∧ (f ≠ .UN → (s'.heap p).num_page_in_mem = 0
          ∧ s'.cpu.memory.num_holes = s.cpu.memory.num_holes + (s.heap p).num_page_in_mem) := by
  unfold print_finished
  by_cases hf : f ≠ .UN
  · rw [if_pos hf]
    have hcnt := hInv.count p hp
    have hpe : print_evicted s (s.heap p).page_list (s.heap p).num_page_in_mem
        = .ok (s.emit (.evicted s.cpu.curr_time (cells (s.heap p)))) := by
      unfold print_evicted
      rw [read_cells_ok (s.heap p) _ (by omega)]
      have : (s.heap p).num_page_in_mem.toNat = (cells (s.heap p)).length := by omega
      rw [this, List.take_length]
      rfl
    have hInv1 := inv_emit all s (.evicted s.cpu.curr_time (cells (s.heap p))) hInv
    obtain ⟨s2, heq, hInv2, -, hh, -, -, hn⟩ :=
      free_page_inv all (s.emit (.evicted s.cpu.curr_time (cells (s.heap p)))) p none
        ((s.emit (.evicted s.cpu.curr_time (cells (s.heap p)))).heap p).num_page_in_mem
        hInv1 hp (by show 0 ≤ (s.heap p).num_page_in_mem; omega) (le_refl _)
    refine ⟨s2.emit (.finished s2.cpu.curr_time (s2.heap p).p_id (get_queue_size queue)),
      ?_, inv_emit all s2 _ hInv2, fun _ => ⟨?_, ?_⟩⟩
    · simp only [bind, Except.bind, hpe, heq, pure, Except.pure]
    · show (s2.heap p).num_page_in_mem = 0
      rw [hn]; omega
    · show s2.cpu.memory.num_holes = _
      rw [hh]; rfl
  · rw [if_neg hf]
    exact ⟨_, rfl, inv_emit all s _ hInv, fun h => absurd h hf⟩


theorem require_pages_inv (all : List Ptr) (f : MemFlag) (queue : Queue) (s : Sys) (p : Ptr)
    (crp total : Int) (s1 : Sys) (crpf : Int)
    (hInv : Inv all s) (hq : ∀ q ∈ queue, q ∈ all) (hf : f ≠ .UN)
    (hcrp : 0 < crp) (hbound : (s.heap p).num_page_in_mem + crp ≤ total)
    (h : require_pages f queue s p crp = .ok (s1, crpf)) :
    Inv all s1 ∧ 0 ≤ crpf ∧ crpf ≤ s1.cpu.memory.num_holes
      ∧ (s1.heap p).num_page_in_mem + crpf ≤ total
      ∧ ∀ q, (s1.heap q).p_id = (s.heap q).p_id
          ∧ (s1.heap q).mem_size_req = (s.heap q).mem_size_req
          ∧ (s1.heap q).num_page_in_mem ≤ (s.heap q).num_page_in_mem := by
  have hholes : 0 ≤ s.cpu.memory.num_holes := by
    rw [hInv.holes]; unfold free_count; omega
  have hsame : ∀ q, (s.heap q).p_id = (s.heap q).p_id
          ∧ (s.heap q).mem_size_req = (s.heap q).mem_size_req
          ∧ (s.heap q).num_page_in_mem ≤ (s.heap q).num_page_in_mem :=
    fun q => ⟨rfl, rfl, le_refl _⟩
  have hev : ∀ n, 0 < n → n ≤ crp → ∀ s2, evcit f queue s n = .ok s2 →
      Inv all s2 ∧ 0 ≤ n ∧ n ≤ s2.cpu.memory.num_holes
      ∧ (s2.heap p).num_page_in_mem + n ≤ total
      ∧ ∀ q, (s2.heap q).p_id = (s.heap q).p_id
          ∧ (s2.heap q).mem_size_req = (s.heap q).mem_size_req
          ∧ (s2.heap q).num_page_in_mem ≤ (s.heap q).num_page_in_mem := by
    intro n hn hn' s2 he
    obtain ⟨a1, a2, a3⟩ := evcit_inv all f queue s s2 n hInv hq he
    have := (a3 p).2.2
    exact ⟨a1, by omega, a2, by omega, a3⟩
  unfold require_pages at h
  simp only at h
  by_cases h1 : crp > s.cpu.memory.num_holes
  · rw [if_pos h1] at h
    by_cases h2 : f = .SP
    · rw [if_pos h2] at h
      simp only [bind, Except.bind] at h
      split at h
      · cases h
      · rename_i s2 he
        cases h
        exact hev crp hcrp (le_refl _) _ he
    · rw [if_neg h2] at h
      have h3 : f = .VM ∨ f = .CM := by
        cases f <;> simp_all
      rw [if_pos h3] at h
      by_cases h4 : (s.heap p).num_page_in_mem < MIN_EXE_PAGE
      · rw [if_pos h4] at h
        by_cases h5 : s.cpu.memory.num_holes < MIN_EXE_PAGE
        · rw [if_pos h5] at h
          generalize hc2 : (if (s.heap p).num_page_in_mem + crp > MIN_EXE_PAGE then
              MIN_EXE_PAGE - (s.heap p).num_page_in_mem else crp) = crp2 at h
          have hc2b : 0 < crp2 ∧ crp2 ≤ crp := by
            rw [← hc2]; split <;> omega
          by_cases h6 : crp2 > s.cpu.memory.num_holes
          · rw [if_pos h6] at h
            simp only [bind, Except.bind] at h
            split at h
            · cases h
            · rename_i s2 he
              have key := hev crp2 hc2b.1 hc2b.2 _ he
              cases h
              exact key
          · rw [if_neg h6] at h
            cases h
            exact ⟨hInv, hholes, le_refl _, by omega, hsame⟩
        · rw [if_neg h5] at h
          cases h
          exact ⟨hInv, hholes, le_refl _, by omega, hsame⟩
      · rw [if_neg h4] at h
        cases h
        exact ⟨hInv, hholes, le_refl _, by omega, hsame⟩
  · rw [if_neg h1] at h
    cases h
    exact ⟨hInv, by omega, by omega, hbound, hsame⟩

theorem mem_alloc_func_inv (all : List Ptr) (f : MemFlag) (queue : Queue) (s s' : Sys) (p : Ptr)
    (hInv : Inv all s) (hp : p ∈ all) (hq : ∀ q ∈ queue, q ∈ all)
    (h : mem_alloc_func f queue s p = .ok s') : Inv all s' := by
  unfold mem_alloc_func at h
  by_cases hf : f = .UN
  · rw [if_pos hf] at h
    cases h
    apply inv_same_memory all s _ _ hInv
    refine ⟨rfl, rfl, fun q => ?_⟩
    by_cases hqp : q = p
    · subst hqp; simp [print_running, Sys.emit, Sys.setProc]
    · simp [print_running, Sys.emit, Sys.setProc, Function.update_noteq hqp]
  · rw [if_neg hf] at h
    simp only at h
    by_cases hz : (s.heap p).mem_size_req.tdiv PAGE_SIZE - (s.heap p).num_page_in_mem = 0
    · rw [if_pos hz] at h
      obtain ⟨e, he⟩ := print_mem_running_ok _ _ _ h
      rw [he]
      apply inv_same_memory all s _ _ hInv
      refine ⟨rfl, rfl, fun q => ?_⟩
      by_cases hqp : q = p
      · subst hqp; simp [Sys.emit, Sys.setProc]
      · simp [Sys.emit, Sys.setProc, Function.update_noteq hqp]
    · rw [if_neg hz] at h
      simp only [bind, Except.bind] at h
      split at h
      · cases h
      · rename_i v hreq
        obtain ⟨s1, crpf⟩ := v
        simp only at h
        by_cases hneg : (s.heap p).mem_size_req.tdiv PAGE_SIZE < 0
        · rw [if_pos hneg] at h
          cases h
        · rw [if_neg hneg] at h
          simp only [pure, Except.pure] at h
          have hb := hInv.bound p hp
          have hcnt := hInv.count p hp
          obtain ⟨hInv1, c0, c1, c2, c3⟩ :=
            require_pages_inv all f queue s p _ ((s.heap p).mem_size_req.tdiv PAGE_SIZE) s1 crpf
              hInv hq hf (by omega) (by omega) hreq
          have hid := hInv1.id_valid p hp
          have hfree : crpf - 0 ≤ (s1.cpu.memory.is_occupy_lst.count INVALID : Int) := by
            have := hInv1.holes
            unfold free_count at this
            omega
          obtain ⟨a1, a2, a3, a4, a5⟩ :=
            alloc_frames_spec (s1.heap p).p_id crpf hid s1.cpu.memory.is_occupy_lst 0 c0 hfree
          have hcnt1 := hInv1.count p hp
          have hpages1 := hInv1.pages p hp
          have hown : ((owned (s1.heap p).p_id 0
              (alloc_frames (s1.heap p).p_id crpf s1.cpu.memory.is_occupy_lst 0).1).length : Int)
              = crpf + (s1.heap p).num_page_in_mem := by
            rw [owned_length, a4, ← owned_length _ _ 0, ← hpages1]
            omega
          have hcollect : collect_frames (s1.heap p).p_id (crpf + (s1.heap p).num_page_in_mem) 0
              (alloc_frames (s1.heap p).p_id crpf s1.cpu.memory.is_occupy_lst 0).1 0
              = owned (s1.heap p).p_id 0
                  (alloc_frames (s1.heap p).p_id crpf s1.cpu.memory.is_occupy_lst 0).1 := by
            rw [collect_frames_eq _ _ _ _ _ (by omega)]
            apply List.take_of_length_le
            omega
          obtain ⟨e, he⟩ := print_mem_running_ok _ _ _ h
          rw [he]
          apply inv_emit
          constructor
          · exact hInv1.nodup
          · intro q hq'
            by_cases hqp : q = p
            · subst hqp; simpa [Sys.setProc, Sys.setMem] using hid
            · simpa [Sys.setProc, Sys.setMem, Function.update_noteq hqp]
                using hInv1.id_valid q hq'
          · intro q hq' r hr hh
            apply hInv1.id_inj q hq' r hr
            by_cases hqp : q = p <;> by_cases hrp : r = p
            · rw [hqp, hrp]
            · subst hqp
              simpa [Sys.setProc, Sys.setMem, Function.update_noteq hrp] using hh
            · subst hrp
              simpa [Sys.setProc, Sys.setMem, Function.update_noteq hqp] using hh
            · simpa [Sys.setProc, Sys.setMem, Function.update_noteq hqp,
                Function.update_noteq hrp] using hh
          · simp only [Sys.setProc, Sys.setMem, free_count, a1]
            rw [a3, hInv1.holes]; simp only [free_count]; omega
          · intro q hq'
            by_cases hqp : q = p
            · subst hqp
              simp only [Sys.setProc, Sys.setMem, Function.update_same, cells, Option.getD_some]
              exact hcollect
            · simp only [Sys.setProc, Sys.setMem, Function.update_noteq hqp]
              rw [a5 _ 0 (fun hh => hqp (hInv1.id_inj q hq' p hp hh)) (hInv1.id_valid q hq')]
              exact hInv1.pages q hq'
          · intro q hq'
            by_cases hqp : q = p
            · subst hqp
              simp only [Sys.setProc, Sys.setMem, Function.update_same, cells, Option.getD_some]
              rw [hcollect, hown]; ring
            · simp only [Sys.setProc, Sys.setMem, Function.update_noteq hqp]
              exact hInv1.count q hq'
          · intro q hq'
            by_cases hqp : q = p
            · subst hqp
              simp only [Sys.setProc, Sys.setMem, Function.update_same]
              right
              rw [(c3 q).2.1] at *
              exact c2
            · simp only [Sys.setProc, Sys.setMem, Function.update_noteq hqp]
              exact hInv1.bound q hq'
          · simp only [Sys.setProc, Sys.setMem, MemoryInfo.total_page]
            rw [resident_sum_update _ _ _ _ hp hInv1.nodup, a2, a1]
            have := hInv1.sum
            simp only [MemoryInfo.total_page] at this
            simp only
            omega


/-! ## The initial state -/

theorem read_lines_heap (rs : List Record) :
    ∀ (next : Nat) (H : Heap) (q : Queue),
      (∀ j : Nat, j < next → (read_lines rs next H q).1 j = H j)
      ∧ ∀ (i : Nat) (h : i < rs.length), (read_lines rs next H q).1 (next + i) = rs[i].toProcess := by
  induction rs with
  | nil =>
    intro next H q
    exact ⟨fun j _ => rfl, fun i h => absurd h (by simp)⟩
  | cons r rest ih =>
    intro next H q
    obtain ⟨ha, hb⟩ := ih (next + 1) (Function.update H next r.toProcess)
      (enqueue (Function.update H next r.toProcess) q next .ARRT)
    refine ⟨fun j hj => ?_, fun i h => ?_⟩
    · show (read_lines rest (next + 1) _ _).1 j = H j
      rw [ha j (Nat.lt_succ_of_lt hj), Function.update_noteq (Nat.ne_of_lt hj)]
    · show (read_lines rest (next + 1) _ _).1 (next + i) = _
      cases i with
      | zero =>
        have e := ha next (Nat.lt_succ_self next)
        rw [Function.update_same] at e
        exact e
      | succ n =>
        have : next + (n + 1) = next + 1 + n := by omega
        rw [this, hb n (by simpa using h)]
        rfl

theorem init_heap (records : List Record) (frames : Nat) (quantum : Int) (p : Nat)
    (hp : p < records.length) :
    (init_sys records frames quantum).heap p = records[p].toProcess := by
  have := (read_lines_heap records 0 (fun _ => new_ProcessInfo) new_queue).2 p hp
  rw [Nat.zero_add] at this
  exact this

theorem owned_replicate_free (id : Int) (hid : id ≠ INVALID) (n : Nat) (b : Int) :
    owned id b (List.replicate n INVALID) = [] := by
  apply List.eq_nil_of_length_eq_zero
  rw [owned_length, List.count_replicate]
  have : (INVALID == id) = false := by simpa using (Ne.symm hid)
  simp [this]

theorem inv_init (records : List Record) (frames : Nat) (quantum : Int)
    (hu : unique_ids records) :
    Inv (List.range records.length) (init_sys records frames quantum) := by
  obtain ⟨hnd, hinv⟩ := hu
  have hid : ∀ p, p ∈ List.range records.length →
      ∃ h : p < records.length, (init_sys records frames quantum).heap p = records[p].toProcess :=
    fun p hp => ⟨List.mem_range.1 hp, init_heap records frames quantum p (List.mem_range.1 hp)⟩
  constructor
  · exact List.nodup_range _
  · intro p hp
    obtain ⟨h, e⟩ := hid p hp
    rw [e]
    intro hcon
    apply hinv
    rw [List.mem_map]
    exact ⟨records[p], List.getElem_mem _, hcon⟩
  · intro p hp q hq e
    obtain ⟨h1, e1⟩ := hid p hp
    obtain ⟨h2, e2⟩ := hid q hq
    rw [e1, e2] at e
    have h1' : p < (records.map (fun r => r.p_id)).length := by simpa using h1
    have h2' : q < (records.map (fun r => r.p_id)).length := by simpa using h2
    have hinj := @List.Nodup.getElem_inj_iff _ _ hnd p h1' q h2'
    exact hinj.1 (by simpa [Record.toProcess] using e)
  · show ((frames : Nat) : Int) = free_count (List.replicate frames INVALID)
    unfold free_count
    rw [List.count_replicate_self]
  · intro p hp
    obtain ⟨h, e⟩ := hid p hp
    rw [e]
    show [] = owned _ 0 (List.replicate frames INVALID)
    rw [owned_replicate_free]
    intro hcon
    apply hinv
    rw [List.mem_map]
    exact ⟨records[p], List.getElem_mem _, hcon⟩
  · intro p hp
    obtain ⟨h, e⟩ := hid p hp
    rw [e]
    rfl
  · intro p hp
    obtain ⟨h, e⟩ := hid p hp
    rw [e]
    left
    rfl
  · show ((frames : Nat) : Int) + resident_sum _ _ = ((List.replicate frames INVALID).length : Int)
    have : resident_sum (init_sys records frames quantum).heap (List.range records.length) = 0 := by
      unfold resident_sum
      apply List.sum_eq_zero
      intro x hx
      rw [List.mem_map] at hx
      obtain ⟨p, hp, hx⟩ := hx
      obtain ⟨h, e⟩ := hid p hp
      rw [e] at hx
      rw [← hx]
      rfl
    rw [this, List.length_replicate]
    simp

theorem reach_inv (s0 : Sys) (all : List Ptr) (s : Sys) (h0 : Inv all s0) (hr : Reach s0 all s) :
    Inv all s := by
  induction hr with
  | start => exact h0
  | admission f queue p _ hp hq h ih => exact mem_alloc_func_inv all f queue _ _ p ih hp hq h
  | evict f queue n _ hq h ih => exact (evcit_inv all f queue _ _ n ih hq h).1
  | finish f queue p _ hp h ih =>
    obtain ⟨s2, h2, hInv2, -⟩ := print_finished_inv all f _ p queue ih hp
    rw [h2] at h
    cases h
    exact hInv2
  | other _ hs ih => exact inv_same_memory all _ _ hs ih

theorem half_eq (n : Nat) : half n = n / 2 := by
  induction n using Nat.strongRecOn with
  | _ n ih =>
    match n with
    | 0 => rfl
    | 1 => rfl
    | k + 2 =>
      unfold half
      rw [ih k (by omega)]
      omega

/-! ## Scheduling: fuel -/

theorem sim_loop_fuel (sched : SchedFlag) (mem : MemFlag) (extra : Nat) :
    ∀ (fuel : Nat) (st r : Sim), sim_loop sched mem fuel st = .ok r →
      sim_loop sched mem (fuel + extra) st = .ok r := by
  intro fuel
  induction fuel with
  | zero =>
    intro st r h
    unfold sim_loop at h
    split at h
    · cases h
    · cases extra with
      | zero => unfold sim_loop; rw [if_neg (by assumption)]; exact h
      | succ n =>
        rw [Nat.zero_add]; unfold sim_loop; rw [if_neg (by assumption)]; exact h
  | succ fuel ih =>
    intro st r h
    rw [Nat.add_right_comm]
    unfold sim_loop at h ⊢
    split at h
    · rename_i hc
      rw [if_pos hc]
      simp only [bind, Except.bind] at h ⊢
      split at h
      · cases h
      · rename_i st1 hs
        exact ih st1 r h
    · rename_i hc
      rw [if_neg hc]; exact h

theorem run_fuel (records : List Record) (sched : SchedFlag) (mem : MemFlag) (frames : Nat)
    (quantum : Int) (fuel extra : Nat) (r : Sim)
    (h : run records sched mem frames quantum fuel = .ok r) :
    run records sched mem frames quantum (fuel + extra) = .ok r := by
  unfold run simulation at h ⊢
  simp only [bind, Except.bind] at h ⊢
  split at h
  · cases h
  · rename_i st hs
    exact sim_loop_fuel sched mem extra fuel st r h

theorem map_run_fuel {α : Type} (f : Sim → α) (v : α) (records : List Record)
    (sched : SchedFlag) (mem : MemFlag) (frames : Nat) (quantum : Int) (fuel extra : Nat)
    (h : (run records sched mem frames quantum fuel).map f = .ok v) :
    (run records sched mem frames quantum (fuel + extra)).map f = .ok v := by
  cases hr : run records sched mem frames quantum fuel with
  | error e => rw [hr] at h; cases h
  | ok r => rw [run_fuel _ _ _ _ _ _ extra r hr]; rw [hr] at h; exact h

/-! ## Every state of a run is reachable -/

theorem arrivals_mem (sched : SchedFlag) (H : Heap) (t : Int) (fuel : Nat) :
    ∀ (queue waiting q' w' : Queue), arrivals sched H t fuel queue waiting = .ok (q', w') →
      (∀ x ∈ q', x ∈ queue) ∧ (∀ x ∈ w', x ∈ waiting ∨ x ∈ queue) := by
  induction fuel with
  | zero =>
    intro queue waiting q' w' h
    unfold arrivals at h
    split at h
    · cases h
    · cases h; exact ⟨fun x hx => hx, fun x hx => Or.inl hx⟩
  | succ fuel ih =>
    intro queue waiting q' w' h
    unfold arrivals at h
    split at h
    · cases queue with
      | nil => simp [get_queue_size] at *
      | cons a rest =>
        have hg : get_queue_point (a :: rest) 0 = .ok a :=
          get_queue_point_get (a :: rest) ⟨0, by simp⟩
        rw [hg, dequeue_cons] at h
        simp only [bind, Except.bind] at h
        split at h
        · have key : ∀ k, arrivals sched H t fuel rest (enqueue H waiting a k) = .ok (q', w') →
              (∀ x ∈ q', x ∈ a :: rest) ∧ (∀ x ∈ w', x ∈ waiting ∨ x ∈ a :: rest) := by
            intro k hk
            obtain ⟨h1, h2⟩ := ih rest _ q' w' hk
            refine ⟨fun x hx => List.mem_cons_of_mem _ (h1 x hx), fun x hx => ?_⟩
            rcases h2 x hx with h3 | h3
            · rcases List.mem_cons.1 ((enqueue_perm H k waiting a).mem_iff.1 h3) with h4 | h4
              · right; rw [h4]; simp
              · left; exact h4
            · right; exact List.mem_cons_of_mem _ h3
          cases sched
          · exact key _ h
          · exact key _ h
          · exact key _ h
        · cases h; exact ⟨fun x hx => hx, fun x hx => Or.inl hx⟩
    · cases h; exact ⟨fun x hx => hx, fun x hx => Or.inl hx⟩

theorem same_memory_add_curr_time (sched : SchedFlag) (s : Sys) (p : Ptr) :
    same_memory s (add_curr_time sched s p) := by
  refine ⟨?_, ?_, fun q => ?_⟩
  · unfold add_curr_time
    cases sched
    · rfl
    · simp only; split <;> rfl
    · rfl
  · unfold add_curr_time
    cases sched
    · rfl
    · simp only; split <;> rfl
    · rfl
  · unfold add_curr_time
    cases sched
    · exact ⟨rfl, rfl, rfl, rfl⟩
    · simp only
      split
      · by_cases hq : q = p
        · subst hq; simp [Sys.setProc]
        · simp [Sys.setProc, Function.update_noteq hq]
      · by_cases hq : q = p
        · subst hq; simp [Sys.setProc]
        · simp [Sys.setProc, Function.update_noteq hq]
    · exact ⟨rfl, rfl, rfl, rfl⟩

theorem sim_step_reach (s0 : Sys) (all : List Ptr) (sched : SchedFlag) (mem : MemFlag)
    (st st' : Sim) (hr : Reach s0 all st.sys) (hq : ∀ x ∈ st.queue, x ∈ all)
    (hw : ∀ x ∈ st.waiting_queue, x ∈ all) (h : sim_step sched mem st = .ok st') :
    Reach s0 all st'.sys ∧ (∀ x ∈ st'.queue, x ∈ all) ∧ (∀ x ∈ st'.waiting_queue, x ∈ all) := by
  unfold sim_step at h
  split at h
  · cases hwq : st.waiting_queue with
    | nil => rw [hwq] at h; rw [dequeue_nil] at h; cases h
    | cons p w =>
      rw [hwq] at h hw
      rw [dequeue_cons] at h
      simp only [bind, Except.bind] at h
      have hp : p ∈ all := hw p (by simp)
      have hw' : ∀ x ∈ w, x ∈ all := fun x hx => hw x (List.mem_cons_of_mem _ hx)
      split at h
      · cases h
      · rename_i s1 hs1
        have hr1 : Reach s0 all s1 := Reach.admission mem w p hr hp hw' hs1
        have hr2 : Reach s0 all (add_curr_time sched s1 p) :=
          Reach.other hr1 (same_memory_add_curr_time sched s1 p)
        split at h
        · cases h
        · rename_i v harr
          obtain ⟨q', w2⟩ := v
          obtain ⟨hq', hw2⟩ := arrivals_mem sched _ _ _ _ _ _ _ harr
          have hq'' : ∀ x ∈ q', x ∈ all := fun x hx => hq x (hq' x hx)
          have hw2' : ∀ x ∈ w2, x ∈ all := by
            intro x hx
            rcases hw2 x hx with h1 | h1
            · exact hw' x h1
            · exact hq x h1
          simp only at h
          have hr3 : Reach s0 all ((add_curr_time sched s1 p).setProc p
              { (add_curr_time sched s1 p).heap p with
                last_execution_time := (add_curr_time sched s1 p).cpu.curr_time }) := by
            refine Reach.other hr2 ⟨rfl, rfl, fun q => ?_⟩
            by_cases hqp : q = p
            · subst hqp; simp [Sys.setProc]
            · simp [Sys.setProc, Function.update_noteq hqp]
          split at h
          · cases h
            refine ⟨hr3, hq'', fun x hx => ?_⟩
            rcases List.mem_cons.1 ((enqueue_perm _ _ _ _).mem_iff.1 hx) with h1 | h1
            · rw [h1]; exact hp
            · exact hw2' x h1
          · split at h
            · cases h
            · rename_i s5 hs5
              cases h
              have hr4 : Reach s0 all (record_statistic ((add_curr_time sched s1 p).setProc p
                  { (add_curr_time sched s1 p).heap p with
                    last_execution_time := (add_curr_time sched s1 p).cpu.curr_time }) p) :=
                Reach.other hr3 ⟨rfl, rfl, fun q => ⟨rfl, rfl, rfl, rfl⟩⟩
              have hr5 : Reach s0 all s5 := Reach.finish mem w2 p hr4 hp hs5
              refine ⟨?_, hq'', hw2'⟩
              refine Reach.other (@Reach.other s0 all s5 (s5.setProc p
                { s5.heap p with complete_time := s5.cpu.curr_time }) hr5
                  ⟨rfl, rfl, fun q => ?_⟩)
                ⟨rfl, rfl, fun q => ⟨rfl, rfl, rfl, rfl⟩⟩
              by_cases hqp : q = p
              · subst hqp; simp [Sys.setProc]
              · simp [Sys.setProc, Function.update_noteq hqp]
  · split at h
    · cases hqq : st.queue with
      | nil => rw [hqq] at h; rw [dequeue_nil] at h; cases h
      | cons p rest =>
        rw [hqq] at h hq
        rw [dequeue_cons] at h
        simp only [bind, Except.bind, pure, Except.pure] at h
        cases h
        refine ⟨Reach.other hr ⟨rfl, rfl, fun q => ⟨rfl, rfl, rfl, rfl⟩⟩,
          fun x hx => hq x (List.mem_cons_of_mem _ hx), fun x hx => ?_⟩
        rcases List.mem_cons.1 ((enqueue_perm _ _ _ _).mem_iff.1 hx) with h1 | h1
        · rw [h1]; exact hq p (by simp)
        · exact hw x h1
    · cases h
      exact ⟨hr, hq, hw⟩

theorem sim_loop_reach (s0 : Sys) (all : List Ptr) (sched : SchedFlag) (mem : MemFlag)
    (fuel : Nat) :
    ∀ (st r : Sim), Reach s0 all st.sys → (∀ x ∈ st.queue, x ∈ all) →
      (∀ x ∈ st.waiting_queue, x ∈ all) → sim_loop sched mem fuel st = .ok r →
      Reach s0 all r.sys ∧ r.queue = [] ∧ r.waiting_queue = [] := by
  induction fuel with
  | zero =>
    intro st r hr hq hw h
    unfold sim_loop at h
    split at h
    · cases h
    · rename_i hc
      cases h
      refine ⟨hr, ?_, ?_⟩
      · cases hqq : st.queue with
        | nil => rfl
        | cons a l => rw [hqq] at hc; simp [get_queue_size] at hc
      · cases hqq : st.waiting_queue with
        | nil => rfl
        | cons a l => rw [hqq] at hc; simp [get_queue_size] at hc
  | succ fuel ih =>
    intro st r hr hq hw h
    unfold sim_loop at h
    split at h
    · simp only [bind, Except.bind] at h
      split at h
      · cases h
      · rename_i st1 hs
        obtain ⟨a1, a2, a3⟩ := sim_step_reach s0 all sched mem st st1 hr hq hw hs
        exact ih st1 r a1 a2 a3 h
    · rename_i hc
      cases h
      refine ⟨hr, ?_, ?_⟩
      · cases hqq : st.queue with
        | nil => rfl
        | cons a l => rw [hqq] at hc; simp [get_queue_size] at hc
      · cases hqq : st.waiting_queue with
        | nil => rfl
        | cons a l => rw [hqq] at hc; simp [get_queue_size] at hc

theorem read_lines_queue (rs : List Record) :
    ∀ (next : Nat) (H : Heap) (q : Queue) (x : Nat), x ∈ (read_lines rs next H q).2 →
      x ∈ q ∨ (next ≤ x ∧ x < next + rs.length) := by
  induction rs with
  | nil => intro next H q x hx; exact Or.inl hx
  | cons r rest ih =>
    intro next H q x hx
    have := ih (next + 1) _ _ x hx
    rcases this with h1 | h1
    · rcases List.mem_cons.1 ((enqueue_perm _ _ _ _).mem_iff.1 h1) with h2 | h2
      · right; rw [h2]; simp
      · left; exact h2
    · right
      simp only [List.length_cons]
      omega

theorem run_reach (records : List Record) (sched : SchedFlag) (mem : MemFlag) (frames : Nat)
    (quantum : Int) (fuel : Nat) (r : Sim)
    (h : run records sched mem frames quantum fuel = .ok r) :
    Reach (init_sys records frames quantum) (List.range records.length) r.sys
      ∧ r.queue = [] ∧ r.waiting_queue = [] := by
  have hqueue : ∀ x : Nat, x ∈ (read_file records).2 → x ∈ List.range records.length := by
    intro x hx
    rcases read_lines_queue records 0 _ _ x hx with h1 | h1
    · simp [new_queue] at h1
    · rw [List.mem_range]; omega
  unfold run simulation at h
  simp only [bind, Except.bind] at h
  split at h
  · cases h
  · rename_i st hst
    refine sim_loop_reach _ _ sched mem fuel st r ?_ ?_ ?_ h
    all_goals
      unfold sim_init at hst
      split at hst
    · cases hqq : (read_file records).2 with
      | nil => rw [hqq] at hst; rw [dequeue_nil] at hst; cases hst
      | cons p rest =>
        rw [hqq] at hst; rw [dequeue_cons] at hst
        cases hst
        exact Reach.start
    · cases hst; exact Reach.start
    · cases hqq : (read_file records).2 with
      | nil => rw [hqq] at hst; rw [dequeue_nil] at hst; cases hst
      | cons p rest =>
        rw [hqq] at hst hqueue; rw [dequeue_cons] at hst
        cases hst
        exact fun x hx => hqueue x (List.mem_cons_of_mem _ hx)
    · cases hst; exact hqueue
    · cases hqq : (read_file records).2 with
      | nil => rw [hqq] at hst; rw [dequeue_nil] at hst; cases hst
      | cons p rest =>
        rw [hqq] at hst hqueue; rw [dequeue_cons] at hst
        cases hst
        intro x hx
        have hx' : x ∈ enqueue (init_sys records frames quantum).heap new_queue p .ARRT := hx
        rcases List.mem_cons.1 ((enqueue_perm _ _ _ _).mem_iff.1 hx') with h1 | h1
        · rw [h1]; exact hqueue p (by simp)
        · simp [new_queue] at h1
    · cases hst; intro x hx; simp [new_queue] at hx

/-! ## The sample states -/

theorem sample_unique : unique_ids sample_records := ⟨by decide, by decide⟩
theorem sample_first_eq :
    mem_alloc_func .SP [1, 2] (init_sys sample_records 8 3) 0 = .ok sample_first := rfl
theorem sample_second_eq : mem_alloc_func .SP [0, 2] sample_first 1 = .ok sample_second := rfl
theorem sample_first_reach :
    Reach (init_sys sample_records 8 3) (List.range sample_records.length) sample_first :=
  Reach.admission .SP [1, 2] 0 Reach.start (by decide) (by decide) sample_first_eq
theorem sample_second_reach :
    Reach (init_sys sample_records 8 3) (List.range sample_records.length) sample_second :=
  Reach.admission .SP [0, 2] 1 sample_first_reach (by decide) (by decide) sample_second_eq

/-! # The claims -/

/-- Claim C1, frame-sum invariant: for every input with unique process ids, none of them
`INVALID`, in every state reached from the initial state by admissions, evictions and finishes
(in any memory mode, for any processes and queues of the input), `num_holes` plus the sum of
`num_page_in_mem` over all processes equals `total_page`. -/
theorem frame_sum_invariant (records : List Record) (frames : Nat) (quantum : Int) (s : Sys)
    (hu : unique_ids records)
    (hr : Reach (init_sys records frames quantum) (List.range records.length) s) :
    s.cpu.memory.num_holes + resident_sum s.heap (List.range records.length)
      = s.cpu.memory.total_page :=
  (reach_inv _ _ s (inv_init records frames quantum hu) hr).sum

/-- Witness for C1: the sample input after two admissions, the second with an eviction. -/
theorem frame_sum_invariant_witness :
    unique_ids sample_records
      ∧ Reach (init_sys sample_records 8 3) (List.range sample_records.length) sample_second
      ∧ sample_second.cpu.memory.num_holes
          + resident_sum sample_second.heap (List.range sample_records.length)
        = sample_second.cpu.memory.total_page :=
  ⟨sample_unique, sample_second_reach,
    frame_sum_invariant sample_records 8 3 sample_second sample_unique sample_second_reach⟩

/-- Counterexample to C2 as stated (no condition on the ids): two processes with the same id 1,
each of 2 pages, round-robin with quantum 3, swapping, 4 frames. The second admission lists the
frames 0 and 1 of the first process as its own, both finishes free the frames 0 and 1, and the
run ends with `num_holes = 4` while only 2 slots of the table are free. -/
theorem free_counter_duplicate_ids :
    ∃ r, run [⟨0, 1, 8, 5⟩, ⟨0, 1, 8, 5⟩] .RR .SP 4 3 4 = .ok r
      ∧ r.sys.cpu.memory.is_occupy_lst = [-1, -1, 1, 1]
      ∧ r.sys.cpu.memory.num_holes = 4
      ∧ r.sys.cpu.memory.is_occupy_lst.count INVALID = 2 :=
  ⟨_, rfl, rfl, rfl, rfl⟩

/-- Claim C2 as amended, free-counter invariant: for every input with unique process ids, none of
them `INVALID`, starting from a fresh frame table, in every state reached by admissions,
evictions and finishes `num_holes` equals the number of slots of `is_occupy_lst` that are
`INVALID`. -/
theorem free_counter_invariant (records : List Record) (frames : Nat) (quantum : Int) (s : Sys)
    (hu : unique_ids records)
    (hr : Reach (init_sys records frames quantum) (List.range records.length) s) :
    s.cpu.memory.num_holes = (s.cpu.memory.is_occupy_lst.count INVALID : Nat) :=
  (reach_inv _ _ s (inv_init records frames quantum hu) hr).holes

/-- Witness for C2 as amended: the sample input after two admissions. -/
theorem free_counter_invariant_witness :
    unique_ids sample_records
      ∧ Reach (init_sys sample_records 8 3) (List.range sample_records.length) sample_second
      ∧ sample_second.cpu.memory.num_holes
        = (sample_second.cpu.memory.is_occupy_lst.count INVALID : Nat) :=
  ⟨sample_unique, sample_second_reach,
    free_counter_invariant sample_records 8 3 sample_second sample_unique sample_second_reach⟩

/-- Claim C3, resident-frame-list invariant: for every input with unique process ids, none of
them `INVALID`, in every state reached by admissions, evictions and finishes, the page list of
each process has exactly `num_page_in_mem` cells, is strictly ascending, and holds exactly the
indices of the frames that the table maps to the id of the process. -/
theorem resident_frame_list_invariant (records : List Record) (frames : Nat) (quantum : Int)
    (s : Sys) (p : Ptr) (hu : unique_ids records)
    (hr : Reach (init_sys records frames quantum) (List.range records.length) s)
    (hp : p < records.length) :
    ((cells (s.heap p)).length : Int) = (s.heap p).num_page_in_mem
      ∧ (cells (s.heap p)).Pairwise (fun a b => a < b)
      ∧ ∀ j : Int, j ∈ cells (s.heap p)
          ↔ ∃ i : Nat, s.cpu.memory.is_occupy_lst[i]? = some (s.heap p).p_id ∧ j = i := by
  have hInv := reach_inv _ _ s (inv_init records frames quantum hu) hr
  have hp' : p ∈ List.range records.length := List.mem_range.2 hp
  refine ⟨(hInv.count p hp').symm, ?_, fun j => ?_⟩
  · rw [hInv.pages p hp']
    exact owned_sorted _ _ _
  · rw [hInv.pages p hp', owned_mem]
    simp

/-- Witness for C3: the second process of the sample input after two admissions. -/
theorem resident_frame_list_invariant_witness :
    unique_ids sample_records
      ∧ Reach (init_sys sample_records 8 3) (List.range sample_records.length) sample_second
      ∧ 1 < sample_records.length
      ∧ ((cells (sample_second.heap 1)).length : Int) = (sample_second.heap 1).num_page_in_mem
      ∧ (cells (sample_second.heap 1)).Pairwise (fun a b => a < b)
      ∧ ∀ j : Int, j ∈ cells (sample_second.heap 1)
          ↔ ∃ i : Nat, sample_second.cpu.memory.is_occupy_lst[i]?
              = some (sample_second.heap 1).p_id ∧ j = i :=
  ⟨sample_unique, sample_second_reach, by decide,
    resident_frame_list_invariant sample_records 8 3 sample_second 1 sample_unique
      sample_second_reach (by decide)⟩

/-- Claim C4, ordering: for every finite sequence of processes enqueued into an empty queue under
one priority key, calling `dequeue` until the queue is empty returns (with any fuel of at least
the number of processes) a permutation of the enqueued processes, in non-decreasing key order
with equal keys in ascending `p_id` order. -/
theorem dequeue_order (H : Heap) (k : PrioFlag) (ps : List Ptr) (extra : Nat) :
    ∃ out, dequeue_all (ps.length + extra) (enqueue_list H k new_queue ps) = .ok out
      ∧ out.Perm ps ∧ out.Pairwise (prio_le H k) := by
  have hperm : (enqueue_list H k new_queue ps).Perm ps := by
    simpa [new_queue] using enqueue_list_perm H k ps new_queue
  refine ⟨enqueue_list H k new_queue ps, ?_, hperm, ?_⟩
  · rw [← hperm.length_eq]
    exact dequeue_all_eq _ extra
  · exact enqueue_list_sorted H k ps new_queue (by simp [new_queue])

/-- Claim C5, scenario A: first-come first-served with unlimited memory on the processes
(0, 1, 100, 500) and (0, 2, 100, 200) prints exactly: running id 1 at 0 with 500 remaining,
finished id 1 at 500 with 1 process waiting, running id 2 at 500 with 200 remaining, finished
id 2 at 700 with 0 waiting; the final clock is 700 and both queues are empty. This holds for
every number of frames, every quantum and every fuel of at least 2 rounds. -/
theorem scenario_first_arrival (frames : Nat) (quantum : Int) (extra : Nat) :
    (run [⟨0, 1, 100, 500⟩, ⟨0, 2, 100, 200⟩] .FF .UN frames quantum (2 + extra)).map
        (fun r => (r.sys.out, r.sys.cpu.curr_time, r.queue, r.waiting_queue))
      = .ok ([.running 0 1 500, .finished 500 1 1, .running 500 2 200, .finished 700 2 0],
          700, [], []) :=
  map_run_fuel _ _ _ _ _ _ _ 2 extra rfl

theorem scenario_round_robin_base (frames : Nat) (m1 m2 : Int) :
    (run [⟨0, 1, m1, 5⟩, ⟨0, 2, m2, 5⟩] .RR .UN frames 3 4).map
        (fun r => (r.sys.out, r.sys.cpu.curr_time, r.sys.cpu.total_turnaround,
          (r.sys.heap 0).complete_time, (r.sys.heap 1).complete_time,
          r.sys.cpu.time_overh, r.sys.cpu.max_time_overh, r.queue, r.waiting_queue))
      = .ok ([.running 0 1 5, .running 3 2 5, .running 6 1 2, .finished 8 1 1,
          .running 8 2 2, .finished 10 2 0], 10, 18, 8, 10,
          0 + ((8 : Int) : ℚ) / ((5 : Int) : ℚ) + ((10 : Int) : ℚ) / ((5 : Int) : ℚ),
          if ((10 : Int) : ℚ) / ((5 : Int) : ℚ)
              > (if ((8 : Int) : ℚ) / ((5 : Int) : ℚ) > 0 then ((8 : Int) : ℚ) / ((5 : Int) : ℚ)
                  else 0)
            then ((10 : Int) : ℚ) / ((5 : Int) : ℚ)
            else (if ((8 : Int) : ℚ) / ((5 : Int) : ℚ) > 0 then ((8 : Int) : ℚ) / ((5 : Int) : ℚ)
                  else 0),
          [], []) := by
  rfl

/-- Claim C6, scenario B: round-robin with quantum 3 and unlimited memory on two processes that
arrive at 0 with ids 1 and 2 and job time 5 (any memory sizes) prints, in order: running id 1 at
0 with 5 remaining, running id 2 at 3 with 5 remaining, running id 1 at 6 with 2 remaining,
finished id 1 at 8 with 1 waiting, running id 2 at 8 with 2 remaining, finished id 2 at 10 with
0 waiting. The final clock is 10, `total_turnaround` is 18, the completion times are 8 and 10,
so that the overhead ratios are 8/5 and 10/5, their sum is `time_overh` and `max_time_overh`
is 2; both queues end empty. This holds for every number of frames and every fuel of at least 4
rounds. -/
theorem scenario_round_robin (frames : Nat) (m1 m2 : Int) (extra : Nat) :
    (run [⟨0, 1, m1, 5⟩, ⟨0, 2, m2, 5⟩] .RR .UN frames 3 (4 + extra)).map
        (fun r => (r.sys.out, r.sys.cpu.curr_time, r.sys.cpu.total_turnaround,
          (r.sys.heap 0).complete_time, (r.sys.heap 1).complete_time,
          r.sys.cpu.time_overh, r.sys.cpu.max_time_overh, r.queue, r.waiting_queue))
      = .ok ([.running 0 1 5, .running 3 2 5, .running 6 1 2, .finished 8 1 1,
          .running 8 2 2, .finished 10 2 0], 10, 18, 8, 10, 8 / 5 + 10 / 5, 2, [], []) := by
  apply map_run_fuel
  rw [scenario_round_robin_base]
  norm_num

/-- Claim C7, boundary: in every bounded memory mode, admitting a process whose resident page
count equals its total page requirement `mem_size_req / PAGE_SIZE` (and whose page list holds
that many cells) returns normally, sets `load_time` and `page_fault` to 0 and changes nothing
else in the record of the process, leaves the CPU record with the frame table and `num_holes`
unchanged, leaves every other process unchanged, and prints the one line `RUNNING` with load
time 0, so no eviction takes place. -/
theorem fully_resident_admit (mem_alloc_f : MemFlag) (queue : Queue) (s : Sys) (p : Ptr)
    (hf : mem_alloc_f ≠ .UN)
    (hfull : (s.heap p).num_page_in_mem = (s.heap p).mem_size_req.tdiv PAGE_SIZE)
    (hlen : (s.heap p).num_page_in_mem = (cells (s.heap p)).length) :
    ∃ s', mem_alloc_func mem_alloc_f queue s p = .ok s'
      ∧ s'.heap p = { s.heap p with load_time := 0, page_fault := 0 }
      ∧ (∀ q, q ≠ p → s'.heap q = s.heap q)
      ∧ s'.cpu = s.cpu
      ∧ s'.out = s.out ++ [.mem_running s.cpu.curr_time (s.heap p).p_id
          (s.heap p).remaining_time 0 s.cpu.memory.memory_use (cells (s.heap p))] := by
  have hread : read_cells (s.heap p).page_list (s.heap p).num_page_in_mem
      = .ok (cells (s.heap p)) := by
    rw [read_cells_ok (s.heap p) _ (by omega)]
    have : (s.heap p).num_page_in_mem.toNat = (cells (s.heap p)).length := by omega
    rw [this, List.take_length]
  refine ⟨(s.setProc p { s.heap p with load_time := 0, page_fault := 0 }).emit
    (.mem_running s.cpu.curr_time (s.heap p).p_id (s.heap p).remaining_time 0
      s.cpu.memory.memory_use (cells (s.heap p))), ?_, ?_, ?_, rfl, rfl⟩
  · unfold mem_alloc_func
    rw [if_neg hf]
    simp only
    rw [if_pos (by omega)]
    unfold print_mem_running
    simp only [Sys.setProc, Function.update_same, bind, Except.bind, hread, pure, Except.pure]
  · simp [Sys.emit, Sys.setProc]
  · intro q hq
    simp [Sys.emit, Sys.setProc, Function.update_noteq hq]

/-- Witness for C7: the first process of the sample input, fully resident after its admission,
is admitted again. -/
theorem fully_resident_admit_witness :
    MemFlag.SP ≠ .UN
      ∧ (sample_first.heap 0).num_page_in_mem = (sample_first.heap 0).mem_size_req.tdiv PAGE_SIZE
      ∧ (sample_first.heap 0).num_page_in_mem = (cells (sample_first.heap 0)).length
      ∧ ∃ s', mem_alloc_func .SP [1, 2] sample_first 0 = .ok s'
        ∧ s'.heap 0 = { sample_first.heap 0 with load_time := 0, page_fault := 0 }
        ∧ (∀ q, q ≠ 0 → s'.heap q = sample_first.heap q)
        ∧ s'.cpu = sample_first.cpu
        ∧ s'.out = sample_first.out ++ [.mem_running sample_first.cpu.curr_time
            (sample_first.heap 0).p_id (sample_first.heap 0).remaining_time 0
            sample_first.cpu.memory.memory_use (cells (sample_first.heap 0))] :=
  ⟨by decide, by decide, by decide,
    fully_resident_admit .SP [1, 2] sample_first 0 (by decide) (by decide) (by decide)⟩

/-- Claim C8, insert keeps order: for every queue sorted non-decreasingly by (key, `p_id`) under
the priority key `k`, `enqueue queue p k` is the old queue with `p` inserted at one position,
its size is one larger, and it is again sorted non-decreasingly by (key, `p_id`). -/
theorem enqueue_keeps_order (H : Heap) (k : PrioFlag) (queue : Queue) (p : Ptr)
    (hs : queue.Pairwise (prio_le H k)) :
    (∃ front back, queue = front ++ back ∧ enqueue H queue p k = front ++ p :: back)
      ∧ get_queue_size (enqueue H queue p k) = get_queue_size queue + 1
      ∧ (enqueue H queue p k).Pairwise (prio_le H k) := by
  obtain ⟨front, back, h1, h2, -, -⟩ := enqueue_split H k queue p
  exact ⟨⟨front, back, h1, h2⟩, enqueue_size H k queue p, enqueue_sorted H k queue p hs⟩

/-- Witness for C8: the third sample process is enqueued by arrival time behind the other two. -/
theorem enqueue_keeps_order_witness :
    ([0, 1] : Queue).Pairwise (prio_le (init_sys sample_records 8 3).heap .ARRT)
      ∧ (∃ front back, ([0, 1] : Queue) = front ++ back
          ∧ enqueue (init_sys sample_records 8 3).heap [0, 1] 2 .ARRT = front ++ 2 :: back)
      ∧ get_queue_size (enqueue (init_sys sample_records 8 3).heap [0, 1] 2 .ARRT)
          = get_queue_size [0, 1] + 1
      ∧ (enqueue (init_sys sample_records 8 3).heap [0, 1] 2 .ARRT).Pairwise
          (prio_le (init_sys sample_records 8 3).heap .ARRT) :=
  ⟨by decide, enqueue_keeps_order (init_sys sample_records 8 3).heap .ARRT [0, 1] 2 (by decide)⟩

/-- Claim C9: `dequeue` fails if and only if the queue is empty, and then with
`EmptyCollection`; on a queue with first element `p` it returns `p`, and the queue afterwards is
the old queue without its first element, in the same order, with the size decreased by one. -/
theorem dequeue_spec (queue : Queue) :
    ((∃ e, dequeue queue = .error e) ↔ get_queue_size queue = 0)
      ∧ (dequeue queue = .error .EmptyCollection ↔ get_queue_size queue = 0)
      ∧ ∀ (p : Ptr) (rest : Queue), dequeue (p :: rest) = .ok (p, rest)
          ∧ get_queue_size rest = get_queue_size (p :: rest) - 1 := by
  refine ⟨?_, ?_, fun p rest => ⟨dequeue_cons p rest, ?_⟩⟩
  · cases queue with
    | nil => simp [dequeue_nil, get_queue_size]
    | cons a l =>
      rw [dequeue_cons]
      simp only [get_queue_size, List.length_cons]
      constructor
      · rintro ⟨e, he⟩; cases he
      · intro h; omega
  · cases queue with
    | nil => simp [dequeue_nil, get_queue_size]
    | cons a l =>
      rw [dequeue_cons]
      simp only [get_queue_size, List.length_cons]
      constructor
      · intro he; cases he
      · intro h; omega
  · simp only [get_queue_size, List.length_cons]
    omega

/-- Claim C10: `get_queue_point queue index` fails if and only if `index < 0` or
`index >= size`, and then with `IndexOutOfRange`; for every position of the queue it returns the
element at that 0-based position counted from the head, and so does each of the two traversals
(from the head along `next`, from the tail along `prev`). The queue is not an output of the
function, so it is left as it was. -/
theorem get_queue_point_spec (queue : Queue) (index : Int) :
    ((∃ e, get_queue_point queue index = .error e)
        ↔ (index < 0 ∨ index ≥ get_queue_size queue))
      ∧ (get_queue_point queue index = .error .IndexOutOfRange
        ↔ (index < 0 ∨ index ≥ get_queue_size queue))
      ∧ ∀ i : Fin queue.length,
          get_queue_point queue ((i : Nat) : Int) = .ok (queue.get i)
          ∧ walk_links queue i = .ok (queue.get i)
          ∧ walk_links queue.reverse (queue.length - 1 - i) = .ok (queue.get i) := by
  have hout : (index < 0 ∨ index ≥ get_queue_size queue) →
      get_queue_point queue index = .error .IndexOutOfRange := by
    intro h
    unfold get_queue_point
    rw [if_neg (by omega)]
  have hin : ¬ (index < 0 ∨ index ≥ get_queue_size queue) →
      ∃ v, get_queue_point queue index = .ok v := by
    intro h
    have h1 : index.toNat < queue.length := by
      unfold get_queue_size at h; omega
    have := get_queue_point_get queue ⟨index.toNat, h1⟩
    simp only at this
    rw [Int.toNat_of_nonneg (by omega)] at this
    exact ⟨_, this⟩
  refine ⟨⟨?_, fun h => ⟨_, hout h⟩⟩, ⟨?_, hout⟩, fun i =>
    ⟨get_queue_point_get queue i, walk_links_get queue i, walk_links_reverse queue i⟩⟩
  · rintro ⟨e, he⟩
    by_contra hcon
    obtain ⟨v, hv⟩ := hin hcon
    rw [hv] at he
    cases he
  · intro he
    by_contra hcon
    obtain ⟨v, hv⟩ := hin hcon
    rw [hv] at he
    cases he

/-! ## Allocator: what an admission does -/

theorem mem_alloc_func_eq (f : MemFlag) (queue : Queue) (s : Sys) (p : Ptr) (hf : f ≠ .UN)
    (hc : required_pages (s.heap p) - (s.heap p).num_page_in_mem ≠ 0) :
    mem_alloc_func f queue s p
      = (require_pages f queue s p
          (required_pages (s.heap p) - (s.heap p).num_page_in_mem)).bind
          (fun r => grant_pages r.1 p (required_pages (s.heap p)) r.2) := by
  unfold mem_alloc_func
  rw [if_neg hf]
  unfold required_pages at hc ⊢
  simp only
  rw [if_neg hc]
  rfl

theorem same_but_pages_refl (a : ProcessInfo) : same_but_pages a a := by
  unfold same_but_pages; rfl

theorem same_but_pages_trans {a b c : ProcessInfo} (h1 : same_but_pages a b)
    (h2 : same_but_pages b c) : same_but_pages a c := by
  unfold same_but_pages at *
  rw [h2, h1]

theorem free_page_shape_aux (s : Sys) (p : Ptr) (nl : Option (List Int)) (n u : Int)
    (T' : List Int) :
    let s' := (s.setProc p { s.heap p with
        page_list := nl
        num_page_in_mem := (s.heap p).num_page_in_mem - n
        mem_usage := (s.heap p).mem_usage - u }).setMem
      { s.cpu.memory with
        is_occupy_lst := T'
        num_holes := s.cpu.memory.num_holes + n
        memory_use := s.cpu.memory.memory_use - u }
    s'.out = s.out ∧ s'.cpu.curr_time = s.cpu.curr_time
      ∧ s'.cpu.memory.num_holes = s.cpu.memory.num_holes + n
      ∧ (∀ q, q ≠ p → s'.heap q = s.heap q)
      ∧ (∀ q, same_but_pages (s.heap q) (s'.heap q))
      ∧ (s'.heap p).num_page_in_mem = (s.heap p).num_page_in_mem - n := by
  intro s'
  refine ⟨rfl, rfl, rfl, fun q hq => ?_, fun q => ?_, ?_⟩
  · simp [s', Sys.setProc, Sys.setMem, Function.update_noteq hq]
  · by_cases hq : q = p
    · subst hq; simp [s', Sys.setProc, Sys.setMem, same_but_pages]
    · simp [s', Sys.setProc, Sys.setMem, Function.update_noteq hq, same_but_pages]
  · simp [s', Sys.setProc, Sys.setMem]

/-- The shape of the state after `free_page`, in any state. -/
theorem free_page_shape (s s' : Sys) (p : Ptr) (record r : Option (List Int)) (n : Int)
    (h : free_page s p record n = .ok (s', r)) :
    (s'.out = s.out ∧ s'.cpu.curr_time = s.cpu.curr_time
      ∧ s'.cpu.memory.num_holes = s.cpu.memory.num_holes + n
      ∧ (∀ q, q ≠ p → s'.heap q = s.heap q)
      ∧ (∀ q, same_but_pages (s.heap q) (s'.heap q))
      ∧ (s'.heap p).num_page_in_mem = (s.heap p).num_page_in_mem - n)
      ∧ ∃ freed : List Int, r = record.map (fun l => l ++ freed) ∧ freed.length = n.toNat := by
  unfold free_page at h
  simp only [bind, Except.bind] at h
  split at h
  · cases h
  · rename_i freed hread
    have hfl : freed.length = n.toNat := by
      unfold read_cells at hread
      split at hread
      · cases hread; simp; omega
      · split at hread
        · cases hread
        · split at hread
          · cases hread
            rw [List.length_take]
            omega
          · cases hread
    split at h
    · cases h
    · rename_i T' hfree
      by_cases hn : n = (s.heap p).num_page_in_mem
      · rw [if_pos hn] at h
        simp only [pure, Except.pure] at h
        cases h
        exact ⟨free_page_shape_aux s p none n _ T', freed, rfl, hfl⟩
      · rw [if_neg hn] at h
        split at h
        · cases h
        · rename_i nl hnl
          simp only [pure, Except.pure] at h
          cases h
          exact ⟨free_page_shape_aux s p nl n _ T', freed, rfl, hfl⟩

theorem evcit_loop_shape (f : MemFlag) (crp : Int) (fuel : Nat) :
    ∀ (s : Sys) (rq : Queue) (ev : List Int) (s' : Sys) (ev' : List Int),
      evcit_loop f crp fuel s rq ev = .ok (s', ev') →
      s'.out = s.out ∧ s'.cpu.curr_time = s.cpu.curr_time
        ∧ crp ≤ s'.cpu.memory.num_holes
        ∧ s.cpu.memory.num_holes ≤ s'.cpu.memory.num_holes
        ∧ (ev'.length : Int) = ev.length + (s'.cpu.memory.num_holes - s.cpu.memory.num_holes)
        ∧ (∀ q, q ∉ rq → s'.heap q = s.heap q)
        ∧ (∀ q, same_but_pages (s.heap q) (s'.heap q))
        ∧ ((f = .VM ∨ f = .CM) → s.cpu.memory.num_holes ≤ crp → s'.cpu.memory.num_holes = crp)
        ∧ (s.cpu.memory.num_holes ≥ crp → s' = s ∧ ev' = ev) := by
  induction fuel with
  | zero =>
    intro s rq ev s' ev' h
    unfold evcit_loop at h
    by_cases hc : crp > s.cpu.memory.num_holes
    · rw [if_pos hc] at h; cases h
    · rw [if_neg hc] at h
      cases h
      exact ⟨rfl, rfl, by omega, le_refl _, by omega, fun q _ => rfl,
        fun q => same_but_pages_refl _, fun _ _ => by omega, fun _ => ⟨rfl, rfl⟩⟩
  | succ fuel ih =>
    intro s rq ev s' ev' h
    unfold evcit_loop at h
    by_cases hc : crp > s.cpu.memory.num_holes
    · rw [if_pos hc] at h
      cases rq with
      | nil => rw [dequeue_nil] at h; cases h
      | cons v rest =>
        rw [dequeue_cons] at h
        simp only [bind, Except.bind] at h
        have skip : evcit_loop f crp fuel s rest ev = .ok (s', ev') →
            s'.out = s.out ∧ s'.cpu.curr_time = s.cpu.curr_time
            ∧ crp ≤ s'.cpu.memory.num_holes
            ∧ s.cpu.memory.num_holes ≤ s'.cpu.memory.num_holes
            ∧ (ev'.length : Int)
                = ev.length + (s'.cpu.memory.num_holes - s.cpu.memory.num_holes)
            ∧ (∀ q, q ∉ v :: rest → s'.heap q = s.heap q)
            ∧ (∀ q, same_but_pages (s.heap q) (s'.heap q))
            ∧ ((f = .VM ∨ f = .CM) → s.cpu.memory.num_holes ≤ crp →
                s'.cpu.memory.num_holes = crp)
            ∧ (s.cpu.memory.num_holes ≥ crp → s' = s ∧ ev' = ev) := by
          intro h'
          obtain ⟨a1, a2, a3, a4, a5, a6, a7, a8, a9⟩ := ih s rest ev s' ev' h'
          exact ⟨a1, a2, a3, a4, a5, fun q hq => a6 q (fun hm => hq (List.mem_cons_of_mem _ hm)),
            a7, a8, fun hge => absurd hge (by omega)⟩
        by_cases hpl : (s.heap v).page_list ≠ none
        · rw [if_pos hpl] at h
          generalize hnf : (if (f = MemFlag.VM ∨ f = MemFlag.CM)
              ∧ (s.heap v).num_page_in_mem ≥ crp - s.cpu.memory.num_holes
            then crp - s.cpu.memory.num_holes else (s.heap v).num_page_in_mem) = nf at h
          have hb : (f = .VM ∨ f = .CM) → nf ≤ crp - s.cpu.memory.num_holes := by
            intro hf
            rw [← hnf]
            split
            · exact le_refl _
            · rename_i hcon
              have : ¬ (s.heap v).num_page_in_mem ≥ crp - s.cpu.memory.num_holes :=
                fun hh => hcon ⟨hf, hh⟩
              omega
          by_cases hpos : nf > 0
          · rw [if_pos hpos] at h
            split at h
            · cases h
            · rename_i w hfp
              obtain ⟨s1, r1⟩ := w
              obtain ⟨⟨b1, b2, b3, b4, b5, -⟩, freed, hr, hfl⟩ :=
                free_page_shape s s1 v (some ev) r1 nf hfp
              simp only at h
              obtain ⟨a1, a2, a3, a4, a5, a6, a7, a8, a9⟩ := ih s1 rest _ s' ev' h
              have hlen : ((r1.getD ev).length : Int) = ev.length + nf := by
                rw [hr]; simp [hfl]; omega
              refine ⟨a1.trans b1, a2.trans b2, a3, by omega, by omega, fun q hq => ?_,
                fun q => same_but_pages_trans (b5 q) (a7 q), fun hf hle => ?_,
                fun hge => absurd hge (by omega)⟩
              · have hqv : q ≠ v := fun e => hq (e ▸ List.mem_cons_self _ _)
                rw [a6 q (fun hm => hq (List.mem_cons_of_mem _ hm)), b4 q hqv]
              · have := hb hf
                exact a8 hf (by omega)
          · rw [if_neg hpos] at h
            exact skip h
        · rw [if_neg hpl] at h
          exact skip h
    · rw [if_neg hc] at h
      cases h
      exact ⟨rfl, rfl, by omega, le_refl _, by omega, fun q _ => rfl,
        fun q => same_but_pages_refl _, fun _ _ => by omega, fun _ => ⟨rfl, rfl⟩⟩

theorem qsort_length (l : List Int) : (qsort l).length = l.length :=
  (List.perm_insertionSort _ l).length_eq

theorem qsort_sorted (l : List Int) : (qsort l).Pairwise (fun a b => a ≤ b) :=
  List.sorted_insertionSort _ l

theorem qsort_perm (l : List Int) : (qsort l).Perm l := List.perm_insertionSort _ l

/-- The shape of the state after `evcit`, in any state: one `EVICTED` line is printed, with as
many frames as the holes gained; only processes of the queue change, and only in their pages. -/
theorem evcit_shape (f : MemFlag) (queue : Queue) (s s' : Sys) (crp : Int)
    (h : evcit f queue s crp = .ok s') :
    (∃ l : List Int, s'.out = s.out ++ [.evicted s.cpu.curr_time l]
        ∧ (l.length : Int) = s'.cpu.memory.num_holes - s.cpu.memory.num_holes
        ∧ l.Pairwise (fun a b => a ≤ b))
      ∧ s'.cpu.curr_time = s.cpu.curr_time
      ∧ crp ≤ s'.cpu.memory.num_holes
      ∧ s.cpu.memory.num_holes ≤ s'.cpu.memory.num_holes
      ∧ (∀ q, q ∉ queue → s'.heap q = s.heap q)
      ∧ (∀ q, same_but_pages (s.heap q) (s'.heap q))
      ∧ ((f = .VM ∨ f = .CM) → s.cpu.memory.num_holes ≤ crp → s'.cpu.memory.num_holes = crp) := by
  simp only [evcit, resort_eq, bind, Except.bind] at h
  split at h
  · cases h
  · rename_i v heq
    obtain ⟨s1, ev⟩ := v
    obtain ⟨a1, a2, a3, a4, a5, a6, a7, a8, -⟩ := evcit_loop_shape f crp _ s _ [] s1 ev heq
    simp only at h
    rw [print_evicted_sorted] at h
    cases h
    refine ⟨⟨qsort ev, ?_, ?_, qsort_sorted ev⟩, a2, a3, a4, fun q hq => ?_, a7, a8⟩
    · show s1.out ++ _ = _
      rw [a1, a2]
    · rw [qsort_length]
      show (ev.length : Int) = s1.cpu.memory.num_holes - _
      rw [a5]; simp
    · apply a6
      intro hm
      rcases (enqueue_list_mem _ _ _ _ _).1 hm with h' | h'
      · simp [new_queue] at h'
      · exact hq h'

/-- The decision of `mem_alloc_func` under virtual memory: `evcit` is called, for the pages that
miss to the threshold, exactly when the resident pages and the holes together are fewer than the
threshold; otherwise nothing is evicted and the holes are given up to the pages still required. -/
theorem require_pages_vm (f : MemFlag) (queue : Queue) (s : Sys) (p : Ptr) (total : Int)
    (hf : f = .VM ∨ f = .CM) (hh : 0 ≤ s.cpu.memory.num_holes)
    (hn : 0 ≤ (s.heap p).num_page_in_mem) :
    require_pages f queue s p (total - (s.heap p).num_page_in_mem)
      = if (s.heap p).num_page_in_mem + s.cpu.memory.num_holes < min MIN_EXE_PAGE total then
          (evcit f queue s (min MIN_EXE_PAGE total - (s.heap p).num_page_in_mem)).map
            (fun s1 => (s1, min MIN_EXE_PAGE total - (s.heap p).num_page_in_mem))
        else .ok (s, min s.cpu.memory.num_holes (total - (s.heap p).num_page_in_mem)) := by
  have hsp : f ≠ .SP := by rcases hf with h | h <;> rw [h] <;> decide
  have hm1 := min_le_left (4 : Int) total
  have hm2 := min_le_right (4 : Int) total
  unfold require_pages MIN_EXE_PAGE
  simp only
  by_cases h1 : total - (s.heap p).num_page_in_mem > s.cpu.memory.num_holes
  · have hmin : min s.cpu.memory.num_holes (total - (s.heap p).num_page_in_mem)
        = s.cpu.memory.num_holes := min_eq_left (by omega)
    rw [if_pos h1, if_neg hsp, if_pos hf, hmin]
    by_cases h4 : (s.heap p).num_page_in_mem < 4
    · rw [if_pos h4]
      by_cases h5 : s.cpu.memory.num_holes < 4
      · rw [if_pos h5]
        have hc2 : (if (s.heap p).num_page_in_mem + (total - (s.heap p).num_page_in_mem) > 4
            then 4 - (s.heap p).num_page_in_mem else total - (s.heap p).num_page_in_mem)
            = min 4 total - (s.heap p).num_page_in_mem := by
          split
          · rw [min_eq_left (by omega)]
          · rw [min_eq_right (by omega)]
        rw [hc2]
        by_cases h6 : min 4 total - (s.heap p).num_page_in_mem > s.cpu.memory.num_holes
        · rw [if_pos h6, if_pos (by omega)]
          rfl
        · rw [if_neg h6, if_neg (by omega)]
          rfl
      · rw [if_neg h5, if_neg (by omega)]
        rfl
    · rw [if_neg h4, if_neg (by omega)]
      rfl
  · have hmin : min s.cpu.memory.num_holes (total - (s.heap p).num_page_in_mem)
        = total - (s.heap p).num_page_in_mem := min_eq_right (by omega)
    rw [if_neg h1, hmin, if_neg (by omega)]
    rfl

/-- The decision of `mem_alloc_func` under swapping: `evcit` is called for all pages still
required exactly when the holes do not suffice. -/
theorem require_pages_sp (queue : Queue) (s : Sys) (p : Ptr) (crp : Int) :
    require_pages .SP queue s p crp
      = if crp > s.cpu.memory.num_holes then
          (evcit .SP queue s crp).map (fun s1 => (s1, crp))
        else .ok (s, crp) := by
  unfold require_pages
  simp only
  split
  · rfl
  · rfl

/-- The shape of the state after the grant, in any state. -/
theorem grant_pages_shape (s1 s' : Sys) (p : Ptr) (total n : Int)
    (h : grant_pages s1 p total n = .ok s') :
    0 ≤ total
      ∧ s'.heap p = { s1.heap p with
          page_list := (s'.heap p).page_list
          load_time := n * LOAD_TIME
          num_page_in_mem := (s1.heap p).num_page_in_mem + n
          page_fault := total - ((s1.heap p).num_page_in_mem + n)
          remaining_time := (s1.heap p).remaining_time
            + (total - ((s1.heap p).num_page_in_mem + n))
          mem_usage := (s'.heap p).mem_usage }
      ∧ (∀ q, q ≠ p → s'.heap q = s1.heap q)
      ∧ s'.cpu.curr_time = s1.cpu.curr_time
      ∧ s'.cpu.memory.is_occupy_lst
          = (alloc_frames (s1.heap p).p_id n s1.cpu.memory.is_occupy_lst 0).1
      ∧ s'.cpu.memory.num_holes = s1.cpu.memory.num_holes
          - (alloc_frames (s1.heap p).p_id n s1.cpu.memory.is_occupy_lst 0).2
      ∧ ∃ e, s'.out = s1.out ++ [e] ∧ e.is_evicted = false := by
  unfold grant_pages at h
  simp only [bind, Except.bind] at h
  by_cases hneg : total < 0
  · rw [if_pos hneg] at h
    cases h
  · rw [if_neg hneg] at h
    simp only [pure, Except.pure] at h
    unfold print_mem_running at h
    simp only [bind, Except.bind] at h
    split at h
    · cases h
    · simp only [pure, Except.pure] at h
      cases h
      refine ⟨by omega, ?_, fun q hq => ?_, rfl, rfl, rfl, _, rfl, rfl⟩
      · simp [Sys.emit, Sys.setProc, Sys.setMem]
      · simp [Sys.emit, Sys.setProc, Sys.setMem, Function.update_noteq hq]

/-- The grant succeeds in a consistent state when the holes suffice, and takes exactly the pages
decided. -/
theorem grant_pages_ok (all : List Ptr) (s1 : Sys) (p : Ptr) (total n : Int)
    (hInv : Inv all s1) (hp : p ∈ all) (ht : 0 ≤ total) (hn : 0 ≤ n)
    (hle : n ≤ s1.cpu.memory.num_holes) :
    ∃ s', grant_pages s1 p total n = .ok s'
      ∧ s'.cpu.memory.num_holes = s1.cpu.memory.num_holes - n := by
  have hid := hInv.id_valid p hp
  have hfree : n - 0 ≤ (s1.cpu.memory.is_occupy_lst.count INVALID : Int) := by
    have := hInv.holes
    unfold free_count at this
    omega
  obtain ⟨a1, a2, a3, a4, a5⟩ :=
    alloc_frames_spec (s1.heap p).p_id n hid s1.cpu.memory.is_occupy_lst 0 hn hfree
  have hcnt1 := hInv.count p hp
  have hpages1 := hInv.pages p hp
  have hown : ((owned (s1.heap p).p_id 0
      (alloc_frames (s1.heap p).p_id n s1.cpu.memory.is_occupy_lst 0).1).length : Int)
      = n + (s1.heap p).num_page_in_mem := by
    rw [owned_length, a4, ← owned_length _ _ 0, ← hpages1]
    omega
  have hcollect : collect_frames (s1.heap p).p_id (n + (s1.heap p).num_page_in_mem) 0
      (alloc_frames (s1.heap p).p_id n s1.cpu.memory.is_occupy_lst 0).1 0
      = owned (s1.heap p).p_id 0
          (alloc_frames (s1.heap p).p_id n s1.cpu.memory.is_occupy_lst 0).1 := by
    rw [collect_frames_eq _ _ _ _ _ (by omega)]
    apply List.take_of_length_le
    omega
  unfold grant_pages
  simp only [bind, Except.bind]
  rw [if_neg (by omega)]
  simp only [pure, Except.pure]
  unfold print_mem_running
  simp only [bind, Except.bind, Sys.setProc, Sys.setMem, Function.update_same]
  rw [hcollect]
  have hread : read_cells (some (owned (s1.heap p).p_id 0
      (alloc_frames (s1.heap p).p_id n s1.cpu.memory.is_occupy_lst 0).1))
      ((s1.heap p).num_page_in_mem + n)
      = .ok (owned (s1.heap p).p_id 0
        (alloc_frames (s1.heap p).p_id n s1.cpu.memory.is_occupy_lst 0).1) := by
    have e : (s1.heap p).num_page_in_mem + n = ((owned (s1.heap p).p_id 0
      (alloc_frames (s1.heap p).p_id n s1.cpu.memory.is_occupy_lst 0).1).length : Int) := by
      omega
    rw [e]
    exact read_cells_some_all _
  rw [hread]
  refine ⟨_, rfl, ?_⟩
  simp only [Sys.emit, pure, Except.pure]
  rw [a1]

/-! ## Eviction succeeds when the queue holds enough pages -/

theorem resident_sum_cons (H : Heap) (v : Ptr) (rest : List Ptr) :
    resident_sum H (v :: rest) = (H v).num_page_in_mem + resident_sum H rest := by
  simp [resident_sum]

theorem resident_sum_congr_mem (H H' : Heap) (l : List Ptr)
    (h : ∀ q ∈ l, (H' q).num_page_in_mem = (H q).num_page_in_mem) :
    resident_sum H' l = resident_sum H l := by
  unfold resident_sum
  congr 1
  exact List.map_congr_left h

theorem resident_sum_nonneg (all : List Ptr) (s : Sys) (l : List Ptr) (hInv : Inv all s)
    (hl : ∀ q ∈ l, q ∈ all) : 0 ≤ resident_sum s.heap l := by
  induction l with
  | nil => simp [resident_sum]
  | cons v rest ih =>
    rw [resident_sum_cons]
    have := hInv.count v (hl v (by simp))
    have := ih (fun q hq => hl q (List.mem_cons_of_mem _ hq))
    omega

theorem resident_sum_perm (H : Heap) (l l' : List Ptr) (h : l.Perm l') :
    resident_sum H l = resident_sum H l' := by
  unfold resident_sum
  exact (h.map _).sum_eq

theorem evcit_loop_ok (all : List Ptr) (f : MemFlag) (crp : Int) (fuel : Nat) :
    ∀ (s : Sys) (rq : Queue) (ev : List Int), Inv all s → rq.Nodup → (∀ q ∈ rq, q ∈ all) →
      crp ≤ s.cpu.memory.num_holes + resident_sum s.heap rq → rq.length ≤ fuel →
      ∃ s' ev', evcit_loop f crp fuel s rq ev = .ok (s', ev') := by
  induction fuel with
  | zero =>
    intro s rq ev hInv hnd hq hsum hlen
    have : rq = [] := List.eq_nil_of_length_eq_zero (by omega)
    subst this
    unfold evcit_loop
    rw [if_neg (by simp [resident_sum] at hsum; omega)]
    exact ⟨_, _, rfl⟩
  | succ fuel ih =>
    intro s rq ev hInv hnd hq hsum hlen
    unfold evcit_loop
    by_cases hc : crp > s.cpu.memory.num_holes
    · rw [if_pos hc]
      cases rq with
      | nil => simp [resident_sum] at hsum; omega
      | cons v rest =>
        rw [dequeue_cons]
        simp only [bind, Except.bind]
        rw [resident_sum_cons] at hsum
        rw [List.nodup_cons] at hnd
        have hv : v ∈ all := hq v (by simp)
        have hrest : ∀ q ∈ rest, q ∈ all := fun q hq' => hq q (List.mem_cons_of_mem _ hq')
        have hlen' : rest.length ≤ fuel := by simp at hlen; omega
        have hcnt := hInv.count v hv
        have hnn := resident_sum_nonneg all s rest hInv hrest
        by_cases hpl : (s.heap v).page_list ≠ none
        · rw [if_pos hpl]
          generalize hnf : (if (f = MemFlag.VM ∨ f = MemFlag.CM)
              ∧ (s.heap v).num_page_in_mem ≥ crp - s.cpu.memory.num_holes
            then crp - s.cpu.memory.num_holes else (s.heap v).num_page_in_mem) = nf
          have hb : nf ≤ (s.heap v).num_page_in_mem
              ∧ (nf = (s.heap v).num_page_in_mem ∨ nf = crp - s.cpu.memory.num_holes) := by
            rw [← hnf]; split
            · rename_i hh; exact ⟨by omega, Or.inr rfl⟩
            · exact ⟨le_refl _, Or.inl rfl⟩
          by_cases hpos : nf > 0
          · rw [if_pos hpos]
            obtain ⟨s1, heq, hInv1, -, hholes1, -, hsame, -⟩ :=
              free_page_inv all s v (some ev) nf hInv hv (by omega) hb.1
            rw [heq]
            simp only
            apply ih s1 rest _ hInv1 hnd.2 hrest _ hlen'
            rw [resident_sum_congr_mem s.heap s1.heap rest
              (fun q hq' => by rw [hsame q (fun e => hnd.1 (e ▸ hq'))])]
            have hnn1 := hnn
            rcases hb.2 with h1 | h1 <;> omega
          · rw [if_neg hpos]
            apply ih s rest ev hInv hnd.2 hrest _ hlen'
            rcases hb.2 with h1 | h1 <;> omega
        · rw [if_neg hpl]
          apply ih s rest ev hInv hnd.2 hrest _ hlen'
          have : (s.heap v).page_list = none := by
            by_contra hcon; exact hpl hcon
          have hz : (s.heap v).num_page_in_mem = 0 := by
            rw [hcnt]; simp [cells, this]
          omega
    · rw [if_neg hc]
      exact ⟨_, _, rfl⟩

/-- The call of `evcit` returns when the holes and the pages of the processes of the queue
together reach the pages required. -/
theorem evcit_ok (all : List Ptr) (f : MemFlag) (queue : Queue) (s : Sys) (crp : Int)
    (hInv : Inv all s) (hnd : queue.Nodup) (hq : ∀ q ∈ queue, q ∈ all)
    (hsum : crp ≤ s.cpu.memory.num_holes + resident_sum s.heap queue) :
    ∃ s', evcit f queue s crp = .ok s' := by
  simp only [evcit, resort_eq, bind, Except.bind]
  have hperm := enqueue_list_perm s.heap (if f = MemFlag.CM then PrioFlag.MAXPAGE
      else PrioFlag.LASTET) queue new_queue
  have hperm' : (enqueue_list s.heap (if f = MemFlag.CM then PrioFlag.MAXPAGE
      else PrioFlag.LASTET) new_queue queue).Perm queue := by
    simpa [new_queue] using hperm
  obtain ⟨s1, ev, h1⟩ := evcit_loop_ok all f crp _ s _ [] hInv (hperm'.nodup_iff.2 hnd)
    (fun q hq' => hq q (hperm'.mem_iff.1 hq'))
    (by rw [resident_sum_perm _ _ _ hperm']; exact hsum) (Nat.le_succ _)
  rw [h1]
  simp only
  rw [print_evicted_sorted]
  exact ⟨_, rfl⟩

/-- At a dispatch the holes, the pages of the dispatched process and the pages of the queue add
up to the whole table. -/
theorem dispatched_sum (all : List Ptr) (s : Sys) (queue : Queue) (p : Ptr) (hInv : Inv all s)
    (hd : dispatched all s queue p) :
    s.cpu.memory.num_holes + (s.heap p).num_page_in_mem + resident_sum s.heap queue
      = s.cpu.memory.total_page := by
  obtain ⟨hp, hpq, hnd, hq, hz⟩ := hd
  have key : ∀ (l : List Ptr), l.Nodup → (∀ q ∈ l, q ∈ all) →
      resident_sum s.heap l
        = resident_sum s.heap (l.filter (fun q => decide (q = p ∨ q ∈ queue))) := by
    intro l hl hla
    induction l with
    | nil => rfl
    | cons a rest ih =>
      rw [List.nodup_cons] at hl
      have ih' := ih hl.2 (fun q hq' => hla q (List.mem_cons_of_mem _ hq'))
      rw [List.filter_cons]
      by_cases hc : a = p ∨ a ∈ queue
      · rw [if_pos (by simpa using hc), resident_sum_cons, resident_sum_cons, ih']
      · rw [if_neg (by simpa using hc), resident_sum_cons, ih']
        have := hz a (hla a (by simp)) (fun e => hc (Or.inl e)) (fun e => hc (Or.inr e))
        omega
  have hperm : (all.filter (fun q => decide (q = p ∨ q ∈ queue))).Perm (p :: queue) := by
    rw [List.perm_ext_iff_of_nodup (hInv.nodup.filter _)
      (List.nodup_cons.2 ⟨hpq, hnd⟩)]
    intro a
    simp only [List.mem_filter, decide_eq_true_eq, List.mem_cons]
    constructor
    · rintro ⟨-, h⟩; exact h
    · rintro (h | h)
      · exact ⟨h ▸ hp, Or.inl h⟩
      · exact ⟨hq a h, Or.inr h⟩
  have := hInv.sum
  rw [key all hInv.nodup (fun q hq' => hq'), resident_sum_perm _ _ _ hperm,
    resident_sum_cons] at this
  omega

/-! ## The cases of an admission -/

theorem bind_ok {α β : Type} (x : Except Fault α) (g : α → Except Fault β) (b : β)
    (h : x.bind g = .ok b) : ∃ a, x = .ok a ∧ g a = .ok b := by
  cases x with
  | error e => cases h
  | ok a => exact ⟨a, rfl, h⟩

theorem map_ok {α β : Type} (x : Except Fault α) (g : α → β) (b : β)
    (h : x.map g = .ok b) : ∃ a, x = .ok a ∧ g a = b := by
  cases x with
  | error e => cases h
  | ok a => cases h; exact ⟨a, rfl, rfl⟩

/-- The decision of `mem_alloc_func` either leaves the state alone or is the state after one call
of `evcit` for the number of pages decided. -/
theorem require_pages_cases (f : MemFlag) (queue : Queue) (s s1 : Sys) (p : Ptr) (crp n : Int)
    (h : require_pages f queue s p crp = .ok (s1, n)) :
    s1 = s ∨ evcit f queue s n = .ok s1 := by
  unfold require_pages at h
  simp only at h
  split_ifs at h
  all_goals first
    | (cases h; exact Or.inl rfl)
    | (obtain ⟨a, ha, hb⟩ := bind_ok _ _ _ h
       cases hb
       exact Or.inr ha)

/-- An admission under a bounded mode is either the admission of a fully resident process, or a
decision, with at most one call of `evcit`, followed by the grant. -/
theorem mem_alloc_func_cases (f : MemFlag) (queue : Queue) (s s' : Sys) (p : Ptr) (hf : f ≠ .UN)
    (h : mem_alloc_func f queue s p = .ok s') :
    ((s.heap p).num_page_in_mem = required_pages (s.heap p)
        ∧ s'.heap p = { s.heap p with load_time := 0, page_fault := 0 }
        ∧ (∀ q, q ≠ p → s'.heap q = s.heap q) ∧ s'.cpu = s.cpu
        ∧ ∃ e, s'.out = s.out ++ [e] ∧ e.is_evicted = false)
      ∨ ((s.heap p).num_page_in_mem ≠ required_pages (s.heap p)
        ∧ ∃ s1 n, require_pages f queue s p
              (required_pages (s.heap p) - (s.heap p).num_page_in_mem) = .ok (s1, n)
          ∧ (s1 = s ∨ evcit f queue s n = .ok s1)
          ∧ grant_pages s1 p (required_pages (s.heap p)) n = .ok s') := by
  by_cases hc : required_pages (s.heap p) - (s.heap p).num_page_in_mem = 0
  · left
    unfold mem_alloc_func at h
    rw [if_neg hf] at h
    unfold required_pages at hc
    simp only at h
    rw [if_pos hc] at h
    unfold print_mem_running at h
    obtain ⟨c, -, hb⟩ := bind_ok _ _ _ h
    cases hb
    refine ⟨by unfold required_pages; omega, ?_, ?_, rfl, ⟨_, rfl, rfl⟩⟩
    · simp [Sys.emit, Sys.setProc]
    · intro q hq
      simp [Sys.emit, Sys.setProc, Function.update_noteq hq]
  · right
    rw [mem_alloc_func_eq f queue s p hf hc] at h
    obtain ⟨⟨s1, n⟩, ha, hb⟩ := bind_ok _ _ _ h
    exact ⟨by omega, s1, n, ha, require_pages_cases f queue s s1 p _ n ha, hb⟩

/-- The cases of an admission under virtual memory or the custom mode. -/
theorem mem_alloc_func_vm_cases (f : MemFlag) (queue : Queue) (s s' : Sys) (p : Ptr)
    (hf : f = .VM ∨ f = .CM) (hh : 0 ≤ s.cpu.memory.num_holes)
    (hn : 0 ≤ (s.heap p).num_page_in_mem)
    (h : mem_alloc_func f queue s p = .ok s') :
    ((s.heap p).num_page_in_mem = required_pages (s.heap p)
        ∧ s'.heap p = { s.heap p with load_time := 0, page_fault := 0 }
        ∧ (∀ q, q ≠ p → s'.heap q = s.heap q) ∧ s'.cpu = s.cpu
        ∧ ∃ e, s'.out = s.out ++ [e] ∧ e.is_evicted = false)
      ∨ ((s.heap p).num_page_in_mem ≠ required_pages (s.heap p)
        ∧ ¬ (s.heap p).num_page_in_mem + s.cpu.memory.num_holes
            < min MIN_EXE_PAGE (required_pages (s.heap p))
        ∧ grant_pages s p (required_pages (s.heap p))
            (min s.cpu.memory.num_holes
              (required_pages (s.heap p) - (s.heap p).num_page_in_mem)) = .ok s')
      ∨ ((s.heap p).num_page_in_mem ≠ required_pages (s.heap p)
        ∧ (s.heap p).num_page_in_mem + s.cpu.memory.num_holes
            < min MIN_EXE_PAGE (required_pages (s.heap p))
        ∧ ∃ s1, evcit f queue s
              (min MIN_EXE_PAGE (required_pages (s.heap p)) - (s.heap p).num_page_in_mem)
              = .ok s1
          ∧ grant_pages s1 p (required_pages (s.heap p))
              (min MIN_EXE_PAGE (required_pages (s.heap p)) - (s.heap p).num_page_in_mem)
              = .ok s') := by
  have hf' : f ≠ .UN := by rcases hf with h1 | h1 <;> rw [h1] <;> decide
  rcases mem_alloc_func_cases f queue s s' p hf' h with hz | ⟨hne, s1, n, hreq, -, hg⟩
  · exact Or.inl hz
  · right
    rw [require_pages_vm f queue s p (required_pages (s.heap p)) hf hh hn] at hreq
    by_cases hc : (s.heap p).num_page_in_mem + s.cpu.memory.num_holes
        < min MIN_EXE_PAGE (required_pages (s.heap p))
    · right
      rw [if_pos hc] at hreq
      obtain ⟨a, ha, hb⟩ := map_ok _ _ _ hreq
      cases hb
      exact ⟨hne, hc, _, ha, hg⟩
    · left
      rw [if_neg hc] at hreq
      cases hreq
      exact ⟨hne, hc, hg⟩

theorem inv_holes_nonneg (all : List Ptr) (s : Sys) (hInv : Inv all s) :
    0 ≤ s.cpu.memory.num_holes := by
  rw [hInv.holes]; unfold free_count; omega

theorem inv_count_nonneg (all : List Ptr) (s : Sys) (p : Ptr) (hInv : Inv all s) (hp : p ∈ all) :
    0 ≤ (s.heap p).num_page_in_mem := by
  rw [hInv.count p hp]; omega

/-- The grant of `n` pages, `n` at most the holes, in a consistent state: the counters. -/
theorem grant_pages_counts (all : List Ptr) (s1 s' : Sys) (p : Ptr) (total n : Int)
    (hInv : Inv all s1) (hp : p ∈ all) (hn : 0 ≤ n) (hle : n ≤ s1.cpu.memory.num_holes)
    (h : grant_pages s1 p total n = .ok s') :
    (s'.heap p).num_page_in_mem = (s1.heap p).num_page_in_mem + n
      ∧ s'.cpu.memory.num_holes = s1.cpu.memory.num_holes - n
      ∧ ∃ e, s'.out = s1.out ++ [e] ∧ e.is_evicted = false := by
  obtain ⟨ht, hheap, -, -, -, -, hout⟩ := grant_pages_shape s1 s' p total n h
  obtain ⟨s2, h1, h2⟩ := grant_pages_ok all s1 p total n hInv hp ht hn hle
  rw [h] at h1
  cases h1
  refine ⟨?_, h2, hout⟩
  rw [hheap]

/-- The result of an admission under virtual memory or the custom mode in a consistent state;
the case with an eviction is for a queue that does not hold the process. -/
theorem vm_admit_result (all : List Ptr) (f : MemFlag) (queue : Queue) (s s' : Sys) (p : Ptr)
    (hf : f = .VM ∨ f = .CM) (hInv : Inv all s) (hp : p ∈ all)
    (h : mem_alloc_func f queue s p = .ok s') :
    (¬ (s.heap p).num_page_in_mem + s.cpu.memory.num_holes
          < min MIN_EXE_PAGE (required_pages (s.heap p)) →
        (∃ e, s'.out = s.out ++ [e] ∧ e.is_evicted = false)
        ∧ (s'.heap p).num_page_in_mem = (s.heap p).num_page_in_mem
            + min s.cpu.memory.num_holes
                (required_pages (s.heap p) - (s.heap p).num_page_in_mem)
        ∧ s'.cpu.memory.num_holes = s.cpu.memory.num_holes
            - min s.cpu.memory.num_holes
                (required_pages (s.heap p) - (s.heap p).num_page_in_mem))
      ∧ ((s.heap p).num_page_in_mem + s.cpu.memory.num_holes
          < min MIN_EXE_PAGE (required_pages (s.heap p)) →
        (∀ q ∈ queue, q ∈ all) → p ∉ queue →
        (∃ l e, s'.out = s.out ++ [.evicted s.cpu.curr_time l, e] ∧ e.is_evicted = false
          ∧ (l.length : Int) = min MIN_EXE_PAGE (required_pages (s.heap p))
              - (s.heap p).num_page_in_mem - s.cpu.memory.num_holes)
        ∧ (s'.heap p).num_page_in_mem = min MIN_EXE_PAGE (required_pages (s.heap p))
        ∧ s'.cpu.memory.num_holes = 0) := by
  have hh := inv_holes_nonneg all s hInv
  have hn := inv_count_nonneg all s p hInv hp
  have hb := hInv.bound p hp
  have hm1 := min_le_left MIN_EXE_PAGE (required_pages (s.heap p))
  have hm2 := min_le_right MIN_EXE_PAGE (required_pages (s.heap p))
  have hm3 := min_le_left s.cpu.memory.num_holes
    (required_pages (s.heap p) - (s.heap p).num_page_in_mem)
  have hm4 := min_le_right s.cpu.memory.num_holes
    (required_pages (s.heap p) - (s.heap p).num_page_in_mem)
  have h4 : MIN_EXE_PAGE = 4 := rfl
  rcases mem_alloc_func_vm_cases f queue s s' p hf hh hn h with
    ⟨hz, hheap, -, hcpu, hout⟩ | ⟨hne, hc, hg⟩ | ⟨hne, hc, s1, hev, hg⟩
  · have hmin : min s.cpu.memory.num_holes
        (required_pages (s.heap p) - (s.heap p).num_page_in_mem) = 0 := by
      rw [hz, sub_self]; exact min_eq_right hh
    refine ⟨fun _ => ⟨hout, ?_, ?_⟩, fun hc _ _ => ?_⟩
    · rw [hheap, hmin]; simp
    · rw [hcpu, hmin]; simp
    · omega
  · refine ⟨fun _ => ?_, fun hc' _ _ => absurd hc' hc⟩
    have ht := (grant_pages_shape s s' p _ _ hg).1
    have hreq : (required_pages (s.heap p)) = (s.heap p).mem_size_req.tdiv PAGE_SIZE := rfl
    have hpos : 0 ≤ min s.cpu.memory.num_holes
        (required_pages (s.heap p) - (s.heap p).num_page_in_mem) :=
      le_min hh (by omega)
    obtain ⟨a, b, c⟩ := grant_pages_counts all s s' p _ _ hInv hp hpos hm3 hg
    exact ⟨c, a, b⟩
  · refine ⟨fun hc' => absurd hc hc', fun _ hq hpq => ?_⟩
    obtain ⟨hInv1, hge, -⟩ := evcit_inv all f queue s s1 _ hInv hq hev
    obtain ⟨⟨l, hl, hlen, -⟩, -, -, -, hsame, -, hexact⟩ := evcit_shape f queue s s1 _ hev
    have hholes1 := hexact hf (by omega)
    have hp1 : s1.heap p = s.heap p := hsame p hpq
    obtain ⟨a, b, e, he, he'⟩ := grant_pages_counts all s1 s' p _ _ hInv1 hp (by omega)
      (by omega) hg
    refine ⟨⟨l, e, ?_, he', ?_⟩, ?_, ?_⟩
    · rw [he, hl]; simp
    · rw [hlen, hholes1]
    · rw [a, hp1]; omega
    · rw [b, hholes1]; omega

/-- The admission of a fully resident process returns. -/
theorem mem_alloc_func_full_ok (all : List Ptr) (f : MemFlag) (queue : Queue) (s : Sys) (p : Ptr)
    (hf : f ≠ .UN) (hInv : Inv all s) (hp : p ∈ all)
    (hz : (s.heap p).num_page_in_mem = required_pages (s.heap p)) :
    ∃ s', mem_alloc_func f queue s p = .ok s' := by
  have hcnt := hInv.count p hp
  have hread : read_cells (s.heap p).page_list (s.heap p).num_page_in_mem
      = .ok (cells (s.heap p)) := by
    rw [read_cells_ok (s.heap p) _ (by omega)]
    have : (s.heap p).num_page_in_mem.toNat = (cells (s.heap p)).length := by omega
    rw [this, List.take_length]
  unfold mem_alloc_func
  rw [if_neg hf]
  unfold required_pages at hz
  simp only
  rw [if_pos (by omega)]
  unfold print_mem_running
  simp only [Sys.setProc, Function.update_same, bind, Except.bind, hread, pure, Except.pure]
  exact ⟨_, rfl⟩

/-- An admission under swapping at a dispatch returns, and the process then holds all the pages
it requires, when it requires no more pages than the table has frames. -/
theorem sp_admit_ok (all : List Ptr) (queue : Queue) (s : Sys) (p : Ptr)
    (hInv : Inv all s) (hd : dispatched all s queue p)
    (h0 : 0 ≤ required_pages (s.heap p))
    (hle : required_pages (s.heap p) ≤ s.cpu.memory.total_page) :
    ∃ s', mem_alloc_func .SP queue s p = .ok s'
      ∧ (s'.heap p).num_page_in_mem = required_pages (s.heap p) := by
  have hsum := dispatched_sum all s queue p hInv hd
  obtain ⟨hp, hpq, hnd, hq, -⟩ := hd
  have hh := inv_holes_nonneg all s hInv
  have hn := inv_count_nonneg all s p hInv hp
  have hb := hInv.bound p hp
  have hreq : (required_pages (s.heap p)) = (s.heap p).mem_size_req.tdiv PAGE_SIZE := rfl
  by_cases hz : (s.heap p).num_page_in_mem = required_pages (s.heap p)
  · obtain ⟨s', hs'⟩ := mem_alloc_func_full_ok all .SP queue s p (by decide) hInv hp hz
    refine ⟨s', hs', ?_⟩
    rcases mem_alloc_func_cases .SP queue s s' p (by decide) hs' with ⟨-, hheap, -⟩ | ⟨hne, -⟩
    · rw [hheap]; exact hz
    · exact absurd hz hne
  · rw [mem_alloc_func_eq .SP queue s p (by decide) (by omega), require_pages_sp]
    by_cases hc : required_pages (s.heap p) - (s.heap p).num_page_in_mem
        > s.cpu.memory.num_holes
    · rw [if_pos hc]
      obtain ⟨s1, hev⟩ := evcit_ok all .SP queue s
        (required_pages (s.heap p) - (s.heap p).num_page_in_mem) hInv hnd hq (by omega)
      obtain ⟨hInv1, hge, -⟩ := evcit_inv all .SP queue s s1 _ hInv hq hev
      have hp1 : s1.heap p = s.heap p := (evcit_shape .SP queue s s1 _ hev).2.2.2.2.1 p hpq
      obtain ⟨s', hg, -⟩ := grant_pages_ok all s1 p (required_pages (s.heap p))
        (required_pages (s.heap p) - (s.heap p).num_page_in_mem) hInv1 hp h0 (by omega) hge
      refine ⟨s', ?_, ?_⟩
      · rw [hev]; exact hg
      · rw [(grant_pages_shape s1 s' p _ _ hg).2.1, hp1]; simp
    · rw [if_neg hc]
      obtain ⟨s', hg, -⟩ := grant_pages_ok all s p (required_pages (s.heap p))
        (required_pages (s.heap p) - (s.heap p).num_page_in_mem) hInv hp h0 (by omega)
        (by omega)
      refine ⟨s', hg, ?_⟩
      rw [(grant_pages_shape s s' p _ _ hg).2.1]; simp

/-! ## The allocation loop takes the lowest free frames -/

theorem alloc_frames_lowest (id crp : Int) (T : List Int) :
    ∀ (k b : Int) (j : Nat), k ≤ crp →
      (alloc_frames id crp T k).1[j]?
        = if b + (j : Int) ∈ (owned INVALID b T).take (crp - k).toNat then some id else T[j]? := by
  induction T with
  | nil => intro k b j hk; simp [alloc_frames, owned]
  | cons slot rest ih =>
    intro k b j hk
    unfold alloc_frames
    by_cases h1 : k = crp
    · rw [if_pos h1]
      subst h1
      simp
    · rw [if_neg h1]
      have hsucc : (crp - k).toNat = (crp - (k + 1)).toNat + 1 := by omega
      by_cases h2 : slot = INVALID
      · rw [if_pos h2]
        simp only
        have ho : owned INVALID b (slot :: rest) = b :: owned INVALID (b + 1) rest := by
          simp [owned, h2]
        rw [ho, hsucc, List.take_succ_cons]
        cases j with
        | zero => simp
        | succ j' =>
          rw [List.getElem?_cons_succ, List.getElem?_cons_succ, ih (k + 1) (b + 1) j' (by omega)]
          have e1 : b + ((j' + 1 : Nat) : Int) = b + 1 + (j' : Int) := by push_cast; ring
          have e2 : b + 1 + (j' : Int) ≠ b := by omega
          have e3 : b + ((j' + 1 : Nat) : Int) ≠ b := by omega
          exact if_congr ⟨fun hm => List.mem_cons_of_mem _ (by rw [e1]; exact hm),
            fun hm => by rw [← e1]; exact (List.mem_cons.1 hm).resolve_left e3⟩ rfl rfl
      · rw [if_neg h2]
        simp only
        have ho : owned INVALID b (slot :: rest) = owned INVALID (b + 1) rest := by
          simp only [owned]
          rw [if_neg h2]
        rw [ho]
        cases j with
        | zero =>
          have : ¬ b + ((0 : Nat) : Int) ∈ (owned INVALID (b + 1) rest).take (crp - k).toNat := by
            intro hm
            have := owned_lower INVALID rest (b + 1) _ (List.mem_of_mem_take hm)
            simp at this
          rw [if_neg this]
          simp
        | succ j' =>
          rw [List.getElem?_cons_succ, List.getElem?_cons_succ, ih k (b + 1) j' hk]
          have e1 : b + ((j' + 1 : Nat) : Int) = b + 1 + (j' : Int) := by push_cast; ring
          rw [e1]

theorem same_but_pages_fields {a b : ProcessInfo} (h : same_but_pages a b) :
    b.p_id = a.p_id ∧ b.mem_size_req = a.mem_size_req ∧ b.remaining_time = a.remaining_time
      ∧ b.load_time = a.load_time ∧ b.page_fault = a.page_fault := by
  unfold same_but_pages at h
  rw [h]
  exact ⟨rfl, rfl, rfl, rfl, rfl⟩

/-- The state before the grant of an admission: the state itself, or the state after the one
call of `evcit`. It keeps the id, the memory size and the remaining time of every process. -/
theorem before_grant_fields (f : MemFlag) (queue : Queue) (s s1 : Sys) (n : Int)
    (h : s1 = s ∨ evcit f queue s n = .ok s1) (q : Ptr) :
    (s1.heap q).p_id = (s.heap q).p_id ∧ (s1.heap q).mem_size_req = (s.heap q).mem_size_req
      ∧ (s1.heap q).remaining_time = (s.heap q).remaining_time
      ∧ (q ∉ queue → s1.heap q = s.heap q) := by
  rcases h with h | h
  · subst h; exact ⟨rfl, rfl, rfl, fun _ => rfl⟩
  · obtain ⟨-, -, -, -, hsame, hsbp, -⟩ := evcit_shape f queue s s1 n h
    obtain ⟨a, b, c, -⟩ := same_but_pages_fields (hsbp q)
    exact ⟨a, b, c, hsame q⟩

/-- The lines that an admission under virtual memory or the custom mode writes: the line of the
admission, after a line `EVICTED` exactly when the pages held and the holes are below the
threshold. -/
theorem vm_admit_events (f : MemFlag) (queue : Queue) (s s' : Sys) (p : Ptr)
    (hf : f = .VM ∨ f = .CM) (hh : 0 ≤ s.cpu.memory.num_holes)
    (hn : 0 ≤ (s.heap p).num_page_in_mem) (h : mem_alloc_func f queue s p = .ok s') :
    (s'.out.drop s.out.length).any Event.is_evicted = true
      ↔ (s.heap p).num_page_in_mem + s.cpu.memory.num_holes
          < min MIN_EXE_PAGE (required_pages (s.heap p)) := by
  have hm1 := min_le_left MIN_EXE_PAGE (required_pages (s.heap p))
  have hm2 := min_le_right MIN_EXE_PAGE (required_pages (s.heap p))
  have none_of : ∀ e : Event, s'.out = s.out ++ [e] → e.is_evicted = false →
      ¬ (s'.out.drop s.out.length).any Event.is_evicted = true := by
    intro e he he'
    rw [he, List.drop_left]
    simp [he']
  rcases mem_alloc_func_vm_cases f queue s s' p hf hh hn h with
    ⟨hz, -, -, -, e, he, he'⟩ | ⟨-, hc, hg⟩ | ⟨-, hc, s1, hev, hg⟩
  · exact ⟨fun hx => absurd hx (none_of e he he'), fun hc => by omega⟩
  · obtain ⟨-, -, -, -, -, -, e, he, he'⟩ := grant_pages_shape s s' p _ _ hg
    exact ⟨fun hx => absurd hx (none_of e he he'), fun hc' => absurd hc' hc⟩
  · refine ⟨fun _ => hc, fun _ => ?_⟩
    obtain ⟨⟨l, hl, -⟩, -⟩ := evcit_shape f queue s s1 _ hev
    obtain ⟨-, -, -, -, -, -, e, he, -⟩ := grant_pages_shape s1 s' p _ _ hg
    rw [he, hl, List.append_assoc, List.drop_left]
    simp [Event.is_evicted]

/-! ## More sample states -/

theorem sample_init_inv :
    Inv (List.range sample_records.length) (init_sys sample_records 8 3) :=
  inv_init sample_records 8 3 sample_unique
theorem sample_vm_first_eq :
    mem_alloc_func .VM [1, 2] (init_sys sample_records 8 3) 0 = .ok sample_vm_first := rfl
theorem sample_vm_second_eq :
    mem_alloc_func .VM [0, 2] sample_vm_first 1 = .ok sample_vm_second := rfl
theorem sample_vm_first_inv : Inv (List.range sample_records.length) sample_vm_first :=
  mem_alloc_func_inv _ .VM [1, 2] _ _ 0 sample_init_inv (by decide) (by decide)
    sample_vm_first_eq

/-! ## The queues of the simulation -/

theorem read_lines_perm (rs : List Record) :
    ∀ (next : Nat) (H : Heap) (q : Queue),
      (read_lines rs next H q).2.Perm (q ++ List.range' next rs.length) := by
  induction rs with
  | nil => intro next H q; simp [read_lines]
  | cons r rest ih =>
    intro next H q
    unfold read_lines
    simp only
    refine (ih (next + 1) _ _).trans ?_
    rw [List.length_cons, List.range'_succ]
    refine ((enqueue_perm _ _ _ _).append_right _).trans ?_
    exact (List.perm_middle).symm

theorem read_file_perm (records : List Record) :
    (read_file records).2.Perm (List.range records.length) := by
  have := read_lines_perm records 0 (fun _ => new_ProcessInfo) new_queue
  rw [List.range_eq_range']
  simpa [new_queue, read_file] using this

theorem arrivals_nodup (sched : SchedFlag) (H : Heap) (t : Int) (fuel : Nat) :
    ∀ (queue waiting q' w' : Queue), arrivals sched H t fuel queue waiting = .ok (q', w') →
      queue.Nodup → waiting.Nodup → (∀ x ∈ queue, x ∉ waiting) →
      q'.Nodup ∧ w'.Nodup ∧ (∀ x ∈ q', x ∉ w') ∧ (∀ x ∈ waiting, x ∈ w') := by
  induction fuel with
  | zero =>
    intro queue waiting q' w' h hq hw hd
    unfold arrivals at h
    split at h
    · cases h
    · cases h; exact ⟨hq, hw, hd, fun x hx => hx⟩
  | succ fuel ih =>
    intro queue waiting q' w' h hq hw hd
    unfold arrivals at h
    split at h
    · cases queue with
      | nil => simp [get_queue_size] at *
      | cons a rest =>
        have hg : get_queue_point (a :: rest) 0 = .ok a :=
          get_queue_point_get (a :: rest) ⟨0, by simp⟩
        rw [hg, dequeue_cons] at h
        simp only [bind, Except.bind] at h
        rw [List.nodup_cons] at hq
        split at h
        · have key : ∀ k, arrivals sched H t fuel rest (enqueue H waiting a k) = .ok (q', w') →
              q'.Nodup ∧ w'.Nodup ∧ (∀ x ∈ q', x ∉ w') ∧ (∀ x ∈ waiting, x ∈ w') := by
            intro k hk
            have hperm := enqueue_perm H k waiting a
            obtain ⟨h1, h2, h3, h4⟩ := ih rest _ q' w' hk hq.2
              (hperm.nodup_iff.2 (List.nodup_cons.2 ⟨hd a (by simp), hw⟩))
              (by
                intro x hx hx'
                rcases List.mem_cons.1 (hperm.mem_iff.1 hx') with h5 | h5
                · rw [h5] at hx; exact hq.1 hx
                · exact hd x (List.mem_cons_of_mem _ hx) h5)
            exact ⟨h1, h2, h3, fun x hx =>
              h4 x (hperm.mem_iff.2 (List.mem_cons_of_mem _ hx))⟩
          cases sched
          · exact key _ h
          · exact key _ h
          · exact key _ h
        · cases h; exact ⟨List.nodup_cons.2 hq, hw, hd, fun x hx => hx⟩
    · cases h; exact ⟨hq, hw, hd, fun x hx => hx⟩

/-- An admission leaves alone every process that is neither admitted nor in the queue. -/
theorem mem_alloc_func_others (f : MemFlag) (queue : Queue) (s s' : Sys) (p : Ptr)
    (h : mem_alloc_func f queue s p = .ok s') (q : Ptr) (hqp : q ≠ p) (hq : q ∉ queue) :
    s'.heap q = s.heap q := by
  by_cases hf : f = .UN
  · subst hf
    unfold mem_alloc_func at h
    rw [if_pos rfl] at h
    cases h
    simp [print_running, Sys.emit, Sys.setProc, Function.update_noteq hqp]
  · rcases mem_alloc_func_cases f queue s s' p hf h with
      ⟨-, -, hothers, -⟩ | ⟨-, s1, n, -, hs1, hg⟩
    · exact hothers q hqp
    · rw [(grant_pages_shape s1 s' p _ n hg).2.2.1 q hqp]
      exact (before_grant_fields f queue s s1 n hs1 q).2.2.2 hq

/-- The finish of a process leaves every other process alone. -/
theorem print_finished_others (f : MemFlag) (s s' : Sys) (p : Ptr) (queue : Queue)
    (h : print_finished f s p queue = .ok s') (q : Ptr) (hqp : q ≠ p) :
    s'.heap q = s.heap q := by
  unfold print_finished at h
  by_cases hf : f ≠ .UN
  · rw [if_pos hf] at h
    simp only [bind, Except.bind, pure, Except.pure] at h
    split at h
    · cases h
    · rename_i s1 hs1
      split at h
      · cases h
      · rename_i s2 hs2
        cases h
        obtain ⟨e, he⟩ : ∃ e, s1 = s.emit e := by
          unfold print_evicted at hs1
          simp only [bind, Except.bind, pure, Except.pure] at hs1
          split at hs1
          · cases hs1
          · cases hs1; exact ⟨_, rfl⟩
        obtain ⟨⟨-, -, -, hsame, -⟩, -⟩ := free_page_shape _ _ p _ _ _ hs2
        show s2.1.heap q = s.heap q
        rw [hsame q hqp, he]
        rfl
  · rw [if_neg hf] at h
    cases h
    rfl

/-! ## The invariant of the simulation -/

theorem same_memory_set_last (s : Sys) (p : Ptr) (t : Int) :
    same_memory s (s.setProc p { s.heap p with last_execution_time := t }) := by
  refine ⟨rfl, rfl, fun q => ?_⟩
  by_cases hqp : q = p
  · subst hqp; simp [Sys.setProc]
  · simp [Sys.setProc, Function.update_noteq hqp]

theorem same_memory_set_complete (s : Sys) (p : Ptr) (t : Int) :
    same_memory s (s.setProc p { s.heap p with complete_time := t }) := by
  refine ⟨rfl, rfl, fun q => ?_⟩
  by_cases hqp : q = p
  · subst hqp; simp [Sys.setProc]
  · simp [Sys.setProc, Function.update_noteq hqp]

theorem same_memory_record_statistic (s : Sys) (p : Ptr) :
    same_memory s (record_statistic s p) :=
  ⟨rfl, rfl, fun _ => ⟨rfl, rfl, rfl, rfl⟩⟩

theorem same_memory_complete_num (s : Sys) (n : Int) :
    same_memory s { s with cpu := { s.cpu with complete_num_process := n } } :=
  ⟨rfl, rfl, fun _ => ⟨rfl, rfl, rfl, rfl⟩⟩

theorem same_memory_set_time (s : Sys) (t : Int) :
    same_memory s { s with cpu := { s.cpu with curr_time := t } } :=
  ⟨rfl, rfl, fun _ => ⟨rfl, rfl, rfl, rfl⟩⟩

theorem sim_init_inv (records : List Record) (frames : Nat) (quantum : Int) (st0 : Sim)
    (hu : unique_ids records)
    (h : sim_init (read_file records).2 (init_sys records frames quantum) = .ok st0) :
    SimInv (List.range records.length) st0 := by
  have hInv := inv_init records frames quantum hu
  have hperm := read_file_perm records
  have hidle : ∀ q ∈ List.range records.length,
      ((init_sys records frames quantum).heap q).num_page_in_mem = 0 := by
    intro q hq
    rw [init_heap records frames quantum q (List.mem_range.1 hq)]
    rfl
  unfold sim_init at h
  split at h
  · cases hqq : (read_file records).2 with
    | nil => rw [hqq] at h; rw [dequeue_nil] at h; cases h
    | cons p rest =>
      rw [hqq] at h hperm
      rw [dequeue_cons] at h
      simp only [bind, Except.bind, pure, Except.pure] at h
      cases h
      have hnd : (p :: rest).Nodup := hperm.nodup_iff.2 (List.nodup_range _)
      rw [List.nodup_cons] at hnd
      have hpe := enqueue_perm (init_sys records frames quantum).heap .ARRT new_queue p
      refine ⟨hInv, hpe.nodup_iff.2 (by simp [new_queue]), hnd.2, fun q hq => ?_,
        fun q hq => hperm.mem_iff.1 (List.mem_cons_of_mem _ hq), fun q hq hq' => ?_,
        fun q hq _ => hidle q hq⟩
      · have := hpe.mem_iff.1 hq
        simp [new_queue] at this
        rw [this]; exact hperm.mem_iff.1 (by simp)
      · have := hpe.mem_iff.1 hq'
        simp [new_queue] at this
        rw [this] at hq; exact hnd.1 hq
  · cases h
    rename_i hc
    have hnil : (read_file records).2 = [] := by
      cases hqq : (read_file records).2 with
      | nil => rfl
      | cons a l => rw [hqq] at hc; simp [get_queue_size] at hc
    refine ⟨hInv, by simp [new_queue], by rw [hnil]; simp, fun q hq => ?_, fun q hq => ?_,
      fun q _ hq => ?_, fun q hq _ => hidle q hq⟩
    · simp [new_queue] at hq
    · rw [hnil] at hq; simp at hq
    · simp [new_queue] at hq

theorem sim_step_inv (all : List Ptr) (sched : SchedFlag) (mem : MemFlag) (st st' : Sim)
    (hm : mem ≠ .UN) (hI : SimInv all st) (h : sim_step sched mem st = .ok st') :
    SimInv all st' := by
  obtain ⟨hInv, hwnd, hqnd, hw, hq, hdis, hidle⟩ := hI
  unfold sim_step at h
  split at h
  · cases hwq : st.waiting_queue with
    | nil => rw [hwq] at h; rw [dequeue_nil] at h; cases h
    | cons p w =>
      rw [hwq] at h hw hwnd hdis hidle
      rw [dequeue_cons] at h
      simp only [bind, Except.bind] at h
      rw [List.nodup_cons] at hwnd
      have hp : p ∈ all := hw p (by simp)
      have hw' : ∀ x ∈ w, x ∈ all := fun x hx => hw x (List.mem_cons_of_mem _ hx)
      have hpq : p ∉ st.queue := fun hx => hdis p hx (by simp)
      have hdis' : ∀ x ∈ st.queue, x ∉ w :=
        fun x hx hx' => hdis x hx (List.mem_cons_of_mem _ hx')
      split at h
      · cases h
      · rename_i s1 hs1
        have hInv1 : Inv all s1 := mem_alloc_func_inv all mem w st.sys s1 p hInv hp hw' hs1
        have hidle1 : ∀ q ∈ all, q ≠ p → q ∉ w → (s1.heap q).num_page_in_mem = 0 := by
          intro q hqa hqp hqw
          rw [mem_alloc_func_others mem w st.sys s1 p hs1 q hqp hqw]
          exact hidle q hqa (by simp [hqp, hqw])
        have hsm2 := same_memory_add_curr_time sched s1 p
        have hInv2 := inv_same_memory all _ _ hsm2 hInv1
        split at h
        · cases h
        · rename_i v harr
          obtain ⟨q', w2⟩ := v
          obtain ⟨hq', hw2⟩ := arrivals_mem sched _ _ _ _ _ _ _ harr
          obtain ⟨hq'nd, hw2nd, hdis2, hsub⟩ :=
            arrivals_nodup sched _ _ _ _ _ _ _ harr hqnd hwnd.2 hdis'
          have hq'' : ∀ x ∈ q', x ∈ all := fun x hx => hq x (hq' x hx)
          have hw2' : ∀ x ∈ w2, x ∈ all := by
            intro x hx
            rcases hw2 x hx with h1 | h1
            · exact hw' x h1
            · exact hq x h1
          have hpw2 : p ∉ w2 := by
            intro hx
            rcases hw2 p hx with h1 | h1
            · exact hwnd.1 h1
            · exact hpq h1
          simp only at h
          have hsm3 := same_memory_set_last (add_curr_time sched s1 p) p
            (add_curr_time sched s1 p).cpu.curr_time
          have hInv3 := inv_same_memory all _ _ hsm3 hInv2
          have hidle3 : ∀ q ∈ all, q ≠ p → q ∉ w2 →
              (((add_curr_time sched s1 p).setProc p
                { (add_curr_time sched s1 p).heap p with
                  last_execution_time := (add_curr_time sched s1 p).cpu.curr_time }).heap
                    q).num_page_in_mem = 0 := by
            intro q hqa hqp hqw
            rw [(hsm3.2.2 q).2.2.1, (hsm2.2.2 q).2.2.1]
            exact hidle1 q hqa hqp (fun hx => hqw (hsub q hx))
          split at h
          · cases h
            have hpe := enqueue_perm ((add_curr_time sched s1 p).setProc p
                { (add_curr_time sched s1 p).heap p with
                  last_execution_time := (add_curr_time sched s1 p).cpu.curr_time }).heap
                .LASTET w2 p
            refine ⟨hInv3, hpe.nodup_iff.2 (List.nodup_cons.2 ⟨hpw2, hw2nd⟩), hq'nd,
              fun x hx => ?_, hq'', fun x hx hx' => ?_, fun x hxa hx => ?_⟩
            · rcases List.mem_cons.1 (hpe.mem_iff.1 hx) with h1 | h1
              · rw [h1]; exact hp
              · exact hw2' x h1
            · rcases List.mem_cons.1 (hpe.mem_iff.1 hx') with h1 | h1
              · rw [h1] at hx; exact hpq (hq' p hx)
              · exact hdis2 x hx h1
            · apply hidle3 x hxa
              · intro e; exact hx (hpe.mem_iff.2 (by rw [e]; simp))
              · intro e; exact hx (hpe.mem_iff.2 (List.mem_cons_of_mem _ e))
          · split at h
            · cases h
            · rename_i s5 hs5
              cases h
              have hInv4 : Inv all (record_statistic ((add_curr_time sched s1 p).setProc p
                  { (add_curr_time sched s1 p).heap p with
                    last_execution_time := (add_curr_time sched s1 p).cpu.curr_time }) p) :=
                inv_same_memory all _ _ (same_memory_record_statistic _ p) hInv3
              obtain ⟨s5', hs5', hInv5, hz⟩ := print_finished_inv all mem _ p w2 hInv4 hp
              rw [hs5] at hs5'
              cases hs5'
              have hsm6 := same_memory_set_complete s5 p s5.cpu.curr_time
              have hInv6 := inv_same_memory all _ _ hsm6 hInv5
              refine ⟨inv_same_memory all _ _ (same_memory_complete_num _ _) hInv6,
                hw2nd, hq'nd, hw2', hq'', hdis2, fun x hxa hx => ?_⟩
              show ((s5.setProc p { s5.heap p with complete_time := s5.cpu.curr_time }).heap
                x).num_page_in_mem = 0
              rw [(hsm6.2.2 x).2.2.1]
              by_cases hxp : x = p
              · rw [hxp]; exact (hz hm).1
              · rw [print_finished_others mem _ s5 p w2 hs5 x hxp]
                exact hidle3 x hxa hxp hx
  · split at h
    · cases hqq : st.queue with
      | nil => rw [hqq] at h; rw [dequeue_nil] at h; cases h
      | cons p rest =>
        rw [hqq] at h hq hqnd hdis
        rw [dequeue_cons] at h
        simp only [bind, Except.bind, pure, Except.pure] at h
        cases h
        rw [List.nodup_cons] at hqnd
        have hpe := enqueue_perm st.sys.heap .ARRT st.waiting_queue p
        refine ⟨inv_same_memory all _ _ (same_memory_set_time _ _) hInv,
          hpe.nodup_iff.2 (List.nodup_cons.2 ⟨hdis p (by simp), hwnd⟩), hqnd.2,
          fun x hx => ?_, fun x hx => hq x (List.mem_cons_of_mem _ hx), fun x hx hx' => ?_,
          fun x hxa hx => ?_⟩
        · rcases List.mem_cons.1 (hpe.mem_iff.1 hx) with h1 | h1
          · rw [h1]; exact hq p (by simp)
          · exact hw x h1
        · rcases List.mem_cons.1 (hpe.mem_iff.1 hx') with h1 | h1
          · rw [h1] at hx; exact hqnd.1 hx
          · exact hdis x (List.mem_cons_of_mem _ hx) h1
        · exact hidle x hxa (fun e => hx (hpe.mem_iff.2 (List.mem_cons_of_mem _ e)))
    · cases h
      exact ⟨hInv, hwnd, hqnd, hw, hq, hdis, hidle⟩

theorem sim_reach_inv (all : List Ptr) (sched : SchedFlag) (mem : MemFlag) (st0 st : Sim)
    (hm : mem ≠ .UN) (h0 : SimInv all st0) (hr : SimReach sched mem st0 st) :
    SimInv all st := by
  induction hr with
  | start => exact h0
  | step _ hs ih => exact sim_step_inv all sched mem _ _ hm ih hs

/-- In a consistent state of the simulation the process at the head of the waiting queue is
dispatched with the rest of the waiting queue. -/
theorem sim_inv_dispatched (all : List Ptr) (st : Sim) (p : Ptr) (rest : Queue)
    (hI : SimInv all st) (hd : dequeue st.waiting_queue = .ok (p, rest)) :
    dispatched all st.sys rest p := by
  obtain ⟨-, hwnd, -, hw, -, -, hidle⟩ := hI
  cases hwq : st.waiting_queue with
  | nil => rw [hwq, dequeue_nil] at hd; cases hd
  | cons a w =>
    rw [hwq] at hwnd hw hidle
    rw [hwq, dequeue_cons] at hd
    cases hd
    rw [List.nodup_cons] at hwnd
    exact ⟨hw p (by simp), hwnd.1, hwnd.2, fun q hq => hw q (List.mem_cons_of_mem _ hq),
      fun q hqa hqp hqw => hidle q hqa (by simp [hqp, hqw])⟩

/-! # The claims on admission -/

/-- Claim C11, unlimited mode: for every process, queue and state, `mem_alloc_func` under
unlimited memory returns; it writes the one line `RUNNING` and no line `EVICTED`, sets
`load_time` of the process to 0 and leaves every other field of the process (its pages,
`page_fault`, `remaining_time`), every other process, and the whole CPU record with the frame
table and `num_holes` unchanged. -/
theorem unlimited_admit (queue : Queue) (s : Sys) (p : Ptr) :
    ∃ s', mem_alloc_func .UN queue s p = .ok s'
      ∧ s'.heap p = { s.heap p with load_time := 0 }
      ∧ (∀ q, q ≠ p → s'.heap q = s.heap q)
      ∧ s'.cpu = s.cpu
      ∧ s'.out = s.out
          ++ [.running s.cpu.curr_time (s.heap p).p_id (s.heap p).remaining_time] := by
  refine ⟨_, rfl, ?_, ?_, rfl, ?_⟩
  · simp [print_running, Sys.emit, Sys.setProc]
  · intro q hq
    simp [print_running, Sys.emit, Sys.setProc, Function.update_noteq hq]
  · simp [print_running, Sys.emit, Sys.setProc]

/-- Claim C12, fixed-partition admission: for every input with unique process ids, in every
state that the rounds of `simulation` under swapping reach, when the process at the head of the
waiting queue asks for a non-negative amount of memory and requires at most `total_page` pages,
its admission with the rest of the waiting queue returns, and afterwards the process holds
exactly the pages it requires, `mem_size_req / PAGE_SIZE`. -/
theorem fixed_partition_admit (records : List Record) (sched : SchedFlag) (frames : Nat)
    (quantum : Int) (st0 st : Sim) (p : Ptr) (rest : Queue)
    (hu : unique_ids records)
    (h0 : sim_init (read_file records).2 (init_sys records frames quantum) = .ok st0)
    (hr : SimReach sched .SP st0 st)
    (hd : dequeue st.waiting_queue = .ok (p, rest))
    (hnn : 0 ≤ (st.sys.heap p).mem_size_req)
    (hle : required_pages (st.sys.heap p) ≤ st.sys.cpu.memory.total_page) :
    ∃ s', mem_alloc_func .SP rest st.sys p = .ok s'
      ∧ (s'.heap p).num_page_in_mem = required_pages (st.sys.heap p) := by
  have hI := sim_reach_inv (List.range records.length) sched .SP st0 st (by decide)
    (sim_init_inv records frames quantum st0 hu h0) hr
  exact sp_admit_ok (List.range records.length) rest st.sys p hI.inv
    (sim_inv_dispatched _ st p rest hI hd)
    (Int.tdiv_nonneg hnn (by decide)) hle

/-- Witness for C12: the sample input with 8 frames under round robin; after the first round
the first process holds 5 frames, and the admission of the second process, which requires 4
pages, evicts them and gives it 4 frames. -/
theorem fixed_partition_admit_witness :
    unique_ids sample_records
      ∧ sim_init (read_file sample_records).2 (init_sys sample_records 8 3)
          = .ok (sim_start sample_records 8 3)
      ∧ SimReach .RR .SP (sim_start sample_records 8 3) sample_round
      ∧ dequeue sample_round.waiting_queue = .ok (1, [2, 0])
      ∧ sample_round.sys.cpu.memory.num_holes = 3
      ∧ required_pages (sample_round.sys.heap 1) = 4
      ∧ ∃ s', mem_alloc_func .SP [2, 0] sample_round.sys 1 = .ok s'
        ∧ (s'.heap 1).num_page_in_mem = required_pages (sample_round.sys.heap 1) :=
  ⟨sample_unique, rfl, SimReach.step SimReach.start rfl, rfl, by decide, by decide,
    fixed_partition_admit sample_records .RR 8 3 (sim_start sample_records 8 3) sample_round
      1 [2, 0] sample_unique rfl (SimReach.step SimReach.start rfl) rfl (by decide)
      (by decide)⟩

/-- Claim C13, execution threshold: in a state with consistent frame accounting, for every
admission under virtual memory or the custom mode that returns, of a process that is not in the
queue passed, the process afterwards holds at least `min MIN_EXE_PAGE total` pages and at most
`total` pages, where `total` is its page requirement `mem_size_req / PAGE_SIZE`. -/
theorem execution_threshold (all : List Ptr) (f : MemFlag) (queue : Queue) (s s' : Sys)
    (p : Ptr) (hf : f = .VM ∨ f = .CM) (hInv : Inv all s) (hp : p ∈ all)
    (hq : ∀ q ∈ queue, q ∈ all) (hpq : p ∉ queue)
    (h : mem_alloc_func f queue s p = .ok s') :
    min MIN_EXE_PAGE (required_pages (s.heap p)) ≤ (s'.heap p).num_page_in_mem
      ∧ (s'.heap p).num_page_in_mem ≤ required_pages (s.heap p) := by
  obtain ⟨h1, h2⟩ := vm_admit_result all f queue s s' p hf hInv hp h
  have hm1 := min_le_left MIN_EXE_PAGE (required_pages (s.heap p))
  have hm2 := min_le_right MIN_EXE_PAGE (required_pages (s.heap p))
  by_cases hc : (s.heap p).num_page_in_mem + s.cpu.memory.num_holes
      < min MIN_EXE_PAGE (required_pages (s.heap p))
  · obtain ⟨-, a, -⟩ := h2 hc hq hpq
    rw [a]; exact ⟨le_refl _, hm2⟩
  · obtain ⟨-, a, -⟩ := h1 hc
    rw [a]
    rcases le_total s.cpu.memory.num_holes
      (required_pages (s.heap p) - (s.heap p).num_page_in_mem) with hl | hl
    · rw [min_eq_left hl]; omega
    · rw [min_eq_right hl]; omega

/-- Witness for C13: the second process of the sample input is admitted under virtual memory
while the first holds 5 of the 8 frames; it ends with its 4 pages. -/
theorem execution_threshold_witness :
    Inv (List.range sample_records.length) sample_vm_first
      ∧ mem_alloc_func .VM [0, 2] sample_vm_first 1 = .ok sample_vm_second
      ∧ min MIN_EXE_PAGE (required_pages (sample_vm_first.heap 1))
          ≤ (sample_vm_second.heap 1).num_page_in_mem
      ∧ (sample_vm_second.heap 1).num_page_in_mem ≤ required_pages (sample_vm_first.heap 1) :=
  ⟨sample_vm_first_inv, sample_vm_second_eq,
    execution_threshold (List.range sample_records.length) .VM [0, 2] sample_vm_first
      sample_vm_second 1 (Or.inl rfl) sample_vm_first_inv (by decide) (by decide) (by decide)
      sample_vm_second_eq⟩

/-- Claim C14, eviction trigger: under virtual memory or the custom mode, in a state with
consistent frame accounting, when the pages held by the process plus the holes are fewer than
`min MIN_EXE_PAGE total`, `mem_alloc_func` is the call of `evcit` followed by the grant; and an
admission that returns has written a line `EVICTED` if and only if the pages held plus the holes
were fewer than `min MIN_EXE_PAGE total`. -/
theorem eviction_trigger (all : List Ptr) (f : MemFlag) (queue : Queue) (s : Sys) (p : Ptr)
    (hf : f = .VM ∨ f = .CM) (hInv : Inv all s) (hp : p ∈ all) :
    ((s.heap p).num_page_in_mem + s.cpu.memory.num_holes
          < min MIN_EXE_PAGE (required_pages (s.heap p)) →
        mem_alloc_func f queue s p
          = (evcit f queue s
              (min MIN_EXE_PAGE (required_pages (s.heap p)) - (s.heap p).num_page_in_mem)).bind
            (fun s1 => grant_pages s1 p (required_pages (s.heap p))
              (min MIN_EXE_PAGE (required_pages (s.heap p)) - (s.heap p).num_page_in_mem)))
      ∧ ∀ s', mem_alloc_func f queue s p = .ok s' →
          ((s'.out.drop s.out.length).any Event.is_evicted = true
            ↔ (s.heap p).num_page_in_mem + s.cpu.memory.num_holes
                < min MIN_EXE_PAGE (required_pages (s.heap p))) := by
  have hh := inv_holes_nonneg all s hInv
  have hn := inv_count_nonneg all s p hInv hp
  refine ⟨fun hc => ?_, fun s' h => vm_admit_events f queue s s' p hf hh hn h⟩
  have hm2 := min_le_right MIN_EXE_PAGE (required_pages (s.heap p))
  have hf' : f ≠ .UN := by rcases hf with h1 | h1 <;> rw [h1] <;> decide
  rw [mem_alloc_func_eq f queue s p hf' (by omega),
    require_pages_vm f queue s p (required_pages (s.heap p)) hf hh hn, if_pos hc]
  cases evcit f queue s
    (min MIN_EXE_PAGE (required_pages (s.heap p)) - (s.heap p).num_page_in_mem) <;> rfl

/-- Witness for C14: the second admission of the sample under virtual memory (0 pages held, 3
holes, threshold 4) and its line `EVICTED`. -/
theorem eviction_trigger_witness :
    Inv (List.range sample_records.length) sample_vm_first
      ∧ (sample_vm_first.heap 1).num_page_in_mem + sample_vm_first.cpu.memory.num_holes
          < min MIN_EXE_PAGE (required_pages (sample_vm_first.heap 1))
      ∧ (sample_vm_second.out.drop sample_vm_first.out.length).any Event.is_evicted = true :=
  ⟨sample_vm_first_inv, by decide,
    ((eviction_trigger (List.range sample_records.length) .VM [0, 2] sample_vm_first 1
      (Or.inl rfl) sample_vm_first_inv (by decide)).2 sample_vm_second
        sample_vm_second_eq).2 (by decide)⟩

/-- Claim C15, grant without eviction: under virtual memory or the custom mode, in a state with
consistent frame accounting, an admission that returns without a line `EVICTED` gives the process
exactly `min num_holes (total - num_page_in_mem)` frames, with the values before the call: its
page count grows by that number and `num_holes` shrinks by it. -/
theorem grant_without_eviction (all : List Ptr) (f : MemFlag) (queue : Queue) (s s' : Sys)
    (p : Ptr) (hf : f = .VM ∨ f = .CM) (hInv : Inv all s) (hp : p ∈ all)
    (h : mem_alloc_func f queue s p = .ok s')
    (hne : (s'.out.drop s.out.length).any Event.is_evicted = false) :
    (s'.heap p).num_page_in_mem = (s.heap p).num_page_in_mem
        + min s.cpu.memory.num_holes (required_pages (s.heap p) - (s.heap p).num_page_in_mem)
      ∧ s'.cpu.memory.num_holes = s.cpu.memory.num_holes
        - min s.cpu.memory.num_holes
            (required_pages (s.heap p) - (s.heap p).num_page_in_mem) := by
  have hh := inv_holes_nonneg all s hInv
  have hn := inv_count_nonneg all s p hInv hp
  have hc : ¬ (s.heap p).num_page_in_mem + s.cpu.memory.num_holes
      < min MIN_EXE_PAGE (required_pages (s.heap p)) := by
    intro c
    rw [(vm_admit_events f queue s s' p hf hh hn h).2 c] at hne
    cases hne
  exact ((vm_admit_result all f queue s s' p hf hInv hp h).1 hc).2

/-- Witness for C15: the first admission of the sample under virtual memory takes 5 of the 8
free frames without an eviction. -/
theorem grant_without_eviction_witness :
    Inv (List.range sample_records.length) (init_sys sample_records 8 3)
      ∧ mem_alloc_func .VM [1, 2] (init_sys sample_records 8 3) 0 = .ok sample_vm_first
      ∧ (sample_vm_first.out.drop (init_sys sample_records 8 3).out.length).any
          Event.is_evicted = false
      ∧ (sample_vm_first.heap 0).num_page_in_mem = 5
      ∧ sample_vm_first.cpu.memory.num_holes = 3 :=
  ⟨sample_init_inv, sample_vm_first_eq, by decide,
    grant_without_eviction (List.range sample_records.length) .VM [1, 2]
      (init_sys sample_records 8 3) sample_vm_first 0 (Or.inl rfl) sample_init_inv (by decide)
      sample_vm_first_eq (by decide)⟩

/-- Claim C16, just-enough eviction: under virtual memory or the custom mode, in a state with
consistent frame accounting and for a queue of other processes, an admission that returns and
has written a line `EVICTED` wrote exactly that line and then its own line; the line `EVICTED`
lists exactly `min MIN_EXE_PAGE total - num_page_in_mem - num_holes` frames (values before the
call), and afterwards the process holds exactly `min MIN_EXE_PAGE total` pages and `num_holes`
is 0. -/
theorem just_enough_eviction (all : List Ptr) (f : MemFlag) (queue : Queue) (s s' : Sys)
    (p : Ptr) (hf : f = .VM ∨ f = .CM) (hInv : Inv all s) (hp : p ∈ all)
    (hq : ∀ q ∈ queue, q ∈ all) (hpq : p ∉ queue)
    (h : mem_alloc_func f queue s p = .ok s')
    (hev : (s'.out.drop s.out.length).any Event.is_evicted = true) :
    (∃ l e, s'.out = s.out ++ [.evicted s.cpu.curr_time l, e] ∧ e.is_evicted = false
        ∧ (l.length : Int) = min MIN_EXE_PAGE (required_pages (s.heap p))
            - (s.heap p).num_page_in_mem - s.cpu.memory.num_holes)
      ∧ (s'.heap p).num_page_in_mem = min MIN_EXE_PAGE (required_pages (s.heap p))
      ∧ s'.cpu.memory.num_holes = 0 := by
  have hh := inv_holes_nonneg all s hInv
  have hn := inv_count_nonneg all s p hInv hp
  exact (vm_admit_result all f queue s s' p hf hInv hp h).2
    ((vm_admit_events f queue s s' p hf hh hn h).1 hev) hq hpq

/-- Witness for C16: the second admission of the sample under virtual memory evicts one page of
the first process (threshold 4, 0 pages held, 3 holes). -/
theorem just_enough_eviction_witness :
    Inv (List.range sample_records.length) sample_vm_first
      ∧ mem_alloc_func .VM [0, 2] sample_vm_first 1 = .ok sample_vm_second
      ∧ (sample_vm_second.out.drop sample_vm_first.out.length).any Event.is_evicted = true
      ∧ (∃ l e, sample_vm_second.out
            = sample_vm_first.out ++ [.evicted sample_vm_first.cpu.curr_time l, e]
          ∧ e.is_evicted = false ∧ (l.length : Int) = 1)
      ∧ (sample_vm_second.heap 1).num_page_in_mem = 4
      ∧ sample_vm_second.cpu.memory.num_holes = 0 :=
  ⟨sample_vm_first_inv, sample_vm_second_eq, by decide,
    just_enough_eviction (List.range sample_records.length) .VM [0, 2] sample_vm_first
      sample_vm_second 1 (Or.inl rfl) sample_vm_first_inv (by decide) (by decide) (by decide)
      sample_vm_second_eq (by decide)⟩

/-- Claim C17, lowest-free-first allocation: in a state with consistent frame accounting, every
admission under a bounded mode that returns grants some number `N` of frames to the process in
a state `s1`, which is the state before the admission or the state after its one call of
`evcit`; `N` is at most the number of free frames of `s1`, and the frame table afterwards is the
table of `s1` with exactly the `N` lowest-indexed free frames given to the process, every other
frame keeping its owner. -/
theorem lowest_free_first (all : List Ptr) (f : MemFlag) (queue : Queue) (s s' : Sys) (p : Ptr)
    (hf : f ≠ .UN) (hInv : Inv all s) (hp : p ∈ all) (hq : ∀ q ∈ queue, q ∈ all)
    (h : mem_alloc_func f queue s p = .ok s') :
    ∃ s1 N, (s1 = s ∨ evcit f queue s N = .ok s1)
      ∧ 0 ≤ N ∧ N ≤ free_count s1.cpu.memory.is_occupy_lst
      ∧ (s'.heap p).num_page_in_mem = (s1.heap p).num_page_in_mem + N
      ∧ ∀ i : Nat, s'.cpu.memory.is_occupy_lst[i]?
          = if (i : Int) ∈ (owned INVALID 0 s1.cpu.memory.is_occupy_lst).take N.toNat
            then some (s.heap p).p_id else s1.cpu.memory.is_occupy_lst[i]? := by
  rcases mem_alloc_func_cases f queue s s' p hf h with
    ⟨-, hheap, -, hcpu, -⟩ | ⟨hne, s1, n, hreq, hs1, hg⟩
  · refine ⟨s, 0, Or.inl rfl, le_refl _, ?_, ?_, fun i => ?_⟩
    · unfold free_count; omega
    · rw [hheap]; simp
    · rw [hcpu]; simp
  · obtain ⟨ht, hheap, -, -, htab, -, -⟩ := grant_pages_shape s1 s' p _ n hg
    have hb := hInv.bound p hp
    have hn := inv_count_nonneg all s p hInv hp
    have hreq' : (required_pages (s.heap p)) = (s.heap p).mem_size_req.tdiv PAGE_SIZE := rfl
    obtain ⟨hInv1, h0, hle, -⟩ := require_pages_inv all f queue s p _
      (required_pages (s.heap p)) s1 n hInv hq hf (by omega) (by omega) hreq
    refine ⟨s1, n, hs1, h0, ?_, ?_, fun i => ?_⟩
    · rw [← hInv1.holes]; exact hle
    · rw [hheap]
    · rw [htab, alloc_frames_lowest _ _ _ 0 0 i h0, (before_grant_fields f queue s s1 n hs1 p).1]
      simp

/-- Witness for C17: the second admission of the sample under virtual memory; after the eviction
of frame 0 the free frames are 0, 5, 6 and 7, and all four go to the second process. -/
theorem lowest_free_first_witness :
    MemFlag.VM ≠ .UN ∧ Inv (List.range sample_records.length) sample_vm_first
      ∧ mem_alloc_func .VM [0, 2] sample_vm_first 1 = .ok sample_vm_second
      ∧ ∃ s1 N, (s1 = sample_vm_first ∨ evcit .VM [0, 2] sample_vm_first N = .ok s1)
        ∧ 0 ≤ N ∧ N ≤ free_count s1.cpu.memory.is_occupy_lst
        ∧ (sample_vm_second.heap 1).num_page_in_mem = (s1.heap 1).num_page_in_mem + N
        ∧ ∀ i : Nat, sample_vm_second.cpu.memory.is_occupy_lst[i]?
            = if (i : Int) ∈ (owned INVALID 0 s1.cpu.memory.is_occupy_lst).take N.toNat
              then some (sample_vm_first.heap 1).p_id else s1.cpu.memory.is_occupy_lst[i]? :=
  ⟨by decide, sample_vm_first_inv, sample_vm_second_eq,
    lowest_free_first (List.range sample_records.length) .VM [0, 2] sample_vm_first
      sample_vm_second 1 (by decide) sample_vm_first_inv (by decide) (by decide)
      sample_vm_second_eq⟩

/-- Claim C18, load time: after every admission under a bounded mode that returns, of a process
that is not in the queue passed, `load_time` of the process is `LOAD_TIME = 2` times the number
of pages granted, its page count after the admission minus its page count before. -/
theorem load_time_spec (f : MemFlag) (queue : Queue) (s s' : Sys) (p : Ptr) (hf : f ≠ .UN)
    (hpq : p ∉ queue) (h : mem_alloc_func f queue s p = .ok s') :
    (s'.heap p).load_time
      = 2 * ((s'.heap p).num_page_in_mem - (s.heap p).num_page_in_mem) := by
  rcases mem_alloc_func_cases f queue s s' p hf h with
    ⟨-, hheap, -⟩ | ⟨-, s1, n, -, hs1, hg⟩
  · rw [hheap]; simp
  · obtain ⟨-, hheap, -⟩ := grant_pages_shape s1 s' p _ n hg
    have hp1 := (before_grant_fields f queue s s1 n hs1 p).2.2.2 hpq
    rw [hheap, hp1]
    show n * LOAD_TIME = 2 * ((s.heap p).num_page_in_mem + n - (s.heap p).num_page_in_mem)
    have : LOAD_TIME = 2 := rfl
    rw [this]; ring

/-- Witness for C18: the second admission of the sample under virtual memory grants 4 pages and
sets the load time 8. -/
theorem load_time_spec_witness :
    MemFlag.VM ≠ .UN ∧ 1 ∉ [0, 2]
      ∧ mem_alloc_func .VM [0, 2] sample_vm_first 1 = .ok sample_vm_second
      ∧ (sample_vm_second.heap 1).load_time = 8
      ∧ (sample_vm_second.heap 1).load_time
        = 2 * ((sample_vm_second.heap 1).num_page_in_mem
            - (sample_vm_first.heap 1).num_page_in_mem) :=
  ⟨by decide, by decide, sample_vm_second_eq, by decide,
    load_time_spec .VM [0, 2] sample_vm_first sample_vm_second 1 (by decide) (by decide)
      sample_vm_second_eq⟩

/-- Counterexample to C19 as stated: a process that requests 6 units of memory, with 4 free
frames, under swapping. The admission gives it 6 / 4 = 1 page and sets `page_fault` to 0, while
the ceiling of 6 / 4 is 2 and the claimed value is 2 - 1 = 1. -/
theorem page_fault_truncates :
    ∃ s', mem_alloc_func .SP [] (init_sys odd_size_records 4 3) 0 = .ok s'
      ∧ (s'.heap 0).mem_size_req = 6
      ∧ (s'.heap 0).num_page_in_mem = 1
      ∧ (s'.heap 0).page_fault = 0
      ∧ Int.ceil (((s'.heap 0).mem_size_req : ℚ) / (PAGE_SIZE : ℚ))
          - (s'.heap 0).num_page_in_mem = 1 := by
  refine ⟨_, rfl, rfl, rfl, rfl, ?_⟩
  have h1 : ((after_admission .SP [] (init_sys odd_size_records 4 3) 0).heap 0).mem_size_req
      = 6 := rfl
  have h2 : ((after_admission .SP [] (init_sys odd_size_records 4 3) 0).heap 0).num_page_in_mem
      = 1 := rfl
  show Int.ceil ((((after_admission .SP [] (init_sys odd_size_records 4 3) 0).heap 0).mem_size_req
      : ℚ) / (PAGE_SIZE : ℚ))
    - ((after_admission .SP [] (init_sys odd_size_records 4 3) 0).heap 0).num_page_in_mem = 1
  rw [h1, h2]
  have h3 : Int.ceil (((6 : Int) : ℚ) / ((PAGE_SIZE : Int) : ℚ)) = 2 := by
    rw [Int.ceil_eq_iff]
    simp only [PAGE_SIZE]
    norm_num
  rw [h3]
  rfl

/-- Claim C19 amended, page-fault count: after every admission under a bounded mode that
returns, `page_fault` of the process is `mem_size_req / PAGE_SIZE`, the quotient of the integer
division that drops the remainder, minus `num_page_in_mem` after the admission. -/
theorem page_fault_spec (f : MemFlag) (queue : Queue) (s s' : Sys) (p : Ptr) (hf : f ≠ .UN)
    (h : mem_alloc_func f queue s p = .ok s') :
    (s'.heap p).mem_size_req = (s.heap p).mem_size_req
      ∧ (s'.heap p).page_fault
        = (s'.heap p).mem_size_req.tdiv PAGE_SIZE - (s'.heap p).num_page_in_mem := by
  rcases mem_alloc_func_cases f queue s s' p hf h with
    ⟨hz, hheap, -⟩ | ⟨-, s1, n, -, hs1, hg⟩
  · rw [hheap]
    refine ⟨rfl, ?_⟩
    show (0 : Int) = (s.heap p).mem_size_req.tdiv PAGE_SIZE - (s.heap p).num_page_in_mem
    rw [hz]; unfold required_pages; omega
  · obtain ⟨-, hheap, -⟩ := grant_pages_shape s1 s' p _ n hg
    have hm := (before_grant_fields f queue s s1 n hs1 p).2.1
    rw [hheap]
    refine ⟨hm, ?_⟩
    show required_pages (s.heap p) - ((s1.heap p).num_page_in_mem + n)
      = (s1.heap p).mem_size_req.tdiv PAGE_SIZE - ((s1.heap p).num_page_in_mem + n)
    rw [hm]; rfl

/-- Witness for C19 amended: the admission of the process that requests 6 units of memory. -/
theorem page_fault_spec_witness :
    MemFlag.SP ≠ .UN
      ∧ mem_alloc_func .SP [] (init_sys odd_size_records 4 3) 0
          = .ok (after_admission .SP [] (init_sys odd_size_records 4 3) 0)
      ∧ ((after_admission .SP [] (init_sys odd_size_records 4 3) 0).heap 0).mem_size_req
          = ((init_sys odd_size_records 4 3).heap 0).mem_size_req
      ∧ ((after_admission .SP [] (init_sys odd_size_records 4 3) 0).heap 0).page_fault
        = ((after_admission .SP [] (init_sys odd_size_records 4 3) 0).heap 0).mem_size_req.tdiv
            PAGE_SIZE
          - ((after_admission .SP [] (init_sys odd_size_records 4 3) 0).heap 0).num_page_in_mem :=
  ⟨by decide, rfl,
    page_fault_spec .SP [] (init_sys odd_size_records 4 3)
      (after_admission .SP [] (init_sys odd_size_records 4 3) 0) 0 (by decide) rfl⟩

/-- Claim C20, fault penalty: every admission under a bounded mode that returns, of a process
that does not yet hold all the pages it requires, adds to `remaining_time` of the process exactly
the value of `page_fault` that the admission has set; the admission of a process that holds all
its pages leaves its `remaining_time` alone, and no admission changes `remaining_time` of another
process. -/
theorem fault_penalty (f : MemFlag) (queue : Queue) (s s' : Sys) (p : Ptr) (hf : f ≠ .UN)
    (h : mem_alloc_func f queue s p = .ok s') :
    ((s.heap p).num_page_in_mem ≠ required_pages (s.heap p) →
        (s'.heap p).remaining_time = (s.heap p).remaining_time + (s'.heap p).page_fault)
      ∧ ((s.heap p).num_page_in_mem = required_pages (s.heap p) →
        (s'.heap p).remaining_time = (s.heap p).remaining_time)
      ∧ ∀ q, q ≠ p → (s'.heap q).remaining_time = (s.heap q).remaining_time := by
  rcases mem_alloc_func_cases f queue s s' p hf h with
    ⟨hz, hheap, hothers, -⟩ | ⟨hne, s1, n, -, hs1, hg⟩
  · refine ⟨fun hne => absurd hz hne, fun _ => by rw [hheap], fun q hq => by rw [hothers q hq]⟩
  · obtain ⟨-, hheap, hothers, -⟩ := grant_pages_shape s1 s' p _ n hg
    refine ⟨fun _ => ?_, fun hz => absurd hz hne, fun q hq => ?_⟩
    · rw [hheap]
      show (s1.heap p).remaining_time + _ = (s.heap p).remaining_time + _
      rw [(before_grant_fields f queue s s1 n hs1 p).2.2.1]
    · rw [hothers q hq, (before_grant_fields f queue s s1 n hs1 q).2.2.1]

/-- Witness for C20: the first admission of the sample under virtual memory in 4 frames; the
first process gets 4 of its 5 pages, `page_fault` is 1 and `remaining_time` grows from 5 to 6. -/
theorem fault_penalty_witness :
    MemFlag.VM ≠ .UN
      ∧ mem_alloc_func .VM [1, 2] (init_sys sample_records 4 3) 0
          = .ok (after_admission .VM [1, 2] (init_sys sample_records 4 3) 0)
      ∧ ((init_sys sample_records 4 3).heap 0).num_page_in_mem
          ≠ required_pages ((init_sys sample_records 4 3).heap 0)
      ∧ ((init_sys sample_records 4 3).heap 0).remaining_time = 5
      ∧ ((after_admission .VM [1, 2] (init_sys sample_records 4 3) 0).heap 0).page_fault = 1
      ∧ ((after_admission .VM [1, 2] (init_sys sample_records 4 3) 0).heap 0).remaining_time
        = ((init_sys sample_records 4 3).heap 0).remaining_time
          + ((after_admission .VM [1, 2] (init_sys sample_records 4 3) 0).heap 0).page_fault :=
  ⟨by decide, rfl, by decide, by decide, by decide,
    (fault_penalty .VM [1, 2] (init_sys sample_records 4 3)
      (after_admission .VM [1, 2] (init_sys sample_records 4 3) 0) 0 (by decide) rfl).1
      (by decide)⟩

/-! ## Eviction that runs out of candidates -/

theorem resident_sum_mono (H H' : Heap) (l : List Ptr)
    (h : ∀ q, (H' q).num_page_in_mem ≤ (H q).num_page_in_mem) :
    resident_sum H' l ≤ resident_sum H l := by
  induction l with
  | nil => simp [resident_sum]
  | cons v rest ih =>
    rw [resident_sum_cons, resident_sum_cons]
    have := h v
    omega

theorem evcit_loop_fail (all : List Ptr) (f : MemFlag) (crp : Int) (fuel : Nat) :
    ∀ (s : Sys) (rq : Queue) (ev : List Int), Inv all s → (∀ q ∈ rq, q ∈ all) →
      s.cpu.memory.num_holes + resident_sum s.heap rq < crp → rq.length < fuel →
      evcit_loop f crp fuel s rq ev = .error .EmptyCollection := by
  induction fuel with
  | zero => intro s rq ev _ _ _ hlen; omega
  | succ fuel ih =>
    intro s rq ev hInv hq hsum hlen
    have hnn := resident_sum_nonneg all s rq hInv hq
    unfold evcit_loop
    rw [if_pos (by omega)]
    cases rq with
    | nil => rw [dequeue_nil]; rfl
    | cons v rest =>
      rw [dequeue_cons]
      simp only [bind, Except.bind]
      rw [resident_sum_cons] at hsum
      have hv : v ∈ all := hq v (by simp)
      have hrest : ∀ q ∈ rest, q ∈ all := fun q hq' => hq q (List.mem_cons_of_mem _ hq')
      have hlen' : rest.length < fuel := by simp at hlen; omega
      have hcnt := inv_count_nonneg all s v hInv hv
      have hnn' := resident_sum_nonneg all s rest hInv hrest
      by_cases hpl : (s.heap v).page_list ≠ none
      · rw [if_pos hpl]
        generalize hnf : (if (f = MemFlag.VM ∨ f = MemFlag.CM)
            ∧ (s.heap v).num_page_in_mem ≥ crp - s.cpu.memory.num_holes
          then crp - s.cpu.memory.num_holes else (s.heap v).num_page_in_mem) = nf
        have hb : nf ≤ (s.heap v).num_page_in_mem := by
          rw [← hnf]; split
          · rename_i hh; omega
          · exact le_refl _
        by_cases hpos : nf > 0
        · rw [if_pos hpos]
          obtain ⟨s1, heq, hInv1, -, hholes1, hmono, -, -⟩ :=
            free_page_inv all s v (some ev) nf hInv hv (by omega) hb
          rw [heq]
          simp only
          apply ih s1 rest _ hInv1 hrest _ hlen'
          have := resident_sum_mono s.heap s1.heap rest (fun q => (hmono q).2.2)
          omega
        · rw [if_neg hpos]
          exact ih s rest ev hInv hrest (by omega) hlen'
      · rw [if_neg hpl]
        exact ih s rest ev hInv hrest (by omega) hlen'

/-- The call of `evcit` fails in `dequeue` when the holes and the pages of the processes of the
queue together stay below the pages required. -/
theorem evcit_fail (all : List Ptr) (f : MemFlag) (queue : Queue) (s : Sys) (crp : Int)
    (hInv : Inv all s) (hq : ∀ q ∈ queue, q ∈ all)
    (hsum : s.cpu.memory.num_holes + resident_sum s.heap queue < crp) :
    evcit f queue s crp = .error .EmptyCollection := by
  simp only [evcit, resort_eq, bind, Except.bind]
  have hperm : (enqueue_list s.heap (if f = MemFlag.CM then PrioFlag.MAXPAGE
      else PrioFlag.LASTET) new_queue queue).Perm queue := by
    simpa [new_queue] using enqueue_list_perm s.heap (if f = MemFlag.CM then PrioFlag.MAXPAGE
      else PrioFlag.LASTET) queue new_queue
  rw [evcit_loop_fail all f crp _ s _ [] hInv (fun q hq' => hq q (hperm.mem_iff.1 hq'))
    (by rw [resident_sum_perm _ _ _ hperm]; exact hsum) (Nat.lt_succ_self _)]

/-! ## The order of the victims -/

theorem prio_le_antisymm (all : List Ptr) (s : Sys) (k : PrioFlag) (a b : Ptr)
    (hInv : Inv all s) (ha : a ∈ all) (hb : b ∈ all)
    (h1 : prio_le s.heap k a b) (h2 : prio_le s.heap k b a) : a = b := by
  apply hInv.id_inj a ha b hb
  unfold prio_le at h1 h2
  omega

theorem evcit_loop_order (all : List Ptr) (f : MemFlag) (crp : Int) (fuel : Nat) :
    ∀ (s : Sys) (rq : Queue) (ev : List Int) (s' : Sys) (ev' : List Int),
      Inv all s → (∀ q ∈ rq, q ∈ all) →
      evcit_loop f crp fuel s rq ev = .ok (s', ev') →
      (∀ q, s'.heap q = s.heap q)
        ∨ ∃ A x B, rq = A ++ x :: B ∧ (∀ q, q ∉ A → q ≠ x → s'.heap q = s.heap q)
            ∧ ∀ r ∈ A, (s'.heap r).num_page_in_mem = 0 := by
  induction fuel with
  | zero =>
    intro s rq ev s' ev' _ _ h
    unfold evcit_loop at h
    split at h
    · cases h
    · cases h; exact Or.inl (fun _ => rfl)
  | succ fuel ih =>
    intro s rq ev s' ev' hInv hq h
    unfold evcit_loop at h
    by_cases hc : crp > s.cpu.memory.num_holes
    · rw [if_pos hc] at h
      cases rq with
      | nil => rw [dequeue_nil] at h; cases h
      | cons v rest =>
        rw [dequeue_cons] at h
        simp only [bind, Except.bind] at h
        have hv : v ∈ all := hq v (by simp)
        have hrest : ∀ q ∈ rest, q ∈ all := fun q hq' => hq q (List.mem_cons_of_mem _ hq')
        have hcnt := hInv.count v hv
        have skip : (s.heap v).num_page_in_mem = 0 →
            evcit_loop f crp fuel s rest ev = .ok (s', ev') →
            (∀ q, s'.heap q = s.heap q)
              ∨ ∃ A x B, v :: rest = A ++ x :: B
                ∧ (∀ q, q ∉ A → q ≠ x → s'.heap q = s.heap q)
                ∧ ∀ r ∈ A, (s'.heap r).num_page_in_mem = 0 := by
          intro hz h'
          obtain ⟨hInv', -, -, -, hmono⟩ := evcit_loop_inv all f crp fuel s rest ev s' ev'
            hInv hrest h'
          rcases ih s rest ev s' ev' hInv hrest h' with hl | ⟨A, x, B, hsplit, hsame, hzero⟩
          · exact Or.inl hl
          · refine Or.inr ⟨v :: A, x, B, by rw [hsplit]; rfl, fun q hqA hqx => ?_,
              fun r hr => ?_⟩
            · exact hsame q (fun e => hqA (List.mem_cons_of_mem _ e)) hqx
            · rcases List.mem_cons.1 hr with e | e
              · rw [e]
                have := (hmono v).2.2
                have := inv_count_nonneg all s' v hInv' hv
                omega
              · exact hzero r e
        by_cases hpl : (s.heap v).page_list ≠ none
        · rw [if_pos hpl] at h
          generalize hnf : (if (f = MemFlag.VM ∨ f = MemFlag.CM)
              ∧ (s.heap v).num_page_in_mem ≥ crp - s.cpu.memory.num_holes
            then crp - s.cpu.memory.num_holes else (s.heap v).num_page_in_mem) = nf at h
          have hb : nf ≤ (s.heap v).num_page_in_mem
              ∧ (nf = (s.heap v).num_page_in_mem ∨ nf = crp - s.cpu.memory.num_holes) := by
            rw [← hnf]; split
            · rename_i hh; exact ⟨by omega, Or.inr rfl⟩
            · exact ⟨le_refl _, Or.inl rfl⟩
          by_cases hpos : nf > 0
          · rw [if_pos hpos] at h
            obtain ⟨s1, heq, hInv1, -, hholes1, -, hsame1, hn1⟩ :=
              free_page_inv all s v (some ev) nf hInv hv (by omega) hb.1
            rw [heq] at h
            simp only at h
            by_cases hc1 : s1.cpu.memory.num_holes ≥ crp
            · obtain ⟨hs', -⟩ := (evcit_loop_shape f crp fuel s1 rest _ s' ev' h).2.2.2.2.2.2.2.2
                hc1
              subst hs'
              exact Or.inr ⟨[], v, rest, rfl, fun q _ hqv => hsame1 q hqv, fun r hr => by
                simp at hr⟩
            · have hz1 : (s1.heap v).num_page_in_mem = 0 := by
                rcases hb.2 with e | e <;> omega
              obtain ⟨hInv', -, -, -, hmono⟩ := evcit_loop_inv all f crp fuel s1 rest _ s' ev'
                hInv1 hrest h
              rcases ih s1 rest _ s' ev' hInv1 hrest h with hl | ⟨A, x, B, hsplit, hsame, hzero⟩
              · exact Or.inr ⟨[], v, rest, rfl, fun q _ hqv => by rw [hl q, hsame1 q hqv],
                  fun r hr => by simp at hr⟩
              · refine Or.inr ⟨v :: A, x, B, by rw [hsplit]; rfl, fun q hqA hqx => ?_,
                  fun r hr => ?_⟩
                · rw [hsame q (fun e => hqA (List.mem_cons_of_mem _ e)) hqx]
                  exact hsame1 q (fun e => hqA (by rw [e]; simp))
                · rcases List.mem_cons.1 hr with e | e
                  · rw [e]
                    have := (hmono v).2.2
                    have := inv_count_nonneg all s' v hInv' hv
                    omega
                  · exact hzero r e
          · rw [if_neg hpos] at h
            exact skip (by rcases hb.2 with e | e <;> omega) h
        · rw [if_neg hpl] at h
          have hnone : (s.heap v).page_list = none := by
            by_contra hcon; exact hpl hcon
          exact skip (by rw [hcnt]; simp [cells, hnone]) h
    · rw [if_neg hc] at h
      cases h
      exact Or.inl (fun _ => rfl)

/-- After a call of `evcit` that returns, a process of the queue has lost pages only if every
other process of the queue that the ranking puts before it holds no page. -/
theorem evcit_order (all : List Ptr) (f : MemFlag) (queue : Queue) (s s' : Sys) (crp : Int)
    (hInv : Inv all s) (hq : ∀ q ∈ queue, q ∈ all) (h : evcit f queue s crp = .ok s')
    (q r : Ptr) (hqm : q ∈ queue) (hrm : r ∈ queue) (hne : r ≠ q)
    (hle : prio_le s.heap (evcit_key f) r q)
    (hlost : (s'.heap q).num_page_in_mem < (s.heap q).num_page_in_mem) :
    (s'.heap r).num_page_in_mem = 0 := by
  unfold evcit_key at hle
  simp only [evcit, resort_eq, bind, Except.bind] at h
  have hmem : ∀ x, x ∈ enqueue_list s.heap (if f = MemFlag.CM then PrioFlag.MAXPAGE
      else PrioFlag.LASTET) new_queue queue ↔ x ∈ queue := by
    intro x
    rw [enqueue_list_mem]
    simp [new_queue]
  have hsorted := enqueue_list_sorted s.heap (if f = MemFlag.CM then PrioFlag.MAXPAGE
      else PrioFlag.LASTET) queue new_queue (by simp [new_queue])
  split at h
  · cases h
  · rename_i v heq
    obtain ⟨s1, ev⟩ := v
    simp only at h
    rw [print_evicted_sorted] at h
    cases h
    have hlost' : (s1.heap q).num_page_in_mem < (s.heap q).num_page_in_mem := hlost
    show (s1.heap r).num_page_in_mem = 0
    rcases evcit_loop_order all f crp _ s _ [] s1 ev hInv
      (fun x hx => hq x ((hmem x).1 hx)) heq with hl | ⟨A, x, B, hsplit, hsame, hzero⟩
    · rw [hl q] at hlost'; omega
    · rw [hsplit] at hsorted hmem
      rw [List.pairwise_append] at hsorted
      obtain ⟨-, hxB, hAB⟩ := hsorted
      rw [List.pairwise_cons] at hxB
      have hra : r ∈ all := hq r hrm
      have hqa : q ∈ all := hq q hqm
      have hqpos : q ∈ A ∨ q = x := by
        by_contra hcon
        push_neg at hcon
        rw [hsame q hcon.1 hcon.2] at hlost'
        omega
      have hrpos := (hmem r).2 hrm
      rw [List.mem_append, List.mem_cons] at hrpos
      rcases hrpos with hrA | hrx | hrB
      · exact hzero r hrA
      · exfalso
        rcases hqpos with hqA | hqx
        · exact hne (prio_le_antisymm all s _ r q hInv hra hqa hle
            (hAB q hqA r (by rw [hrx]; simp)))
        · exact hne (by rw [hrx, hqx])
      · exfalso
        rcases hqpos with hqA | hqx
        · exact hne (prio_le_antisymm all s _ r q hInv hra hqa hle
            (hAB q hqA r (List.mem_cons_of_mem _ hrB)))
        · exact hne (prio_le_antisymm all s _ r q hInv hra hqa hle
            (by rw [hqx]; exact hxB.1 r hrB))

/-! ## Eviction under swapping -/

theorem holders_cons_pos (H : Heap) (v : Ptr) (rest : List Ptr)
    (h : 0 < (H v).num_page_in_mem) : holders H (v :: rest) = v :: holders H rest := by
  unfold holders
  rw [List.filter_cons, if_pos (by simpa using h)]

theorem holders_cons_zero (H : Heap) (v : Ptr) (rest : List Ptr)
    (h : ¬ 0 < (H v).num_page_in_mem) : holders H (v :: rest) = holders H rest := by
  unfold holders
  rw [List.filter_cons, if_neg (by simpa using h)]

theorem holders_congr (H H' : Heap) (l : List Ptr) (h : ∀ q ∈ l, H' q = H q) :
    holders H' l = holders H l := by
  unfold holders
  apply List.filter_congr
  intro q hq
  rw [h q hq]

theorem holders_mem (H : Heap) (l : List Ptr) (q : Ptr) :
    q ∈ holders H l ↔ q ∈ l ∧ 0 < (H q).num_page_in_mem := by
  unfold holders
  simp [List.mem_filter]

theorem evcit_loop_sp (all : List Ptr) (crp : Int) (fuel : Nat) :
    ∀ (s : Sys) (rq : Queue) (ev : List Int) (s' : Sys) (ev' : List Int),
      Inv all s → rq.Nodup → (∀ q ∈ rq, q ∈ all) →
      evcit_loop .SP crp fuel s rq ev = .ok (s', ev') →
      ∃ k, k ≤ (holders s.heap rq).length
        ∧ crp ≤ s.cpu.memory.num_holes + resident_sum s.heap ((holders s.heap rq).take k)
        ∧ (∀ j, j < k →
            s.cpu.memory.num_holes + resident_sum s.heap ((holders s.heap rq).take j) < crp)
        ∧ (∀ q ∈ (holders s.heap rq).take k, (s'.heap q).num_page_in_mem = 0)
        ∧ ∀ q, q ∉ (holders s.heap rq).take k → s'.heap q = s.heap q := by
  induction fuel with
  | zero =>
    intro s rq ev s' ev' _ _ _ h
    unfold evcit_loop at h
    split at h
    · cases h
    · rename_i hc
      cases h
      exact ⟨0, Nat.zero_le _, by simp [resident_sum]; omega, fun j hj => by omega,
        fun q hq => by simp at hq, fun _ _ => rfl⟩
  | succ fuel ih =>
    intro s rq ev s' ev' hInv hnd hq h
    unfold evcit_loop at h
    by_cases hc : crp > s.cpu.memory.num_holes
    · rw [if_pos hc] at h
      cases rq with
      | nil => rw [dequeue_nil] at h; cases h
      | cons v rest =>
        rw [dequeue_cons] at h
        simp only [bind, Except.bind] at h
        rw [List.nodup_cons] at hnd
        have hv : v ∈ all := hq v (by simp)
        have hrest : ∀ q ∈ rest, q ∈ all := fun q hq' => hq q (List.mem_cons_of_mem _ hq')
        have hcnt := hInv.count v hv
        have hnn := inv_count_nonneg all s v hInv hv
        have hsp : ¬ ((MemFlag.SP = MemFlag.VM ∨ MemFlag.SP = MemFlag.CM)
            ∧ (s.heap v).num_page_in_mem ≥ crp - s.cpu.memory.num_holes) := by
          intro hx; rcases hx.1 with e | e <;> cases e
        rw [if_neg hsp] at h
        have skip : (s.heap v).num_page_in_mem = 0 →
            evcit_loop .SP crp fuel s rest ev = .ok (s', ev') →
            ∃ k, k ≤ (holders s.heap (v :: rest)).length
              ∧ crp ≤ s.cpu.memory.num_holes
                  + resident_sum s.heap ((holders s.heap (v :: rest)).take k)
              ∧ (∀ j, j < k → s.cpu.memory.num_holes
                  + resident_sum s.heap ((holders s.heap (v :: rest)).take j) < crp)
              ∧ (∀ q ∈ (holders s.heap (v :: rest)).take k, (s'.heap q).num_page_in_mem = 0)
              ∧ ∀ q, q ∉ (holders s.heap (v :: rest)).take k → s'.heap q = s.heap q := by
          intro hz h'
          rw [holders_cons_zero s.heap v rest (by omega)]
          exact ih s rest ev s' ev' hInv hnd.2 hrest h'
        by_cases hpl : (s.heap v).page_list ≠ none
        · rw [if_pos hpl] at h
          by_cases hpos : (s.heap v).num_page_in_mem > 0
          · rw [if_pos hpos] at h
            obtain ⟨s1, heq, hInv1, -, hholes1, -, hsame1, hn1⟩ :=
              free_page_inv all s v (some ev) (s.heap v).num_page_in_mem hInv hv (by omega)
                (le_refl _)
            rw [heq] at h
            simp only at h
            obtain ⟨k, hk, hge, hleast, hzero, hsame⟩ :=
              ih s1 rest _ s' ev' hInv1 hnd.2 hrest h
            have hcongr : holders s1.heap rest = holders s.heap rest :=
              holders_congr s.heap s1.heap rest
                (fun q hq' => hsame1 q (fun e => hnd.1 (e ▸ hq')))
            rw [hcongr] at hk hge hleast hzero hsame
            have hsum : ∀ j, resident_sum s1.heap ((holders s.heap rest).take j)
                = resident_sum s.heap ((holders s.heap rest).take j) := by
              intro j
              apply resident_sum_congr_mem
              intro q hq'
              have hqr : q ∈ rest := ((holders_mem _ _ _).1 (List.mem_of_mem_take hq')).1
              rw [hsame1 q (fun e => hnd.1 (e ▸ hqr))]
            have hvn : v ∉ (holders s.heap rest).take k := fun hx =>
              hnd.1 ((holders_mem _ _ _).1 (List.mem_of_mem_take hx)).1
            rw [holders_cons_pos s.heap v rest hpos]
            refine ⟨k + 1, by simp; omega, ?_, fun j hj => ?_, fun q hq' => ?_,
              fun q hq' => ?_⟩
            · rw [List.take_succ_cons, resident_sum_cons]
              have := hsum k
              omega
            · cases j with
              | zero => simp [resident_sum]; omega
              | succ j' =>
                rw [List.take_succ_cons, resident_sum_cons]
                have := hleast j' (by omega)
                have := hsum j'
                omega
            · rw [List.take_succ_cons] at hq'
              rcases List.mem_cons.1 hq' with e | e
              · rw [e, hsame v hvn]; omega
              · exact hzero q e
            · rw [List.take_succ_cons] at hq'
              rw [hsame q (fun e => hq' (List.mem_cons_of_mem _ e))]
              exact hsame1 q (fun e => hq' (by rw [e]; simp))
          · rw [if_neg hpos] at h
            exact skip (by omega) h
        · rw [if_neg hpl] at h
          have hnone : (s.heap v).page_list = none := by
            by_contra hcon; exact hpl hcon
          exact skip (by rw [hcnt]; simp [cells, hnone]) h
    · rw [if_neg hc] at h
      cases h
      exact ⟨0, Nat.zero_le _, by simp [resident_sum]; omega, fun j hj => by omega,
        fun q hq => by simp at hq, fun _ _ => rfl⟩

/-- The victims of a call of `evcit` under swapping that returns. -/
theorem evcit_sp (all : List Ptr) (queue : Queue) (s s' : Sys) (crp : Int)
    (hInv : Inv all s) (hnd : queue.Nodup) (hq : ∀ q ∈ queue, q ∈ all)
    (h : evcit .SP queue s crp = .ok s') :
    ∃ ranking k, ranking.Perm queue ∧ ranking.Pairwise (prio_le s.heap .LASTET)
      ∧ k ≤ (holders s.heap ranking).length
      ∧ crp ≤ s.cpu.memory.num_holes
          + resident_sum s.heap ((holders s.heap ranking).take k)
      ∧ (∀ j, j < k → s.cpu.memory.num_holes
          + resident_sum s.heap ((holders s.heap ranking).take j) < crp)
      ∧ (∀ q ∈ (holders s.heap ranking).take k, (s'.heap q).num_page_in_mem = 0)
      ∧ (∀ q, q ∉ (holders s.heap ranking).take k → s'.heap q = s.heap q)
      ∧ ∀ q ∈ all, q ∉ (holders s.heap ranking).take k →
          owned (s.heap q).p_id 0 s'.cpu.memory.is_occupy_lst
            = owned (s.heap q).p_id 0 s.cpu.memory.is_occupy_lst := by
  have hInv' := (evcit_inv all .SP queue s s' crp hInv hq h).1
  simp only [evcit, resort_eq, bind, Except.bind] at h
  have hperm : (enqueue_list s.heap PrioFlag.LASTET new_queue queue).Perm queue := by
    simpa [new_queue] using enqueue_list_perm s.heap PrioFlag.LASTET queue new_queue
  have hsorted := enqueue_list_sorted s.heap PrioFlag.LASTET queue new_queue
    (by simp [new_queue])
  split at h
  · cases h
  · rename_i v heq
    obtain ⟨s1, ev⟩ := v
    simp only at h
    rw [print_evicted_sorted] at h
    cases h
    obtain ⟨k, hk, hge, hleast, hzero, hsame⟩ := evcit_loop_sp all crp _ s _ [] s1 ev hInv
      (hperm.nodup_iff.2 hnd) (fun x hx => hq x (hperm.mem_iff.1 hx)) heq
    refine ⟨_, k, hperm, hsorted, hk, hge, hleast, hzero, hsame, fun q hqa hqn => ?_⟩
    have h1 := hInv'.pages q hqa
    have h2 := hInv.pages q hqa
    have h3 : (s1.emit (Event.evicted s1.cpu.curr_time (qsort ev))).heap q = s.heap q :=
      hsame q hqn
    rw [h3] at h1
    rw [← h1, h2]

/-! ## The record of evicted frames -/

theorem free_cells_get (L : List Int) :
    ∀ (T T' : List Int), free_cells L T = .ok T' →
      T'.length = T.length ∧ (∀ x ∈ L, 0 ≤ x ∧ x < T.length)
        ∧ ∀ i : Nat, T'[i]? = if (i : Int) ∈ L ∧ i < T.length then some INVALID else T[i]? := by
  induction L with
  | nil =>
    intro T T' h
    unfold free_cells at h
    cases h
    exact ⟨rfl, fun x hx => by simp at hx, fun i => by simp⟩
  | cons ind rest ih =>
    intro T T' h
    unfold free_cells at h
    split at h
    · rename_i hind
      obtain ⟨hlen, hrange, hget⟩ := ih _ T' h
      rw [List.length_set] at hlen hrange
      refine ⟨hlen, fun x hx => ?_, fun i => ?_⟩
      · rcases List.mem_cons.1 hx with e | e
        · rw [e]; exact hind
        · exact hrange x e
      · rw [hget i, List.length_set]
        by_cases hi : (i : Int) ∈ rest ∧ i < T.length
        · rw [if_pos hi, if_pos ⟨List.mem_cons_of_mem _ hi.1, hi.2⟩]
        · rw [if_neg hi]
          by_cases he : (i : Int) = ind
          · have hlt : i < T.length := by omega
            rw [if_pos ⟨by rw [he]; simp, hlt⟩]
            have : ind.toNat = i := by omega
            rw [this, List.getElem?_set_self hlt]
          · have hne : ind.toNat ≠ i := by omega
            rw [List.getElem?_set_ne hne]
            have : ¬ ((i : Int) ∈ ind :: rest ∧ i < T.length) := by
              intro hx
              rcases List.mem_cons.1 hx.1 with e | e
              · exact he e
              · exact hi ⟨e, hx.2⟩
            rw [if_neg this]
    · cases h

/-- The table after `free_page` is the table before it with the freed cells set free. -/
theorem free_page_table (s s' : Sys) (p : Ptr) (record r : Option (List Int)) (n : Int)
    (h : free_page s p record n = .ok (s', r)) :
    ∃ freed, read_cells (s.heap p).page_list n = .ok freed
      ∧ free_cells freed s.cpu.memory.is_occupy_lst = .ok s'.cpu.memory.is_occupy_lst := by
  unfold free_page at h
  simp only [bind, Except.bind, pure, Except.pure] at h
  split at h
  · cases h
  · rename_i freed hfreed
    split at h
    · cases h
    · rename_i occupy hocc
      by_cases hn : n = (s.heap p).num_page_in_mem
      · rw [if_pos hn] at h
        cases h
        exact ⟨freed, hfreed, hocc⟩
      · rw [if_neg hn] at h
        split at h
        · cases h
        · cases h
          exact ⟨freed, hfreed, hocc⟩

theorem freed_refl (T : List Int) : Freed T T [] :=
  ⟨List.nodup_nil, fun x hx => by simp at hx, fun i => by simp, fun _ h => h, fun _ _ => rfl⟩

theorem freed_step (T T1 T2 X1 X2 : List Int) (h1 : Freed T T1 X1) (h2 : Freed T1 T2 X2) :
    Freed T T2 (X1 ++ X2) := by
  refine ⟨?_, ?_, ?_, ?_, ?_⟩
  · rw [List.nodup_append]
    refine ⟨h1.nodup, h2.nodup, fun x hx1 hx2 => ?_⟩
    have hx : ((x.toNat : Nat) : Int) = x := Int.toNat_of_nonneg (h1.nonneg x hx1)
    rw [← hx] at hx1 hx2
    exact ((h2.exact _).1 hx2).1 ((h1.exact _).1 hx1).2
  · intro x hx
    rcases List.mem_append.1 hx with e | e
    · exact h1.nonneg x e
    · exact h2.nonneg x e
  · intro i
    rw [List.mem_append]
    constructor
    · rintro (e | e)
      · obtain ⟨a, b⟩ := (h1.exact i).1 e
        exact ⟨a, h2.stays_free i b⟩
      · obtain ⟨a, b⟩ := (h2.exact i).1 e
        exact ⟨fun hx => a (h1.stays_free i hx), b⟩
    · rintro ⟨a, b⟩
      by_cases hc : T1[i]? = some INVALID
      · exact Or.inl ((h1.exact i).2 ⟨a, hc⟩)
      · exact Or.inr ((h2.exact i).2 ⟨hc, b⟩)
  · intro i hi
    exact h2.stays_free i (h1.stays_free i hi)
  · intro i hi
    have e := h2.keeps_owner i hi
    rw [e]
    exact h1.keeps_owner i (by rw [← e]; exact hi)

theorem free_page_freed (all : List Ptr) (s s1 : Sys) (v : Ptr) (record r : Option (List Int))
    (n : Int) (hInv : Inv all s) (hv : v ∈ all)
    (hn : n ≤ (s.heap v).num_page_in_mem) (h : free_page s v record n = .ok (s1, r)) :
    Freed s.cpu.memory.is_occupy_lst s1.cpu.memory.is_occupy_lst
      ((cells (s.heap v)).take n.toNat) := by
  obtain ⟨freed, hread, hfree⟩ := free_page_table s s1 v record r n h
  have hcnt := hInv.count v hv
  rw [read_cells_ok (s.heap v) n (by omega)] at hread
  cases hread
  obtain ⟨-, hrange, hget⟩ := free_cells_get _ _ _ hfree
  have hid := hInv.id_valid v hv
  have howned : ∀ x ∈ (cells (s.heap v)).take n.toNat,
      ∃ i : Nat, s.cpu.memory.is_occupy_lst[i]? = some (s.heap v).p_id ∧ x = (i : Int) := by
    intro x hx
    have := List.mem_of_mem_take hx
    rw [hInv.pages v hv, owned_mem] at this
    obtain ⟨i, hi, e⟩ := this
    exact ⟨i, hi, by omega⟩
  refine ⟨?_, fun x hx => (hrange x hx).1, fun i => ?_, fun i hi => ?_, fun i hi => ?_⟩
  · have hs := owned_sorted (s.heap v).p_id s.cpu.memory.is_occupy_lst 0
    rw [← hInv.pages v hv] at hs
    have hs' : ((cells (s.heap v)).take n.toNat).Pairwise (fun x y => x < y) :=
      hs.sublist (List.take_sublist _ _)
    exact hs'.imp (fun hxy => ne_of_lt hxy)
  · constructor
    · intro hi
      obtain ⟨j, hj, e⟩ := howned _ hi
      have hij : i = j := by omega
      subst hij
      have hlt : i < s.cpu.memory.is_occupy_lst.length := by
        by_contra hcon
        rw [List.getElem?_eq_none (by omega)] at hj
        cases hj
      refine ⟨fun hx => ?_, ?_⟩
      · rw [hj] at hx
        exact hid (Option.some.inj hx)
      · rw [hget i, if_pos ⟨hi, hlt⟩]
    · rintro ⟨a, b⟩
      rw [hget i] at b
      by_contra hcon
      rw [if_neg (fun hx => hcon hx.1)] at b
      exact a b
  · rw [hget i]
    split
    · rfl
    · exact hi
  · rw [hget i] at hi ⊢
    split
    · rename_i hc; rw [if_pos hc] at hi; exact absurd rfl hi
    · rfl

theorem evcit_loop_record (all : List Ptr) (f : MemFlag) (crp : Int) (fuel : Nat) :
    ∀ (s : Sys) (rq : Queue) (ev : List Int) (s' : Sys) (ev' : List Int),
      Inv all s → (∀ q ∈ rq, q ∈ all) →
      evcit_loop f crp fuel s rq ev = .ok (s', ev') →
      ∃ X, ev' = ev ++ X
        ∧ Freed s.cpu.memory.is_occupy_lst s'.cpu.memory.is_occupy_lst X := by
  induction fuel with
  | zero =>
    intro s rq ev s' ev' _ _ h
    unfold evcit_loop at h
    split at h
    · cases h
    · cases h; exact ⟨[], by simp, freed_refl _⟩
  | succ fuel ih =>
    intro s rq ev s' ev' hInv hq h
    unfold evcit_loop at h
    by_cases hc : crp > s.cpu.memory.num_holes
    · rw [if_pos hc] at h
      cases rq with
      | nil => rw [dequeue_nil] at h; cases h
      | cons v rest =>
        rw [dequeue_cons] at h
        simp only [bind, Except.bind] at h
        have hv : v ∈ all := hq v (by simp)
        have hrest : ∀ q ∈ rest, q ∈ all := fun q hq' => hq q (List.mem_cons_of_mem _ hq')
        by_cases hpl : (s.heap v).page_list ≠ none
        · rw [if_pos hpl] at h
          generalize hnf : (if (f = MemFlag.VM ∨ f = MemFlag.CM)
              ∧ (s.heap v).num_page_in_mem ≥ crp - s.cpu.memory.num_holes
            then crp - s.cpu.memory.num_holes else (s.heap v).num_page_in_mem) = nf at h
          have hb : nf ≤ (s.heap v).num_page_in_mem := by
            rw [← hnf]; split
            · rename_i hh; omega
            · exact le_refl _
          by_cases hpos : nf > 0
          · rw [if_pos hpos] at h
            obtain ⟨s1, heq, hInv1, -⟩ :=
              free_page_inv all s v (some ev) nf hInv hv (by omega) hb
            have hfr := free_page_freed all s s1 v (some ev) _ nf hInv hv hb heq
            rw [heq] at h
            simp only at h
            obtain ⟨X, hX, hF⟩ := ih s1 rest _ s' ev' hInv1 hrest h
            refine ⟨(cells (s.heap v)).take nf.toNat ++ X, ?_, freed_step _ _ _ _ _ hfr hF⟩
            rw [hX]
            simp
          · rw [if_neg hpos] at h
            exact ih s rest ev s' ev' hInv hrest h
        · rw [if_neg hpl] at h
          exact ih s rest ev s' ev' hInv hrest h
    · rw [if_neg hc] at h
      cases h
      exact ⟨[], by simp, freed_refl _⟩

/-- The line `EVICTED` of a call of `evcit` that returns lists, in strictly ascending order,
exactly the frames that the call has set free. -/
theorem evcit_record (all : List Ptr) (f : MemFlag) (queue : Queue) (s s' : Sys) (crp : Int)
    (hInv : Inv all s) (hq : ∀ q ∈ queue, q ∈ all) (h : evcit f queue s crp = .ok s') :
    ∃ l : List Int, s'.out = s.out ++ [.evicted s.cpu.curr_time l]
      ∧ l.Pairwise (fun a b => a < b)
      ∧ Freed s.cpu.memory.is_occupy_lst s'.cpu.memory.is_occupy_lst l := by
  simp only [evcit, resort_eq, bind, Except.bind] at h
  have hmem : ∀ x, x ∈ enqueue_list s.heap (if f = MemFlag.CM then PrioFlag.MAXPAGE
      else PrioFlag.LASTET) new_queue queue → x ∈ all := by
    intro x hx
    rw [enqueue_list_mem] at hx
    simp [new_queue] at hx
    exact hq x hx
  split at h
  · cases h
  · rename_i v heq
    obtain ⟨s1, ev⟩ := v
    simp only at h
    rw [print_evicted_sorted] at h
    cases h
    obtain ⟨X, hX, hF⟩ := evcit_loop_record all f crp _ s _ [] s1 ev hInv hmem heq
    rw [List.nil_append] at hX
    subst hX
    have hperm := qsort_perm ev
    have hnd : (qsort ev).Nodup := hperm.nodup_iff.2 hF.nodup
    have htime := (evcit_loop_shape f crp _ s _ [] s1 ev heq).2.1
    refine ⟨qsort ev, ?_, ?_, ?_, fun x hx => hF.nonneg x (hperm.mem_iff.1 hx), fun i => ?_,
      hF.stays_free, hF.keeps_owner⟩
    · show s1.out ++ [Event.evicted s1.cpu.curr_time (qsort ev)] = _
      rw [(evcit_loop_shape f crp _ s _ [] s1 ev heq).1, htime]
    · exact ((qsort_sorted ev).and hnd).imp (fun hab => lt_of_le_of_ne hab.1 hab.2)
    · exact hnd
    · rw [hperm.mem_iff]; exact hF.exact i

/-! ## The sample state with a full table -/

theorem sample_full_inv : Inv (List.range sample_records.length) sample_full :=
  mem_alloc_func_inv _ .SP [0, 2] _ _ 1
    (mem_alloc_func_inv _ .SP [1, 2] _ _ 0 (inv_init sample_records 9 3 sample_unique)
      (by decide) (by decide)
      (show mem_alloc_func .SP [1, 2] (init_sys sample_records 9 3) 0
        = .ok (after_admission .SP [1, 2] (init_sys sample_records 9 3) 0) from rfl))
    (by decide) (by decide)
    (show mem_alloc_func .SP [0, 2]
        (after_admission .SP [1, 2] (init_sys sample_records 9 3) 0) 1 = .ok sample_full
      from rfl)
theorem sample_full_evcit :
    evcit .SP [0, 1] sample_full 6 = .ok (after_evcit .SP [0, 1] sample_full 6) := rfl
theorem sample_vm_evcit :
    evcit .VM [0, 2] sample_vm_first 4 = .ok (after_evcit .VM [0, 2] sample_vm_first 4) := rfl

/-! ## The cases of a round of the simulation -/

theorem queue_nil_of_size (queue : Queue) (h : ¬ get_queue_size queue > 0) : queue = [] := by
  cases queue with
  | nil => rfl
  | cons a l => simp [get_queue_size] at h

/-- A round of `simulation` that returns is the dispatch of the head of the waiting queue,
followed by its requeue or by its completion, or the wait for the next arrival, or nothing. -/
theorem sim_step_cases (sched : SchedFlag) (mem : MemFlag) (st st' : Sim)
    (h : sim_step sched mem st = .ok st') :
    (∃ p w s1 q' w2, st.waiting_queue = p :: w ∧ mem_alloc_func mem w st.sys p = .ok s1
        ∧ arrivals sched (add_curr_time sched s1 p).heap (add_curr_time sched s1 p).cpu.curr_time
            st.queue.length st.queue w = .ok (q', w2)
        ∧ ((sched = .RR ∧ ((after_run sched s1 p).heap p).remaining_time ≠ 0
            ∧ st' = { st with
                sys := after_run sched s1 p
                queue := q'
                waiting_queue := enqueue (after_run sched s1 p).heap w2 p .LASTET })
          ∨ (¬ (sched = .RR ∧ ((after_run sched s1 p).heap p).remaining_time ≠ 0)
            ∧ ∃ s5, print_finished mem (record_statistic (after_run sched s1 p) p) p w2 = .ok s5
              ∧ st' = { sys := after_finish s5 p, queue := q', waiting_queue := w2,
                        complete_queue :=
                          enqueue (after_finish s5 p).heap st.complete_queue p .COMPLETET })))
      ∨ (st.waiting_queue = [] ∧ ∃ p rest, st.queue = p :: rest
          ∧ st' = { st with
              sys := { st.sys with cpu := { st.sys.cpu with
                curr_time := (st.sys.heap p).arrive_time } }
              queue := rest
              waiting_queue := enqueue st.sys.heap st.waiting_queue p .ARRT })
      ∨ (st.waiting_queue = [] ∧ st.queue = [] ∧ st' = st) := by
  unfold sim_step at h
  split at h
  · left
    cases hwq : st.waiting_queue with
    | nil => rw [hwq] at h; rw [dequeue_nil] at h; cases h
    | cons p w =>
      rw [hwq] at h
      rw [dequeue_cons] at h
      simp only [bind, Except.bind] at h
      split at h
      · cases h
      · rename_i s1 hs1
        split at h
        · cases h
        · rename_i v harr
          obtain ⟨q', w2⟩ := v
          simp only at h
          refine ⟨p, w, s1, q', w2, rfl, hs1, harr, ?_⟩
          split at h
          · rename_i hc
            cases h
            exact Or.inl ⟨hc.1, hc.2, rfl⟩
          · rename_i hc
            split at h
            · cases h
            · rename_i s5 hs5
              cases h
              exact Or.inr ⟨hc, s5, hs5, rfl⟩
  · rename_i hw
    have hwnil := queue_nil_of_size _ hw
    right
    split at h
    · left
      cases hqq : st.queue with
      | nil => rw [hqq] at h; rw [dequeue_nil] at h; cases h
      | cons p rest =>
        rw [hqq] at h
        rw [dequeue_cons] at h
        simp only [bind, Except.bind, pure, Except.pure] at h
        cases h
        exact ⟨hwnil, p, rest, rfl, rfl⟩
    · rename_i hq
      right
      cases h
      exact ⟨hwnil, queue_nil_of_size _ hq, rfl⟩

/-! ## Steps that only move pages -/

theorem usage_sum_cons (H : Heap) (v : Ptr) (rest : List Ptr) :
    usage_sum H (v :: rest) = (H v).mem_usage + usage_sum H rest := by
  simp [usage_sum]

theorem usage_sum_congr (H H' : Heap) (l : List Ptr)
    (h : ∀ q ∈ l, (H' q).mem_usage = (H q).mem_usage) : usage_sum H' l = usage_sum H l := by
  unfold usage_sum
  congr 1
  exact List.map_congr_left h

theorem usage_sum_change (H H' : Heap) (p : Ptr) (all : List Ptr) (hnd : all.Nodup)
    (hp : p ∈ all) (h : ∀ q, q ≠ p → (H' q).mem_usage = (H q).mem_usage) :
    usage_sum H' all = usage_sum H all - (H p).mem_usage + (H' p).mem_usage := by
  induction all with
  | nil => simp at hp
  | cons a rest ih =>
    rw [List.nodup_cons] at hnd
    rw [usage_sum_cons, usage_sum_cons]
    by_cases hap : a = p
    · subst hap
      rw [usage_sum_congr H H' rest (fun q hq => h q (fun e => hnd.1 (e ▸ hq)))]
      omega
    · have hp' : p ∈ rest := by
        rcases List.mem_cons.1 hp with e | e
        · exact absurd e.symm hap
        · exact e
      rw [ih hnd.2 hp', h a hap]
      omega

theorem quiet_refl (all : List Ptr) (s : Sys) : Quiet all s s :=
  ⟨rfl, rfl, fun _ => same_but_pages_refl _, rfl⟩

theorem quiet_trans (all : List Ptr) (s s1 s2 : Sys) (h1 : Quiet all s s1)
    (h2 : Quiet all s1 s2) : Quiet all s s2 := by
  refine ⟨?_, h2.total.trans h1.total, fun q => same_but_pages_trans (h1.procs q) (h2.procs q),
    h2.usage.trans h1.usage⟩
  rw [h2.cpu, h1.cpu]

theorem quiet_emit (all : List Ptr) (s : Sys) (e : Event) : Quiet all s (s.emit e) :=
  ⟨rfl, rfl, fun _ => same_but_pages_refl _, rfl⟩

/-- The state after `free_page` in full. -/
theorem free_page_form (s s' : Sys) (p : Ptr) (record r : Option (List Int)) (n : Int)
    (h : free_page s p record n = .ok (s', r)) :
    ∃ nl T', T'.length = s.cpu.memory.is_occupy_lst.length
      ∧ s' = (s.setProc p { s.heap p with
                page_list := nl
                num_page_in_mem := (s.heap p).num_page_in_mem - n
                mem_usage := (s.heap p).mem_usage
                  - my_ceil (double_mul 100 (double_mul
                      (double_div (double_mul (double_of n) 1) (double_of s.cpu.memory.total_page)) 1)) }).setMem
              { s.cpu.memory with
                is_occupy_lst := T'
                num_holes := s.cpu.memory.num_holes + n
                memory_use := s.cpu.memory.memory_use
                  - my_ceil (double_mul 100 (double_mul
                      (double_div (double_mul (double_of n) 1) (double_of s.cpu.memory.total_page)) 1)) } := by
  unfold free_page at h
  simp only [bind, Except.bind] at h
  split at h
  · cases h
  · rename_i freed hread
    split at h
    · cases h
    · rename_i T' hfree
      have hlen := (free_cells_get _ _ _ hfree).1
      by_cases hn : n = (s.heap p).num_page_in_mem
      · rw [if_pos hn] at h
        simp only [pure, Except.pure] at h
        cases h
        exact ⟨none, T', hlen, rfl⟩
      · rw [if_neg hn] at h
        split at h
        · cases h
        · rename_i nl hnl
          simp only [pure, Except.pure] at h
          cases h
          exact ⟨nl, T', hlen, rfl⟩

theorem free_page_quiet (all : List Ptr) (s s' : Sys) (p : Ptr) (record r : Option (List Int))
    (n : Int) (hnd : all.Nodup) (hp : p ∈ all)
    (h : free_page s p record n = .ok (s', r)) : Quiet all s s' := by
  have hprocs := (free_page_shape s s' p record r n h).1.2.2.2.2.1
  obtain ⟨nl, T', hlen, hs'⟩ := free_page_form s s' p record r n h
  subst hs'
  refine ⟨rfl, ?_, hprocs, ?_⟩
  · show ((T'.length : Nat) : Int) = _
    rw [hlen]; rfl
  · rw [usage_sum_change s.heap _ p all hnd hp (fun q hq => by
      simp [Sys.setMem, Sys.setProc, Function.update_noteq hq])]
    simp [Sys.setMem, Sys.setProc]

theorem evcit_loop_quiet (all : List Ptr) (f : MemFlag) (crp : Int) (fuel : Nat)
    (hnd : all.Nodup) :
    ∀ (s : Sys) (rq : Queue) (ev : List Int) (s' : Sys) (ev' : List Int),
      (∀ q ∈ rq, q ∈ all) → evcit_loop f crp fuel s rq ev = .ok (s', ev') → Quiet all s s' := by
  induction fuel with
  | zero =>
    intro s rq ev s' ev' _ h
    unfold evcit_loop at h
    split at h
    · cases h
    · cases h; exact quiet_refl all _
  | succ fuel ih =>
    intro s rq ev s' ev' hq h
    unfold evcit_loop at h
    split at h
    · cases rq with
      | nil => rw [dequeue_nil] at h; cases h
      | cons v rest =>
        rw [dequeue_cons] at h
        simp only [bind, Except.bind] at h
        have hv : v ∈ all := hq v (by simp)
        have hrest : ∀ q ∈ rest, q ∈ all := fun q hq' => hq q (List.mem_cons_of_mem _ hq')
        by_cases hpl : (s.heap v).page_list ≠ none
        · rw [if_pos hpl] at h
          generalize (if (f = MemFlag.VM ∨ f = MemFlag.CM)
              ∧ (s.heap v).num_page_in_mem ≥ crp - s.cpu.memory.num_holes
            then crp - s.cpu.memory.num_holes else (s.heap v).num_page_in_mem) = nf at h
          by_cases hpos : nf > 0
          · rw [if_pos hpos] at h
            split at h
            · cases h
            · rename_i v1 hfp
              obtain ⟨s1, rec1⟩ := v1
              exact quiet_trans all _ _ _ (free_page_quiet all s s1 v _ _ _ hnd hv hfp)
                (ih s1 rest _ s' ev' hrest h)
          · rw [if_neg hpos] at h
            exact ih s rest ev s' ev' hrest h
        · rw [if_neg hpl] at h
          exact ih s rest ev s' ev' hrest h
    · cases h; exact quiet_refl all _

theorem evcit_quiet (all : List Ptr) (f : MemFlag) (queue : Queue) (s s' : Sys) (crp : Int)
    (hnd : all.Nodup) (hq : ∀ q ∈ queue, q ∈ all) (h : evcit f queue s crp = .ok s') :
    Quiet all s s' := by
  simp only [evcit, resort_eq, bind, Except.bind] at h
  split at h
  · cases h
  · rename_i v heq
    obtain ⟨s1, ev⟩ := v
    simp only at h
    rw [print_evicted_sorted] at h
    cases h
    refine quiet_trans all _ _ _ (evcit_loop_quiet all f crp _ hnd s _ [] s1 ev
      (fun x hx => ?_) heq) (quiet_emit all _ _)
    rw [enqueue_list_mem] at hx
    simp [new_queue] at hx
    exact hq x hx

theorem print_finished_quiet (all : List Ptr) (f : MemFlag) (s s' : Sys) (p : Ptr)
    (queue : Queue) (hnd : all.Nodup) (hp : p ∈ all)
    (h : print_finished f s p queue = .ok s') : Quiet all s s' := by
  unfold print_finished at h
  by_cases hf : f ≠ .UN
  · rw [if_pos hf] at h
    simp only [bind, Except.bind, pure, Except.pure] at h
    split at h
    · cases h
    · rename_i s1 hs1
      split at h
      · cases h
      · rename_i s2 hs2
        cases h
        obtain ⟨e, he⟩ : ∃ e, s1 = s.emit e := by
          unfold print_evicted at hs1
          simp only [bind, Except.bind, pure, Except.pure] at hs1
          split at hs1
          · cases hs1
          · cases hs1; exact ⟨_, rfl⟩
        subst he
        exact quiet_trans all _ _ _ (quiet_emit all s e)
          (quiet_trans all _ _ _ (free_page_quiet all _ _ p _ _ _ hnd hp hs2)
            (quiet_emit all _ _))
  · rw [if_neg hf] at h
    cases h
    exact quiet_emit all _ _

/-! ## The admission as a step -/

/-- The state after the grant in full. -/
theorem grant_pages_form (s1 s' : Sys) (p : Ptr) (total n : Int)
    (h : grant_pages s1 p total n = .ok s') :
    ∃ pl T' k e, T' = (alloc_frames (s1.heap p).p_id n s1.cpu.memory.is_occupy_lst 0).1
      ∧ s' = (((s1.setProc p { s1.heap p with
                page_list := pl
                load_time := n * LOAD_TIME
                num_page_in_mem := (s1.heap p).num_page_in_mem + n
                page_fault := total - ((s1.heap p).num_page_in_mem + n)
                remaining_time := (s1.heap p).remaining_time
                  + (total - ((s1.heap p).num_page_in_mem + n))
                mem_usage := (s1.heap p).mem_usage
                  + my_ceil (double_mul 100 (double_mul
                      (double_div (double_mul (double_of n) 1) (double_of s1.cpu.memory.total_page)) 1)) }).setMem
              { s1.cpu.memory with
                is_occupy_lst := T'
                num_holes := k
                memory_use := s1.cpu.memory.memory_use
                  + my_ceil (double_mul 100 (double_mul
                      (double_div (double_mul (double_of n) 1) (double_of s1.cpu.memory.total_page)) 1)) }).emit
              e) := by
  unfold grant_pages at h
  simp only [bind, Except.bind] at h
  by_cases hneg : total < 0
  · rw [if_pos hneg] at h
    cases h
  · rw [if_neg hneg] at h
    simp only [pure, Except.pure] at h
    unfold print_mem_running at h
    simp only [bind, Except.bind] at h
    split at h
    · cases h
    · simp only [pure, Except.pure] at h
      cases h
      exact ⟨_, _, _, _, rfl, rfl⟩

theorem alloc_frames_length (id crp : Int) (T : List Int) :
    ∀ k, (alloc_frames id crp T k).1.length = T.length := by
  induction T with
  | nil => intro k; simp [alloc_frames]
  | cons slot rest ih =>
    intro k
    unfold alloc_frames
    split
    · rfl
    · split
      · simp [ih]
      · simp [ih]

theorem same_but_admitted_of_pages {a b : ProcessInfo} (h : same_but_pages a b) :
    same_but_admitted a b := by
  unfold same_but_pages at h
  unfold same_but_admitted
  rw [h]

theorem same_but_admitted_trans {a b c : ProcessInfo} (h1 : same_but_admitted a b)
    (h2 : same_but_admitted b c) : same_but_admitted a c := by
  unfold same_but_admitted at *
  rw [h2, h1]

theorem grant_pages_admitted (all : List Ptr) (s1 s' : Sys) (p : Ptr) (total n : Int)
    (hnd : all.Nodup) (hp : p ∈ all) (h : grant_pages s1 p total n = .ok s') :
    Admitted all p s1 s' := by
  obtain ⟨pl, T', k, e, hT, hs'⟩ := grant_pages_form s1 s' p total n h
  subst hs'
  refine ⟨rfl, ?_, fun q hq => ?_, ?_, ?_⟩
  · show ((T'.length : Nat) : Int) = _
    rw [hT, alloc_frames_length]; rfl
  · show same_but_pages (s1.heap q) (Function.update s1.heap p _ q)
    rw [Function.update_noteq hq]
    exact same_but_pages_refl _
  · unfold same_but_admitted
    simp [Sys.emit, Sys.setMem, Sys.setProc]
  · rw [usage_sum_change s1.heap _ p all hnd hp (fun q hq => by
      simp [Sys.emit, Sys.setMem, Sys.setProc, Function.update_noteq hq])]
    simp [Sys.emit, Sys.setMem, Sys.setProc]
    ring

theorem admitted_of_quiet (all : List Ptr) (p : Ptr) (s s1 s2 : Sys) (h1 : Quiet all s s1)
    (h2 : Admitted all p s1 s2) : Admitted all p s s2 := by
  refine ⟨?_, h2.total.trans h1.total,
    fun q hq => same_but_pages_trans (h1.procs q) (h2.others q hq),
    same_but_admitted_trans (same_but_admitted_of_pages (h1.procs p)) h2.self,
    h2.usage.trans h1.usage⟩
  rw [h2.cpu, h1.cpu]

/-- Every admission that returns is an admission step. -/
theorem mem_alloc_func_admitted (all : List Ptr) (f : MemFlag) (queue : Queue) (s s' : Sys)
    (p : Ptr) (hnd : all.Nodup) (hp : p ∈ all) (hq : ∀ q ∈ queue, q ∈ all)
    (h : mem_alloc_func f queue s p = .ok s') : Admitted all p s s' := by
  have key : ∀ (v : ProcessInfo) (e : Event), same_but_admitted (s.heap p) v →
      v.mem_usage = (s.heap p).mem_usage → Admitted all p s ((s.setProc p v).emit e) := by
    intro v e hv hu
    refine ⟨rfl, rfl, fun q hq' => ?_, ?_, ?_⟩
    · have : ((s.setProc p v).emit e).heap q = s.heap q := by
        simp [Sys.emit, Sys.setProc, Function.update_noteq hq']
      rw [this]
      exact same_but_pages_refl _
    · have : ((s.setProc p v).emit e).heap p = v := by simp [Sys.emit, Sys.setProc]
      rw [this]
      exact hv
    · rw [usage_sum_change s.heap _ p all hnd hp (fun q hq' => by
        simp [Sys.emit, Sys.setProc, Function.update_noteq hq'])]
      simp [Sys.emit, Sys.setProc, hu]
  by_cases hf : f = .UN
  · subst hf
    unfold mem_alloc_func at h
    rw [if_pos rfl] at h
    cases h
    exact key _ _ (by unfold same_but_admitted; rfl) rfl
  · by_cases hc : required_pages (s.heap p) - (s.heap p).num_page_in_mem = 0
    · unfold mem_alloc_func at h
      rw [if_neg hf] at h
      unfold required_pages at hc
      simp only at h
      rw [if_pos hc] at h
      unfold print_mem_running at h
      obtain ⟨c, -, hb⟩ := bind_ok _ _ _ h
      cases hb
      exact key _ _ (by unfold same_but_admitted; simp [Sys.setProc]) rfl
    · rw [mem_alloc_func_eq f queue s p hf hc] at h
      obtain ⟨⟨s1, n⟩, ha, hb⟩ := bind_ok _ _ _ h
      have hg := grant_pages_admitted all s1 s' p _ n hnd hp hb
      rcases require_pages_cases f queue s s1 p _ n ha with e | e
      · subst e; exact hg
      · exact admitted_of_quiet all p s s1 s' (evcit_quiet all f queue s s1 n hnd hq e) hg

/-! ## The run and the completion of a dispatched process -/

theorem add_curr_time_fields (sched : SchedFlag) (s : Sys) (p : Ptr) :
    (add_curr_time sched s p).cpu
        = { s.cpu with curr_time := (add_curr_time sched s p).cpu.curr_time }
      ∧ (add_curr_time sched s p).out = s.out
      ∧ (∀ q, q ≠ p → (add_curr_time sched s p).heap q = s.heap q)
      ∧ (add_curr_time sched s p).heap p
        = { s.heap p with remaining_time := ((add_curr_time sched s p).heap p).remaining_time } := by
  unfold add_curr_time
  cases sched
  · exact ⟨rfl, rfl, fun _ _ => rfl, rfl⟩
  · simp only
    split
    · refine ⟨rfl, rfl, fun q hq => ?_, ?_⟩
      · simp [Sys.setProc, Function.update_noteq hq]
      · simp [Sys.setProc]
    · refine ⟨rfl, rfl, fun q hq => ?_, ?_⟩
      · simp [Sys.setProc, Function.update_noteq hq]
      · simp [Sys.setProc]
  · exact ⟨rfl, rfl, fun _ _ => rfl, rfl⟩

/-- The time that `add_curr_time` adds to the clock and the remaining time it leaves. -/
theorem add_curr_time_spec (sched : SchedFlag) (s : Sys) (p : Ptr) :
    (sched ≠ .RR →
        (add_curr_time sched s p).cpu.curr_time
            = s.cpu.curr_time + ((s.heap p).job_time + (s.heap p).load_time)
          ∧ ((add_curr_time sched s p).heap p).remaining_time = (s.heap p).remaining_time)
      ∧ (sched = .RR →
        (add_curr_time sched s p).cpu.curr_time
            = s.cpu.curr_time
              + (min (s.heap p).remaining_time s.cpu.quantam + (s.heap p).load_time)
          ∧ ((add_curr_time sched s p).heap p).remaining_time
            = (s.heap p).remaining_time - min (s.heap p).remaining_time s.cpu.quantam) := by
  unfold add_curr_time
  cases sched
  · exact ⟨fun _ => ⟨rfl, rfl⟩, fun h => by cases h⟩
  · refine ⟨fun h => absurd rfl h, fun _ => ?_⟩
    simp only
    split
    · rename_i hc
      rw [min_eq_right hc]
      refine ⟨rfl, ?_⟩
      simp [Sys.setProc]
    · rename_i hc
      rw [min_eq_left (by omega)]
      refine ⟨rfl, ?_⟩
      simp [Sys.setProc]
  · exact ⟨fun _ => ⟨rfl, rfl⟩, fun h => by cases h⟩

theorem after_run_fields (sched : SchedFlag) (s : Sys) (p : Ptr) :
    (after_run sched s p).cpu = (add_curr_time sched s p).cpu
      ∧ (after_run sched s p).out = s.out
      ∧ (∀ q, q ≠ p → (after_run sched s p).heap q = s.heap q)
      ∧ (after_run sched s p).heap p
        = { s.heap p with
            remaining_time := ((add_curr_time sched s p).heap p).remaining_time
            last_execution_time := (add_curr_time sched s p).cpu.curr_time } := by
  obtain ⟨-, hout, hothers, hself⟩ := add_curr_time_fields sched s p
  refine ⟨rfl, hout, fun q hq => ?_, ?_⟩
  · show Function.update (add_curr_time sched s p).heap p _ q = _
    rw [Function.update_noteq hq, hothers q hq]
  · show Function.update (add_curr_time sched s p).heap p _ p = _
    rw [Function.update_same, hself]

theorem after_run_times (sched : SchedFlag) (s : Sys) (p q : Ptr) :
    same_but_times (s.heap q) ((after_run sched s p).heap q) := by
  obtain ⟨-, -, hothers, hself⟩ := after_run_fields sched s p
  unfold same_but_times
  by_cases hq : q = p
  · subst hq; rw [hself]
  · rw [hothers q hq]

theorem after_finish_fields (s : Sys) (p : Ptr) :
    (after_finish s p).cpu
        = { s.cpu with complete_num_process := s.cpu.complete_num_process + 1 }
      ∧ (after_finish s p).out = s.out
      ∧ (∀ q, q ≠ p → (after_finish s p).heap q = s.heap q)
      ∧ (after_finish s p).heap p = { s.heap p with complete_time := s.cpu.curr_time } := by
  refine ⟨rfl, rfl, fun q hq => ?_, ?_⟩
  · show Function.update s.heap p _ q = _
    rw [Function.update_noteq hq]
  · show Function.update s.heap p _ p = _
    rw [Function.update_same]

theorem after_finish_times (s : Sys) (p q : Ptr) :
    same_but_times (s.heap q) ((after_finish s p).heap q) := by
  obtain ⟨-, -, hothers, hself⟩ := after_finish_fields s p
  unfold same_but_times
  by_cases hq : q = p
  · subst hq; rw [hself]
  · rw [hothers q hq]

theorem same_but_times_fields {a b : ProcessInfo} (h : same_but_times a b) :
    b.arrive_time = a.arrive_time ∧ b.p_id = a.p_id ∧ b.mem_size_req = a.mem_size_req
      ∧ b.job_time = a.job_time ∧ b.num_page_in_mem = a.num_page_in_mem
      ∧ b.page_list = a.page_list ∧ b.mem_usage = a.mem_usage ∧ b.load_time = a.load_time
      ∧ b.page_fault = a.page_fault := by
  unfold same_but_times at h
  rw [h]
  exact ⟨rfl, rfl, rfl, rfl, rfl, rfl, rfl, rfl, rfl⟩

theorem same_but_pages_times {a b : ProcessInfo} (h : same_but_pages a b) :
    b.arrive_time = a.arrive_time ∧ b.job_time = a.job_time
      ∧ b.last_execution_time = a.last_execution_time
      ∧ b.complete_time = a.complete_time := by
  unfold same_but_pages at h
  rw [h]
  exact ⟨rfl, rfl, rfl, rfl⟩

theorem same_but_admitted_fields {a b : ProcessInfo} (h : same_but_admitted a b) :
    b.arrive_time = a.arrive_time ∧ b.job_time = a.job_time ∧ b.p_id = a.p_id
      ∧ b.mem_size_req = a.mem_size_req
      ∧ b.last_execution_time = a.last_execution_time
      ∧ b.complete_time = a.complete_time := by
  unfold same_but_admitted at h
  rw [h]
  exact ⟨rfl, rfl, rfl, rfl, rfl, rfl⟩

/-! ## The arrivals -/

theorem arrivals_count (sched : SchedFlag) (H : Heap) (t : Int) (fuel : Nat) :
    ∀ (queue waiting q' w' : Queue), arrivals sched H t fuel queue waiting = .ok (q', w') →
      ∀ x, q'.count x + w'.count x = queue.count x + waiting.count x := by
  induction fuel with
  | zero =>
    intro queue waiting q' w' h x
    unfold arrivals at h
    split at h
    · cases h
    · cases h; rfl
  | succ fuel ih =>
    intro queue waiting q' w' h x
    unfold arrivals at h
    split at h
    · cases queue with
      | nil => simp [get_queue_size] at *
      | cons a rest =>
        have hg : get_queue_point (a :: rest) 0 = .ok a :=
          get_queue_point_get (a :: rest) ⟨0, by simp⟩
        rw [hg, dequeue_cons] at h
        simp only [bind, Except.bind] at h
        split at h
        · have key : ∀ k, arrivals sched H t fuel rest (enqueue H waiting a k) = .ok (q', w') →
              q'.count x + w'.count x = (a :: rest).count x + waiting.count x := by
            intro k hk
            have := ih rest _ q' w' hk x
            rw [(enqueue_perm H k waiting a).count_eq x] at this
            rw [List.count_cons] at this ⊢
            omega
          cases sched
          · exact key _ h
          · exact key _ h
          · exact key _ h
        · cases h; rfl
    · cases h; rfl

/-- After the arrivals the next process of the queue, when there is one, arrives later than the
current time. -/
theorem arrivals_next (sched : SchedFlag) (H : Heap) (t : Int) (fuel : Nat) :
    ∀ (queue waiting q' w' : Queue), arrivals sched H t fuel queue waiting = .ok (q', w') →
      ∀ p rest, q' = p :: rest → t < (H p).arrive_time := by
  induction fuel with
  | zero =>
    intro queue waiting q' w' h p rest hq'
    unfold arrivals at h
    split at h
    · cases h
    · rename_i hc
      cases h
      subst hq'
      simp [get_queue_size] at hc
  | succ fuel ih =>
    intro queue waiting q' w' h p rest hq'
    unfold arrivals at h
    split at h
    · cases queue with
      | nil => simp [get_queue_size] at *
      | cons a rest' =>
        have hg : get_queue_point (a :: rest') 0 = .ok a :=
          get_queue_point_get (a :: rest') ⟨0, by simp⟩
        rw [hg, dequeue_cons] at h
        simp only [bind, Except.bind] at h
        split at h
        · cases sched
          · exact ih _ _ q' w' h p rest hq'
          · exact ih _ _ q' w' h p rest hq'
          · exact ih _ _ q' w' h p rest hq'
        · rename_i hc
          cases h
          cases hq'
          omega
    · rename_i hc
      cases h
      subst hq'
      simp [get_queue_size] at hc

/-! ## The queues and the usage along the simulation -/

theorem usage_balance_same (all : List Ptr) (s s' : Sys)
    (hm : s'.cpu.memory.memory_use = s.cpu.memory.memory_use)
    (hu : ∀ q, (s'.heap q).mem_usage = (s.heap q).mem_usage) :
    s'.cpu.memory.memory_use - usage_sum s'.heap all
      = s.cpu.memory.memory_use - usage_sum s.heap all := by
  rw [hm, usage_sum_congr s.heap s'.heap all (fun q _ => hu q)]

theorem same_but_pages_remaining {a b : ProcessInfo} (h : same_but_pages a b) :
    b.remaining_time = a.remaining_time := (same_but_pages_fields h).2.2.1

theorem sim_init_sched (records : List Record) (frames : Nat) (quantum : Int) (st0 : Sim)
    (h : sim_init (read_file records).2 (init_sys records frames quantum) = .ok st0) :
    SchedInv (List.range records.length) st0 := by
  have hperm := read_file_perm records
  have husage : (init_sys records frames quantum).cpu.memory.memory_use
      = usage_sum (init_sys records frames quantum).heap (List.range records.length) := by
    have hz : ∀ q ∈ List.range records.length,
        ((init_sys records frames quantum).heap q).mem_usage = (new_ProcessInfo).mem_usage := by
      intro q hq
      rw [init_heap records frames quantum q (List.mem_range.1 hq)]
      rfl
    rw [usage_sum_congr (fun _ => new_ProcessInfo) _ _ hz]
    unfold usage_sum
    show (0 : Int) = _
    symm
    apply List.sum_eq_zero
    intro x hx
    simp only [List.mem_map] at hx
    obtain ⟨_, -, e⟩ := hx
    rw [← e]; rfl
  unfold sim_init at h
  split at h
  · cases hqq : (read_file records).2 with
    | nil => rw [hqq] at h; rw [dequeue_nil] at h; cases h
    | cons p rest =>
      rw [hqq] at h hperm
      rw [dequeue_cons] at h
      simp only [bind, Except.bind, pure, Except.pure] at h
      cases h
      refine ⟨?_, husage⟩
      rw [List.perm_iff_count]
      intro x
      have h1 := hperm.count_eq x
      have h2 := (enqueue_perm (init_sys records frames quantum).heap .ARRT new_queue p).count_eq x
      simp only [List.count_append, List.count_cons, new_queue, List.count_nil] at h1 h2 ⊢
      omega
  · cases h
    rename_i hc
    have hnil := queue_nil_of_size _ hc
    rw [hnil] at hperm
    refine ⟨?_, husage⟩
    show ((read_file records).2 ++ new_queue ++ new_queue).Perm _
    rw [hnil]
    simpa [new_queue] using hperm

theorem sim_step_sched (all : List Ptr) (sched : SchedFlag) (mem : MemFlag) (st st' : Sim)
    (hnd : all.Nodup) (hI : SchedInv all st) (h : sim_step sched mem st = .ok st') :
    SchedInv all st' := by
  obtain ⟨hparts, husage⟩ := hI
  rcases sim_step_cases sched mem st st' h with
    ⟨p, w, s1, q', w2, hwq, hs1, harr, hcase⟩ | ⟨hwq, p, rest, hqq, hst'⟩ | ⟨-, -, hst'⟩
  · rw [hwq] at hparts
    have hp : p ∈ all := hparts.subset (by simp)
    have hw : ∀ x ∈ w, x ∈ all := fun x hx => hparts.subset (by simp [hx])
    have hadm := mem_alloc_func_admitted all mem w st.sys s1 p hnd hp hw hs1
    have hcount := arrivals_count sched _ _ _ _ _ _ _ harr
    have hrun_mem : (after_run sched s1 p).cpu.memory = s1.cpu.memory := by
      rw [(after_run_fields sched s1 p).1, (add_curr_time_fields sched s1 p).1]
    have hrun_usage : ∀ q, ((after_run sched s1 p).heap q).mem_usage = (s1.heap q).mem_usage :=
      fun q => (same_but_times_fields (after_run_times sched s1 p q)).2.2.2.2.2.2.1
    have hbal3 : (after_run sched s1 p).cpu.memory.memory_use
        - usage_sum (after_run sched s1 p).heap all = 0 := by
      rw [usage_balance_same all s1 _ (by rw [hrun_mem]) hrun_usage, hadm.usage, husage]
      omega
    rcases hcase with ⟨-, -, hst'⟩ | ⟨-, s5, hs5, hst'⟩
    · subst hst'
      refine ⟨?_, sub_eq_zero.1 hbal3⟩
      rw [List.perm_iff_count]
      intro x
      have h1 := hparts.count_eq x
      have h2 := (enqueue_perm (after_run sched s1 p).heap .LASTET w2 p).count_eq x
      have h3 := hcount x
      simp only [List.count_append, List.count_cons] at h1 h2 ⊢
      omega
    · subst hst'
      have hq5 := print_finished_quiet all mem _ s5 p w2 hnd hp hs5
      have hfin_mem : (after_finish s5 p).cpu.memory = s5.cpu.memory := by
        rw [(after_finish_fields s5 p).1]
      have hfin_usage : ∀ q, ((after_finish s5 p).heap q).mem_usage = (s5.heap q).mem_usage :=
        fun q => (same_but_times_fields (after_finish_times s5 p q)).2.2.2.2.2.2.1
      have hbal : (after_finish s5 p).cpu.memory.memory_use
          - usage_sum (after_finish s5 p).heap all = 0 := by
        rw [usage_balance_same all s5 _ (by rw [hfin_mem]) hfin_usage, hq5.usage]
        exact hbal3
      refine ⟨?_, sub_eq_zero.1 hbal⟩
      rw [List.perm_iff_count]
      intro x
      have h1 := hparts.count_eq x
      have h2 := (enqueue_perm (after_finish s5 p).heap .COMPLETET st.complete_queue p).count_eq x
      have h3 := hcount x
      simp only [List.count_append, List.count_cons] at h1 h2 ⊢
      omega
  · subst hst'
    refine ⟨?_, husage⟩
    rw [hqq] at hparts
    rw [List.perm_iff_count]
    intro x
    have h1 := hparts.count_eq x
    have h2 := (enqueue_perm st.sys.heap .ARRT st.waiting_queue p).count_eq x
    simp only [List.count_append, List.count_cons] at h1 h2 ⊢
    omega
  · subst hst'
    exact ⟨hparts, husage⟩

theorem sim_reach_sched (all : List Ptr) (sched : SchedFlag) (mem : MemFlag) (st0 st : Sim)
    (hnd : all.Nodup) (h0 : SchedInv all st0) (hr : SimReach sched mem st0 st) :
    SchedInv all st := by
  induction hr with
  | start => exact h0
  | step _ hs ih => exact sim_step_sched all sched mem _ _ hnd ih hs

/-- The records of every state that the rounds of `simulation` reach are reached by admissions,
evictions and finishes. -/
theorem sim_reach_reach (s0 : Sys) (all : List Ptr) (sched : SchedFlag) (mem : MemFlag)
    (st0 st : Sim) (h0 : Reach s0 all st0.sys) (hq0 : ∀ x ∈ st0.queue, x ∈ all)
    (hw0 : ∀ x ∈ st0.waiting_queue, x ∈ all) (hr : SimReach sched mem st0 st) :
    Reach s0 all st.sys ∧ (∀ x ∈ st.queue, x ∈ all) ∧ (∀ x ∈ st.waiting_queue, x ∈ all) := by
  induction hr with
  | start => exact ⟨h0, hq0, hw0⟩
  | step _ hs ih => exact sim_step_reach s0 all sched mem _ _ ih.1 ih.2.1 ih.2.2 hs

/-- The records of every state that the rounds of `simulation` reach on an input with unique ids
have consistent frame accounting. -/
theorem sim_reach_frames (records : List Record) (sched : SchedFlag) (mem : MemFlag)
    (frames : Nat) (quantum : Int) (st0 st : Sim) (hu : unique_ids records)
    (h0 : sim_init (read_file records).2 (init_sys records frames quantum) = .ok st0)
    (hr : SimReach sched mem st0 st) : Inv (List.range records.length) st.sys := by
  have hS := sim_init_sched records frames quantum st0 h0
  have hsys : st0.sys = init_sys records frames quantum := by
    unfold sim_init at h0
    split at h0
    · obtain ⟨v, -, hb⟩ := bind_ok _ _ _ h0
      cases hb; rfl
    · cases h0; rfl
  have hreach : Reach (init_sys records frames quantum) (List.range records.length) st0.sys := by
    rw [hsys]; exact Reach.start
  exact reach_inv _ _ _ (inv_init records frames quantum hu)
    (sim_reach_reach _ _ sched mem st0 st hreach
      (fun x hx => hS.parts.subset (by simp [hx]))
      (fun x hx => hS.parts.subset (by simp [hx])) hr).1

/-! ## The ceiling -/

/-- On numbers that are not negative `my_ceil` is the ceiling. -/
theorem my_ceil_eq_ceil (x : ℚ) (hx : 0 ≤ x) : my_ceil x = ⌈x⌉ := by
  have hnum : 0 ≤ x.num := Rat.num_nonneg.2 hx
  have hfloor : x.num.tdiv x.den = ⌊x⌋ := by
    rw [Rat.floor_def, Int.tdiv_eq_ediv hnum (by exact_mod_cast Nat.zero_le _)]
  unfold my_ceil
  simp only
  rw [hfloor]
  by_cases h : x = ((⌊x⌋ : Int) : ℚ)
  · rw [if_pos h]
    conv_rhs => rw [h]
    rw [Int.ceil_intCast]
  · rw [if_neg h]
    symm
    rw [Int.ceil_eq_iff]
    constructor
    · have := Int.floor_le x
      push_cast
      have hlt : ((⌊x⌋ : Int) : ℚ) < x := lt_of_le_of_ne this (fun e => h e.symm)
      linarith
    · have := Int.lt_floor_add_one x
      push_cast
      linarith

/-! ## The penalty of an admission -/

theorem mem_alloc_func_penalty (all : List Ptr) (f : MemFlag) (queue : Queue) (s s' : Sys)
    (p : Ptr) (hInv : Inv all s) (hp : p ∈ all) (hq : ∀ q ∈ queue, q ∈ all)
    (h : mem_alloc_func f queue s p = .ok s') :
    0 ≤ (s'.heap p).load_time
      ∧ (s.heap p).remaining_time ≤ (s'.heap p).remaining_time := by
  by_cases hf : f = .UN
  · subst hf
    unfold mem_alloc_func at h
    rw [if_pos rfl] at h
    cases h
    simp [print_running, Sys.emit, Sys.setProc]
  · rcases mem_alloc_func_cases f queue s s' p hf h with
      ⟨-, hheap, -⟩ | ⟨hne, s1, n, hreq, hs1, hg⟩
    · rw [hheap]; simp
    · obtain ⟨ht, hheap, -⟩ := grant_pages_shape s1 s' p _ n hg
      have hb := hInv.bound p hp
      have hn := inv_count_nonneg all s p hInv hp
      have hreq' : (required_pages (s.heap p)) = (s.heap p).mem_size_req.tdiv PAGE_SIZE := rfl
      obtain ⟨-, h0, -, hle, -⟩ := require_pages_inv all f queue s p _
        (required_pages (s.heap p)) s1 n hInv hq hf (by omega) (by omega) hreq
      have hrem := (before_grant_fields f queue s s1 n hs1 p).2.2.1
      rw [hheap]
      have h2 : LOAD_TIME = 2 := rfl
      constructor
      · show 0 ≤ n * LOAD_TIME
        rw [h2]; omega
      · show (s.heap p).remaining_time ≤ (s1.heap p).remaining_time
          + (required_pages (s.heap p) - ((s1.heap p).num_page_in_mem + n))
        omega

/-! ## The clock along the simulation -/

theorem enqueue_ne_nil (H : Heap) (queue : Queue) (p : Ptr) (k : PrioFlag) :
    enqueue H queue p k ≠ [] := by
  intro e
  have := (enqueue_perm H k queue p).length_eq
  rw [e] at this
  simp at this

theorem sim_init_sys (queue : Queue) (s : Sys) (st0 : Sim) (h : sim_init queue s = .ok st0) :
    st0.sys = s ∧ (st0.waiting_queue = [] → st0.queue = []) := by
  unfold sim_init at h
  split at h
  · obtain ⟨v, -, hb⟩ := bind_ok _ _ _ h
    cases hb
    exact ⟨rfl, fun e => (enqueue_ne_nil s.heap new_queue v.1 .ARRT e).elim⟩
  · rename_i hc
    cases h
    exact ⟨rfl, fun _ => queue_nil_of_size _ hc⟩

theorem sim_init_clock (records : List Record) (frames : Nat) (quantum : Int) (st0 : Sim)
    (hjob : ∀ r ∈ records, 0 ≤ r.job_time) (hquantum : 0 ≤ quantum)
    (h : sim_init (read_file records).2 (init_sys records frames quantum) = .ok st0) :
    ClockInv (List.range records.length) st0 := by
  obtain ⟨hsys, hnil⟩ := sim_init_sys _ _ st0 h
  have hheap : ∀ p ∈ List.range records.length,
      0 ≤ (st0.sys.heap p).remaining_time ∧ 0 ≤ (st0.sys.heap p).job_time := by
    intro p hp
    have hlt := List.mem_range.1 hp
    rw [hsys, init_heap records frames quantum p hlt]
    have := hjob records[p] (List.getElem_mem hlt)
    exact ⟨this, this⟩
  refine ⟨fun p hp => (hheap p hp).1, fun p hp => (hheap p hp).2, ?_, fun hw p rest hq => ?_⟩
  · rw [hsys]; exact hquantum
  · rw [hnil hw] at hq
    cases hq

theorem sim_step_clock (all : List Ptr) (sched : SchedFlag) (mem : MemFlag) (st st' : Sim)
    (hInv : Inv all st.sys) (hS : SchedInv all st) (hC : ClockInv all st)
    (h : sim_step sched mem st = .ok st') :
    ClockInv all st' ∧ st.sys.cpu.curr_time ≤ st'.sys.cpu.curr_time := by
  obtain ⟨hrem, hjob, hquantum, hnext⟩ := hC
  have hparts := hS.parts
  rcases sim_step_cases sched mem st st' h with
    ⟨p, w, s1, q', w2, hwq, hs1, harr, hcase⟩ | ⟨hwq, p, rest, hqq, hst'⟩ | ⟨-, -, hst'⟩
  · rw [hwq] at hparts
    have hp : p ∈ all := hparts.subset (by simp)
    have hw : ∀ x ∈ w, x ∈ all := fun x hx => hparts.subset (by simp [hx])
    have hadm := mem_alloc_func_admitted all mem w st.sys s1 p hInv.nodup hp hw hs1
    obtain ⟨hload, hpen⟩ := mem_alloc_func_penalty all mem w st.sys s1 p hInv hp hw hs1
    have hcurr1 : s1.cpu.curr_time = st.sys.cpu.curr_time := by rw [hadm.cpu]
    have hq1 : s1.cpu.quantam = st.sys.cpu.quantam := by rw [hadm.cpu]
    have hrem1 : ∀ q ∈ all, 0 ≤ (s1.heap q).remaining_time := by
      intro q hq
      by_cases hqp : q = p
      · rw [hqp]; have := hrem p hp; omega
      · rw [same_but_pages_remaining (hadm.others q hqp)]; exact hrem q hq
    have hjob1 : ∀ q, (s1.heap q).job_time = (st.sys.heap q).job_time
        ∧ (s1.heap q).arrive_time = (st.sys.heap q).arrive_time := by
      intro q
      by_cases hqp : q = p
      · rw [hqp]
        exact ⟨(same_but_admitted_fields hadm.self).2.1, (same_but_admitted_fields hadm.self).1⟩
      · exact ⟨(same_but_pages_times (hadm.others q hqp)).2.1,
          (same_but_pages_times (hadm.others q hqp)).1⟩
    obtain ⟨hcpu3, -, hothers3, hself3⟩ := after_run_fields sched s1 p
    have hjobp := hjob p hp
    have hremp := hrem1 p hp
    have hspec := add_curr_time_spec sched s1 p
    have hm1 := min_le_left (s1.heap p).remaining_time s1.cpu.quantam
    have hm2 : 0 ≤ min (s1.heap p).remaining_time s1.cpu.quantam := le_min hremp (by omega)
    have hcurr3 : s1.cpu.curr_time ≤ (add_curr_time sched s1 p).cpu.curr_time
        ∧ 0 ≤ ((add_curr_time sched s1 p).heap p).remaining_time := by
      by_cases hs : sched = .RR
      · obtain ⟨a, b⟩ := hspec.2 hs
        rw [a, b]; omega
      · obtain ⟨a, b⟩ := hspec.1 hs
        rw [a, b, (hjob1 p).1]; omega
    have hq3 : (add_curr_time sched s1 p).cpu.quantam = s1.cpu.quantam := by
      rw [(add_curr_time_fields sched s1 p).1]
    have hrem3 : ∀ q ∈ all, 0 ≤ ((after_run sched s1 p).heap q).remaining_time := by
      intro q hq
      by_cases hqp : q = p
      · rw [hqp, hself3]; exact hcurr3.2
      · rw [hothers3 q hqp]; exact hrem1 q hq
    have hjob3 : ∀ q, ((after_run sched s1 p).heap q).job_time = (st.sys.heap q).job_time
        ∧ ((after_run sched s1 p).heap q).arrive_time = (st.sys.heap q).arrive_time := by
      intro q
      obtain ⟨a, -, -, b, -⟩ := same_but_times_fields (after_run_times sched s1 p q)
      rw [a, b]
      exact ⟨(hjob1 q).1, (hjob1 q).2⟩
    have harrive : ∀ x rest, q' = x :: rest →
        (add_curr_time sched s1 p).cpu.curr_time < (st.sys.heap x).arrive_time := by
      intro x rest hx
      have := arrivals_next sched _ _ _ _ _ _ _ harr x rest hx
      have e : ((add_curr_time sched s1 p).heap x).arrive_time = (s1.heap x).arrive_time := by
        by_cases hxp : x = p
        · rw [hxp, (add_curr_time_fields sched s1 p).2.2.2]
        · rw [(add_curr_time_fields sched s1 p).2.2.1 x hxp]
      rw [e, (hjob1 x).2] at this
      exact this
    rcases hcase with ⟨-, -, hst'⟩ | ⟨-, s5, hs5, hst'⟩
    · subst hst'
      refine ⟨⟨hrem3, fun q hq => ?_, ?_, fun hw' => absurd hw' (enqueue_ne_nil _ _ _ _)⟩, ?_⟩
      · show 0 ≤ ((after_run sched s1 p).heap q).job_time
        rw [(hjob3 q).1]; exact hjob q hq
      · show 0 ≤ (after_run sched s1 p).cpu.quantam
        rw [hcpu3, hq3, hq1]; exact hquantum
      · show st.sys.cpu.curr_time ≤ (after_run sched s1 p).cpu.curr_time
        rw [hcpu3]; omega
    · subst hst'
      have hq5 := print_finished_quiet all mem _ s5 p w2 hInv.nodup hp hs5
      have hcpu5 : s5.cpu.curr_time = (add_curr_time sched s1 p).cpu.curr_time
          ∧ s5.cpu.quantam = (add_curr_time sched s1 p).cpu.quantam := by
        rw [hq5.cpu]
        constructor
        · show (after_run sched s1 p).cpu.curr_time = _
          rw [hcpu3]
        · show (after_run sched s1 p).cpu.quantam = _
          rw [hcpu3]
      have hheap5 : ∀ q, (s5.heap q).remaining_time
            = ((after_run sched s1 p).heap q).remaining_time
          ∧ (s5.heap q).job_time = ((after_run sched s1 p).heap q).job_time
          ∧ (s5.heap q).arrive_time = ((after_run sched s1 p).heap q).arrive_time := by
        intro q
        have hsb : same_but_pages ((after_run sched s1 p).heap q) (s5.heap q) := hq5.procs q
        exact ⟨same_but_pages_remaining hsb, (same_but_pages_times hsb).2.1,
          (same_but_pages_times hsb).1⟩
      obtain ⟨hcpu7, -, hothers7, hself7⟩ := after_finish_fields s5 p
      have hheap7 : ∀ q, ((after_finish s5 p).heap q).remaining_time = (s5.heap q).remaining_time
          ∧ ((after_finish s5 p).heap q).job_time = (s5.heap q).job_time
          ∧ ((after_finish s5 p).heap q).arrive_time = (s5.heap q).arrive_time := by
        intro q
        by_cases hqp : q = p
        · rw [hqp, hself7]; exact ⟨rfl, rfl, rfl⟩
        · rw [hothers7 q hqp]; exact ⟨rfl, rfl, rfl⟩
      refine ⟨⟨fun q hq => ?_, fun q hq => ?_, ?_, fun _ x rest hx => ?_⟩, ?_⟩
      · show 0 ≤ ((after_finish s5 p).heap q).remaining_time
        rw [(hheap7 q).1, (hheap5 q).1]; exact hrem3 q hq
      · show 0 ≤ ((after_finish s5 p).heap q).job_time
        rw [(hheap7 q).2.1, (hheap5 q).2.1, (hjob3 q).1]; exact hjob q hq
      · show 0 ≤ (after_finish s5 p).cpu.quantam
        rw [hcpu7]
        show 0 ≤ s5.cpu.quantam
        rw [hcpu5.2, hq3, hq1]; exact hquantum
      · show (after_finish s5 p).cpu.curr_time ≤ ((after_finish s5 p).heap x).arrive_time
        rw [hcpu7, (hheap7 x).2.2, (hheap5 x).2.2, (hjob3 x).2]
        show s5.cpu.curr_time ≤ _
        rw [hcpu5.1]
        exact le_of_lt (harrive x rest hx)
      · show st.sys.cpu.curr_time ≤ (after_finish s5 p).cpu.curr_time
        rw [hcpu7]
        show _ ≤ s5.cpu.curr_time
        rw [hcpu5.1]; omega
  · subst hst'
    refine ⟨⟨hrem, hjob, hquantum, fun hw' => absurd hw' (enqueue_ne_nil _ _ _ _)⟩, ?_⟩
    exact hnext hwq p rest hqq
  · subst hst'
    exact ⟨⟨hrem, hjob, hquantum, hnext⟩, le_refl _⟩

/-! ## Runs and reachable states -/

theorem sim_reach_head (sched : SchedFlag) (mem : MemFlag) (st st1 r : Sim)
    (hs : sim_step sched mem st = .ok st1) (hr : SimReach sched mem st1 r) :
    SimReach sched mem st r := by
  induction hr with
  | start => exact SimReach.step SimReach.start hs
  | step _ hs' ih => exact SimReach.step ih hs'

theorem sim_loop_simreach (sched : SchedFlag) (mem : MemFlag) (fuel : Nat) :
    ∀ (st r : Sim), sim_loop sched mem fuel st = .ok r →
      SimReach sched mem st r ∧ r.queue = [] ∧ r.waiting_queue = [] := by
  induction fuel with
  | zero =>
    intro st r h
    unfold sim_loop at h
    split at h
    · cases h
    · rename_i hc
      cases h
      push_neg at hc
      exact ⟨SimReach.start, queue_nil_of_size _ (by omega), queue_nil_of_size _ (by omega)⟩
  | succ fuel ih =>
    intro st r h
    unfold sim_loop at h
    split at h
    · obtain ⟨st1, hs, hl⟩ := bind_ok _ _ _ h
      obtain ⟨a, b, c⟩ := ih st1 r hl
      exact ⟨sim_reach_head sched mem st st1 r hs a, b, c⟩
    · rename_i hc
      cases h
      push_neg at hc
      exact ⟨SimReach.start, queue_nil_of_size _ (by omega), queue_nil_of_size _ (by omega)⟩

/-- The result of a run is reached by rounds of `simulation` from its initial state, and its
queues are empty. -/
theorem run_simreach (records : List Record) (sched : SchedFlag) (mem : MemFlag) (frames : Nat)
    (quantum : Int) (fuel : Nat) (r : Sim)
    (h : run records sched mem frames quantum fuel = .ok r) :
    ∃ st0, sim_init (read_file records).2 (init_sys records frames quantum) = .ok st0
      ∧ SimReach sched mem st0 r ∧ r.queue = [] ∧ r.waiting_queue = [] := by
  unfold run simulation at h
  obtain ⟨st0, h0, hl⟩ := bind_ok _ _ _ h
  exact ⟨st0, h0, sim_loop_simreach sched mem fuel st0 r hl⟩

theorem sim_reach_clock (records : List Record) (sched : SchedFlag) (mem : MemFlag)
    (frames : Nat) (quantum : Int) (st0 st : Sim) (hu : unique_ids records)
    (hjob : ∀ r ∈ records, 0 ≤ r.job_time) (hquantum : 0 ≤ quantum)
    (h0 : sim_init (read_file records).2 (init_sys records frames quantum) = .ok st0)
    (hr : SimReach sched mem st0 st) : ClockInv (List.range records.length) st := by
  induction hr with
  | start => exact sim_init_clock records frames quantum st0 hjob hquantum h0
  | step hprev hs ih =>
    exact (sim_step_clock _ sched mem _ _
      (sim_reach_frames records sched mem frames quantum st0 _ hu h0 hprev)
      (sim_reach_sched _ sched mem st0 _ (List.nodup_range _)
        (sim_init_sched records frames quantum st0 h0) hprev) ih hs).1

/-! ## One dispatch -/

theorem count_one_of_parts (all a b c : List Ptr) (hnd : all.Nodup)
    (h : (a ++ b ++ c).Perm all) (x : Ptr) (hx : x ∈ a ++ b ++ c) :
    a.count x + b.count x + c.count x = 1 := by
  have h1 := h.count_eq x
  have h2 : all.count x = 1 := List.count_eq_one_of_mem hnd (h.subset hx)
  simp only [List.count_append] at h1
  omega

theorem not_mem_of_count (l : List Ptr) (x : Ptr) (h : l.count x = 0) : x ∉ l :=
  List.count_eq_zero.1 h

theorem count_pos_of_mem (l : List Ptr) (x : Ptr) (h : x ∈ l) : 0 < l.count x :=
  List.count_pos_iff.2 h

/-- The dispatch of the head of the waiting queue in a round of `simulation` that returns, at a
state with the processes spread over the queues: the admission, the clock after the run, and
either the requeue under round robin with time remaining or the completion. -/
theorem sim_step_dispatch (all : List Ptr) (sched : SchedFlag) (mem : MemFlag) (st st' : Sim)
    (p : Ptr) (w : Queue) (hnd : all.Nodup) (hS : SchedInv all st)
    (hd : dequeue st.waiting_queue = .ok (p, w)) (h : sim_step sched mem st = .ok st') :
    ∃ s1, mem_alloc_func mem w st.sys p = .ok s1
      ∧ s1.cpu.curr_time = st.sys.cpu.curr_time ∧ s1.cpu.quantam = st.sys.cpu.quantam
      ∧ (s1.heap p).job_time = (st.sys.heap p).job_time
      ∧ st'.sys.cpu.curr_time = (add_curr_time sched s1 p).cpu.curr_time
      ∧ (st'.sys.heap p).remaining_time = ((add_curr_time sched s1 p).heap p).remaining_time
      ∧ (st'.sys.heap p).load_time = (s1.heap p).load_time
      ∧ p ∉ st.complete_queue ∧ p ∉ st'.queue
      ∧ ((sched = .RR ∧ ((add_curr_time sched s1 p).heap p).remaining_time ≠ 0
            ∧ p ∈ st'.waiting_queue ∧ p ∉ st'.complete_queue)
          ∨ (¬ (sched = .RR ∧ ((add_curr_time sched s1 p).heap p).remaining_time ≠ 0)
            ∧ p ∉ st'.waiting_queue ∧ p ∈ st'.complete_queue
            ∧ (st'.sys.heap p).complete_time = (add_curr_time sched s1 p).cpu.curr_time)) := by
  have hS' := sim_step_sched all sched mem st st' hnd hS h
  have hparts := hS.parts
  have hparts' := hS'.parts
  rcases sim_step_cases sched mem st st' h with
    ⟨p', w', s1, q', w2, hwq, hs1, harr, hcase⟩ | ⟨hwq, -⟩ | ⟨hwq, -⟩
  · rw [hwq, dequeue_cons] at hd
    cases hd
    rw [hwq] at hparts
    have hp : p ∈ all := hparts.subset (by simp)
    have hw : ∀ x ∈ w, x ∈ all := fun x hx => hparts.subset (by simp [hx])
    have hadm := mem_alloc_func_admitted all mem w st.sys s1 p hnd hp hw hs1
    have hc0 := count_one_of_parts all _ _ _ hnd hparts p (by simp)
    simp only [List.count_cons_self] at hc0
    obtain ⟨hcpu3, -, -, hself3⟩ := after_run_fields sched s1 p
    have hrem3 : ((after_run sched s1 p).heap p).remaining_time
        = ((add_curr_time sched s1 p).heap p).remaining_time := by rw [hself3]
    have hload3 : ((after_run sched s1 p).heap p).load_time = (s1.heap p).load_time := by
      rw [hself3]
    refine ⟨s1, hs1, by rw [hadm.cpu], by rw [hadm.cpu],
      (same_but_admitted_fields hadm.self).2.1, ?_⟩
    rcases hcase with ⟨hrr, hne, hst'⟩ | ⟨hne, s5, hs5, hst'⟩
    · subst hst'
      have hpe := enqueue_perm (after_run sched s1 p).heap .LASTET w2 p
      have hc : q'.count p + (enqueue (after_run sched s1 p).heap w2 p .LASTET).count p
          + st.complete_queue.count p = 1 :=
        count_one_of_parts all _ _ _ hnd hparts' p
          (by simp only [List.mem_append]; exact Or.inl (Or.inr (hpe.mem_iff.2 (by simp))))
      have hce := hpe.count_eq p
      simp only [List.count_cons_self] at hce
      rw [hrem3] at hne
      refine ⟨congrArg CPUInfo.curr_time hcpu3, hrem3, hload3,
        not_mem_of_count st.complete_queue p (by omega), not_mem_of_count q' p (by omega),
        Or.inl ⟨hrr, hne, hpe.mem_iff.2 (by simp),
          not_mem_of_count st.complete_queue p (by omega)⟩⟩
    · subst hst'
      have hq5 := print_finished_quiet all mem _ s5 p w2 hnd hp hs5
      have hpe := enqueue_perm (after_finish s5 p).heap .COMPLETET st.complete_queue p
      have hc : q'.count p + w2.count p
          + (enqueue (after_finish s5 p).heap st.complete_queue p .COMPLETET).count p = 1 :=
        count_one_of_parts all _ _ _ hnd hparts' p
          (by simp only [List.mem_append]; exact Or.inr (hpe.mem_iff.2 (by simp)))
      have hce := hpe.count_eq p
      simp only [List.count_cons_self] at hce
      rw [hrem3] at hne
      have hsb : same_but_pages ((after_run sched s1 p).heap p) (s5.heap p) := hq5.procs p
      have hcurr5 : s5.cpu.curr_time = (add_curr_time sched s1 p).cpu.curr_time := by
        rw [hq5.cpu]
        show (after_run sched s1 p).cpu.curr_time = _
        rw [hcpu3]
      obtain ⟨hcpu7, -, -, hself7⟩ := after_finish_fields s5 p
      refine ⟨?_, ?_, ?_, not_mem_of_count st.complete_queue p (by omega),
        not_mem_of_count q' p (by omega),
        Or.inr ⟨hne, not_mem_of_count w2 p (by omega), hpe.mem_iff.2 (by simp), ?_⟩⟩
      · show (after_finish s5 p).cpu.curr_time = _
        rw [hcpu7]; exact hcurr5
      · show ((after_finish s5 p).heap p).remaining_time = _
        rw [hself7]
        show (s5.heap p).remaining_time = _
        rw [same_but_pages_remaining hsb, hrem3]
      · show ((after_finish s5 p).heap p).load_time = _
        rw [hself7]
        show (s5.heap p).load_time = _
        rw [(same_but_pages_fields hsb).2.2.2.1, hload3]
      · show ((after_finish s5 p).heap p).complete_time = _
        rw [hself7]
        exact hcurr5
  · rw [hwq, dequeue_nil] at hd; cases hd
  · rw [hwq, dequeue_nil] at hd; cases hd

/-! # The claims on eviction -/

/-- Claim C21, eviction order: `evcit` ranks the processes of the queue by ascending
(key, `p_id`), the key being `last_execution_time` under swapping and virtual memory and
`num_page_in_mem` under the custom mode (`evcit_key`), and takes the victims in that order: in a
state with consistent frame accounting, after a call of `evcit` that returns, a process `q` of
the queue has lost pages only if every other process `r` of the queue ranked before it holds no
page. -/
theorem eviction_order (all : List Ptr) (f : MemFlag) (queue : Queue) (s s' : Sys) (crp : Int)
    (q r : Ptr) (hInv : Inv all s) (hq : ∀ x ∈ queue, x ∈ all)
    (h : evcit f queue s crp = .ok s') (hqm : q ∈ queue) (hrm : r ∈ queue) (hne : r ≠ q)
    (hle : get_priority (s.heap r) (evcit_key f) < get_priority (s.heap q) (evcit_key f)
      ∨ (get_priority (s.heap r) (evcit_key f) = get_priority (s.heap q) (evcit_key f)
          ∧ (s.heap r).p_id ≤ (s.heap q).p_id))
    (hlost : (s'.heap q).num_page_in_mem < (s.heap q).num_page_in_mem) :
    (s'.heap r).num_page_in_mem = 0 :=
  evcit_order all f queue s s' crp hInv hq h q r hqm hrm hne hle hlost

/-- Witness for C21: with the 9 frames held by the first and the second process, 6 frames are
required under swapping; the second process loses its pages after the first, ranked before it. -/
theorem eviction_order_witness :
    Inv (List.range sample_records.length) sample_full
      ∧ evcit .SP [0, 1] sample_full 6 = .ok (after_evcit .SP [0, 1] sample_full 6)
      ∧ (get_priority (sample_full.heap 0) (evcit_key .SP)
            = get_priority (sample_full.heap 1) (evcit_key .SP)
          ∧ (sample_full.heap 0).p_id ≤ (sample_full.heap 1).p_id)
      ∧ ((after_evcit .SP [0, 1] sample_full 6).heap 1).num_page_in_mem
          < (sample_full.heap 1).num_page_in_mem
      ∧ ((after_evcit .SP [0, 1] sample_full 6).heap 0).num_page_in_mem = 0 :=
  ⟨sample_full_inv, sample_full_evcit, by decide, by decide,
    eviction_order (List.range sample_records.length) .SP [0, 1] sample_full
      (after_evcit .SP [0, 1] sample_full 6) 6 1 0 sample_full_inv (by decide)
      sample_full_evcit (by decide) (by decide) (by decide) (Or.inr (by decide)) (by decide)⟩

/-- Claim C22, fixed-partition eviction: in a state with consistent frame accounting, when
`evcit` returns under swapping for a queue without repetition, there are the ranking of the queue
in ascending (`last_execution_time`, `p_id`) order and a number `k` such that the first `k`
processes of the ranking that hold pages are the victims: `k` is the least number for which the
holes and the pages of these processes reach the pages required, each victim ends with no page,
and every other process, with the frames it owns, is unchanged. -/
theorem fixed_partition_eviction (all : List Ptr) (queue : Queue) (s s' : Sys) (crp : Int)
    (hInv : Inv all s) (hnd : queue.Nodup) (hq : ∀ q ∈ queue, q ∈ all)
    (h : evcit .SP queue s crp = .ok s') :
    ∃ ranking k, ranking.Perm queue ∧ ranking.Pairwise (prio_le s.heap .LASTET)
      ∧ k ≤ (holders s.heap ranking).length
      ∧ crp ≤ s.cpu.memory.num_holes
          + resident_sum s.heap ((holders s.heap ranking).take k)
      ∧ (∀ j, j < k → s.cpu.memory.num_holes
          + resident_sum s.heap ((holders s.heap ranking).take j) < crp)
      ∧ (∀ q ∈ (holders s.heap ranking).take k, (s'.heap q).num_page_in_mem = 0)
      ∧ (∀ q, q ∉ (holders s.heap ranking).take k → s'.heap q = s.heap q)
      ∧ ∀ q ∈ all, q ∉ (holders s.heap ranking).take k →
          owned (s.heap q).p_id 0 s'.cpu.memory.is_occupy_lst
            = owned (s.heap q).p_id 0 s.cpu.memory.is_occupy_lst :=
  evcit_sp all queue s s' crp hInv hnd hq h

/-- Witness for C22: the eviction of 6 frames from the full table of 9 frames. -/
theorem fixed_partition_eviction_witness :
    Inv (List.range sample_records.length) sample_full ∧ [0, 1].Nodup
      ∧ evcit .SP [0, 1] sample_full 6 = .ok (after_evcit .SP [0, 1] sample_full 6)
      ∧ ∃ ranking k, ranking.Perm [0, 1] ∧ ranking.Pairwise (prio_le sample_full.heap .LASTET)
        ∧ k ≤ (holders sample_full.heap ranking).length
        ∧ 6 ≤ sample_full.cpu.memory.num_holes
            + resident_sum sample_full.heap ((holders sample_full.heap ranking).take k)
        ∧ (∀ j, j < k → sample_full.cpu.memory.num_holes
            + resident_sum sample_full.heap ((holders sample_full.heap ranking).take j) < 6)
        ∧ (∀ q ∈ (holders sample_full.heap ranking).take k,
            ((after_evcit .SP [0, 1] sample_full 6).heap q).num_page_in_mem = 0)
        ∧ (∀ q, q ∉ (holders sample_full.heap ranking).take k →
            (after_evcit .SP [0, 1] sample_full 6).heap q = sample_full.heap q)
        ∧ ∀ q ∈ List.range sample_records.length,
            q ∉ (holders sample_full.heap ranking).take k →
            owned (sample_full.heap q).p_id 0
                (after_evcit .SP [0, 1] sample_full 6).cpu.memory.is_occupy_lst
              = owned (sample_full.heap q).p_id 0 sample_full.cpu.memory.is_occupy_lst :=
  ⟨sample_full_inv, by decide, sample_full_evcit,
    fixed_partition_eviction (List.range sample_records.length) [0, 1] sample_full
      (after_evcit .SP [0, 1] sample_full 6) 6 sample_full_inv (by decide) (by decide)
      sample_full_evcit⟩

/-- Claim C23, eviction success and failure: in a state with consistent frame accounting and
for a queue without repetition, `evcit` returns, with at least the required pages free, if and
only if the holes plus the pages held by the processes of the queue are at least the pages
required; otherwise it fails with `EmptyCollection`, the assertion of `dequeue` on the exhausted
ranking, so it neither returns nor runs out of rounds. -/
theorem eviction_success (all : List Ptr) (f : MemFlag) (queue : Queue) (s : Sys) (crp : Int)
    (hInv : Inv all s) (hnd : queue.Nodup) (hq : ∀ q ∈ queue, q ∈ all) :
    ((∃ s', evcit f queue s crp = .ok s' ∧ crp ≤ s'.cpu.memory.num_holes)
        ↔ crp ≤ s.cpu.memory.num_holes + resident_sum s.heap queue)
      ∧ (¬ crp ≤ s.cpu.memory.num_holes + resident_sum s.heap queue →
          evcit f queue s crp = .error .EmptyCollection) := by
  have hfail : ¬ crp ≤ s.cpu.memory.num_holes + resident_sum s.heap queue →
      evcit f queue s crp = .error .EmptyCollection :=
    fun hlt => evcit_fail all f queue s crp hInv hq (by omega)
  refine ⟨⟨fun hx => ?_, fun hge => ?_⟩, hfail⟩
  · by_contra hcon
    obtain ⟨s', hs', -⟩ := hx
    rw [hfail hcon] at hs'
    cases hs'
  · obtain ⟨s', hs'⟩ := evcit_ok all f queue s crp hInv hnd hq hge
    exact ⟨s', hs', (evcit_inv all f queue s s' crp hInv hq hs').2.1⟩

/-- Witness for C23: from the full table of 9 frames, 6 frames can be evicted and 10 frames
cannot. -/
theorem eviction_success_witness :
    Inv (List.range sample_records.length) sample_full ∧ [0, 1].Nodup
      ∧ (6 : Int) ≤ sample_full.cpu.memory.num_holes + resident_sum sample_full.heap [0, 1]
      ∧ (∃ s', evcit .SP [0, 1] sample_full 6 = .ok s' ∧ 6 ≤ s'.cpu.memory.num_holes)
      ∧ ¬ (10 : Int) ≤ sample_full.cpu.memory.num_holes + resident_sum sample_full.heap [0, 1]
      ∧ evcit .SP [0, 1] sample_full 10 = .error .EmptyCollection :=
  ⟨sample_full_inv, by decide, by decide,
    (eviction_success (List.range sample_records.length) .SP [0, 1] sample_full 6
      sample_full_inv (by decide) (by decide)).1.2 (by decide),
    by decide,
    (eviction_success (List.range sample_records.length) .SP [0, 1] sample_full 10
      sample_full_inv (by decide) (by decide)).2 (by decide)⟩

/-- Counterexample to C24 as stated: with 4 frames, a process that requires 10 pages. Under
virtual memory the run is not aborted: the process is admitted with 4 pages, runs and finishes.
Under swapping, behind a process that requires 2 pages, the first round dispatches and finishes
that process, writing three lines, and only the next round fails, with `EmptyCollection`. -/
theorem no_capacity_check :
    (∃ r u, run oversize_records .FF .VM 4 3 2 = .ok r
        ∧ r.sys.cpu.memory.total_page = 4
        ∧ required_pages (r.sys.heap 0) = 10
        ∧ r.sys.out = [.mem_running 0 1 11 8 u [0, 1, 2, 3], .evicted 13 [0, 1, 2, 3],
            .finished 13 1 0])
      ∧ ∃ st u, sim_step .FF .SP (sim_start late_oversize_records 4 3) = .ok st
        ∧ st.sys.cpu.memory.total_page = 4
        ∧ required_pages (st.sys.heap 1) = 10
        ∧ st.sys.out = [.mem_running 0 1 5 4 u [0, 1], .evicted 9 [0, 1], .finished 9 1 1]
        ∧ sim_step .FF .SP st = .error .EmptyCollection :=
  ⟨⟨_, _, rfl, rfl, rfl, rfl⟩, ⟨_, _, rfl, rfl, rfl, rfl, rfl⟩⟩

/-- Claim C24 amended, capacity: there is no check before the simulation. For every input with
unique process ids, in every state that the rounds of `simulation` under swapping reach, when
the process at the head of the waiting queue requires more pages than `total_page`, its
admission fails inside `evcit` with `EmptyCollection`, and so does the round that dispatches
it. -/
theorem capacity_abort (records : List Record) (sched : SchedFlag) (frames : Nat)
    (quantum : Int) (st0 st : Sim) (p : Ptr) (rest : Queue)
    (hu : unique_ids records)
    (h0 : sim_init (read_file records).2 (init_sys records frames quantum) = .ok st0)
    (hr : SimReach sched .SP st0 st)
    (hd : dequeue st.waiting_queue = .ok (p, rest))
    (hbig : st.sys.cpu.memory.total_page < required_pages (st.sys.heap p)) :
    mem_alloc_func .SP rest st.sys p = .error .EmptyCollection
      ∧ sim_step sched .SP st = .error .EmptyCollection := by
  have hI := sim_reach_inv (List.range records.length) sched .SP st0 st (by decide)
    (sim_init_inv records frames quantum st0 hu h0) hr
  have hdisp := sim_inv_dispatched _ st p rest hI hd
  have hsum := dispatched_sum _ st.sys rest p hI.inv hdisp
  have hfail : mem_alloc_func .SP rest st.sys p = .error .EmptyCollection := by
    obtain ⟨hp, -, -, hq, -⟩ := hdisp
    have hh := inv_holes_nonneg _ st.sys hI.inv
    have hn := inv_count_nonneg _ st.sys p hI.inv hp
    have hnn := resident_sum_nonneg _ st.sys rest hI.inv hq
    rw [mem_alloc_func_eq .SP rest st.sys p (by decide) (by omega), require_pages_sp,
      if_pos (by omega), evcit_fail _ .SP rest st.sys _ hI.inv hq (by omega)]
    rfl
  refine ⟨hfail, ?_⟩
  cases hwq : st.waiting_queue with
  | nil => rw [hwq, dequeue_nil] at hd; cases hd
  | cons a w =>
    rw [hwq, dequeue_cons] at hd
    cases hd
    unfold sim_step
    rw [hwq, if_pos (by simp [get_queue_size]), dequeue_cons]
    simp only [bind, Except.bind]
    rw [hfail]

/-- Witness for C24 amended: the second round on the input whose second process requires 10
pages, with 4 frames. -/
theorem capacity_abort_witness :
    unique_ids late_oversize_records
      ∧ SimReach .FF .SP (sim_start late_oversize_records 4 3)
          (after_step .FF .SP (sim_start late_oversize_records 4 3))
      ∧ dequeue (after_step .FF .SP (sim_start late_oversize_records 4 3)).waiting_queue
          = .ok (1, [])
      ∧ mem_alloc_func .SP [] (after_step .FF .SP (sim_start late_oversize_records 4 3)).sys 1
          = .error .EmptyCollection
      ∧ sim_step .FF .SP (after_step .FF .SP (sim_start late_oversize_records 4 3))
          = .error .EmptyCollection :=
  ⟨⟨by decide, by decide⟩, SimReach.step SimReach.start rfl, rfl,
    capacity_abort late_oversize_records .FF 4 3 (sim_start late_oversize_records 4 3)
      (after_step .FF .SP (sim_start late_oversize_records 4 3)) 1 []
      ⟨by decide, by decide⟩ rfl (SimReach.step SimReach.start rfl) rfl (by decide)⟩

/-- Claim C25, eviction record: in a state with consistent frame accounting, a call of `evcit`
that returns writes one line `EVICTED`; its frame list is strictly ascending and holds exactly
the indices of the frames that were owned before the call and are free after it; under virtual
memory and the custom mode its length is the pages required minus the holes at entry (none when
the holes already reach the pages required). -/
theorem eviction_record (all : List Ptr) (f : MemFlag) (queue : Queue) (s s' : Sys) (crp : Int)
    (hInv : Inv all s) (hq : ∀ q ∈ queue, q ∈ all) (h : evcit f queue s crp = .ok s') :
    ∃ l : List Int, s'.out = s.out ++ [.evicted s.cpu.curr_time l]
      ∧ l.Pairwise (fun a b => a < b)
      ∧ (∀ x ∈ l, 0 ≤ x)
      ∧ (∀ i : Nat, (i : Int) ∈ l ↔ (s.cpu.memory.is_occupy_lst[i]? ≠ some INVALID
          ∧ s'.cpu.memory.is_occupy_lst[i]? = some INVALID))
      ∧ ((f = .VM ∨ f = .CM) → l.length = (crp - s.cpu.memory.num_holes).toNat) := by
  obtain ⟨l, hout, hsorted, hF⟩ := evcit_record all f queue s s' crp hInv hq h
  refine ⟨l, hout, hsorted, hF.nonneg, hF.exact, fun hf => ?_⟩
  obtain ⟨⟨l', hout', hlen, -⟩, -, -, hmono, -, -, hexact⟩ := evcit_shape f queue s s' crp h
  have hl : l' = l := by
    rw [hout] at hout'
    have := List.append_cancel_left hout'
    simp at this
    exact this.symm
  subst hl
  by_cases hc : s.cpu.memory.num_holes ≤ crp
  · have := hexact hf hc
    omega
  · have hInv' := (evcit_inv all f queue s s' crp hInv hq h).1
    have hsum := hInv.sum
    have hsum' := hInv'.sum
    have hmono' := evcit_inv all f queue s s' crp hInv hq h
    simp only [evcit, resort_eq, bind, Except.bind] at h
    split at h
    · cases h
    · rename_i v heq
      obtain ⟨s1, ev⟩ := v
      simp only at h
      rw [print_evicted_sorted] at h
      cases h
      obtain ⟨hs1, -⟩ := (evcit_loop_shape f crp _ s _ [] s1 ev heq).2.2.2.2.2.2.2.2
        (by omega)
      subst hs1
      have : ((s1.emit (Event.evicted s1.cpu.curr_time (qsort ev))).cpu.memory.num_holes)
          = s1.cpu.memory.num_holes := rfl
      omega

/-- Witness for C25: the eviction of one page under virtual memory, 4 pages required with 3
holes; the line lists the frame 0. -/
theorem eviction_record_witness :
    Inv (List.range sample_records.length) sample_vm_first
      ∧ evcit .VM [0, 2] sample_vm_first 4 = .ok (after_evcit .VM [0, 2] sample_vm_first 4)
      ∧ (after_evcit .VM [0, 2] sample_vm_first 4).out
          = sample_vm_first.out ++ [.evicted sample_vm_first.cpu.curr_time [0]]
      ∧ ∃ l : List Int, (after_evcit .VM [0, 2] sample_vm_first 4).out
            = sample_vm_first.out ++ [.evicted sample_vm_first.cpu.curr_time l]
        ∧ l.Pairwise (fun a b => a < b)
        ∧ (∀ x ∈ l, 0 ≤ x)
        ∧ (∀ i : Nat, (i : Int) ∈ l ↔ (sample_vm_first.cpu.memory.is_occupy_lst[i]? ≠ some INVALID
            ∧ (after_evcit .VM [0, 2] sample_vm_first 4).cpu.memory.is_occupy_lst[i]?
                = some INVALID))
        ∧ ((MemFlag.VM = .VM ∨ MemFlag.VM = .CM) →
            l.length = (4 - sample_vm_first.cpu.memory.num_holes).toNat) :=
  ⟨sample_vm_first_inv, sample_vm_evcit, rfl,
    eviction_record (List.range sample_records.length) .VM [0, 2] sample_vm_first
      (after_evcit .VM [0, 2] sample_vm_first 4) 4 sample_vm_first_inv (by decide)
      sample_vm_evcit⟩

/-! # The claims on accounting and scheduling -/

/-- What holds of the usage accounting: in every state that the rounds of `simulation` reach, in
any mode, the aggregate `memory_use` equals the sum of `mem_usage` over all processes; every
grant of `N` frames adds to both the value that `my_ceil` returns for
`100 * (N * 1.0 / total_page * 1.0)`, evaluated in `double`, and every call of `free_page` for
`n` frames subtracts from both the value for `n`. -/
theorem usage_balance (records : List Record) (sched : SchedFlag) (mem : MemFlag)
    (frames : Nat) (quantum : Int) (st0 st : Sim)
    (h0 : sim_init (read_file records).2 (init_sys records frames quantum) = .ok st0)
    (hr : SimReach sched mem st0 st) :
    st.sys.cpu.memory.memory_use = usage_sum st.sys.heap (List.range records.length)
      ∧ (∀ (s1 s' : Sys) (p : Ptr) (total N : Int),
          grant_pages s1 p total N = .ok s' →
          s'.cpu.memory.memory_use = s1.cpu.memory.memory_use
              + my_ceil (double_mul 100 (double_mul
                  (double_div (double_mul (double_of N) 1)
                    (double_of s1.cpu.memory.total_page)) 1))
            ∧ (s'.heap p).mem_usage = (s1.heap p).mem_usage
              + my_ceil (double_mul 100 (double_mul
                  (double_div (double_mul (double_of N) 1)
                    (double_of s1.cpu.memory.total_page)) 1)))
      ∧ ∀ (s s' : Sys) (p : Ptr) (record r : Option (List Int)) (n : Int),
          free_page s p record n = .ok (s', r) →
          s'.cpu.memory.memory_use = s.cpu.memory.memory_use
              - my_ceil (double_mul 100 (double_mul
                  (double_div (double_mul (double_of n) 1)
                    (double_of s.cpu.memory.total_page)) 1))
            ∧ (s'.heap p).mem_usage = (s.heap p).mem_usage
              - my_ceil (double_mul 100 (double_mul
                  (double_div (double_mul (double_of n) 1)
                    (double_of s.cpu.memory.total_page)) 1)) := by
  refine ⟨(sim_reach_sched _ sched mem st0 st (List.nodup_range _)
    (sim_init_sched records frames quantum st0 h0) hr).usage, ?_, ?_⟩
  · intro s1 s' p total N h
    obtain ⟨pl, T', k, e, -, hs'⟩ := grant_pages_form s1 s' p total N h
    subst hs'
    exact ⟨rfl, by simp [Sys.emit, Sys.setMem, Sys.setProc]⟩
  · intro s s' p record r n h
    obtain ⟨nl, T', -, hs'⟩ := free_page_form s s' p record r n h
    subst hs'
    exact ⟨rfl, by simp [Sys.setMem, Sys.setProc]⟩

/-- Claim C27, monotone clock: for every input with unique process ids and job times that are
not negative, and every configuration with a quantum that is not negative, in every state that
the rounds of `simulation` reach, a round that returns does not decrease `curr_time`, whether it
runs a process or waits for the next arrival. -/
theorem monotone_clock (records : List Record) (sched : SchedFlag) (mem : MemFlag)
    (frames : Nat) (quantum : Int) (st0 st st' : Sim) (hu : unique_ids records)
    (hjob : ∀ r ∈ records, 0 ≤ r.job_time) (hquantum : 0 ≤ quantum)
    (h0 : sim_init (read_file records).2 (init_sys records frames quantum) = .ok st0)
    (hr : SimReach sched mem st0 st) (hs : sim_step sched mem st = .ok st') :
    st.sys.cpu.curr_time ≤ st'.sys.cpu.curr_time :=
  (sim_step_clock _ sched mem st st'
    (sim_reach_frames records sched mem frames quantum st0 st hu h0 hr)
    (sim_reach_sched _ sched mem st0 st (List.nodup_range _)
      (sim_init_sched records frames quantum st0 h0) hr)
    (sim_reach_clock records sched mem frames quantum st0 st hu hjob hquantum h0 hr) hs).2

/-- Witness for C27: the first round on the sample input moves the clock from 0 to 13. -/
theorem monotone_clock_witness :
    unique_ids sample_records ∧ (∀ r ∈ sample_records, 0 ≤ r.job_time) ∧ (0 : Int) ≤ 3
      ∧ sim_step .RR .SP (sim_start sample_records 8 3) = .ok sample_round
      ∧ sample_round.sys.cpu.curr_time = 13
      ∧ (sim_start sample_records 8 3).sys.cpu.curr_time ≤ sample_round.sys.cpu.curr_time :=
  ⟨sample_unique, by decide, by decide, rfl, rfl,
    monotone_clock sample_records .RR .SP 8 3 (sim_start sample_records 8 3)
      (sim_start sample_records 8 3) sample_round sample_unique (by decide) (by decide) rfl
      SimReach.start rfl⟩

/-- The run that C28 fails on: the only process arrives at time 5, and `simulation` moves it
into the waiting queue without setting the clock, so it is dispatched at time 0 and finishes at
time 3, before it arrives. -/
theorem dispatch_before_arrival :
    ∃ r, run late_records .FF .UN 4 3 2 = .ok r
      ∧ (r.sys.heap 0).arrive_time = 5
      ∧ r.sys.out = [.running 0 1 3, .finished 3 1 0] :=
  ⟨_, rfl, rfl, rfl⟩

/-- Claim C29, non-preemptive run length: under first-come first-served and shortest-job-first
scheduling, in every state that the rounds of `simulation` reach, the round that dispatches the
process at the head of the waiting queue completes it: the process was not completed before, it
joins the completed queue and is in neither of the other queues afterwards, and its
`complete_time` is the clock at dispatch plus its `job_time` plus the `load_time` set by the
admission. At the end of a run the completed queue holds every process of the input exactly
once. -/
theorem non_preemptive_run (records : List Record) (sched : SchedFlag) (mem : MemFlag)
    (frames : Nat) (quantum : Int) (hs : sched ≠ .RR) :
    (∀ (st0 st st' : Sim) (p : Ptr) (w : Queue),
        sim_init (read_file records).2 (init_sys records frames quantum) = .ok st0 →
        SimReach sched mem st0 st → dequeue st.waiting_queue = .ok (p, w) →
        sim_step sched mem st = .ok st' →
        (∃ s1, mem_alloc_func mem w st.sys p = .ok s1
          ∧ (st'.sys.heap p).complete_time
            = st.sys.cpu.curr_time + (st.sys.heap p).job_time + (s1.heap p).load_time)
          ∧ p ∉ st.complete_queue ∧ p ∈ st'.complete_queue
          ∧ p ∉ st'.waiting_queue ∧ p ∉ st'.queue)
      ∧ ∀ (fuel : Nat) (r : Sim), run records sched mem frames quantum fuel = .ok r →
          r.complete_queue.Perm (List.range records.length) := by
  constructor
  · intro st0 st st' p w h0 hr hd hstep
    have hS := sim_reach_sched _ sched mem st0 st (List.nodup_range _)
      (sim_init_sched records frames quantum st0 h0) hr
    obtain ⟨s1, hs1, hcurr, -, hjob, -, -, -, hnc, hnq, hcase⟩ :=
      sim_step_dispatch _ sched mem st st' p w (List.nodup_range _) hS hd hstep
    rcases hcase with ⟨hrr, -⟩ | ⟨-, hnw, hc, hct⟩
    · exact absurd hrr hs
    · refine ⟨⟨s1, hs1, ?_⟩, hnc, hc, hnw, hnq⟩
      rw [hct, ((add_curr_time_spec sched s1 p).1 hs).1, hcurr, hjob]
      ring
  · intro fuel r h
    obtain ⟨st0, h0, hr, hq, hw⟩ := run_simreach records sched mem frames quantum fuel r h
    have hS := sim_reach_sched _ sched mem st0 r (List.nodup_range _)
      (sim_init_sched records frames quantum st0 h0) hr
    have := hS.parts
    rw [hq, hw] at this
    simpa using this

/-- Witness for C29: the sample input with 8 frames under first-come first-served and swapping;
the first process is dispatched at time 0 with job time 5 and load time 10 and completes at
time 15, and the run completes the three processes. -/
theorem non_preemptive_run_witness :
    SchedFlag.FF ≠ .RR
      ∧ ((∃ s1, mem_alloc_func .SP [] (sim_start sample_records 8 3).sys 0 = .ok s1
          ∧ ((after_step .FF .SP (sim_start sample_records 8 3)).sys.heap 0).complete_time
            = (sim_start sample_records 8 3).sys.cpu.curr_time
              + ((sim_start sample_records 8 3).sys.heap 0).job_time + (s1.heap 0).load_time)
        ∧ 0 ∉ (sim_start sample_records 8 3).complete_queue
        ∧ 0 ∈ (after_step .FF .SP (sim_start sample_records 8 3)).complete_queue
        ∧ 0 ∉ (after_step .FF .SP (sim_start sample_records 8 3)).waiting_queue
        ∧ 0 ∉ (after_step .FF .SP (sim_start sample_records 8 3)).queue)
      ∧ ((after_step .FF .SP (sim_start sample_records 8 3)).sys.heap 0).complete_time = 15
      ∧ ∃ r, run sample_records .FF .SP 8 3 4 = .ok r
        ∧ r.complete_queue.Perm (List.range sample_records.length) :=
  ⟨by decide,
    (non_preemptive_run sample_records .FF .SP 8 3 (by decide)).1
      (sim_start sample_records 8 3) (sim_start sample_records 8 3)
      (after_step .FF .SP (sim_start sample_records 8 3)) 0 [] rfl SimReach.start rfl rfl,
    rfl,
    ⟨_, rfl, (non_preemptive_run sample_records .FF .SP 8 3 (by decide)).2 4 _ rfl⟩⟩

/-- Claim C30, round-robin step: under round robin, in every state that the rounds of
`simulation` reach, the round that dispatches the process at the head of the waiting queue,
with remaining time `r` after its admission and quantum `q`, advances the clock by
`min r q + load_time`, sets the remaining time of the process to `r - min r q`, and requeues
the process if and only if the new remaining time is greater than 0; otherwise the process is
completed. -/
theorem round_robin_step (records : List Record) (mem : MemFlag) (frames : Nat)
    (quantum : Int) (st0 st st' : Sim) (p : Ptr) (w : Queue)
    (h0 : sim_init (read_file records).2 (init_sys records frames quantum) = .ok st0)
    (hr : SimReach .RR mem st0 st) (hd : dequeue st.waiting_queue = .ok (p, w))
    (hstep : sim_step .RR mem st = .ok st') :
    ∃ s1, mem_alloc_func mem w st.sys p = .ok s1
      ∧ st'.sys.cpu.curr_time = st.sys.cpu.curr_time
          + (min (s1.heap p).remaining_time st.sys.cpu.quantam + (s1.heap p).load_time)
      ∧ (st'.sys.heap p).remaining_time
          = (s1.heap p).remaining_time - min (s1.heap p).remaining_time st.sys.cpu.quantam
      ∧ (p ∈ st'.waiting_queue ↔ 0 < (st'.sys.heap p).remaining_time)
      ∧ (p ∈ st'.complete_queue ↔ ¬ 0 < (st'.sys.heap p).remaining_time) := by
  have hS := sim_reach_sched _ .RR mem st0 st (List.nodup_range _)
    (sim_init_sched records frames quantum st0 h0) hr
  obtain ⟨s1, hs1, hcurr, hquantum, -, hclock, hrem, -, -, -, hcase⟩ :=
    sim_step_dispatch _ .RR mem st st' p w (List.nodup_range _) hS hd hstep
  obtain ⟨hadd, hleft⟩ := (add_curr_time_spec .RR s1 p).2 rfl
  have hm := min_le_left (s1.heap p).remaining_time s1.cpu.quantam
  refine ⟨s1, hs1, by rw [hclock, hadd, hcurr, hquantum], by rw [hrem, hleft, hquantum], ?_⟩
  rw [hrem, hleft]
  rcases hcase with ⟨-, hne, hw, hnc⟩ | ⟨hne, hnw, hc, -⟩
  · rw [hleft] at hne
    exact ⟨⟨fun _ => by omega, fun _ => hw⟩, ⟨fun hx => absurd hx hnc, fun hx => by omega⟩⟩
  · rw [hleft] at hne
    have hz : ¬ 0 < (s1.heap p).remaining_time
        - min (s1.heap p).remaining_time s1.cpu.quantam := by
      intro hpos
      exact hne ⟨rfl, by omega⟩
    exact ⟨⟨fun hx => absurd hx hnw, fun hx => absurd hx hz⟩, ⟨fun _ => hz, fun _ => hc⟩⟩

/-- Witness for C30: the first round on the sample input under round robin with quantum 3; the
first process has remaining time 5 and load time 10 after its admission, the clock moves from 0
to 13, the remaining time becomes 2 and the process is requeued. -/
theorem round_robin_step_witness :
    SimReach .RR .SP (sim_start sample_records 8 3) (sim_start sample_records 8 3)
      ∧ dequeue (sim_start sample_records 8 3).waiting_queue = .ok (0, [])
      ∧ sim_step .RR .SP (sim_start sample_records 8 3) = .ok sample_round
      ∧ sample_round.sys.cpu.curr_time = 13
      ∧ (sample_round.sys.heap 0).remaining_time = 2
      ∧ 0 ∈ sample_round.waiting_queue
      ∧ ∃ s1, mem_alloc_func .SP [] (sim_start sample_records 8 3).sys 0 = .ok s1
        ∧ sample_round.sys.cpu.curr_time = (sim_start sample_records 8 3).sys.cpu.curr_time
            + (min (s1.heap 0).remaining_time (sim_start sample_records 8 3).sys.cpu.quantam
              + (s1.heap 0).load_time)
        ∧ (sample_round.sys.heap 0).remaining_time
            = (s1.heap 0).remaining_time
              - min (s1.heap 0).remaining_time (sim_start sample_records 8 3).sys.cpu.quantam
        ∧ (0 ∈ sample_round.waiting_queue ↔ 0 < (sample_round.sys.heap 0).remaining_time)
        ∧ (0 ∈ sample_round.complete_queue ↔ ¬ 0 < (sample_round.sys.heap 0).remaining_time) :=
  ⟨SimReach.start, rfl, rfl, rfl, rfl, by decide,
    round_robin_step sample_records .SP 8 3 (sim_start sample_records 8 3)
      (sim_start sample_records 8 3) sample_round 0 [] rfl SimReach.start rfl rfl⟩

/-! ## Insertion at the tail and the order of the input queue -/

theorem enqueue_tail (H : Heap) (k : PrioFlag) (queue : Queue) (p : Ptr)
    (h : ∀ x ∈ queue, prio_le H k x p) : enqueue H queue p k = queue ++ [p] := by
  obtain ⟨front, back, hq, he, hb, -⟩ := enqueue_split H k queue p
  cases back with
  | nil => rw [he, hq]; simp
  | cons b rest =>
    exact absurd (h b (by rw [hq]; simp)) (hb b (by simp))

theorem prio_le_congr (H H1 : Heap) (k : PrioFlag) (a b : Ptr)
    (ha : get_priority (H1 a) k = get_priority (H a) k ∧ (H1 a).p_id = (H a).p_id)
    (hb : get_priority (H1 b) k = get_priority (H b) k ∧ (H1 b).p_id = (H b).p_id)
    (h : prio_le H k a b) : prio_le H1 k a b := by
  unfold prio_le at h ⊢
  rw [ha.1, ha.2, hb.1, hb.2]
  exact h

theorem pairwise_prio_congr (H H1 : Heap) (k : PrioFlag) (l : List Ptr)
    (hl : ∀ x ∈ l, get_priority (H1 x) k = get_priority (H x) k ∧ (H1 x).p_id = (H x).p_id)
    (h : l.Pairwise (prio_le H k)) : l.Pairwise (prio_le H1 k) :=
  h.imp_of_mem (fun {a b} ha hb hab => prio_le_congr H H1 k a b (hl a ha) (hl b hb) hab)

theorem read_lines_sorted (rs : List Record) :
    ∀ (next : Nat) (H : Heap) (q : Queue), (∀ x ∈ q, x < next) → q.Pairwise (prio_le H .ARRT) →
      (read_lines rs next H q).2.Pairwise (prio_le (read_lines rs next H q).1 .ARRT) := by
  induction rs with
  | nil => intro next H q _ hs; exact hs
  | cons r rest ih =>
    intro next H q hlt hs
    unfold read_lines
    simp only
    apply ih
    · intro x hx
      have := (enqueue_perm (Function.update H next r.toProcess) .ARRT q next).subset hx
      rcases List.mem_cons.1 this with e | hm
      · rw [e]; exact Nat.lt_succ_self next
      · exact Nat.lt_succ_of_lt (hlt x hm)
    · apply enqueue_sorted
      apply pairwise_prio_congr H _ .ARRT q _ hs
      intro x hx
      rw [Function.update_noteq (Nat.ne_of_lt (hlt x hx))]
      exact ⟨rfl, rfl⟩

/-- The queue made by `read_file` is in the order of arrival time, then process id. -/
theorem read_file_sorted (records : List Record) :
    (read_file records).2.Pairwise (prio_le (read_file records).1 .ARRT) :=
  read_lines_sorted records 0 (fun _ => new_ProcessInfo) new_queue
    (fun x hx => by simp [new_queue] at hx) (by simp [new_queue])

/-- The priority key that the arrivals are put in the waiting queue by. -/
theorem arrivals_spec (sched : SchedFlag) (H : Heap) (t : Int) (fuel : Nat) :
    ∀ (queue waiting q1 w1 : Queue), arrivals sched H t fuel queue waiting = .ok (q1, w1) →
      ∃ moved, queue = moved ++ q1
        ∧ w1 = enqueue_list H (if sched = .CS then .JOBT else .ARRT) waiting moved
        ∧ (∀ x ∈ moved, (H x).arrive_time ≤ t)
        ∧ (∀ p rest, q1 = p :: rest → t < (H p).arrive_time) := by
  induction fuel with
  | zero =>
    intro queue waiting q1 w1 h
    unfold arrivals at h
    split at h
    · cases h
    · rename_i hc
      cases h
      refine ⟨[], rfl, rfl, by simp, ?_⟩
      intro p rest hq; subst hq; simp [get_queue_size] at hc
  | succ fuel ih =>
    intro queue waiting q1 w1 h
    unfold arrivals at h
    split at h
    · cases queue with
      | nil => simp [get_queue_size] at *
      | cons a rest1 =>
        have hg : get_queue_point (a :: rest1) 0 = .ok a :=
          get_queue_point_get (a :: rest1) ⟨0, by simp⟩
        rw [hg, dequeue_cons] at h
        simp only [bind, Except.bind] at h
        split at h
        · rename_i hc
          have key : arrivals sched H t fuel rest1
              (enqueue H waiting a (if sched = .CS then .JOBT else .ARRT)) = .ok (q1, w1) := by
            cases sched
            · exact h
            · exact h
            · exact h
          obtain ⟨moved, h1, h2, h3, h4⟩ := ih _ _ _ _ key
          refine ⟨a :: moved, by rw [h1]; rfl, ?_, ?_, h4⟩
          · rw [h2]; rfl
          · intro x hx
            rcases List.mem_cons.1 hx with e | hm
            · rw [e]; exact hc
            · exact h3 x hm
        · rename_i hc
          cases h
          refine ⟨[], rfl, rfl, by simp, ?_⟩
          intro p rest hq
          cases hq
          omega
    · rename_i hc
      cases h
      refine ⟨[], rfl, rfl, by simp, ?_⟩
      intro p rest hq; subst hq; simp [get_queue_size] at hc

/-- The loop of the arrivals ends when it may run once for every process of the queue. -/
theorem arrivals_ok (sched : SchedFlag) (H : Heap) (t : Int) (fuel : Nat) :
    ∀ (queue waiting : Queue), queue.length ≤ fuel →
      ∃ q1 w1, arrivals sched H t fuel queue waiting = .ok (q1, w1) := by
  induction fuel with
  | zero =>
    intro queue waiting hl
    have : queue = [] := List.length_eq_zero.1 (Nat.le_zero.1 hl)
    subst this
    exact ⟨[], waiting, by simp [arrivals, get_queue_size]⟩
  | succ fuel ih =>
    intro queue waiting hl
    cases queue with
    | nil => exact ⟨[], waiting, by simp [arrivals, get_queue_size]; rfl⟩
    | cons a rest =>
      have hg : get_queue_point (a :: rest) 0 = .ok a :=
        get_queue_point_get (a :: rest) ⟨0, by simp⟩
      have hpos : get_queue_size (a :: rest) > 0 := by
        show ((a :: rest).length : Int) > 0
        simp only [List.length_cons]; omega
      unfold arrivals
      rw [if_pos hpos, hg, dequeue_cons]
      simp only [bind, Except.bind]
      by_cases hc : (H a).arrive_time ≤ t
      · rw [if_pos hc]
        have hl1 : rest.length ≤ fuel := by simpa using hl
        cases sched
        · exact ih rest _ hl1
        · exact ih rest _ hl1
        · exact ih rest _ hl1
      · rw [if_neg hc]; exact ⟨_, _, rfl⟩

/-! ## The processes that a round does not dispatch -/

/-- A round of `simulation` changes at most the pages of a process that it does not dispatch. -/
theorem sim_step_others (all : List Ptr) (sched : SchedFlag) (mem : MemFlag) (st st' : Sim)
    (hnd : all.Nodup) (hS : SchedInv all st) (h : sim_step sched mem st = .ok st') (c : Ptr)
    (hc : c ∉ st.waiting_queue.take 1) : same_but_pages (st.sys.heap c) (st'.sys.heap c) := by
  have hparts := hS.parts
  rcases sim_step_cases sched mem st st' h with
    ⟨p, w, s1, q', w2, hwq, hs1, harr, hcase⟩ | ⟨hwq, p, rest, hqq, hst'⟩ | ⟨-, -, hst'⟩
  · rw [hwq] at hparts hc
    have hcp : c ≠ p := by
      intro e; apply hc; simp [e]
    have hp : p ∈ all := hparts.subset (by simp)
    have hw : ∀ x ∈ w, x ∈ all := fun x hx => hparts.subset (by simp [hx])
    have hadm := mem_alloc_func_admitted all mem w st.sys s1 p hnd hp hw hs1
    have h3 : (after_run sched s1 p).heap c = s1.heap c := (after_run_fields sched s1 p).2.2.1 c hcp
    rcases hcase with ⟨-, -, hst'⟩ | ⟨-, s5, hs5, hst'⟩
    · subst hst'
      show same_but_pages _ ((after_run sched s1 p).heap c)
      rw [h3]
      exact hadm.others c hcp
    · subst hst'
      show same_but_pages _ ((after_finish s5 p).heap c)
      rw [(after_finish_fields s5 p).2.2.1 c hcp, print_finished_others mem _ s5 p w2 hs5 c hcp]
      show same_but_pages _ ((after_run sched s1 p).heap c)
      rw [h3]
      exact hadm.others c hcp
  · subst hst'
    exact (quiet_refl all st.sys).procs c
  · rw [hst']
    exact (quiet_refl all st.sys).procs c

/-- A round of `simulation` keeps the arrival time, the id, the job time and the memory size of
every process. -/
theorem sim_step_identity (all : List Ptr) (sched : SchedFlag) (mem : MemFlag) (st st' : Sim)
    (hnd : all.Nodup) (hS : SchedInv all st) (h : sim_step sched mem st = .ok st') (c : Ptr) :
    (st'.sys.heap c).arrive_time = (st.sys.heap c).arrive_time
      ∧ (st'.sys.heap c).p_id = (st.sys.heap c).p_id
      ∧ (st'.sys.heap c).job_time = (st.sys.heap c).job_time
      ∧ (st'.sys.heap c).mem_size_req = (st.sys.heap c).mem_size_req := by
  by_cases hc : c ∉ st.waiting_queue.take 1
  · have ho := sim_step_others all sched mem st st' hnd hS h c hc
    exact ⟨(same_but_pages_times ho).1, (same_but_pages_fields ho).1,
      (same_but_pages_times ho).2.1, (same_but_pages_fields ho).2.1⟩
  · have hparts := hS.parts
    rcases sim_step_cases sched mem st st' h with
      ⟨p, w, s1, q', w2, hwq, hs1, harr, hcase⟩ | ⟨hwq, p, rest, hqq, hst'⟩ | ⟨hwq, -, hst'⟩
    · rw [hwq] at hparts hc
      have hcp : c = p := by simpa using hc
      subst hcp
      have hp : c ∈ all := hparts.subset (by simp)
      have hw : ∀ x ∈ w, x ∈ all := fun x hx => hparts.subset (by simp [hx])
      have hadm := mem_alloc_func_admitted all mem w st.sys s1 c hnd hp hw hs1
      obtain ⟨a1, a2, a3, a4, -, -⟩ := same_but_admitted_fields hadm.self
      obtain ⟨b1, b2, b3, b4, -⟩ := same_but_times_fields (after_run_times sched s1 c c)
      rcases hcase with ⟨-, -, hst'⟩ | ⟨-, s5, hs5, hst'⟩
      · subst hst'
        show ((after_run sched s1 c).heap c).arrive_time = _ ∧ ((after_run sched s1 c).heap c).p_id = _
          ∧ ((after_run sched s1 c).heap c).job_time = _
          ∧ ((after_run sched s1 c).heap c).mem_size_req = _
        rw [b1, b2, b3, b4, a1, a2, a3, a4]
        exact ⟨rfl, rfl, rfl, rfl⟩
      · subst hst'
        have hq5 := print_finished_quiet all mem _ s5 c w2 hnd hp hs5
        have hpp := hq5.procs c
        obtain ⟨c1, c2, c3, c4, -⟩ := same_but_times_fields (after_finish_times s5 c c)
        have d1 := (same_but_pages_times hpp).1
        have d3 := (same_but_pages_times hpp).2.1
        have d2 := (same_but_pages_fields hpp).1
        have d4 := (same_but_pages_fields hpp).2.1
        show ((after_finish s5 c).heap c).arrive_time = _ ∧ ((after_finish s5 c).heap c).p_id = _
          ∧ ((after_finish s5 c).heap c).job_time = _
          ∧ ((after_finish s5 c).heap c).mem_size_req = _
        rw [c1, c2, c3, c4, d1, d2, d3, d4]
        show ((after_run sched s1 c).heap c).arrive_time = _ ∧ ((after_run sched s1 c).heap c).p_id = _
          ∧ ((after_run sched s1 c).heap c).job_time = _
          ∧ ((after_run sched s1 c).heap c).mem_size_req = _
        rw [b1, b2, b3, b4, a1, a2, a3, a4]
        exact ⟨rfl, rfl, rfl, rfl⟩
    · rw [hwq] at hc; simp at hc
    · rw [hwq] at hc; simp at hc

/-! ## The bookkeeping of the completed processes -/

theorem sim_init_done (queue : Queue) (records : List Record) (frames : Nat) (quantum : Int)
    (st0 : Sim) (h : sim_init queue (init_sys records frames quantum) = .ok st0) :
    DoneInv st0 := by
  have hc : st0.complete_queue = [] ∧ st0.sys = init_sys records frames quantum := by
    unfold sim_init at h
    split at h
    · obtain ⟨v, -, hb⟩ := bind_ok _ _ _ h
      cases hb; exact ⟨rfl, rfl⟩
    · cases h; exact ⟨rfl, rfl⟩
  obtain ⟨hcq, hsys⟩ := hc
  refine ⟨?_, ?_, ?_, ?_, ?_, ?_⟩
  · rw [hcq, hsys]; rfl
  · rw [hcq]; exact List.Pairwise.nil
  · rw [hcq, hsys]; rfl
  · rw [hcq, hsys]; rfl
  · rw [hcq]; intro c hc; simp at hc
  · left; rw [hsys]; rfl

theorem turnaround_congr {a b : ProcessInfo} (h : same_but_pages a b) :
    turnaround b = turnaround a ∧ overhead b = overhead a := by
  obtain ⟨h1, h2, -, h4⟩ := same_but_pages_times h
  unfold overhead turnaround
  rw [h1, h2, h4]
  exact ⟨rfl, rfl⟩

theorem map_sum_congr {α : Type} [AddCommMonoid α] (l : List Ptr) (f g : Ptr → α)
    (h : ∀ x ∈ l, f x = g x) : (l.map f).sum = (l.map g).sum := by
  rw [List.map_congr_left h]

/-- A round of `simulation` that completes no process keeps the bookkeeping. -/
theorem done_of_same (st st' : Sim) (hq : st'.complete_queue = st.complete_queue)
    (hcpu : st'.sys.cpu.complete_num_process = st.sys.cpu.complete_num_process
      ∧ st'.sys.cpu.total_turnaround = st.sys.cpu.total_turnaround
      ∧ st'.sys.cpu.time_overh = st.sys.cpu.time_overh
      ∧ st'.sys.cpu.max_time_overh = st.sys.cpu.max_time_overh)
    (hh : ∀ c ∈ st.complete_queue, same_but_pages (st.sys.heap c) (st'.sys.heap c))
    (hD : DoneInv st) : DoneInv st' := by
  obtain ⟨h1, h2, h3, h4⟩ := hcpu
  refine ⟨?_, ?_, ?_, ?_, ?_, ?_⟩
  · rw [hq, h1]; exact hD.count
  · rw [hq]
    apply pairwise_prio_congr st.sys.heap _ _ _ _ hD.sorted
    intro x hx
    exact ⟨(same_but_pages_times (hh x hx)).2.2.2, (same_but_pages_fields (hh x hx)).1⟩
  · rw [hq, h2, hD.sum_turnaround]
    exact map_sum_congr _ _ _ (fun x hx => (turnaround_congr (hh x hx)).1.symm)
  · rw [hq, h3, hD.sum_overhead]
    exact map_sum_congr _ _ _ (fun x hx => (turnaround_congr (hh x hx)).2.symm)
  · rw [hq, h4]
    intro c hc
    rw [(turnaround_congr (hh c hc)).2]
    exact hD.max_bound c hc
  · rw [hq, h4]
    rcases hD.max_attained with h0 | ⟨c, hc, he⟩
    · exact Or.inl h0
    · exact Or.inr ⟨c, hc, by rw [(turnaround_congr (hh c hc)).2]; exact he⟩

theorem sim_step_done (all : List Ptr) (sched : SchedFlag) (mem : MemFlag) (st st' : Sim)
    (hnd : all.Nodup) (hS : SchedInv all st) (hD : DoneInv st)
    (h : sim_step sched mem st = .ok st') : DoneInv st' := by
  have hparts := hS.parts
  have hoth := sim_step_others all sched mem st st' hnd hS h
  have hid := sim_step_identity all sched mem st st' hnd hS h
  rcases sim_step_cases sched mem st st' h with
    ⟨p, w, s1, q', w2, hwq, hs1, harr, hcase⟩ | ⟨hwq, p, rest, hqq, hst'⟩ | ⟨-, -, hst'⟩
  · rw [hwq] at hparts
    have hp : p ∈ all := hparts.subset (by simp)
    have hw : ∀ x ∈ w, x ∈ all := fun x hx => hparts.subset (by simp [hx])
    have hadm := mem_alloc_func_admitted all mem w st.sys s1 p hnd hp hw hs1
    have hc0 := count_one_of_parts all _ _ _ hnd hparts p (by simp)
    simp only [List.count_cons_self] at hc0
    have hpc : p ∉ st.complete_queue := not_mem_of_count st.complete_queue p (by omega)
    have hoc : ∀ c ∈ st.complete_queue, same_but_pages (st.sys.heap c) (st'.sys.heap c) := by
      intro c hc
      apply hoth
      rw [hwq]
      intro hm
      have : c = p := by simpa using hm
      exact hpc (this ▸ hc)
    obtain ⟨hcpu3, -, -, -⟩ := after_run_fields sched s1 p
    obtain ⟨hcpu2, -, -, -⟩ := add_curr_time_fields sched s1 p
    have hc3 : (after_run sched s1 p).cpu
        = { st.sys.cpu with curr_time := (after_run sched s1 p).cpu.curr_time,
                            memory := (after_run sched s1 p).cpu.memory } := by
      rw [hcpu3, hcpu2, hadm.cpu]
    rcases hcase with ⟨-, -, hst'⟩ | ⟨-, s5, hs5, hst'⟩
    · refine done_of_same st st' (by rw [hst']) ?_ hoc hD
      rw [hst']
      show (after_run sched s1 p).cpu.complete_num_process = _ ∧ _
      rw [hc3]
      exact ⟨rfl, rfl, rfl, rfl⟩
    · have hq5 := print_finished_quiet all mem _ s5 p w2 hnd hp hs5
      have hc5 : (after_finish s5 p).cpu
          = { (record_statistic (after_run sched s1 p) p).cpu with
                memory := s5.cpu.memory
                complete_num_process
                  := (record_statistic (after_run sched s1 p) p).cpu.complete_num_process + 1 } := by
        rw [(after_finish_fields s5 p).1, hq5.cpu]
      have hct : ((after_finish s5 p).heap p).complete_time
          = (after_run sched s1 p).cpu.curr_time := by
        rw [(after_finish_fields s5 p).2.2.2]
        show s5.cpu.curr_time = _
        rw [hq5.cpu]; rfl
      have harr3 : ((after_run sched s1 p).heap p).arrive_time
          = ((after_finish s5 p).heap p).arrive_time := by
        have e1 := (same_but_times_fields (after_finish_times s5 p p)).1
        have e2 := (same_but_pages_times (hq5.procs p)).1
        rw [e1, e2]; rfl
      have hjob3 : ((after_run sched s1 p).heap p).job_time
          = ((after_finish s5 p).heap p).job_time := by
        have e1 := (same_but_times_fields (after_finish_times s5 p p)).2.2.2.1
        have e2 := (same_but_pages_times (hq5.procs p)).2.1
        rw [e1, e2]; rfl
      have hturn : (after_run sched s1 p).cpu.curr_time
          - ((after_run sched s1 p).heap p).arrive_time
          = turnaround ((after_finish s5 p).heap p) := by
        unfold turnaround; rw [hct, harr3]
      have hover : (((after_run sched s1 p).cpu.curr_time
          - ((after_run sched s1 p).heap p).arrive_time : Int) : ℚ)
            / (((after_run sched s1 p).heap p).job_time : ℚ)
          = overhead ((after_finish s5 p).heap p) := by
        unfold overhead; rw [hturn, hjob3]
      have hperm := enqueue_perm (after_finish s5 p).heap .COMPLETET st.complete_queue p
      have hst'sys : st'.sys = after_finish s5 p := by rw [hst']
      have hst'cq : st'.complete_queue
          = enqueue (after_finish s5 p).heap st.complete_queue p .COMPLETET := by rw [hst']
      rw [hst'sys] at hoc
      have hm : (after_finish s5 p).cpu.max_time_overh
          = (if overhead ((after_finish s5 p).heap p) > st.sys.cpu.max_time_overh
              then overhead ((after_finish s5 p).heap p) else st.sys.cpu.max_time_overh) := by
        rw [hc5]
        show (if (((after_run sched s1 p).cpu.curr_time
          - ((after_run sched s1 p).heap p).arrive_time : Int) : ℚ)
            / (((after_run sched s1 p).heap p).job_time : ℚ)
              > (after_run sched s1 p).cpu.max_time_overh
          then (((after_run sched s1 p).cpu.curr_time
          - ((after_run sched s1 p).heap p).arrive_time : Int) : ℚ)
            / (((after_run sched s1 p).heap p).job_time : ℚ)
          else (after_run sched s1 p).cpu.max_time_overh) = _
        rw [hover, hc3]
      refine ⟨?_, ?_, ?_, ?_, ?_, ?_⟩
      · rw [hst'sys, hst'cq, hc5]
        show (after_run sched s1 p).cpu.complete_num_process + 1 = _
        rw [hc3, hperm.length_eq]
        show st.sys.cpu.complete_num_process + 1 = _
        rw [hD.count]
        simp
      · rw [hst'sys, hst'cq]
        apply enqueue_sorted
        apply pairwise_prio_congr st.sys.heap _ _ _ _ hD.sorted
        intro x hx
        exact ⟨(same_but_pages_times (hoc x hx)).2.2.2, (same_but_pages_fields (hoc x hx)).1⟩
      · rw [hst'sys, hst'cq, hc5, (hperm.map _).sum_eq]
        show (after_run sched s1 p).cpu.total_turnaround + ((after_run sched s1 p).cpu.curr_time
          - ((after_run sched s1 p).heap p).arrive_time) = _
        rw [hturn, hc3]
        show st.sys.cpu.total_turnaround + _ = _
        rw [hD.sum_turnaround, List.map_cons, List.sum_cons,
          map_sum_congr _ _ _ (fun x hx => (turnaround_congr (hoc x hx)).1.symm)]
        ring
      · rw [hst'sys, hst'cq, hc5, (hperm.map _).sum_eq]
        show (after_run sched s1 p).cpu.time_overh + (((after_run sched s1 p).cpu.curr_time
          - ((after_run sched s1 p).heap p).arrive_time : Int) : ℚ)
            / (((after_run sched s1 p).heap p).job_time : ℚ) = _
        rw [hover, hc3]
        show st.sys.cpu.time_overh + _ = _
        rw [hD.sum_overhead, List.map_cons, List.sum_cons,
          map_sum_congr _ _ _ (fun x hx => (turnaround_congr (hoc x hx)).2.symm)]
        ring
      · rw [hst'sys, hst'cq, hm]
        intro c hc
        rcases List.mem_cons.1 (hperm.subset hc) with e | hm1
        · rw [e]
          split
          · exact le_refl _
          · rename_i hgt; exact not_lt.1 hgt
        · rw [(turnaround_congr (hoc c hm1)).2]
          have := hD.max_bound c hm1
          split
          · rename_i hgt; exact le_of_lt (lt_of_le_of_lt this hgt)
          · exact this
      · rw [hst'sys, hst'cq, hm]
        split
        · exact Or.inr ⟨p, hperm.symm.subset (by simp), rfl⟩
        · rcases hD.max_attained with h0 | ⟨c, hc, he⟩
          · exact Or.inl h0
          · exact Or.inr ⟨c, hperm.symm.subset (List.mem_cons_of_mem _ hc),
              by rw [(turnaround_congr (hoc c hc)).2]; exact he⟩
  · refine done_of_same st st' (by rw [hst']) (by rw [hst']; exact ⟨rfl, rfl, rfl, rfl⟩) ?_ hD
    intro c hc
    apply hoth
    rw [hwq]; simp
  · rw [hst']; exact hD

theorem sim_reach_done (all : List Ptr) (sched : SchedFlag) (mem : MemFlag) (st0 st : Sim)
    (hnd : all.Nodup) (h0 : SchedInv all st0) (hD0 : DoneInv st0)
    (hr : SimReach sched mem st0 st) : DoneInv st := by
  induction hr with
  | start => exact hD0
  | step hr1 hs ih =>
    exact sim_step_done all sched mem _ _ hnd (sim_reach_sched all sched mem st0 _ hnd h0 hr1) ih hs

/-- Claim C33, ownership conservation: in every state that the rounds of `simulation` reach,
every process of the input is in exactly one of the queue of processes still to arrive, the
waiting queue and the queue of completed processes, exactly once, no other process is in any of
them, and `complete_num_process` is the size of the queue of completed processes; when both
other queues are empty, which is when the loop ends, the queue of completed processes holds
every process of the input exactly once, in the order of completion times that do not
decrease. -/
theorem ownership_conservation (records : List Record) (sched : SchedFlag) (mem : MemFlag)
    (frames : Nat) (quantum : Int) (st0 st : Sim)
    (h0 : sim_init (read_file records).2 (init_sys records frames quantum) = .ok st0)
    (hr : SimReach sched mem st0 st) :
    (∀ p, p < records.length →
        st.queue.count p + st.waiting_queue.count p + st.complete_queue.count p = 1)
      ∧ (∀ p, records.length ≤ p →
        p ∉ st.queue ∧ p ∉ st.waiting_queue ∧ p ∉ st.complete_queue)
      ∧ st.sys.cpu.complete_num_process = st.complete_queue.length
      ∧ (st.queue = [] → st.waiting_queue = [] →
        st.complete_queue.Perm (List.range records.length)
          ∧ st.complete_queue.Pairwise
              (fun a b => (st.sys.heap a).complete_time ≤ (st.sys.heap b).complete_time)) := by
  have hS := sim_reach_sched _ sched mem st0 st (List.nodup_range _)
    (sim_init_sched records frames quantum st0 h0) hr
  have hD := sim_reach_done _ sched mem st0 st (List.nodup_range _)
    (sim_init_sched records frames quantum st0 h0)
    (sim_init_done _ records frames quantum st0 h0) hr
  refine ⟨?_, ?_, hD.count, ?_⟩
  · intro p hp
    have h1 := hS.parts.count_eq p
    rw [List.count_eq_one_of_mem (List.nodup_range _) (List.mem_range.2 hp)] at h1
    simp only [List.count_append] at h1
    exact h1
  · intro p hp
    have hn : ∀ l : List Ptr, (∀ x ∈ l, x ∈ st.queue ++ st.waiting_queue ++ st.complete_queue) →
        p ∉ l := by
      intro l hl hm
      have := List.mem_range.1 (hS.parts.subset (hl p hm))
      omega
    exact ⟨hn _ (fun x hx => by simp [hx]), hn _ (fun x hx => by simp [hx]),
      hn _ (fun x hx => by simp [hx])⟩
  · intro hq hw
    have hparts := hS.parts
    rw [hq, hw] at hparts
    refine ⟨by simpa using hparts, hD.sorted.imp ?_⟩
    intro a b hab
    rcases hab with hlt | ⟨he, -⟩
    · exact le_of_lt hlt
    · exact le_of_eq he

/-- Witness for C33: after the first round on the sample input under round robin the first
process waits behind the other two, the third one has not arrived and none is completed. -/
theorem ownership_conservation_witness :
    sim_init (read_file sample_records).2 (init_sys sample_records 8 3)
        = .ok (sim_start sample_records 8 3)
      ∧ sim_step .RR .SP (sim_start sample_records 8 3) = .ok sample_round
      ∧ sample_round.queue = [] ∧ sample_round.waiting_queue = [1, 2, 0]
      ∧ sample_round.complete_queue = []
      ∧ (∀ p, p < sample_records.length →
        sample_round.queue.count p + sample_round.waiting_queue.count p
          + sample_round.complete_queue.count p = 1)
      ∧ sample_round.sys.cpu.complete_num_process = sample_round.complete_queue.length :=
  ⟨rfl, rfl, rfl, rfl, rfl,
    (ownership_conservation sample_records .RR .SP 8 3 (sim_start sample_records 8 3)
      sample_round rfl (SimReach.step SimReach.start rfl)).1,
    (ownership_conservation sample_records .RR .SP 8 3 (sim_start sample_records 8 3)
      sample_round rfl (SimReach.step SimReach.start rfl)).2.2.1⟩

/-! ## Residency under swapping -/

/-- An admission under swapping leaves the process with all its pages, and every other process
with no page or as it was. -/
theorem sp_admit_pages (all : List Ptr) (queue : Queue) (s s1 : Sys) (p : Ptr)
    (hInv : Inv all s) (hd : dispatched all s queue p)
    (h : mem_alloc_func .SP queue s p = .ok s1) :
    (s1.heap p).num_page_in_mem = required_pages (s.heap p)
      ∧ ∀ q, q ≠ p → (s1.heap q).num_page_in_mem = 0 ∨ s1.heap q = s.heap q := by
  obtain ⟨hp, hpq, hnd, hq, -⟩ := hd
  rcases mem_alloc_func_cases .SP queue s s1 p (by decide) h with
    ⟨hfull, hself, hoth, -, -⟩ | ⟨hne, s2, n, hreq, hev, hgrant⟩
  · refine ⟨?_, fun q hqp => Or.inr (hoth q hqp)⟩
    rw [hself]; exact hfull
  · obtain ⟨-, hself, hoth, -⟩ := grant_pages_shape s2 s1 p _ n hgrant
    rw [require_pages_sp] at hreq
    have hn : n = required_pages (s.heap p) - (s.heap p).num_page_in_mem := by
      split at hreq
      · obtain ⟨v, -, hv⟩ := map_ok _ _ _ hreq
        cases hv; rfl
      · cases hreq; rfl
    rcases hev with e | hev
    · subst e
      refine ⟨?_, fun q hqp => Or.inr (hoth q hqp)⟩
      rw [hself, hn]
      show (s2.heap p).num_page_in_mem + _ = _
      omega
    · obtain ⟨ranking, k, hperm, -, -, -, -, hzero, hsame, -⟩ :=
        evcit_sp all queue s s2 n hInv hnd hq hev
      have hpv : p ∉ (holders s.heap ranking).take k := by
        intro hm
        have h1 := (holders_mem s.heap ranking p).1 (List.mem_of_mem_take hm)
        exact hpq (hperm.subset h1.1)
      refine ⟨?_, fun q hqp => ?_⟩
      · rw [hself, hn]
        show (s2.heap p).num_page_in_mem + _ = _
        rw [hsame p hpv]
        omega
      · rw [hoth q hqp]
        by_cases hv : q ∈ (holders s.heap ranking).take k
        · exact Or.inl (hzero q hv)
        · exact Or.inr (hsame q hv)

/-! ## The rounds of the simulation, with the places of the dispatched process -/

theorem finish_other (mem : MemFlag) (s3 s5 : Sys) (p c : Ptr) (w2 : Queue)
    (hs5 : print_finished mem (record_statistic s3 p) p w2 = .ok s5) (hcp : c ≠ p) :
    (after_finish s5 p).heap c = s3.heap c := by
  rw [(after_finish_fields s5 p).2.2.1 c hcp, print_finished_others mem _ s5 p w2 hs5 c hcp]
  rfl

/-- The cases of a round of `simulation` that returns, in a state whose queues hold every process
once: the dispatched process is in no other queue, before and after the arrivals, and the round
changes the record of another process only by the admission. -/
theorem sim_step_round (all : List Ptr) (sched : SchedFlag) (mem : MemFlag) (st st' : Sim)
    (hnd : all.Nodup) (hS : SchedInv all st) (h : sim_step sched mem st = .ok st') :
    (∃ p w s1 q' w2, st.waiting_queue = p :: w ∧ mem_alloc_func mem w st.sys p = .ok s1
        ∧ arrivals sched (add_curr_time sched s1 p).heap (add_curr_time sched s1 p).cpu.curr_time
            st.queue.length st.queue w = .ok (q', w2)
        ∧ p ∈ all ∧ (∀ x ∈ w, x ∈ all) ∧ p ∉ w ∧ p ∉ st.queue ∧ p ∉ st.complete_queue
        ∧ p ∉ q' ∧ p ∉ w2 ∧ Admitted all p st.sys s1
        ∧ (∀ c, c ≠ p → st'.sys.heap c = s1.heap c)
        ∧ ((sched = .RR ∧ ((after_run sched s1 p).heap p).remaining_time ≠ 0
            ∧ st' = { st with
                sys := after_run sched s1 p
                queue := q'
                waiting_queue := enqueue (after_run sched s1 p).heap w2 p .LASTET })
          ∨ (¬ (sched = .RR ∧ ((after_run sched s1 p).heap p).remaining_time ≠ 0)
            ∧ ∃ s5, print_finished mem (record_statistic (after_run sched s1 p) p) p w2 = .ok s5
              ∧ st' = { sys := after_finish s5 p, queue := q', waiting_queue := w2,
                        complete_queue :=
                          enqueue (after_finish s5 p).heap st.complete_queue p .COMPLETET })))
      ∨ (st.waiting_queue = [] ∧ ∃ p rest, st.queue = p :: rest
          ∧ st' = { st with
              sys := { st.sys with cpu := { st.sys.cpu with
                curr_time := (st.sys.heap p).arrive_time } }
              queue := rest
              waiting_queue := enqueue st.sys.heap st.waiting_queue p .ARRT })
      ∨ (st.waiting_queue = [] ∧ st.queue = [] ∧ st' = st) := by
  have hparts := hS.parts
  rcases sim_step_cases sched mem st st' h with
    ⟨p, w, s1, q', w2, hwq, hs1, harr, hcase⟩ | hidle | hdone
  · left
    rw [hwq] at hparts
    have hp : p ∈ all := hparts.subset (by simp)
    have hw : ∀ x ∈ w, x ∈ all := fun x hx => hparts.subset (by simp [hx])
    have hadm := mem_alloc_func_admitted all mem w st.sys s1 p hnd hp hw hs1
    have hc0 : st.queue.count p + (p :: w).count p + st.complete_queue.count p = 1 :=
      count_one_of_parts all _ _ _ hnd hparts p (by simp)
    simp only [List.count_cons_self] at hc0
    have hcount := arrivals_count sched _ _ _ _ _ _ _ harr p
    have h3 : ∀ c, c ≠ p → (after_run sched s1 p).heap c = s1.heap c :=
      fun c hcp => (after_run_fields sched s1 p).2.2.1 c hcp
    refine ⟨p, w, s1, q', w2, hwq, hs1, harr, hp, hw, not_mem_of_count w p (by omega),
      not_mem_of_count st.queue p (by omega), not_mem_of_count st.complete_queue p (by omega),
      not_mem_of_count q' p (by omega), not_mem_of_count w2 p (by omega), hadm, ?_, hcase⟩
    intro c hcp
    rcases hcase with ⟨-, -, hst'⟩ | ⟨-, s5, hs5, hst'⟩
    · rw [hst']; exact h3 c hcp
    · rw [hst']
      show (after_finish s5 p).heap c = _
      rw [finish_other mem _ s5 p c w2 hs5 hcp]
      exact h3 c hcp
  · exact Or.inr (Or.inl hidle)
  · exact Or.inr (Or.inr hdone)

/-- A round of `simulation` under swapping keeps every process with no page or all its pages. -/
theorem sim_step_residency (all : List Ptr) (sched : SchedFlag) (st st' : Sim)
    (hI : SimInv all st) (hS : SchedInv all st)
    (hA : ∀ c ∈ all, (st.sys.heap c).num_page_in_mem = 0
      ∨ (st.sys.heap c).num_page_in_mem = required_pages (st.sys.heap c))
    (h : sim_step sched .SP st = .ok st') :
    ∀ c ∈ all, (st'.sys.heap c).num_page_in_mem = 0
      ∨ (st'.sys.heap c).num_page_in_mem = required_pages (st'.sys.heap c) := by
  have hnd := hI.inv.nodup
  have hI' := sim_step_inv all sched .SP st st' (by decide) hI h
  have hid := sim_step_identity all sched .SP st st' hnd hS h
  have hreq : ∀ c, required_pages (st'.sys.heap c) = required_pages (st.sys.heap c) := by
    intro c; unfold required_pages; rw [(hid c).2.2.2]
  rcases sim_step_round all sched .SP st st' hnd hS h with
    ⟨p, w, s1, q', w2, hwq, hs1, harr, hp, hw, hpw, hpq, hpc, hpq', hpw2, hadm, hoth, hcase⟩
      | ⟨hwq, p, rest, hqq, hst'⟩ | ⟨-, -, hst'⟩
  · have hd := sim_inv_dispatched all st p w hI (by rw [hwq, dequeue_cons])
    obtain ⟨hfull, hrest⟩ := sp_admit_pages all w st.sys s1 p hI.inv hd hs1
    intro c hc
    rw [hreq c]
    by_cases hcp : c = p
    · subst hcp
      rcases hcase with ⟨-, -, hst'⟩ | ⟨-, s5, hs5, hst'⟩
      · right
        rw [hst']
        show ((after_run sched s1 c).heap c).num_page_in_mem = _
        rw [(same_but_times_fields (after_run_times sched s1 c c)).2.2.2.2.1]
        exact hfull
      · left
        apply hI'.idle c hc
        rw [hst']
        exact hpw2
    · rw [hoth c hcp]
      rcases hrest c hcp with h0 | he
      · exact Or.inl h0
      · rw [he]; exact hA c hc
  · rw [hst']; exact hA
  · rw [hst']; exact hA

/-- Claim C39, all-or-nothing residency under swapping: for every input with unique process ids,
in every state that the rounds of `simulation` reach under the swapping memory mode, every
process of the input holds either no page or exactly the pages of its memory size. -/
theorem fixed_partition_residency (records : List Record) (sched : SchedFlag) (frames : Nat)
    (quantum : Int) (st0 st : Sim) (hu : unique_ids records)
    (h0 : sim_init (read_file records).2 (init_sys records frames quantum) = .ok st0)
    (hr : SimReach sched .SP st0 st) :
    ∀ p, p < records.length → (st.sys.heap p).num_page_in_mem = 0
      ∨ (st.sys.heap p).num_page_in_mem = required_pages (st.sys.heap p) := by
  have hnd := List.nodup_range records.length
  have hS0 := sim_init_sched records frames quantum st0 h0
  have hI0 := sim_init_inv records frames quantum st0 hu h0
  have key : ∀ c ∈ List.range records.length, (st.sys.heap c).num_page_in_mem = 0
      ∨ (st.sys.heap c).num_page_in_mem = required_pages (st.sys.heap c) := by
    induction hr with
    | start =>
      intro c hc
      left
      rw [(sim_init_sys _ _ st0 h0).1, init_heap records frames quantum c (List.mem_range.1 hc)]
      rfl
    | step hr1 hs ih =>
      exact sim_step_residency _ sched _ _
        (sim_reach_inv _ sched .SP st0 _ (by decide) hI0 hr1)
        (sim_reach_sched _ sched .SP st0 _ hnd hS0 hr1) ih hs
  exact fun p hp => key p (List.mem_range.2 hp)

/-- Witness for C39: after the first round on the sample input the first process holds its 5
pages and the other two hold none. -/
theorem fixed_partition_residency_witness :
    unique_ids sample_records
      ∧ sim_init (read_file sample_records).2 (init_sys sample_records 8 3)
        = .ok (sim_start sample_records 8 3)
      ∧ sim_step .RR .SP (sim_start sample_records 8 3) = .ok sample_round
      ∧ (sample_round.sys.heap 0).num_page_in_mem = 5
      ∧ (sample_round.sys.heap 1).num_page_in_mem = 0
      ∧ ∀ p, p < sample_records.length → (sample_round.sys.heap p).num_page_in_mem = 0
        ∨ (sample_round.sys.heap p).num_page_in_mem = required_pages (sample_round.sys.heap p) :=
  ⟨sample_unique, rfl, rfl, rfl, rfl,
    fixed_partition_residency sample_records .RR 8 3 (sim_start sample_records 8 3) sample_round
      sample_unique rfl (SimReach.step SimReach.start rfl)⟩

/-! ## The release of the frames at completion -/

/-- With limited memory `print_finished` reports the frames of the process as evicted and frees
every one of them. -/
theorem print_finished_release (all : List Ptr) (f : MemFlag) (s : Sys) (p : Ptr)
    (queue : Queue) (hf : f ≠ .UN) (hInv : Inv all s) (hp : p ∈ all) :
    ∃ s', print_finished f s p queue = .ok s'
      ∧ (s'.heap p).num_page_in_mem = 0
      ∧ s'.cpu.memory.num_holes = s.cpu.memory.num_holes + (s.heap p).num_page_in_mem
      ∧ s'.out = s.out ++ [.evicted s.cpu.curr_time (cells (s.heap p)),
          .finished s.cpu.curr_time (s.heap p).p_id (get_queue_size queue)]
      ∧ Freed s.cpu.memory.is_occupy_lst s'.cpu.memory.is_occupy_lst (cells (s.heap p)) := by
  unfold print_finished
  rw [if_pos hf]
  have hcnt := hInv.count p hp
  have hpe : print_evicted s (s.heap p).page_list (s.heap p).num_page_in_mem
      = .ok (s.emit (.evicted s.cpu.curr_time (cells (s.heap p)))) := by
    unfold print_evicted
    rw [read_cells_ok (s.heap p) _ (by omega)]
    have : (s.heap p).num_page_in_mem.toNat = (cells (s.heap p)).length := by omega
    rw [this, List.take_length]
    rfl
  have hInv1 := inv_emit all s (.evicted s.cpu.curr_time (cells (s.heap p))) hInv
  obtain ⟨s2, heq, hInv2, hout, hh, hids, -, hn⟩ :=
    free_page_inv all (s.emit (.evicted s.cpu.curr_time (cells (s.heap p)))) p none
      ((s.emit (.evicted s.cpu.curr_time (cells (s.heap p)))).heap p).num_page_in_mem
      hInv1 hp (by show 0 ≤ (s.heap p).num_page_in_mem; omega) (le_refl _)
  have hfr := free_page_freed all _ s2 p none _ _ hInv1 hp (le_refl _) heq
  have hshape := (free_page_shape _ s2 p none _ _ heq).1
  refine ⟨s2.emit (.finished s2.cpu.curr_time (s2.heap p).p_id (get_queue_size queue)),
    ?_, ?_, ?_, ?_, ?_⟩
  · simp only [bind, Except.bind, hpe, heq, pure, Except.pure]
  · show (s2.heap p).num_page_in_mem = 0
    rw [hn]; omega
  · show s2.cpu.memory.num_holes = _
    rw [hh]; rfl
  · show s2.out ++ _ = _
    rw [hout, hshape.2.1, (hids p).1]
    show (s.out ++ [_]) ++ _ = _
    simp
    exact ⟨rfl, rfl⟩
  · have hlen : ((s.emit (.evicted s.cpu.curr_time (cells (s.heap p)))).heap
        p).num_page_in_mem.toNat = (cells (s.heap p)).length := by
      show (s.heap p).num_page_in_mem.toNat = _
      omega
    rw [hlen] at hfr
    have : (cells ((s.emit (.evicted s.cpu.curr_time (cells (s.heap p)))).heap p)).take
        (cells (s.heap p)).length = cells (s.heap p) := List.take_length _
    rw [this] at hfr
    exact hfr

/-- A round of `simulation` keeps the size of the frame table. -/
theorem sim_step_total (all : List Ptr) (sched : SchedFlag) (mem : MemFlag) (st st' : Sim)
    (hnd : all.Nodup) (hS : SchedInv all st) (h : sim_step sched mem st = .ok st') :
    st'.sys.cpu.memory.total_page = st.sys.cpu.memory.total_page := by
  rcases sim_step_round all sched mem st st' hnd hS h with
    ⟨p, w, s1, q', w2, hwq, hs1, harr, hp, hw, hpw, hpq, hpc, hpq', hpw2, hadm, hoth, hcase⟩
      | ⟨hwq, p, rest, hqq, hst'⟩ | ⟨-, -, hst'⟩
  · have h3 : (after_run sched s1 p).cpu.memory = s1.cpu.memory := by
      rw [(after_run_fields sched s1 p).1, (add_curr_time_fields sched s1 p).1]
    rcases hcase with ⟨-, -, hst'⟩ | ⟨-, s5, hs5, hst'⟩
    · rw [hst']
      show (after_run sched s1 p).cpu.memory.total_page = _
      rw [h3, hadm.total]
    · rw [hst']
      have hq5 := print_finished_quiet all mem _ s5 p w2 hnd hp hs5
      show (after_finish s5 p).cpu.memory.total_page = _
      rw [(after_finish_fields s5 p).1]
      show s5.cpu.memory.total_page = _
      rw [hq5.total]
      show (after_run sched s1 p).cpu.memory.total_page = _
      rw [h3, hadm.total]
  · rw [hst']
  · rw [hst']

theorem sim_reach_total (all : List Ptr) (sched : SchedFlag) (mem : MemFlag) (st0 st : Sim)
    (hnd : all.Nodup) (h0 : SchedInv all st0) (hr : SimReach sched mem st0 st) :
    st.sys.cpu.memory.total_page = st0.sys.cpu.memory.total_page := by
  induction hr with
  | start => rfl
  | step hr1 hs ih =>
    rw [sim_step_total all sched mem _ _ hnd (sim_reach_sched all sched mem st0 _ hnd h0 hr1) hs, ih]

theorem resident_sum_zero (H : Heap) (all : List Ptr)
    (h : ∀ q ∈ all, (H q).num_page_in_mem = 0) : resident_sum H all = 0 := by
  unfold resident_sum
  apply List.sum_eq_zero
  intro x hx
  simp only [List.mem_map] at hx
  obtain ⟨q, hq, e⟩ := hx
  rw [← e]; exact h q hq

/-- When every process holds no page, every frame of the table is free. -/
theorem all_free_of_idle (all : List Ptr) (s : Sys) (hInv : Inv all s)
    (h : ∀ q ∈ all, (s.heap q).num_page_in_mem = 0) :
    s.cpu.memory.num_holes = s.cpu.memory.total_page
      ∧ s.cpu.memory.is_occupy_lst
        = List.replicate s.cpu.memory.is_occupy_lst.length INVALID := by
  have hsum := hInv.sum
  rw [resident_sum_zero s.heap all h, add_zero] at hsum
  refine ⟨hsum, ?_⟩
  have hh := hInv.holes
  rw [hsum] at hh
  unfold free_count MemoryInfo.total_page at hh
  have hc : s.cpu.memory.is_occupy_lst.count INVALID = s.cpu.memory.is_occupy_lst.length := by
    omega
  exact List.eq_replicate_of_mem (fun b hb => (List.count_eq_length.1 hc b hb).symm)

/-- Claim C35, release on completion: under every memory mode but the unlimited one,
`print_finished` on a process of a consistent state frees all its frames: its page count
becomes 0, `num_holes` grows by that count, the frames are written as its `EVICTED` line before
the `FINISHED` line, and exactly these frames become free in the table; and when a run on an
input with unique process ids ends, every process holds no page, `num_holes` is the number of
frames of the table and every frame is free. -/
theorem release_on_completion (mem : MemFlag) (hm : mem ≠ .UN) :
    (∀ (all : List Ptr) (s : Sys) (p : Ptr) (queue : Queue), Inv all s → p ∈ all →
      ∃ s1, print_finished mem s p queue = .ok s1
        ∧ (s1.heap p).num_page_in_mem = 0
        ∧ s1.cpu.memory.num_holes = s.cpu.memory.num_holes + (s.heap p).num_page_in_mem
        ∧ s1.out = s.out ++ [.evicted s.cpu.curr_time (cells (s.heap p)),
            .finished s.cpu.curr_time (s.heap p).p_id (get_queue_size queue)]
        ∧ Freed s.cpu.memory.is_occupy_lst s1.cpu.memory.is_occupy_lst (cells (s.heap p)))
      ∧ ∀ (records : List Record) (sched : SchedFlag) (frames : Nat) (quantum : Int)
          (fuel : Nat) (r : Sim), unique_ids records →
          run records sched mem frames quantum fuel = .ok r →
          (∀ p, p < records.length → (r.sys.heap p).num_page_in_mem = 0)
            ∧ r.sys.cpu.memory.num_holes = frames
            ∧ r.sys.cpu.memory.is_occupy_lst = List.replicate frames INVALID := by
  refine ⟨fun all s p queue hInv hp => print_finished_release all mem s p queue hm hInv hp, ?_⟩
  intro records sched frames quantum fuel r hu hrun
  obtain ⟨st0, h0, hr, hq, hw⟩ := run_simreach records sched mem frames quantum fuel r hrun
  have hnd := List.nodup_range records.length
  have hS0 := sim_init_sched records frames quantum st0 h0
  have hI := sim_reach_inv _ sched mem st0 r hm (sim_init_inv records frames quantum st0 hu h0) hr
  have hzero : ∀ q ∈ List.range records.length, (r.sys.heap q).num_page_in_mem = 0 := by
    intro q hqa
    apply hI.idle q hqa
    rw [hw]; simp
  obtain ⟨hholes, htable⟩ := all_free_of_idle _ r.sys hI.inv hzero
  have htot := sim_reach_total _ sched mem st0 r hnd hS0 hr
  rw [(sim_init_sys _ _ st0 h0).1] at htot
  have hlen : r.sys.cpu.memory.is_occupy_lst.length = frames := by
    have : (r.sys.cpu.memory.is_occupy_lst.length : Int) = (frames : Int) := by
      have e : (init_sys records frames quantum).cpu.memory.total_page = (frames : Int) := by
        show ((List.replicate frames INVALID).length : Int) = _
        rw [List.length_replicate]
      rw [← e, ← htot]; rfl
    exact_mod_cast this
  refine ⟨fun p hp => hzero p (List.mem_range.2 hp), ?_, ?_⟩
  · rw [hholes]
    show (r.sys.cpu.memory.is_occupy_lst.length : Int) = _
    rw [hlen]
  · rw [htable, hlen]

/-- Witness for C35: the run on the sample input under swapping with 8 frames ends with 8 free
frames. -/
theorem release_on_completion_witness :
    MemFlag.SP ≠ MemFlag.UN
      ∧ ∃ r, run sample_records .FF .SP 8 3 3 = .ok r
        ∧ r.sys.cpu.memory.num_holes = 8
        ∧ r.sys.cpu.memory.is_occupy_lst = List.replicate 8 INVALID :=
  ⟨by decide, _, rfl,
    ((release_on_completion .SP (by decide)).2 sample_records .FF 8 3 3 _ sample_unique rfl).2⟩

/-! ## The sequence of dispatches -/

theorem sim_trace_reach (sched : SchedFlag) (mem : MemFlag) (st0 st : Sim) (tr : List Ptr)
    (h : SimTrace sched mem st0 st tr) : SimReach sched mem st0 st := by
  induction h with
  | start => exact SimReach.start
  | step _ hs ih => exact SimReach.step ih hs

theorem sim_reach_trace (sched : SchedFlag) (mem : MemFlag) (st0 st : Sim)
    (h : SimReach sched mem st0 st) : ∃ tr, SimTrace sched mem st0 st tr := by
  induction h with
  | start => exact ⟨[], SimTrace.start⟩
  | step _ hs ih =>
    obtain ⟨tr, ht⟩ := ih
    exact ⟨_, SimTrace.step ht hs⟩

theorem enqueue_list_tail (H : Heap) (k : PrioFlag) (ps : List Ptr) :
    ∀ queue : Queue, (queue ++ ps).Pairwise (prio_le H k) →
      enqueue_list H k queue ps = queue ++ ps := by
  induction ps with
  | nil => intro queue _; simp [enqueue_list]
  | cons a rest ih =>
    intro queue hs
    have ha : ∀ x ∈ queue, prio_le H k x a := by
      intro x hx
      exact (List.pairwise_append.1 hs).2.2 x hx a (by simp)
    have h1 : enqueue_list H k queue (a :: rest)
        = enqueue_list H k (enqueue H queue a k) rest := rfl
    rw [h1, enqueue_tail H k queue a ha, ih (queue ++ [a]) (by simpa using hs)]
    simp

/-- The rounds of `simulation` keep the arrival time, the id, the job time and the memory size
of every process. -/
theorem sim_reach_identity (all : List Ptr) (sched : SchedFlag) (mem : MemFlag) (st0 st : Sim)
    (hnd : all.Nodup) (h0 : SchedInv all st0) (hr : SimReach sched mem st0 st) (c : Ptr) :
    (st.sys.heap c).arrive_time = (st0.sys.heap c).arrive_time
      ∧ (st.sys.heap c).p_id = (st0.sys.heap c).p_id
      ∧ (st.sys.heap c).job_time = (st0.sys.heap c).job_time
      ∧ (st.sys.heap c).mem_size_req = (st0.sys.heap c).mem_size_req := by
  induction hr with
  | start => exact ⟨rfl, rfl, rfl, rfl⟩
  | step hr1 hs ih =>
    obtain ⟨a1, a2, a3, a4⟩ := sim_step_identity all sched mem _ _ hnd
      (sim_reach_sched all sched mem st0 _ hnd h0 hr1) hs c
    rw [a1, a2, a3, a4]
    exact ih

theorem sim_init_queues (queue : Queue) (s : Sys) (st0 : Sim)
    (h : sim_init queue s = .ok st0) :
    st0.waiting_queue ++ st0.queue = queue ∧ st0.complete_queue = [] ∧ st0.sys = s
      ∧ st0.waiting_queue = queue.take 1 := by
  unfold sim_init at h
  split at h
  · cases queue with
    | nil => rw [dequeue_nil] at h; cases h
    | cons p rest =>
      rw [dequeue_cons] at h
      simp only [bind, Except.bind, pure, Except.pure] at h
      cases h
      exact ⟨rfl, rfl, rfl, rfl⟩
  · rename_i hc
    cases h
    have := queue_nil_of_size _ hc
    subst this
    exact ⟨rfl, rfl, rfl, rfl⟩

/-- Under first-come first-served scheduling the processes dispatched so far, the waiting queue
and the queue of processes still to arrive make up the initial queue, in this order, and the
completed processes are the dispatched ones. -/
theorem sim_trace_ff (all : List Ptr) (mem : MemFlag) (st0 st : Sim) (tr : List Ptr)
    (hnd : all.Nodup) (hS0 : SchedInv all st0)
    (hsorted : (st0.waiting_queue ++ st0.queue).Pairwise (prio_le st0.sys.heap .ARRT))
    (hc0 : st0.complete_queue = [])
    (ht : SimTrace .FF mem st0 st tr) :
    tr ++ st.waiting_queue ++ st.queue = st0.waiting_queue ++ st0.queue
      ∧ st.complete_queue.Perm tr := by
  induction ht with
  | start => exact ⟨by simp, by rw [hc0]⟩
  | @step st st' tr ht1 hs ih =>
    obtain ⟨ih1, ih2⟩ := ih
    have hr1 := sim_trace_reach .FF mem st0 st tr ht1
    have hS := sim_reach_sched all .FF mem st0 st hnd hS0 hr1
    rcases sim_step_round all .FF mem st st' hnd hS hs with
      ⟨p, w, s1, q', w2, hwq, hs1, harr, hp, hw, hpw, hpq, hpc, hpq', hpw2, hadm, hoth, hcase⟩
        | ⟨hwq, p, rest, hqq, hst'⟩ | ⟨hwq, hqq, hst'⟩
    · obtain ⟨moved, hmv, hw2, -, -⟩ := arrivals_spec .FF _ _ _ _ _ _ _ harr
      simp only [if_neg (by decide : ¬ SchedFlag.FF = SchedFlag.CS)] at hw2
      have hsort2 : (w ++ moved).Pairwise (prio_le (add_curr_time .FF s1 p).heap .ARRT) := by
        have h1 : (w ++ moved).Pairwise (prio_le st0.sys.heap .ARRT) := by
          rw [← ih1, hwq, hmv] at hsorted
          have h3 : (w ++ moved).Sublist (tr ++ p :: w ++ (moved ++ q')) := by
            have : tr ++ p :: w ++ (moved ++ q') = (tr ++ [p]) ++ ((w ++ moved) ++ q') := by simp
            rw [this]
            exact (List.sublist_append_left (w ++ moved) q').trans
              (List.sublist_append_right (tr ++ [p]) _)
          exact hsorted.sublist h3
        apply pairwise_prio_congr st0.sys.heap _ .ARRT _ _ h1
        intro x hx
        have hid := sim_reach_identity all .FF mem st0 st hnd hS0 hr1 x
        by_cases hxp : x = p
        · subst hxp
          have e1 := (add_curr_time_fields .FF s1 x).2.2.2
          obtain ⟨a1, -, a3, -⟩ := same_but_admitted_fields hadm.self
          rw [e1]
          exact ⟨by show (s1.heap x).arrive_time = _; rw [a1, hid.1]; rfl,
            by show (s1.heap x).p_id = _; rw [a3, hid.2.1]⟩
        · rw [(add_curr_time_fields .FF s1 p).2.2.1 x hxp]
          have hsb := hadm.others x hxp
          exact ⟨by show (s1.heap x).arrive_time = _; rw [(same_but_pages_times hsb).1, hid.1]; rfl,
            by rw [(same_but_pages_fields hsb).1, hid.2.1]⟩
      rw [enqueue_list_tail _ _ _ _ hsort2] at hw2
      rcases hcase with ⟨hrr, -, -⟩ | ⟨-, s5, hs5, hst'⟩
      · cases hrr
      · rw [hst']
        have hpe := enqueue_perm (after_finish s5 p).heap .COMPLETET st.complete_queue p
        have htk : st.waiting_queue.take 1 = [p] := by rw [hwq]; rfl
        rw [htk]
        refine ⟨?_, ?_⟩
        · show tr ++ [p] ++ w2 ++ q' = _
          rw [← ih1, hwq, hmv, hw2]
          simp
        · show (enqueue (after_finish s5 p).heap st.complete_queue p .COMPLETET).Perm
            (tr ++ [p])
          exact hpe.trans ((List.Perm.cons p ih2).trans (List.perm_append_singleton p tr).symm)
    · rw [hst']
      refine ⟨?_, ?_⟩
      · show tr ++ st.waiting_queue.take 1 ++ enqueue st.sys.heap st.waiting_queue p .ARRT ++ rest
          = _
        rw [← ih1, hwq, hqq]
        simp [enqueue, get_queue_size]
      · show st.complete_queue.Perm (tr ++ st.waiting_queue.take 1)
        rw [hwq]; simpa using ih2
    · rw [hst', hwq]
      simp only [List.take_nil, List.append_nil]
      rw [hwq] at ih1
      exact ⟨by simpa using ih1, ih2⟩

/-- Claim C32, first-come first-served order: for every input with unique process ids and every
memory mode, `read_file` puts the processes in a queue that holds each of them once, in the
strictly ascending order of arrival time, then process id, whatever the order of the input
lines; and in every state that the rounds of `simulation` reach under first-come first-served
scheduling, the processes dispatched so far, in the order of dispatch, followed by the waiting
queue and the queue of processes still to arrive, are exactly that queue, and the completed
processes are the dispatched ones. So the processes are dispatched and completed in that order,
and when both queues are empty all of them have been. -/
theorem first_come_first_served (records : List Record) (mem : MemFlag) (frames : Nat)
    (quantum : Int) (st0 st : Sim) (tr : List Ptr) (hu : unique_ids records)
    (h0 : sim_init (read_file records).2 (init_sys records frames quantum) = .ok st0)
    (ht : SimTrace .FF mem st0 st tr) :
    (read_file records).2.Perm (List.range records.length)
      ∧ (read_file records).2.Pairwise (fun a b =>
          ((read_file records).1 a).arrive_time < ((read_file records).1 b).arrive_time
            ∨ (((read_file records).1 a).arrive_time = ((read_file records).1 b).arrive_time
              ∧ ((read_file records).1 a).p_id < ((read_file records).1 b).p_id))
      ∧ tr ++ st.waiting_queue ++ st.queue = (read_file records).2
      ∧ st.complete_queue.Perm tr
      ∧ (st.waiting_queue = [] → st.queue = [] → tr = (read_file records).2) := by
  have hperm := read_file_perm records
  have hsorted := read_file_sorted records
  have hnd := List.nodup_range records.length
  obtain ⟨hq0, hc0, hsys0, -⟩ := sim_init_queues _ _ st0 h0
  have hInv0 := inv_init records frames quantum hu
  have hS0 := sim_init_sched records frames quantum st0 h0
  have hs0 : (st0.waiting_queue ++ st0.queue).Pairwise (prio_le st0.sys.heap .ARRT) := by
    rw [hq0, hsys0]; exact hsorted
  obtain ⟨h1, h2⟩ := sim_trace_ff _ mem st0 st tr hnd hS0 hs0 hc0 ht
  rw [hq0] at h1
  refine ⟨hperm, ?_, h1, h2, ?_⟩
  · have hnd2 : (read_file records).2.Nodup := hperm.nodup_iff.2 hnd
    refine (hsorted.and hnd2).imp_of_mem ?_
    intro a b ha hb hab
    obtain ⟨hle, hne⟩ := hab
    rcases hle with hlt | ⟨he, hid⟩
    · exact Or.inl hlt
    · refine Or.inr ⟨he, lt_of_le_of_ne hid ?_⟩
      intro e
      exact hne (hInv0.id_inj a (hperm.subset ha) b (hperm.subset hb) e)
  · intro hw hq
    rw [hw, hq] at h1
    simpa using h1

/-- Witness for C32: the first round on the sample input dispatches the first process, the
second one waits and the third one has not arrived. -/
theorem first_come_first_served_witness :
    unique_ids sample_records
      ∧ sim_init (read_file sample_records).2 (init_sys sample_records 8 3)
        = .ok (sim_start sample_records 8 3)
      ∧ SimTrace .FF .SP (sim_start sample_records 8 3)
          (after_step .FF .SP (sim_start sample_records 8 3)) [0]
      ∧ (read_file sample_records).2 = [0, 1, 2]
      ∧ [0] ++ (after_step .FF .SP (sim_start sample_records 8 3)).waiting_queue
          ++ (after_step .FF .SP (sim_start sample_records 8 3)).queue = (read_file sample_records).2
      ∧ (after_step .FF .SP (sim_start sample_records 8 3)).complete_queue.Perm [0] :=
  ⟨sample_unique, rfl, SimTrace.step SimTrace.start rfl, rfl,
    (first_come_first_served sample_records .SP 8 3 (sim_start sample_records 8 3)
      (after_step .FF .SP (sim_start sample_records 8 3)) [0] sample_unique rfl
      (SimTrace.step SimTrace.start rfl)).2.2.1,
    (first_come_first_served sample_records .SP 8 3 (sim_start sample_records 8 3)
      (after_step .FF .SP (sim_start sample_records 8 3)) [0] sample_unique rfl
      (SimTrace.step SimTrace.start rfl)).2.2.2.1⟩

/-! ## The queue of processes still to arrive -/

/-- A round of `simulation` only takes processes from the front of the queue of processes still
to arrive. -/
theorem sim_step_suffix (sched : SchedFlag) (mem : MemFlag) (st st' : Sim)
    (h : sim_step sched mem st = .ok st') : ∃ moved, st.queue = moved ++ st'.queue := by
  rcases sim_step_cases sched mem st st' h with
    ⟨p, w, s1, q', w2, hwq, hs1, harr, hcase⟩ | ⟨hwq, p, rest, hqq, hst'⟩ | ⟨-, -, hst'⟩
  · obtain ⟨moved, hmv, -⟩ := arrivals_spec sched _ _ _ _ _ _ _ harr
    rcases hcase with ⟨-, -, hst'⟩ | ⟨-, s5, hs5, hst'⟩
    · rw [hst']; exact ⟨moved, hmv⟩
    · rw [hst']; exact ⟨moved, hmv⟩
  · rw [hst']; exact ⟨[p], hqq⟩
  · rw [hst']; exact ⟨[], rfl⟩

theorem sim_reach_suffix (sched : SchedFlag) (mem : MemFlag) (st0 st : Sim)
    (hr : SimReach sched mem st0 st) : ∃ moved, st0.queue = moved ++ st.queue := by
  induction hr with
  | start => exact ⟨[], rfl⟩
  | step _ hs ih =>
    obtain ⟨m1, h1⟩ := ih
    obtain ⟨m2, h2⟩ := sim_step_suffix sched mem _ _ hs
    exact ⟨m1 ++ m2, by rw [h1, h2]; simp⟩

/-- In every state that the rounds of `simulation` reach, the queue of processes still to arrive
is in the order of arrival time, then process id. -/
theorem sim_reach_queue_sorted (records : List Record) (sched : SchedFlag) (mem : MemFlag)
    (frames : Nat) (quantum : Int) (st0 st : Sim)
    (h0 : sim_init (read_file records).2 (init_sys records frames quantum) = .ok st0)
    (hr : SimReach sched mem st0 st) :
    st.queue.Pairwise (prio_le st.sys.heap .ARRT) := by
  obtain ⟨hq0, -, hsys0, -⟩ := sim_init_queues _ _ st0 h0
  obtain ⟨moved, hmv⟩ := sim_reach_suffix sched mem st0 st hr
  have hsorted := read_file_sorted records
  rw [← hq0, hmv] at hsorted
  have h1 : st.queue.Pairwise (prio_le (read_file records).1 .ARRT) :=
    hsorted.sublist ((List.sublist_append_right moved st.queue).trans
      (List.sublist_append_right st0.waiting_queue _))
  apply pairwise_prio_congr _ _ .ARRT _ _ h1
  intro x _
  have hid := sim_reach_identity _ sched mem st0 st (List.nodup_range records.length)
    (sim_init_sched records frames quantum st0 h0) hr x
  rw [hsys0] at hid
  exact ⟨hid.1, hid.2.1⟩

/-- After the arrivals from a queue in the order of arrival, every process left in the queue
arrives later than the current time. -/
theorem arrivals_rest (sched : SchedFlag) (H : Heap) (t : Int) (fuel : Nat)
    (queue waiting q1 w1 : Queue) (hs : queue.Pairwise (prio_le H .ARRT))
    (h : arrivals sched H t fuel queue waiting = .ok (q1, w1)) :
    (∀ x ∈ q1, t < (H x).arrive_time) ∧ (∀ x ∈ waiting, x ∈ w1)
      ∧ (∀ x ∈ queue, (H x).arrive_time ≤ t → x ∈ w1) := by
  obtain ⟨moved, hmv, hw1, -, hnext⟩ := arrivals_spec sched H t fuel queue waiting q1 w1 h
  have hperm := enqueue_list_perm H (if sched = .CS then .JOBT else .ARRT) moved waiting
  rw [← hw1] at hperm
  have hq1 : ∀ x ∈ q1, t < (H x).arrive_time := by
    intro x hx
    cases hq : q1 with
    | nil => rw [hq] at hx; simp at hx
    | cons a rest =>
      have ha := hnext a rest hq
      rw [hq] at hx
      rcases List.mem_cons.1 hx with e | hm
      · rw [e]; exact ha
      · rw [hmv, hq] at hs
        have h2 := (List.pairwise_append.1 hs).2.1
        have h3 := (List.pairwise_cons.1 h2).1 x hm
        have h4 : (H a).arrive_time ≤ (H x).arrive_time := by
          rcases h3 with hlt | ⟨he, -⟩
          · exact le_of_lt hlt
          · exact le_of_eq he
        omega
  refine ⟨hq1, fun x hx => hperm.symm.subset (by simp [hx]), fun x hx hle => ?_⟩
  rw [hmv] at hx
  rcases List.mem_append.1 hx with hm | hm
  · exact hperm.symm.subset (by simp [hm])
  · have := hq1 x hm
    omega

/-- The run that C31 fails on: both processes arrive at time 0, and `simulation` moves only the
first one into the waiting queue before the first dispatch, so the job of length 10 runs before
the job of length 2. -/
theorem shortest_job_not_first :
    ∃ r, run sjf_records .CS .UN 4 3 2 = .ok r
      ∧ (r.sys.heap 0).arrive_time = 0 ∧ (r.sys.heap 0).job_time = 10
      ∧ (r.sys.heap 1).arrive_time = 0 ∧ (r.sys.heap 1).job_time = 2
      ∧ r.sys.out = [.running 0 1 10, .finished 10 1 1, .running 10 2 2, .finished 12 2 0] :=
  ⟨_, rfl, rfl, rfl, rfl, rfl, rfl⟩

/-! ## The time of the last execution -/

/-- The clock and the quantum after a round of `simulation` that dispatches a process, and the
time of the last execution of that process. -/
theorem sim_step_stamp (all : List Ptr) (sched : SchedFlag) (mem : MemFlag) (st st' : Sim)
    (p : Ptr) (w : Queue) (s1 : Sys) (hnd : all.Nodup) (hS : SchedInv all st)
    (hwq : st.waiting_queue = p :: w) (hs1 : mem_alloc_func mem w st.sys p = .ok s1)
    (h : sim_step sched mem st = .ok st') :
    st'.sys.cpu.curr_time = (add_curr_time sched s1 p).cpu.curr_time
      ∧ (st'.sys.heap p).last_execution_time = (add_curr_time sched s1 p).cpu.curr_time
      ∧ (st'.sys.heap p).remaining_time = ((add_curr_time sched s1 p).heap p).remaining_time
      ∧ st'.sys.cpu.quantam = st.sys.cpu.quantam := by
  rcases sim_step_round all sched mem st st' hnd hS h with
    ⟨p1, w1, s2, q', w2, hwq1, hs2, harr, hp, hw, hpw, hpq, hpc, hpq', hpw2, hadm, hoth, hcase⟩
      | ⟨hwq1, -⟩ | ⟨hwq1, -⟩
  · rw [hwq] at hwq1
    cases hwq1
    rw [hs1] at hs2
    cases hs2
    obtain ⟨hcpu3, -, -, hself3⟩ := after_run_fields sched s1 p
    have hq3 : (add_curr_time sched s1 p).cpu.quantam = st.sys.cpu.quantam := by
      rw [(add_curr_time_fields sched s1 p).1, hadm.cpu]
    rcases hcase with ⟨-, -, hst'⟩ | ⟨-, s5, hs5, hst'⟩
    · rw [hst']
      refine ⟨?_, ?_, ?_, ?_⟩
      · show (after_run sched s1 p).cpu.curr_time = _
        rw [hcpu3]
      · show ((after_run sched s1 p).heap p).last_execution_time = _
        rw [hself3]
      · show ((after_run sched s1 p).heap p).remaining_time = _
        rw [hself3]
      · show (after_run sched s1 p).cpu.quantam = _
        rw [hcpu3, hq3]
    · rw [hst']
      have hq5 := print_finished_quiet all mem _ s5 p w2 hnd hp hs5
      have hsb : same_but_pages ((after_run sched s1 p).heap p) (s5.heap p) := hq5.procs p
      obtain ⟨hcpu7, -, -, hself7⟩ := after_finish_fields s5 p
      have hc5 : s5.cpu.curr_time = (add_curr_time sched s1 p).cpu.curr_time
          ∧ s5.cpu.quantam = st.sys.cpu.quantam := by
        rw [hq5.cpu]
        constructor
        · show (after_run sched s1 p).cpu.curr_time = _
          rw [hcpu3]
        · show (after_run sched s1 p).cpu.quantam = _
          rw [hcpu3, hq3]
      refine ⟨?_, ?_, ?_, ?_⟩
      · show (after_finish s5 p).cpu.curr_time = _
        rw [hcpu7]; exact hc5.1
      · show ((after_finish s5 p).heap p).last_execution_time = _
        rw [hself7]
        show (s5.heap p).last_execution_time = _
        rw [(same_but_pages_times hsb).2.2.1, hself3]
      · show ((after_finish s5 p).heap p).remaining_time = _
        rw [hself7]
        show (s5.heap p).remaining_time = _
        rw [same_but_pages_remaining hsb, hself3]
      · show (after_finish s5 p).cpu.quantam = _
        rw [hcpu7]; exact hc5.2
  · rw [hwq] at hwq1; cases hwq1
  · rw [hwq] at hwq1; cases hwq1

theorem sim_step_quantam (all : List Ptr) (sched : SchedFlag) (mem : MemFlag) (st st' : Sim)
    (hnd : all.Nodup) (hS : SchedInv all st) (h : sim_step sched mem st = .ok st') :
    st'.sys.cpu.quantam = st.sys.cpu.quantam := by
  rcases sim_step_round all sched mem st st' hnd hS h with
    ⟨p, w, s1, q', w2, hwq, hs1, -⟩ | ⟨-, p, rest, -, hst'⟩ | ⟨-, -, hst'⟩
  · exact (sim_step_stamp all sched mem st st' p w s1 hnd hS hwq hs1 h).2.2.2
  · rw [hst']
  · rw [hst']

theorem sim_reach_quantam (records : List Record) (sched : SchedFlag) (mem : MemFlag)
    (frames : Nat) (quantum : Int) (st0 st : Sim)
    (h0 : sim_init (read_file records).2 (init_sys records frames quantum) = .ok st0)
    (hr : SimReach sched mem st0 st) : st.sys.cpu.quantam = quantum := by
  have hnd := List.nodup_range records.length
  have hS0 := sim_init_sched records frames quantum st0 h0
  induction hr with
  | start => rw [(sim_init_sys _ _ st0 h0).1]; rfl
  | step hr1 hs ih =>
    rw [sim_step_quantam _ sched mem _ _ hnd (sim_reach_sched _ sched mem st0 _ hnd hS0 hr1) hs]
    exact ih

/-- A round of `simulation` keeps the time of the last execution of every process at or before
the clock. -/
theorem sim_step_last (all : List Ptr) (sched : SchedFlag) (mem : MemFlag) (st st' : Sim)
    (hInv : Inv all st.sys) (hS : SchedInv all st) (hC : ClockInv all st)
    (hL : ∀ x ∈ all, (st.sys.heap x).last_execution_time ≤ st.sys.cpu.curr_time)
    (h : sim_step sched mem st = .ok st') :
    ∀ x ∈ all, (st'.sys.heap x).last_execution_time ≤ st'.sys.cpu.curr_time := by
  have hmono := (sim_step_clock all sched mem st st' hInv hS hC h).2
  rcases sim_step_round all sched mem st st' hInv.nodup hS h with
    ⟨p, w, s1, q', w2, hwq, hs1, harr, hp, hw, hpw, hpq, hpc, hpq', hpw2, hadm, hoth, hcase⟩
      | ⟨hwq, p, rest, hqq, hst'⟩ | ⟨-, -, hst'⟩
  · obtain ⟨e1, e2, -, -⟩ := sim_step_stamp all sched mem st st' p w s1 hInv.nodup hS hwq hs1 h
    intro x hx
    by_cases hxp : x = p
    · rw [hxp, e2, e1]
    · rw [hoth x hxp, (same_but_pages_times (hadm.others x hxp)).2.2.1]
      exact le_trans (hL x hx) hmono
  · intro x hx
    have : (st'.sys.heap x).last_execution_time = (st.sys.heap x).last_execution_time := by
      rw [hst']
    rw [this]
    exact le_trans (hL x hx) hmono
  · rw [hst']; exact hL

theorem sim_reach_last (records : List Record) (sched : SchedFlag) (mem : MemFlag)
    (frames : Nat) (quantum : Int) (st0 st : Sim) (hu : unique_ids records)
    (hjob : ∀ r ∈ records, 0 ≤ r.job_time) (hquantum : 0 ≤ quantum)
    (h0 : sim_init (read_file records).2 (init_sys records frames quantum) = .ok st0)
    (hr : SimReach sched mem st0 st) :
    ∀ x ∈ List.range records.length,
      (st.sys.heap x).last_execution_time ≤ st.sys.cpu.curr_time := by
  have hnd := List.nodup_range records.length
  have hS0 := sim_init_sched records frames quantum st0 h0
  induction hr with
  | start =>
    intro x hx
    rw [(sim_init_sys _ _ st0 h0).1, init_heap records frames quantum x (List.mem_range.1 hx)]
    exact le_refl _
  | step hr1 hs ih =>
    exact sim_step_last _ sched mem _ _
      (sim_reach_frames records sched mem frames quantum st0 _ hu h0 hr1)
      (sim_reach_sched _ sched mem st0 _ hnd hS0 hr1)
      (sim_reach_clock records sched mem frames quantum st0 _ hu hjob hquantum h0 hr1) ih hs

/-- Claim C36, round-robin requeue position: for every input with unique process ids and job
times that are not negative, under round robin with a quantum of at least 1, in every state that
the rounds of `simulation` reach, a round that dispatches a process and leaves it with remaining
time puts it at the tail of the waiting queue: behind every process that was waiting and
behind every process of the queue of arrivals whose arrival time is at most the clock at the
end of the slice. -/
theorem round_robin_requeue (records : List Record) (mem : MemFlag) (frames : Nat)
    (quantum : Int) (st0 st st' : Sim) (p : Ptr) (w : Queue) (hu : unique_ids records)
    (hjob : ∀ r ∈ records, 0 ≤ r.job_time) (hquantum : 1 ≤ quantum)
    (h0 : sim_init (read_file records).2 (init_sys records frames quantum) = .ok st0)
    (hr : SimReach .RR mem st0 st) (hd : dequeue st.waiting_queue = .ok (p, w))
    (hs : sim_step .RR mem st = .ok st') (hpre : (st'.sys.heap p).remaining_time ≠ 0) :
    ∃ w2, st'.waiting_queue = w2 ++ [p] ∧ p ∉ w2 ∧ (∀ x ∈ w, x ∈ w2)
      ∧ ∀ x ∈ st.queue, (st.sys.heap x).arrive_time ≤ st'.sys.cpu.curr_time → x ∈ w2 := by
  have hnd := List.nodup_range records.length
  have hInv := sim_reach_frames records .RR mem frames quantum st0 st hu h0 hr
  have hS := sim_reach_sched _ .RR mem st0 st hnd (sim_init_sched records frames quantum st0 h0) hr
  have hL := sim_reach_last records .RR mem frames quantum st0 st hu hjob (by omega) h0 hr
  have hqs := sim_reach_queue_sorted records .RR mem frames quantum st0 st h0 hr
  have hqt := sim_reach_quantam records .RR mem frames quantum st0 st h0 hr
  rcases sim_step_round _ .RR mem st st' hnd hS hs with
    ⟨p1, w1, s1, q', w2, hwq, hs1, harr, hp, hw, hpw, hpq, hpc, hpq', hpw2, hadm, hoth, hcase⟩
      | ⟨hwq, -⟩ | ⟨hwq, -⟩
  · rw [hwq, dequeue_cons] at hd
    cases hd
    obtain ⟨e1, e2, e3, -⟩ := sim_step_stamp _ .RR mem st st' p w s1 hnd hS hwq hs1 hs
    obtain ⟨hload, -⟩ := mem_alloc_func_penalty _ mem w st.sys s1 p hInv hp hw hs1
    obtain ⟨ht, hrem⟩ := (add_curr_time_spec .RR s1 p).2 rfl
    have hc1 : s1.cpu.curr_time = st.sys.cpu.curr_time := by rw [hadm.cpu]
    have hq1 : s1.cpu.quantam = quantum := by rw [hadm.cpu]; exact hqt
    rw [e3, hrem] at hpre
    have hmin : min (s1.heap p).remaining_time s1.cpu.quantam = s1.cpu.quantam := by
      rcases min_choice (s1.heap p).remaining_time s1.cpu.quantam with e | e
      · rw [e] at hpre; omega
      · exact e
    have hlate : st.sys.cpu.curr_time < st'.sys.cpu.curr_time := by
      rw [e1, ht, hmin, hq1, hc1]; omega
    have harrx : ∀ x, x ≠ p → ((add_curr_time .RR s1 p).heap x).arrive_time
          = (st.sys.heap x).arrive_time
        ∧ ((add_curr_time .RR s1 p).heap x).p_id = (st.sys.heap x).p_id := by
      intro x hxp
      rw [(add_curr_time_fields .RR s1 p).2.2.1 x hxp]
      exact ⟨(same_but_pages_times (hadm.others x hxp)).1,
        (same_but_pages_fields (hadm.others x hxp)).1⟩
    have hqs2 : st.queue.Pairwise (prio_le (add_curr_time .RR s1 p).heap .ARRT) := by
      apply pairwise_prio_congr st.sys.heap _ .ARRT _ _ hqs
      intro x hx
      exact harrx x (fun e => hpq (e ▸ hx))
    obtain ⟨-, hin1, hin2⟩ := arrivals_rest .RR _ _ _ _ _ _ _ hqs2 harr
    have hw2all : ∀ x ∈ w2, x ∈ List.range records.length := by
      intro x hx
      rcases (arrivals_mem .RR _ _ _ _ _ _ _ harr).2 x hx with h1 | h1
      · exact hw x h1
      · exact hS.parts.subset (by simp [h1])
    rcases hcase with ⟨-, hne, hst'⟩ | ⟨hfin, -⟩
    · refine ⟨w2, ?_, hpw2, hin1, ?_⟩
      · rw [hst']
        show enqueue (after_run .RR s1 p).heap w2 p .LASTET = _
        apply enqueue_tail
        intro x hx
        left
        have hxp : x ≠ p := fun e => hpw2 (e ▸ hx)
        show ((after_run .RR s1 p).heap x).last_execution_time
          < ((after_run .RR s1 p).heap p).last_execution_time
        rw [(after_run_fields .RR s1 p).2.2.1 x hxp, (after_run_fields .RR s1 p).2.2.2,
          (same_but_pages_times (hadm.others x hxp)).2.2.1]
        show _ < (add_curr_time .RR s1 p).cpu.curr_time
        rw [← e1]
        exact lt_of_le_of_lt (hL x (hw2all x hx)) hlate
      · intro x hx hle
        apply hin2 x hx
        rw [(harrx x (fun e => hpq (e ▸ hx))).1, ← e1]
        exact hle
    · exfalso
      apply hfin
      refine ⟨rfl, ?_⟩
      rw [(after_run_fields .RR s1 p).2.2.2]
      show ((add_curr_time .RR s1 p).heap p).remaining_time ≠ 0
      rw [hrem]; exact hpre
  · rw [hwq, dequeue_nil] at hd; cases hd
  · rw [hwq, dequeue_nil] at hd; cases hd

/-- Witness for C36: in the first round on the sample input with quantum 3 the first process
keeps 2 units of remaining time and is put behind the other two processes, which arrived at
times 0 and 1, before the end of its slice at time 13. -/
theorem round_robin_requeue_witness :
    unique_ids sample_records ∧ (∀ r ∈ sample_records, 0 ≤ r.job_time) ∧ (1 : Int) ≤ 3
      ∧ sim_init (read_file sample_records).2 (init_sys sample_records 8 3)
        = .ok (sim_start sample_records 8 3)
      ∧ dequeue (sim_start sample_records 8 3).waiting_queue = .ok (0, [])
      ∧ sim_step .RR .SP (sim_start sample_records 8 3) = .ok sample_round
      ∧ (sample_round.sys.heap 0).remaining_time = 2
      ∧ sample_round.waiting_queue = [1, 2] ++ [0]
      ∧ ∃ w2, sample_round.waiting_queue = w2 ++ [0] ∧ 0 ∉ w2 ∧ (∀ x ∈ ([] : Queue), x ∈ w2)
        ∧ ∀ x ∈ (sim_start sample_records 8 3).queue,
          ((sim_start sample_records 8 3).sys.heap x).arrive_time
            ≤ sample_round.sys.cpu.curr_time → x ∈ w2 :=
  ⟨sample_unique, by decide, by decide, rfl, rfl, rfl, rfl, rfl,
    round_robin_requeue sample_records .SP 8 3 (sim_start sample_records 8 3)
      (sim_start sample_records 8 3) sample_round 0 [] sample_unique (by decide) (by decide) rfl
      SimReach.start rfl rfl (by decide)⟩

/-! ## No run before the arrival -/

theorem sim_step_arrived (all : List Ptr) (sched : SchedFlag) (mem : MemFlag) (st st' : Sim)
    (hInv : Inv all st.sys) (hS : SchedInv all st) (hA : ArrivedInv sched all st)
    (h : sim_step sched mem st = .ok st') : ArrivedInv sched all st' := by
  obtain ⟨hrem, hjob, hquantum, harrived, hcompleted⟩ := hA
  have hnd := hInv.nodup
  have hid := sim_step_identity all sched mem st st' hnd hS h
  have hqt := sim_step_quantam all sched mem st st' hnd hS h
  have hS' := sim_step_sched all sched mem st st' hnd hS h
  rcases sim_step_round all sched mem st st' hnd hS h with
    ⟨p, w, s1, q', w2, hwq, hs1, harr, hp, hw, hpw, hpq, hpc, hpq', hpw2, hadm, hoth, hcase⟩
      | ⟨hwq, p, rest, hqq, hst'⟩ | ⟨-, -, hst'⟩
  · obtain ⟨e1, -, e3, -⟩ := sim_step_stamp all sched mem st st' p w s1 hnd hS hwq hs1 h
    obtain ⟨hload, hpen⟩ := mem_alloc_func_penalty all mem w st.sys s1 p hInv hp hw hs1
    have hc1 : s1.cpu.curr_time = st.sys.cpu.curr_time := by rw [hadm.cpu]
    have hq1 : s1.cpu.quantam = st.sys.cpu.quantam := by rw [hadm.cpu]
    have hj1 : (s1.heap p).job_time = (st.sys.heap p).job_time :=
      (same_but_admitted_fields hadm.self).2.1
    have hremp := hrem p hp
    have hjobp := hjob p hp
    have hspec := add_curr_time_spec sched s1 p
    have hm1 := min_le_left (s1.heap p).remaining_time s1.cpu.quantam
    have hstep : st.sys.cpu.curr_time ≤ st'.sys.cpu.curr_time
        ∧ 0 ≤ (st'.sys.heap p).remaining_time := by
      rw [e1, e3]
      by_cases hs : sched = .RR
      · obtain ⟨a, b⟩ := hspec.2 hs
        have hq0 := hquantum hs
        have hm2 : 0 ≤ min (s1.heap p).remaining_time s1.cpu.quantam :=
          le_min (by omega) (by omega)
        rw [a, b]; omega
      · obtain ⟨a, b⟩ := hspec.1 hs
        rw [a, b, hj1]; omega
    have hsame : ∀ x, x ≠ p → same_but_pages (st.sys.heap x) (st'.sys.heap x) := by
      intro x hxp
      rw [hoth x hxp]
      exact hadm.others x hxp
    obtain ⟨moved, hmv, hw2, hmoved, -⟩ := arrivals_spec sched _ _ _ _ _ _ _ harr
    have hperm := enqueue_list_perm (add_curr_time sched s1 p).heap
      (if sched = .CS then .JOBT else .ARRT) moved w
    rw [← hw2] at hperm
    have hw2arr : ∀ x ∈ w2, (st'.sys.heap x).arrive_time ≤ st'.sys.cpu.curr_time := by
      intro x hx
      rw [(hid x).1]
      rcases List.mem_append.1 (hperm.subset hx) with hm | hm
      · have := harrived x (by rw [hwq]; exact List.mem_cons_of_mem _ hm)
        omega
      · have hxp : x ≠ p := fun e => hpw2 (e ▸ hx)
        have := hmoved x hm
        rw [(add_curr_time_fields sched s1 p).2.2.1 x hxp,
          (same_but_pages_times (hadm.others x hxp)).1] at this
        rw [e1]; exact this
    have hparr : (st'.sys.heap p).arrive_time ≤ st'.sys.cpu.curr_time := by
      rw [(hid p).1]
      have := harrived p (by rw [hwq]; simp)
      omega
    have hrem' : ∀ x ∈ all, 0 ≤ (st'.sys.heap x).remaining_time := by
      intro x hx
      by_cases hxp : x = p
      · rw [hxp]; exact hstep.2
      · rw [same_but_pages_remaining (hsame x hxp)]; exact hrem x hx
    have hjob' : ∀ x ∈ all, 0 ≤ (st'.sys.heap x).job_time := by
      intro x hx
      rw [(hid x).2.2.1]; exact hjob x hx
    have hcold : ∀ c ∈ st.complete_queue,
        (st'.sys.heap c).arrive_time ≤ (st'.sys.heap c).complete_time := by
      intro c hc
      have hcp : c ≠ p := fun e => hpc (e ▸ hc)
      rw [(same_but_pages_times (hsame c hcp)).1, (same_but_pages_times (hsame c hcp)).2.2.2]
      exact hcompleted c hc
    refine ⟨hrem', hjob', fun hs => by rw [hqt]; exact hquantum hs, ?_, ?_⟩
    · rcases hcase with ⟨-, -, hst'⟩ | ⟨-, s5, hs5, hst'⟩
      · intro x hx
        have hx' : x ∈ enqueue (after_run sched s1 p).heap w2 p .LASTET := by
          rw [hst'] at hx; exact hx
        rcases List.mem_cons.1 ((enqueue_perm _ _ _ _).subset hx') with e | hm
        · rw [e]; exact hparr
        · exact hw2arr x hm
      · intro x hx
        have hx' : x ∈ w2 := by rw [hst'] at hx; exact hx
        exact hw2arr x hx'
    · rcases hcase with ⟨-, -, hst'⟩ | ⟨-, s5, hs5, hst'⟩
      · intro c hc
        have hc' : c ∈ st.complete_queue := by rw [hst'] at hc; exact hc
        exact hcold c hc'
      · intro c hc
        have hc' : c ∈ enqueue (after_finish s5 p).heap st.complete_queue p .COMPLETET := by
          rw [hst'] at hc; exact hc
        rcases List.mem_cons.1 ((enqueue_perm _ _ _ _).subset hc') with e | hm
        · have hct : (st'.sys.heap p).complete_time = st'.sys.cpu.curr_time := by
            rw [hst']
            show ((after_finish s5 p).heap p).complete_time = (after_finish s5 p).cpu.curr_time
            rw [(after_finish_fields s5 p).2.2.2, (after_finish_fields s5 p).1]
          rw [e, hct]; exact hparr
        · exact hcold c hm
  · have hheap : st'.sys.heap = st.sys.heap := by rw [hst']
    have hcq : st'.complete_queue = st.complete_queue := by rw [hst']
    refine ⟨by rw [hheap]; exact hrem, by rw [hheap]; exact hjob,
      fun hs => by rw [hqt]; exact hquantum hs, ?_, by rw [hheap, hcq]; exact hcompleted⟩
    intro x hx
    have hx' : x ∈ enqueue st.sys.heap st.waiting_queue p .ARRT := by
      rw [hst'] at hx; exact hx
    rw [hwq] at hx'
    have hxp : x = p := by
      simpa using (enqueue_perm st.sys.heap .ARRT [] p).subset hx'
    rw [hxp, hst']
  · rw [hst']; exact ⟨hrem, hjob, hquantum, harrived, hcompleted⟩

theorem sim_init_arrived (records : List Record) (sched : SchedFlag) (frames : Nat)
    (quantum : Int) (st0 : Sim) (hjob : ∀ r ∈ records, 0 ≤ r.job_time)
    (hzero : ∃ r ∈ records, r.arrive_time = 0) (hquantum : sched = .RR → 0 ≤ quantum)
    (h0 : sim_init (read_file records).2 (init_sys records frames quantum) = .ok st0) :
    ArrivedInv sched (List.range records.length) st0 := by
  obtain ⟨hq0, hc0, hsys0, htake⟩ := sim_init_queues _ _ st0 h0
  have hperm := read_file_perm records
  have hsorted := read_file_sorted records
  have hheap : ∀ x ∈ List.range records.length, ∃ r ∈ records, st0.sys.heap x = r.toProcess := by
    intro x hx
    rw [hsys0, init_heap records frames quantum x (List.mem_range.1 hx)]
    exact ⟨_, List.getElem_mem _, rfl⟩
  refine ⟨fun x hx => ?_, fun x hx => ?_, fun hs => ?_, fun x hx => ?_, fun c hc => ?_⟩
  · obtain ⟨r, hr, e⟩ := hheap x hx
    rw [e]; exact hjob r hr
  · obtain ⟨r, hr, e⟩ := hheap x hx
    rw [e]; exact hjob r hr
  · rw [hsys0]; exact hquantum hs
  · obtain ⟨r, hr, hr0⟩ := hzero
    obtain ⟨i, hi, hri⟩ := List.getElem_of_mem hr
    have hiq : i ∈ (read_file records).2 := hperm.symm.subset (List.mem_range.2 hi)
    have hai : ((read_file records).1 i).arrive_time = 0 := by
      have := init_heap records frames quantum i hi
      have e : (init_sys records frames quantum).heap = (read_file records).1 := rfl
      rw [e] at this
      rw [this, hri]; exact hr0
    rw [htake] at hx
    rw [hsys0]
    show ((read_file records).1 x).arrive_time ≤ 0
    cases hq : (read_file records).2 with
    | nil => rw [hq] at hx; simp at hx
    | cons a rest =>
      rw [hq] at hx hsorted hiq
      have hxa : x = a := by simpa using hx
      rw [hxa]
      rcases List.mem_cons.1 hiq with e | hm
      · rw [← e, hai]
      · rcases (List.pairwise_cons.1 hsorted).1 i hm with hlt | ⟨he, -⟩
        · have : ((read_file records).1 a).arrive_time < ((read_file records).1 i).arrive_time :=
            hlt
          omega
        · have : ((read_file records).1 a).arrive_time = ((read_file records).1 i).arrive_time :=
            he
          omega
  · rw [hc0] at hc; simp at hc

theorem sim_reach_arrived (records : List Record) (sched : SchedFlag) (mem : MemFlag)
    (frames : Nat) (quantum : Int) (st0 st : Sim) (hu : unique_ids records)
    (hjob : ∀ r ∈ records, 0 ≤ r.job_time) (hzero : ∃ r ∈ records, r.arrive_time = 0)
    (hquantum : sched = .RR → 0 ≤ quantum)
    (h0 : sim_init (read_file records).2 (init_sys records frames quantum) = .ok st0)
    (hr : SimReach sched mem st0 st) : ArrivedInv sched (List.range records.length) st := by
  have hnd := List.nodup_range records.length
  have hS0 := sim_init_sched records frames quantum st0 h0
  induction hr with
  | start => exact sim_init_arrived records sched frames quantum st0 hjob hzero hquantum h0
  | step hr1 hs ih =>
    exact sim_step_arrived _ sched mem _ _
      (sim_reach_frames records sched mem frames quantum st0 _ hu h0 hr1)
      (sim_reach_sched _ sched mem st0 _ hnd hS0 hr1) ih hs

/-! ## Round robin with a quantum that is not positive -/

/-- Under round robin with a quantum that is not positive no process with remaining time ever
completes. -/
theorem sim_step_stuck (all : List Ptr) (mem : MemFlag) (st st' : Sim)
    (hInv : Inv all st.sys) (hS : SchedInv all st) (hq : st.sys.cpu.quantam ≤ 0)
    (hrem : ∀ p ∈ all, 1 ≤ (st.sys.heap p).remaining_time) (hc : st.complete_queue = [])
    (h : sim_step .RR mem st = .ok st') :
    (∀ p ∈ all, 1 ≤ (st'.sys.heap p).remaining_time) ∧ st'.complete_queue = [] := by
  have hnd := hInv.nodup
  rcases sim_step_round all .RR mem st st' hnd hS h with
    ⟨p, w, s1, q', w2, hwq, hs1, harr, hp, hw, hpw, hpq, hpc, hpq', hpw2, hadm, hoth, hcase⟩
      | ⟨hwq, p, rest, hqq, hst'⟩ | ⟨-, -, hst'⟩
  · obtain ⟨-, -, e3, -⟩ := sim_step_stamp all .RR mem st st' p w s1 hnd hS hwq hs1 h
    obtain ⟨-, hpen⟩ := mem_alloc_func_penalty all mem w st.sys s1 p hInv hp hw hs1
    have hq1 : s1.cpu.quantam = st.sys.cpu.quantam := by rw [hadm.cpu]
    obtain ⟨-, b⟩ := (add_curr_time_spec .RR s1 p).2 rfl
    have hm := min_le_right (s1.heap p).remaining_time s1.cpu.quantam
    have hremp := hrem p hp
    have hp' : 1 ≤ (st'.sys.heap p).remaining_time := by
      rw [e3, b]; omega
    have hrem' : ∀ x ∈ all, 1 ≤ (st'.sys.heap x).remaining_time := by
      intro x hx
      by_cases hxp : x = p
      · rw [hxp]; exact hp'
      · rw [hoth x hxp, same_but_pages_remaining (hadm.others x hxp)]; exact hrem x hx
    refine ⟨hrem', ?_⟩
    rcases hcase with ⟨-, -, hst'⟩ | ⟨hfin, -⟩
    · rw [hst']; exact hc
    · exfalso
      apply hfin
      refine ⟨rfl, ?_⟩
      rw [(after_run_fields .RR s1 p).2.2.2]
      show ((add_curr_time .RR s1 p).heap p).remaining_time ≠ 0
      rw [← e3]; omega
  · rw [hst']; exact ⟨hrem, hc⟩
  · rw [hst']; exact ⟨hrem, hc⟩

/-- A run under round robin with a quantum that is not positive returns only on the empty
input, when every job time is at least 1. -/
theorem run_stuck (records : List Record) (mem : MemFlag) (frames : Nat) (quantum : Int)
    (fuel : Nat) (r : Sim) (hu : unique_ids records) (hjob : ∀ r ∈ records, 1 ≤ r.job_time)
    (hq : quantum ≤ 0) (h : run records .RR mem frames quantum fuel = .ok r) :
    records = [] := by
  obtain ⟨st0, h0, hr, hqq, hwq⟩ := run_simreach records .RR mem frames quantum fuel r h
  have hnd := List.nodup_range records.length
  have hS0 := sim_init_sched records frames quantum st0 h0
  obtain ⟨-, hc0, hsys0, -⟩ := sim_init_queues _ _ st0 h0
  have key : ∀ st, SimReach .RR mem st0 st →
      (∀ p ∈ List.range records.length, 1 ≤ (st.sys.heap p).remaining_time)
      ∧ st.complete_queue = [] := by
    intro st hst
    induction hst with
    | start =>
      refine ⟨fun x hx => ?_, hc0⟩
      rw [hsys0, init_heap records frames quantum x (List.mem_range.1 hx)]
      exact hjob _ (List.getElem_mem _)
    | step hr1 hs ih =>
      have hqt := sim_reach_quantam records .RR mem frames quantum st0 _ h0 hr1
      exact sim_step_stuck _ mem _ _
        (sim_reach_frames records .RR mem frames quantum st0 _ hu h0 hr1)
        (sim_reach_sched _ .RR mem st0 _ hnd hS0 hr1) (by rw [hqt]; exact hq) ih.1 ih.2 hs
  have hparts := (sim_reach_sched _ .RR mem st0 r hnd hS0 hr).parts
  rw [hqq, hwq, (key r hr).2] at hparts
  have hlen := hparts.length_eq
  simp at hlen
  exact List.length_eq_zero.1 hlen.symm

/-- Claim C34, run aggregates: for every run that returns on an input with unique process ids,
job times of at least 1 and a process that arrives at time 0, every process keeps the arrival
time and the job time of its input line, `total_turnaround` is the sum over all processes of
the completion time minus the arrival time, `time_overh` is the sum over all processes of that
difference over the job time, as exact rationals, and `max_time_overh` is the largest of these
ratios: no ratio is larger, and one of them is equal to it. -/
theorem run_aggregates (records : List Record) (sched : SchedFlag) (mem : MemFlag)
    (frames : Nat) (quantum : Int) (fuel : Nat) (r : Sim) (hu : unique_ids records)
    (hjob : ∀ x ∈ records, 1 ≤ x.job_time) (hzero : ∃ x ∈ records, x.arrive_time = 0)
    (hrun : run records sched mem frames quantum fuel = .ok r) :
    (∀ p, p < records.length →
        (r.sys.heap p).arrive_time = ((read_file records).1 p).arrive_time
          ∧ (r.sys.heap p).job_time = ((read_file records).1 p).job_time)
      ∧ r.sys.cpu.total_turnaround
        = ((List.range records.length).map
            (fun p => (r.sys.heap p).complete_time - (r.sys.heap p).arrive_time)).sum
      ∧ r.sys.cpu.time_overh
        = ((List.range records.length).map
            (fun p => (((r.sys.heap p).complete_time - (r.sys.heap p).arrive_time : Int) : ℚ)
              / ((r.sys.heap p).job_time : ℚ))).sum
      ∧ (∀ p, p < records.length →
        (((r.sys.heap p).complete_time - (r.sys.heap p).arrive_time : Int) : ℚ)
          / ((r.sys.heap p).job_time : ℚ) ≤ r.sys.cpu.max_time_overh)
      ∧ ∃ p, p < records.length
        ∧ (((r.sys.heap p).complete_time - (r.sys.heap p).arrive_time : Int) : ℚ)
          / ((r.sys.heap p).job_time : ℚ) = r.sys.cpu.max_time_overh := by
  obtain ⟨st0, h0, hr, hqq, hwq⟩ := run_simreach records sched mem frames quantum fuel r hrun
  have hnd := List.nodup_range records.length
  have hS0 := sim_init_sched records frames quantum st0 h0
  have hD := sim_reach_done _ sched mem st0 r hnd hS0
    (sim_init_done _ records frames quantum st0 h0) hr
  have hparts := (sim_reach_sched _ sched mem st0 r hnd hS0 hr).parts
  rw [hqq, hwq] at hparts
  have hperm : r.complete_queue.Perm (List.range records.length) := by simpa using hparts
  have hquantum : sched = .RR → 0 ≤ quantum := by
    intro hs
    by_contra hneg
    subst hs
    have := run_stuck records mem frames quantum fuel r hu hjob (by omega) hrun
    obtain ⟨x, hx, -⟩ := hzero
    rw [this] at hx
    simp at hx
  have hA := sim_reach_arrived records sched mem frames quantum st0 r hu
    (fun x hx => by have := hjob x hx; omega) hzero hquantum h0 hr
  have hpos : ∀ c ∈ r.complete_queue, 0 ≤ overhead (r.sys.heap c) := by
    intro c hc
    unfold overhead turnaround
    apply div_nonneg
    · have := hA.completed c hc
      exact_mod_cast (by omega : 0 ≤ (r.sys.heap c).complete_time - (r.sys.heap c).arrive_time)
    · exact_mod_cast hA.job c (hperm.subset hc)
  refine ⟨fun p _ => ?_, ?_, ?_, fun p hp => ?_, ?_⟩
  · have hid := sim_reach_identity _ sched mem st0 r hnd hS0 hr p
    rw [(sim_init_sys _ _ st0 h0).1] at hid
    exact ⟨hid.1, hid.2.2.1⟩
  · rw [hD.sum_turnaround]
    exact (hperm.map _).sum_eq
  · rw [hD.sum_overhead]
    exact (hperm.map _).sum_eq
  · exact hD.max_bound p (hperm.symm.subset (List.mem_range.2 hp))
  · rcases hD.max_attained with h0' | ⟨c, hc, he⟩
    · obtain ⟨x, hx, -⟩ := hzero
      have hlen : 0 < records.length := List.length_pos_of_mem hx
      have hmem : 0 ∈ r.complete_queue := hperm.symm.subset (List.mem_range.2 hlen)
      refine ⟨0, hlen, ?_⟩
      have h1 := hD.max_bound 0 hmem
      have h2 := hpos 0 hmem
      rw [h0'] at h1 ⊢
      exact le_antisymm h1 h2
    · exact ⟨c, List.mem_range.1 (hperm.subset hc), he⟩

/-- Witness for C34: the run on the sample input under first-come first-served scheduling with
unlimited memory; the processes complete at times 5, 10 and 17, so the turnaround times are 5,
10 and 16. -/
theorem run_aggregates_witness :
    unique_ids sample_records ∧ (∀ x ∈ sample_records, 1 ≤ x.job_time)
      ∧ (∃ x ∈ sample_records, x.arrive_time = 0)
      ∧ ∃ r, run sample_records .FF .UN 8 3 3 = .ok r
        ∧ r.sys.cpu.total_turnaround = 31
        ∧ r.sys.cpu.total_turnaround
          = ((List.range sample_records.length).map
              (fun p => (r.sys.heap p).complete_time - (r.sys.heap p).arrive_time)).sum
        ∧ r.sys.cpu.time_overh
          = ((List.range sample_records.length).map
              (fun p => (((r.sys.heap p).complete_time - (r.sys.heap p).arrive_time : Int) : ℚ)
                / ((r.sys.heap p).job_time : ℚ))).sum :=
  ⟨sample_unique, by decide, ⟨⟨0, 1, 20, 5⟩, by decide, rfl⟩, _, rfl, rfl,
    (run_aggregates sample_records .FF .UN 8 3 3 _ sample_unique (by decide)
      ⟨⟨0, 1, 20, 5⟩, by decide, rfl⟩ rfl).2.1,
    (run_aggregates sample_records .FF .UN 8 3 3 _ sample_unique (by decide)
      ⟨⟨0, 1, 20, 5⟩, by decide, rfl⟩ rfl).2.2.1⟩

/-! ## Admissions when every frame is free -/

theorem print_finished_bounded (f : MemFlag) (hf : f ≠ .UN) (s : Sys) (p : Ptr)
    (queue : Queue) : print_finished f s p queue = print_finished .SP s p queue := by
  unfold print_finished
  rw [if_pos hf, if_pos (by decide)]

/-- When the process holds no page and the free frames cover its pages, `require_pages` asks for
all its pages and evicts nothing, under every memory mode but the unlimited one. -/
theorem require_pages_free (all : List Ptr) (f : MemFlag) (queue : Queue) (s : Sys) (p : Ptr)
    (hf : f ≠ .UN) (hInv : Inv all s) (hz : (s.heap p).num_page_in_mem = 0)
    (hfit : required_pages (s.heap p) ≤ s.cpu.memory.num_holes) :
    require_pages f queue s p (required_pages (s.heap p) - (s.heap p).num_page_in_mem)
      = .ok (s, required_pages (s.heap p)) := by
  have hh := inv_holes_nonneg all s hInv
  cases f with
  | UN => exact absurd rfl hf
  | SP =>
    rw [require_pages_sp, if_neg (by omega), hz, sub_zero]
  | VM =>
    rw [require_pages_vm .VM queue s p _ (Or.inl rfl) hh (by omega), hz]
    have := min_le_right MIN_EXE_PAGE (required_pages (s.heap p))
    rw [if_neg (by omega), sub_zero, min_eq_right hfit]
  | CM =>
    rw [require_pages_vm .CM queue s p _ (Or.inr rfl) hh (by omega), hz]
    have := min_le_right MIN_EXE_PAGE (required_pages (s.heap p))
    rw [if_neg (by omega), sub_zero, min_eq_right hfit]

theorem mem_alloc_func_zero (f : MemFlag) (queue : Queue) (s : Sys) (p : Ptr) (hf : f ≠ .UN)
    (hc : required_pages (s.heap p) - (s.heap p).num_page_in_mem = 0) :
    mem_alloc_func f queue s p
      = print_mem_running (s.setProc p { s.heap p with load_time := 0, page_fault := 0 }) p := by
  have hc1 : (s.heap p).mem_size_req.tdiv PAGE_SIZE - (s.heap p).num_page_in_mem = 0 := hc
  unfold mem_alloc_func
  rw [if_neg hf]
  simp only []
  rw [if_pos hc1]

/-- When the process holds no page and the free frames cover its pages, the admission is the
same under every memory mode but the unlimited one. -/
theorem admit_free (all : List Ptr) (f : MemFlag) (queue : Queue) (s : Sys) (p : Ptr)
    (hf : f ≠ .UN) (hInv : Inv all s) (hz : (s.heap p).num_page_in_mem = 0)
    (hfit : required_pages (s.heap p) ≤ s.cpu.memory.num_holes) :
    mem_alloc_func f queue s p = mem_alloc_func .SP queue s p := by
  by_cases hc : required_pages (s.heap p) - (s.heap p).num_page_in_mem = 0
  · rw [mem_alloc_func_zero f queue s p hf hc, mem_alloc_func_zero .SP queue s p (by decide) hc]
  · rw [mem_alloc_func_eq f queue s p hf hc, mem_alloc_func_eq .SP queue s p (by decide) hc,
      require_pages_free all f queue s p hf hInv hz hfit,
      require_pages_free all .SP queue s p (by decide) hInv hz hfit]

/-- When the process holds no page and the free frames cover its pages, the admission evicts
nothing, loads every page of the process and leaves the other processes as they were. -/
theorem admit_free_spec (all : List Ptr) (f : MemFlag) (queue : Queue) (s s1 : Sys) (p : Ptr)
    (hf : f ≠ .UN) (hInv : Inv all s) (hz : (s.heap p).num_page_in_mem = 0)
    (hfit : required_pages (s.heap p) ≤ s.cpu.memory.num_holes)
    (h : mem_alloc_func f queue s p = .ok s1) :
    (s1.heap p).num_page_in_mem = required_pages (s.heap p)
      ∧ (s1.heap p).remaining_time = (s.heap p).remaining_time
      ∧ (∀ q, q ≠ p → s1.heap q = s.heap q)
      ∧ ∃ e, s1.out = s.out ++ [e] ∧ e.is_evicted = false := by
  rcases mem_alloc_func_cases f queue s s1 p hf h with
    ⟨hfull, hself, hoth, -, hout⟩ | ⟨hne, s2, n, hreq, -, hgrant⟩
  · refine ⟨?_, ?_, hoth, hout⟩
    · rw [hself]; exact hfull
    · rw [hself]
  · rw [require_pages_free all f queue s p hf hInv hz hfit] at hreq
    cases hreq
    obtain ⟨-, hself, hoth, -, -, -, hout⟩ := grant_pages_shape s s1 p _ _ hgrant
    refine ⟨?_, ?_, hoth, hout⟩
    · rw [hself]
      show (s.heap p).num_page_in_mem + _ = _
      omega
    · rw [hself]
      show (s.heap p).remaining_time + (_ - ((s.heap p).num_page_in_mem + _)) = _
      omega

/-! ## Rounds when every frame is free -/

/-- In a state of `simulation` where every process holds no page and fits in the table, a round
is the same under every memory mode but the unlimited one. -/
theorem sim_step_mode (all : List Ptr) (sched : SchedFlag) (f : MemFlag) (st : Sim)
    (hf : f ≠ .UN) (hI : SimInv all st)
    (hz : ∀ x ∈ all, (st.sys.heap x).num_page_in_mem = 0)
    (hfit : ∀ x ∈ all, required_pages (st.sys.heap x) ≤ st.sys.cpu.memory.total_page) :
    sim_step sched f st = sim_step sched .SP st := by
  have hholes := (all_free_of_idle all st.sys hI.inv hz).1
  cases hwq : st.waiting_queue with
  | nil =>
    have hneg : ¬ get_queue_size ([] : Queue) > 0 := by simp [get_queue_size]
    unfold sim_step
    rw [hwq, if_neg hneg, if_neg hneg]
  | cons p w =>
    have hp : p ∈ all := hI.waiting_mem p (by rw [hwq]; simp)
    have hadm := admit_free all f w st.sys p hf hI.inv (hz p hp) (by rw [hholes]; exact hfit p hp)
    have hpos : get_queue_size (p :: w) > 0 := by
      show ((p :: w).length : Int) > 0
      simp only [List.length_cons]; omega
    unfold sim_step
    rw [hwq, if_pos hpos, if_pos hpos, dequeue_cons]
    simp only [bind, Except.bind, hadm, print_finished_bounded f hf]

theorem sim_step_free (all : List Ptr) (sched : SchedFlag) (st st' : Sim) (hs : sched ≠ .RR)
    (hG : FreeInv all st) (h : sim_step sched .SP st = .ok st') : FreeInv all st' := by
  obtain ⟨hI, hS, hz, hfit⟩ := hG
  have hnd := hI.inv.nodup
  have hI' := sim_step_inv all sched .SP st st' (by decide) hI h
  have hS' := sim_step_sched all sched .SP st st' hnd hS h
  have hid := sim_step_identity all sched .SP st st' hnd hS h
  have htot := sim_step_total all sched .SP st st' hnd hS h
  have hholes := (all_free_of_idle all st.sys hI.inv hz).1
  refine ⟨hI', hS', ?_, ?_⟩
  · rcases sim_step_round all sched .SP st st' hnd hS h with
      ⟨p, w, s1, q', w2, hwq, hs1, harr, hp, hw, hpw, hpq, hpc, hpq', hpw2, hadm, hoth, hcase⟩
        | ⟨hwq, p, rest, hqq, hst'⟩ | ⟨-, -, hst'⟩
    · obtain ⟨-, -, hoth1, -⟩ := admit_free_spec all .SP w st.sys s1 p (by decide) hI.inv
        (hz p hp) (by rw [hholes]; exact hfit p hp) hs1
      intro x hx
      by_cases hxp : x = p
      · rcases hcase with ⟨hrr, -, -⟩ | ⟨-, s5, hs5, hst'⟩
        · exact absurd hrr hs
        · apply hI'.idle x hx
          rw [hst', hxp]
          exact hpw2
      · rw [hoth x hxp, hoth1 x hxp]
        exact hz x hx
    · rw [hst']; exact hz
    · rw [hst']; exact hz
  · intro x hx
    unfold required_pages
    rw [(hid x).2.2.2, htot]
    exact hfit x hx

theorem sim_init_free (records : List Record) (frames : Nat) (quantum : Int) (st0 : Sim)
    (hu : unique_ids records)
    (hfit : ∀ x ∈ records, required_pages x.toProcess ≤ frames)
    (h0 : sim_init (read_file records).2 (init_sys records frames quantum) = .ok st0) :
    FreeInv (List.range records.length) st0 := by
  have hsys := (sim_init_sys _ _ st0 h0).1
  refine ⟨sim_init_inv records frames quantum st0 hu h0,
    sim_init_sched records frames quantum st0 h0, fun x hx => ?_, fun x hx => ?_⟩
  · rw [hsys, init_heap records frames quantum x (List.mem_range.1 hx)]
    rfl
  · rw [hsys, init_heap records frames quantum x (List.mem_range.1 hx)]
    have := hfit _ (List.getElem_mem (List.mem_range.1 hx))
    show _ ≤ ((List.replicate frames INVALID).length : Int)
    rw [List.length_replicate]
    exact this

/-- The loop of `simulation` from a state where no process holds a page gives the same result
under every memory mode but the unlimited one, when the scheduler does not preempt. -/
theorem sim_loop_mode (all : List Ptr) (sched : SchedFlag) (f : MemFlag) (hs : sched ≠ .RR)
    (hf : f ≠ .UN) (fuel : Nat) :
    ∀ st, FreeInv all st → sim_loop sched f fuel st = sim_loop sched .SP fuel st := by
  induction fuel with
  | zero => intro st _; rfl
  | succ fuel ih =>
    intro st hG
    unfold sim_loop
    rw [sim_step_mode all sched f st hf hG.sim hG.idle hG.fit]
    cases hstep : sim_step sched .SP st with
    | error e => rfl
    | ok st1 =>
      simp only [bind, Except.bind]
      rw [ih st1 (sim_step_free all sched st st1 hs hG hstep)]

/-- Every state that the rounds of `simulation` reach under a scheduler that does not preempt,
with limited memory, is a state where no process holds a page. -/
theorem sim_reach_free (records : List Record) (sched : SchedFlag) (f : MemFlag) (frames : Nat)
    (quantum : Int) (st0 st : Sim) (hs : sched ≠ .RR) (hf : f ≠ .UN) (hu : unique_ids records)
    (hfit : ∀ x ∈ records, required_pages x.toProcess ≤ frames)
    (h0 : sim_init (read_file records).2 (init_sys records frames quantum) = .ok st0)
    (hr : SimReach sched f st0 st) : FreeInv (List.range records.length) st := by
  induction hr with
  | start => exact sim_init_free records frames quantum st0 hu hfit h0
  | step hr1 hstep ih =>
    rw [sim_step_mode _ sched f _ hf ih.sim ih.idle ih.fit] at hstep
    exact sim_step_free _ sched _ _ hs ih hstep

/-- Claim C40, memory-mode equivalence under non-preemptive scheduling: under first-come
first-served and shortest-job-first scheduling, for every input with unique process ids in
which the pages of every process fit in the table, the runs under any two memory modes other
than the unlimited one (swapping, virtual memory, custom) give the same result, with the same
transcript and the same aggregates; and in every state that the rounds reach, the admission of
the dispatched process writes no `EVICTED` line, loads every page of the process and leaves the
other processes as they were. -/
theorem memory_mode_equivalence (records : List Record) (sched : SchedFlag) (frames : Nat)
    (quantum : Int) (f g : MemFlag) (hs : sched ≠ .RR) (hf : f ≠ .UN) (hg : g ≠ .UN)
    (hu : unique_ids records) (hfit : ∀ x ∈ records, required_pages x.toProcess ≤ frames) :
    (∀ fuel, run records sched f frames quantum fuel = run records sched g frames quantum fuel)
      ∧ ∀ (st0 st : Sim) (p : Ptr) (w : Queue) (s1 : Sys),
          sim_init (read_file records).2 (init_sys records frames quantum) = .ok st0 →
          SimReach sched f st0 st → dequeue st.waiting_queue = .ok (p, w) →
          mem_alloc_func f w st.sys p = .ok s1 →
          (s1.heap p).num_page_in_mem = required_pages (st.sys.heap p)
            ∧ (∀ q, q ≠ p → s1.heap q = st.sys.heap q)
            ∧ ∃ e, s1.out = st.sys.out ++ [e] ∧ e.is_evicted = false := by
  have key : ∀ (m : MemFlag), m ≠ .UN → ∀ fuel,
      run records sched m frames quantum fuel = run records sched .SP frames quantum fuel := by
    intro m hm fuel
    unfold run simulation
    cases h0 : sim_init (read_file records).2 (init_sys records frames quantum) with
    | error e => rfl
    | ok st0 =>
      simp only [bind, Except.bind]
      exact sim_loop_mode _ sched m hs hm fuel st0
        (sim_init_free records frames quantum st0 hu hfit h0)
  refine ⟨fun fuel => by rw [key f hf fuel, key g hg fuel], ?_⟩
  intro st0 st p w s1 h0 hr hd hs1
  have hG := sim_reach_free records sched f frames quantum st0 st hs hf hu hfit h0 hr
  have hwq : st.waiting_queue = p :: w := by
    cases hq : st.waiting_queue with
    | nil => rw [hq, dequeue_nil] at hd; cases hd
    | cons a l => rw [hq, dequeue_cons] at hd; cases hd; rfl
  have hp : p ∈ List.range records.length := hG.sim.waiting_mem p (by rw [hwq]; simp)
  have hholes := (all_free_of_idle _ st.sys hG.sim.inv hG.idle).1
  obtain ⟨a, -, b, c⟩ := admit_free_spec _ f w st.sys s1 p hf hG.sim.inv (hG.idle p hp)
    (by rw [hholes]; exact hG.fit p hp) hs1
  exact ⟨a, b, c⟩

/-- Witness for C40: the runs on the sample input with 8 frames under first-come first-served
scheduling are the same under virtual memory and under swapping, and the first admission loads
the 5 pages of the first process. -/
theorem memory_mode_equivalence_witness :
    SchedFlag.FF ≠ SchedFlag.RR ∧ MemFlag.VM ≠ MemFlag.UN ∧ MemFlag.SP ≠ MemFlag.UN
      ∧ unique_ids sample_records
      ∧ (∀ x ∈ sample_records, required_pages x.toProcess ≤ (8 : Nat))
      ∧ run sample_records .FF .VM 8 3 3 = run sample_records .FF .SP 8 3 3
      ∧ mem_alloc_func .VM [] (sim_start sample_records 8 3).sys 0 = .ok sample_vm_first
      ∧ (sample_vm_first.heap 0).num_page_in_mem = 5 :=
  ⟨by decide, by decide, by decide, sample_unique, by decide,
    (memory_mode_equivalence sample_records .FF 8 3 .VM .SP (by decide) (by decide) (by decide)
      sample_unique (by decide)).1 3, rfl, rfl⟩

/-! ## The number of slices -/

theorem slices_pos (q r : Int) : 1 ≤ slices q r := le_max_left _ _

theorem cost_pos (sched : SchedFlag) (q r : Int) : 1 ≤ cost sched q r := by
  unfold cost
  split
  · exact slices_pos q r
  · exact le_refl 1

theorem slices_last (q r : Int) (hq : 1 ≤ q) (hr : r ≤ q) : slices q r = 1 := by
  unfold slices
  have h1 : (r + q - 1) / q ≤ 1 := by
    have : r + q - 1 < 2 * q := by omega
    have h2 : (r + q - 1) / q < 2 := Int.ediv_lt_of_lt_mul (by omega) (by omega)
    omega
  have : ((r + q - 1) / q).toNat ≤ 1 := by omega
  omega

theorem slices_step (q r : Int) (hq : 1 ≤ q) (hr : q < r) :
    slices q (r - q) + 1 = slices q r := by
  unfold slices
  have e : (r - q + q - 1) / q = (r + q - 1) / q - 1 := by
    have : r + q - 1 = (r - q + q - 1) + q * 1 := by ring
    rw [this, Int.add_mul_ediv_left _ _ (by omega : q ≠ 0)]
    omega
  have h2 : 2 ≤ (r + q - 1) / q := by
    apply Int.le_ediv_of_mul_le (by omega)
    omega
  rw [e]
  omega

/-- For a positive quantum and a job of at least one unit, the number of slices is the ceiling
of the job time over the quantum. -/
theorem slices_eq_ceil (q j : Int) (hq : 1 ≤ q) (hj : 1 ≤ j) :
    (slices q j : Int) = ⌈(j : ℚ) / (q : ℚ)⌉ := by
  unfold slices
  have hq0 : (0 : ℚ) < (q : ℚ) := by exact_mod_cast (by omega : 0 < q)
  have h1 : 1 ≤ (j + q - 1) / q := by
    apply Int.le_ediv_of_mul_le (by omega)
    omega
  have hz : ((max 1 ((j + q - 1) / q).toNat : Nat) : Int) = (j + q - 1) / q := by
    have : (((j + q - 1) / q).toNat : Int) = (j + q - 1) / q := Int.toNat_of_nonneg (by omega)
    omega
  rw [hz]
  symm
  rw [Int.ceil_eq_iff]
  have hmod := Int.emod_add_ediv (j + q - 1) q
  have hlt := Int.emod_lt_of_pos (j + q - 1) (by omega : 0 < q)
  have hge := Int.emod_nonneg (j + q - 1) (by omega : q ≠ 0)
  constructor
  · rw [lt_div_iff₀ hq0]
    have : ((j + q - 1) / q - 1) * q < j := by nlinarith
    exact_mod_cast this
  · rw [div_le_iff₀ hq0]
    have : j ≤ (j + q - 1) / q * q := by nlinarith
    exact_mod_cast this

/-! ## Rounds that return -/

/-- A round of `simulation` returns when the admission of the process at the head of the waiting
queue returns and `print_finished` returns after it. -/
theorem sim_step_ok (sched : SchedFlag) (mem : MemFlag) (st : Sim)
    (h : ∀ p w, st.waiting_queue = p :: w → ∃ s1, mem_alloc_func mem w st.sys p = .ok s1
      ∧ ∀ w2, ∃ s5,
        print_finished mem (record_statistic (after_run sched s1 p) p) p w2 = .ok s5) :
    ∃ st', sim_step sched mem st = .ok st' := by
  cases hwq : st.waiting_queue with
  | nil =>
    have hneg : ¬ get_queue_size ([] : Queue) > 0 := by simp [get_queue_size]
    unfold sim_step
    rw [hwq, if_neg hneg]
    cases hqq : st.queue with
    | nil => rw [if_neg hneg]; exact ⟨_, rfl⟩
    | cons a rest =>
      have hpos : get_queue_size (a :: rest) > 0 := by
        show ((a :: rest).length : Int) > 0
        simp only [List.length_cons]; omega
      rw [if_pos hpos, dequeue_cons]
      exact ⟨_, rfl⟩
  | cons p w =>
    obtain ⟨s1, hs1, hfin⟩ := h p w hwq
    obtain ⟨q1, w2, harr⟩ := arrivals_ok sched (add_curr_time sched s1 p).heap
      (add_curr_time sched s1 p).cpu.curr_time st.queue.length st.queue w (le_refl _)
    obtain ⟨s5, hs5⟩ := hfin w2
    have hpos : get_queue_size (p :: w) > 0 := by
      show ((p :: w).length : Int) > 0
      simp only [List.length_cons]; omega
    unfold sim_step
    rw [hwq, if_pos hpos, dequeue_cons]
    simp only [bind, Except.bind, hs1, harr]
    split
    · exact ⟨_, rfl⟩
    · have hs5' : print_finished mem (record_statistic ((add_curr_time sched s1 p).setProc p
          { (add_curr_time sched s1 p).heap p with
            last_execution_time := (add_curr_time sched s1 p).cpu.curr_time }) p) p w2
          = .ok s5 := hs5
      rw [hs5']
      exact ⟨_, rfl⟩

/-- The loop of `simulation` returns within the number of rounds given by a measure that every
round decreases, from a state of a set of states that the rounds stay in and return on. -/
theorem sim_loop_terminates (sched : SchedFlag) (mem : MemFlag) (Good : Sim → Prop)
    (M : Sim → Nat)
    (hstep : ∀ st, Good st → (st.waiting_queue ≠ [] ∨ st.queue ≠ []) →
      ∃ st', sim_step sched mem st = .ok st' ∧ Good st' ∧ M st' < M st) :
    ∀ (fuel : Nat) (st : Sim), Good st → M st ≤ fuel →
      ∃ r, sim_loop sched mem fuel st = .ok r := by
  intro fuel
  induction fuel with
  | zero =>
    intro st hG hM
    by_cases hne : st.waiting_queue ≠ [] ∨ st.queue ≠ []
    · obtain ⟨st', -, -, hlt⟩ := hstep st hG hne
      omega
    · push_neg at hne
      have hc : ¬ (get_queue_size st.waiting_queue > 0 ∨ get_queue_size st.queue > 0) := by
        rw [hne.1, hne.2]; simp [get_queue_size]
      unfold sim_loop
      rw [if_neg hc]
      exact ⟨st, rfl⟩
  | succ fuel ih =>
    intro st hG hM
    by_cases hne : st.waiting_queue ≠ [] ∨ st.queue ≠ []
    · obtain ⟨st', hs, hG', hlt⟩ := hstep st hG hne
      obtain ⟨r, hr⟩ := ih st' hG' (by omega)
      have hc : get_queue_size st.waiting_queue > 0 ∨ get_queue_size st.queue > 0 := by
        rcases hne with h1 | h1
        · left
          cases hq : st.waiting_queue with
          | nil => exact absurd hq h1
          | cons a l => show ((a :: l).length : Int) > 0; simp only [List.length_cons]; omega
        · right
          cases hq : st.queue with
          | nil => exact absurd hq h1
          | cons a l => show ((a :: l).length : Int) > 0; simp only [List.length_cons]; omega
      unfold sim_loop
      rw [if_pos hc, hs]
      exact ⟨r, hr⟩
    · push_neg at hne
      have hc : ¬ (get_queue_size st.waiting_queue > 0 ∨ get_queue_size st.queue > 0) := by
        rw [hne.1, hne.2]; simp [get_queue_size]
      unfold sim_loop
      rw [if_neg hc]
      exact ⟨st, rfl⟩

/-! ## The measure of the loop -/

theorem map_sum_perm (f : Ptr → Nat) (l1 l2 : List Ptr) (h : l1.Perm l2) :
    (l1.map f).sum = (l2.map f).sum := (h.map f).sum_eq

theorem map_sum_same (f g : Ptr → Nat) (l : List Ptr) (h : ∀ x ∈ l, f x = g x) :
    (l.map f).sum = (l.map g).sum := by
  rw [List.map_congr_left h]

/-- A round of `simulation` that returns decreases the bound on the rounds left, when the
quantum is positive and the admission does not add to the remaining time under round robin. -/
theorem sim_step_measure (all : List Ptr) (sched : SchedFlag) (mem : MemFlag) (st st' : Sim)
    (hnd : all.Nodup) (hS : SchedInv all st)
    (hq : sched = .RR → 1 ≤ st.sys.cpu.quantam)
    (hpen : sched = .RR → ∀ p w s1, st.waiting_queue = p :: w →
      mem_alloc_func mem w st.sys p = .ok s1 →
      (s1.heap p).remaining_time = (st.sys.heap p).remaining_time)
    (hne : st.waiting_queue ≠ [] ∨ st.queue ≠ [])
    (h : sim_step sched mem st = .ok st') : rounds_left sched st' < rounds_left sched st := by
  have hqt := sim_step_quantam all sched mem st st' hnd hS h
  unfold rounds_left
  rw [hqt]
  rcases sim_step_round all sched mem st st' hnd hS h with
    ⟨p, w, s1, q', w2, hwq, hs1, harr, hp, hw, hpw, hpq, hpc, hpq', hpw2, hadm, hoth, hcase⟩
      | ⟨hwq, p, rest, hqq, hst'⟩ | ⟨hwq, hqq, -⟩
  · obtain ⟨-, -, e3, -⟩ := sim_step_stamp all sched mem st st' p w s1 hnd hS hwq hs1 h
    obtain ⟨moved, hmv, hw2, -, -⟩ := arrivals_spec sched _ _ _ _ _ _ _ harr
    have hperm2 : w2.Perm (w ++ moved) := by
      rw [hw2]; exact enqueue_list_perm _ _ _ _
    have hrem : ∀ x, x ≠ p →
        (st'.sys.heap x).remaining_time = (st.sys.heap x).remaining_time := by
      intro x hxp
      rw [hoth x hxp, same_but_pages_remaining (hadm.others x hxp)]
    have hsame : ∀ l : List Ptr, p ∉ l →
        (l.map (fun x => cost sched st.sys.cpu.quantam (st'.sys.heap x).remaining_time)).sum
          = (l.map (fun x => cost sched st.sys.cpu.quantam (st.sys.heap x).remaining_time)).sum := by
      intro l hl
      apply map_sum_same
      intro x hx
      show cost sched _ _ = cost sched _ _
      rw [hrem x (fun e => hl (e ▸ hx))]
    have hw2sum := map_sum_perm
      (fun x => cost sched st.sys.cpu.quantam (st.sys.heap x).remaining_time) _ _ hperm2
    have hold : ((st.waiting_queue ++ st.queue).map
          (fun x => cost sched st.sys.cpu.quantam (st.sys.heap x).remaining_time)).sum
        = cost sched st.sys.cpu.quantam (st.sys.heap p).remaining_time
          + (w2.map (fun x => cost sched st.sys.cpu.quantam (st.sys.heap x).remaining_time)).sum
          + (q'.map (fun x => cost sched st.sys.cpu.quantam (st.sys.heap x).remaining_time)).sum := by
      rw [hw2sum, hwq, hmv]
      simp only [List.map_append, List.sum_append, List.map_cons, List.sum_cons, List.cons_append]
      omega
    have hlen : st.queue.length = moved.length + q'.length := by rw [hmv]; simp
    rw [hold, hlen]
    have hcp := cost_pos sched st.sys.cpu.quantam (st.sys.heap p).remaining_time
    rcases hcase with ⟨hrr, hne3, hst'⟩ | ⟨-, s5, hs5, hst'⟩
    · have hw' : st'.waiting_queue = enqueue (after_run sched s1 p).heap w2 p .LASTET := by
        rw [hst']
      have hq' : st'.queue = q' := by rw [hst']
      have hperm3 : (st'.waiting_queue ++ st'.queue).Perm (p :: (w2 ++ q')) := by
        rw [hw', hq']
        exact (enqueue_perm _ _ _ _).append_right q'
      rw [map_sum_perm _ _ _ hperm3, hq']
      simp only [List.map_append, List.sum_append, List.map_cons, List.sum_cons]
      rw [hsame w2 hpw2, hsame q' hpq']
      have hdec : cost sched st.sys.cpu.quantam (st'.sys.heap p).remaining_time + 1
          = cost sched st.sys.cpu.quantam (st.sys.heap p).remaining_time := by
        obtain ⟨-, b⟩ := (add_curr_time_spec sched s1 p).2 hrr
        have hq1 : s1.cpu.quantam = st.sys.cpu.quantam := by rw [hadm.cpu]
        have hr1 := hpen hrr p w s1 hwq hs1
        have hqq := hq hrr
        rw [(after_run_fields sched s1 p).2.2.2] at hne3
        have hne4 : ((add_curr_time sched s1 p).heap p).remaining_time ≠ 0 := hne3
        rw [b, hq1, hr1] at hne4
        rw [e3, b, hq1, hr1]
        unfold cost
        rw [if_pos hrr, if_pos hrr]
        rcases min_choice (st.sys.heap p).remaining_time st.sys.cpu.quantam with e | e
        · rw [e] at hne4; omega
        · rw [e]
          have hlt : st.sys.cpu.quantam < (st.sys.heap p).remaining_time := by
            rcases lt_or_ge st.sys.cpu.quantam (st.sys.heap p).remaining_time with h1 | h1
            · exact h1
            · rw [min_eq_left h1] at e
              rw [e] at hne4; omega
          exact slices_step _ _ hqq hlt
      omega
    · have hw' : st'.waiting_queue = w2 := by rw [hst']
      have hq' : st'.queue = q' := by rw [hst']
      rw [hw', hq']
      simp only [List.map_append, List.sum_append]
      rw [hsame w2 hpw2, hsame q' hpq']
      omega
  · have hheap : st'.sys.heap = st.sys.heap := by rw [hst']
    have hw' : st'.waiting_queue = [p] := by
      rw [hst', hwq]; rfl
    have hq' : st'.queue = rest := by rw [hst']
    rw [hheap, hw', hq', hwq, hqq]
    simp only [List.nil_append, List.singleton_append, List.length_cons]
    omega
  · rcases hne with h1 | h1
    · exact absurd hwq h1
    · exact absurd hqq h1

/-! ## Unlimited memory -/

theorem mem_alloc_func_un (queue : Queue) (s : Sys) (p : Ptr) :
    mem_alloc_func .UN queue s p
      = .ok (print_running (s.setProc p { s.heap p with load_time := 0 }) p) := rfl

theorem admit_un_remaining (queue : Queue) (s s1 : Sys) (p : Ptr)
    (h : mem_alloc_func .UN queue s p = .ok s1) :
    (s1.heap p).remaining_time = (s.heap p).remaining_time := by
  rw [mem_alloc_func_un] at h
  cases h
  simp [print_running, Sys.emit, Sys.setProc]

theorem sim_step_ok_un (sched : SchedFlag) (st : Sim) :
    ∃ st', sim_step sched .UN st = .ok st' :=
  sim_step_ok sched .UN st (fun p w _ => ⟨_, mem_alloc_func_un w st.sys p, fun _ => ⟨_, rfl⟩⟩)

theorem sim_init_start (records : List Record) (frames : Nat) (quantum : Int) :
    sim_init (read_file records).2 (init_sys records frames quantum)
      = .ok (sim_start records frames quantum) := by
  have h : ∃ st0, sim_init (read_file records).2 (init_sys records frames quantum) = .ok st0 := by
    unfold sim_init
    cases (read_file records).2 with
    | nil =>
      have hneg : ¬ get_queue_size ([] : Queue) > 0 := by simp [get_queue_size]
      rw [if_neg hneg]; exact ⟨_, rfl⟩
    | cons a rest =>
      have hpos : get_queue_size (a :: rest) > 0 := by
        show ((a :: rest).length : Int) > 0
        simp only [List.length_cons]; omega
      rw [if_pos hpos, dequeue_cons]; exact ⟨_, rfl⟩
  obtain ⟨st0, h0⟩ := h
  unfold sim_start
  rw [h0]

/-- The loop of `simulation` under round robin with a quantum of at least 1 and unlimited
memory returns within the number of rounds given by `rounds_left`. -/
theorem sim_loop_un (all : List Ptr) (st : Sim) (hnd : all.Nodup) (hS : SchedInv all st)
    (hq : 1 ≤ st.sys.cpu.quantam) :
    ∃ r, sim_loop .RR .UN (rounds_left .RR st) st = .ok r := by
  refine sim_loop_terminates .RR .UN
    (fun x => SchedInv all x ∧ 1 ≤ x.sys.cpu.quantam) (rounds_left .RR) ?_ _ st
    ⟨hS, hq⟩ (le_refl _)
  intro x hG hne
  obtain ⟨x', hx'⟩ := sim_step_ok_un .RR x
  refine ⟨x', hx', ⟨sim_step_sched all .RR .UN x x' hnd hG.1 hx', ?_⟩, ?_⟩
  · rw [sim_step_quantam all .RR .UN x x' hnd hG.1 hx']; exact hG.2
  · exact sim_step_measure all .RR .UN x x' hnd hG.1 (fun _ => hG.2)
      (fun _ p w s1 _ hs1 => admit_un_remaining w x.sys s1 p hs1) hne hx'

theorem parts_count (all : List Ptr) (st : Sim) (hnd : all.Nodup) (hS : SchedInv all st)
    (p : Ptr) (hp : p ∈ all) :
    st.queue.count p + st.waiting_queue.count p + st.complete_queue.count p = 1 :=
  count_one_of_parts all _ _ _ hnd hS.parts p (hS.parts.symm.subset hp)

/-- Under round robin with a quantum of at least 1 and unlimited memory, the dispatches of a
process so far and the slices that it still needs add up to the slices of its first remaining
time. -/
theorem sim_trace_slices (all : List Ptr) (st0 st : Sim) (tr : List Ptr) (hnd : all.Nodup)
    (hS0 : SchedInv all st0) (hc0 : st0.complete_queue = []) (hq : 1 ≤ st0.sys.cpu.quantam)
    (ht : SimTrace .RR .UN st0 st tr) :
    st.sys.cpu.quantam = st0.sys.cpu.quantam
      ∧ ∀ p ∈ all, tr.count p + (st.waiting_queue ++ st.queue).count p
          * slices st0.sys.cpu.quantam (st.sys.heap p).remaining_time
        = slices st0.sys.cpu.quantam (st0.sys.heap p).remaining_time := by
  induction ht with
  | start =>
    refine ⟨rfl, fun p hp => ?_⟩
    have := parts_count all st0 hnd hS0 p hp
    rw [hc0] at this
    have hc1 : (st0.waiting_queue ++ st0.queue).count p = 1 := by
      rw [List.count_append]
      simp only [List.count_nil] at this
      omega
    rw [hc1]
    simp
  | @step st st' tr ht1 hs ih =>
    obtain ⟨ihq, ih⟩ := ih
    have hS := sim_reach_sched all .RR .UN st0 st hnd hS0 (sim_trace_reach .RR .UN st0 st tr ht1)
    have hS' := sim_step_sched all .RR .UN st st' hnd hS hs
    have hqt := sim_step_quantam all .RR .UN st st' hnd hS hs
    refine ⟨by rw [hqt, ihq], fun x hx => ?_⟩
    have hc := parts_count all st hnd hS x hx
    have hc' := parts_count all st' hnd hS' x hx
    have ihx := ih x hx
    rw [List.count_append] at ihx ⊢
    rw [List.count_append]
    rcases sim_step_round all .RR .UN st st' hnd hS hs with
      ⟨p, w, s1, q', w2, hwq, hs1, harr, hp, hw, hpw, hpq, hpc, hpq', hpw2, hadm, hoth, hcase⟩
        | ⟨hwq, p, rest, hqq, hst'⟩ | ⟨hwq, hqq, hst'⟩
    · obtain ⟨-, -, e3, -⟩ := sim_step_stamp all .RR .UN st st' p w s1 hnd hS hwq hs1 hs
      obtain ⟨-, b⟩ := (add_curr_time_spec .RR s1 p).2 rfl
      have hq1 : s1.cpu.quantam = st0.sys.cpu.quantam := by rw [hadm.cpu]; exact ihq
      have hr1 := admit_un_remaining w st.sys s1 p hs1
      have htk : st.waiting_queue.take 1 = [p] := by rw [hwq]; rfl
      rw [htk]
      by_cases hxp : x = p
      · subst hxp
        have hcq : st.complete_queue.count x = 0 := List.count_eq_zero.2 hpc
        have hcx : List.count x [x] = 1 := by simp
        rw [hcx]
        rcases hcase with ⟨-, hne3, hst'⟩ | ⟨hfin, s5, hs5, hst'⟩
        · have hcq' : st'.complete_queue.count x = 0 := by rw [hst']; exact hcq
          rw [(after_run_fields .RR s1 x).2.2.2] at hne3
          have hne4 : ((add_curr_time .RR s1 x).heap x).remaining_time ≠ 0 := hne3
          rw [b, hq1, hr1] at hne4
          have hlt : st0.sys.cpu.quantam < (st.sys.heap x).remaining_time := by
            rcases lt_or_ge st0.sys.cpu.quantam (st.sys.heap x).remaining_time with h1 | h1
            · exact h1
            · rw [min_eq_left h1] at hne4; omega
          have hstep := slices_step _ _ hq hlt
          have hrem' : (st'.sys.heap x).remaining_time
              = (st.sys.heap x).remaining_time - st0.sys.cpu.quantam := by
            rw [e3, b, hq1, hr1, min_eq_right (le_of_lt hlt)]
          rw [hrem']
          have h1 : st'.waiting_queue.count x + st'.queue.count x = 1 := by omega
          have h2 : st.waiting_queue.count x + st.queue.count x = 1 := by omega
          rw [h1]
          rw [h2] at ihx
          omega
        · have hrem3 : ((add_curr_time .RR s1 x).heap x).remaining_time = 0 := by
            by_contra hne
            apply hfin
            refine ⟨rfl, ?_⟩
            rw [(after_run_fields .RR s1 x).2.2.2]
            exact hne
          rw [b, hq1, hr1] at hrem3
          have hle : (st.sys.heap x).remaining_time ≤ st0.sys.cpu.quantam := by
            have := min_le_right (st.sys.heap x).remaining_time st0.sys.cpu.quantam
            omega
          have hone := slices_last _ _ hq hle
          have hw' : st'.waiting_queue.count x = 0 := by
            rw [hst']; exact List.count_eq_zero.2 hpw2
          have hq' : st'.queue.count x = 0 := by
            rw [hst']; exact List.count_eq_zero.2 hpq'
          have h2 : st.waiting_queue.count x + st.queue.count x = 1 := by omega
          rw [hw', hq']
          rw [h2, hone] at ihx
          omega
      · have hcx : List.count x [p] = 0 := List.count_eq_zero.2 (by simp [hxp])
        have hrem' : (st'.sys.heap x).remaining_time = (st.sys.heap x).remaining_time := by
          rw [hoth x hxp, same_but_pages_remaining (hadm.others x hxp)]
        have hcq' : st'.complete_queue.count x = st.complete_queue.count x := by
          rcases hcase with ⟨-, -, hst'⟩ | ⟨-, s5, hs5, hst'⟩
          · rw [hst']
          · rw [hst']
            show (enqueue (after_finish s5 p).heap st.complete_queue p .COMPLETET).count x = _
            rw [(enqueue_perm _ _ _ _).count_eq x]
            simp [List.count_cons, Ne.symm hxp]
        rw [hcx, hrem']
        have h1 : st'.waiting_queue.count x + st'.queue.count x
            = st.waiting_queue.count x + st.queue.count x := by omega
        rw [h1]
        exact ihx
    · have hheap : st'.sys.heap = st.sys.heap := by rw [hst']
      have hcq' : st'.complete_queue = st.complete_queue := by rw [hst']
      rw [hcq'] at hc'
      have h1 : st'.waiting_queue.count x + st'.queue.count x
          = st.waiting_queue.count x + st.queue.count x := by omega
      have htk : st.waiting_queue.take 1 = [] := by rw [hwq]; rfl
      rw [h1, hheap, htk]
      simp only [List.count_nil, add_zero]
      exact ihx
    · have htk : st.waiting_queue.take 1 = [] := by rw [hwq]; rfl
      rw [hst', htk]
      simp only [List.count_nil, add_zero]
      exact ihx

/-- Claim C37, round-robin termination with unlimited memory: for every input and every quantum
of at least 1, the run under round robin with unlimited memory returns when it is given enough
rounds; a run that returns ends with the waiting queue and the queue of processes still to
arrive empty, and in the sequence of its dispatches every process with a job time `j` of at
least 1 occurs exactly `⌈j / quantum⌉` times. -/
theorem round_robin_unlimited (records : List Record) (frames : Nat) (quantum : Int)
    (hq : 1 ≤ quantum) :
    (∃ fuel r, run records .RR .UN frames quantum fuel = .ok r)
      ∧ ∀ fuel r, run records .RR .UN frames quantum fuel = .ok r →
        r.queue = [] ∧ r.waiting_queue = []
          ∧ (∃ tr, SimTrace .RR .UN (sim_start records frames quantum) r tr)
          ∧ ∀ tr, SimTrace .RR .UN (sim_start records frames quantum) r tr →
            ∀ p, p < records.length → 1 ≤ ((read_file records).1 p).job_time →
              (tr.count p : Int)
                = ⌈(((read_file records).1 p).job_time : ℚ) / (quantum : ℚ)⌉ := by
  have hnd := List.nodup_range records.length
  have h0 := sim_init_start records frames quantum
  have hS0 := sim_init_sched records frames quantum _ h0
  obtain ⟨-, hc0, hsys0, -⟩ := sim_init_queues _ _ _ h0
  have hq0 : (sim_start records frames quantum).sys.cpu.quantam = quantum := by
    rw [hsys0]; rfl
  refine ⟨?_, ?_⟩
  · obtain ⟨r, hr⟩ := sim_loop_un _ (sim_start records frames quantum) hnd hS0
      (by rw [hq0]; exact hq)
    refine ⟨rounds_left .RR (sim_start records frames quantum), r, ?_⟩
    unfold run simulation
    rw [h0]
    exact hr
  · intro fuel r hrun
    obtain ⟨st0, h0', hr, hqq, hwq⟩ := run_simreach records .RR .UN frames quantum fuel r hrun
    rw [h0] at h0'
    cases h0'
    refine ⟨hqq, hwq, sim_reach_trace .RR .UN _ r hr, ?_⟩
    intro tr ht p hp hj
    obtain ⟨-, hcount⟩ := sim_trace_slices _ _ r tr hnd hS0 hc0 (by rw [hq0]; exact hq) ht
    have h1 := hcount p (List.mem_range.2 hp)
    rw [hqq, hwq, hq0, hsys0] at h1
    have hrem : ((init_sys records frames quantum).heap p).remaining_time
        = ((read_file records).1 p).job_time := by
      have e : (init_sys records frames quantum).heap = (read_file records).1 := rfl
      rw [← e, init_heap records frames quantum p hp]
      rfl
    rw [hrem] at h1
    simp only [List.append_nil, List.count_nil, Nat.zero_mul, Nat.add_zero] at h1
    rw [h1]
    exact slices_eq_ceil quantum _ hq hj

/-- Witness for C37: the run on the sample input with quantum 3 returns after 8 rounds; the
processes with job times 5, 5 and 7 are dispatched 2, 2 and 3 times. -/
theorem round_robin_unlimited_witness :
    (1 : Int) ≤ 3
      ∧ (∃ r, run sample_records .RR .UN 8 3 8 = .ok r
        ∧ r.sys.out = [.running 0 1 5, .running 3 2 5, .running 6 3 7, .running 9 1 2,
            .finished 11 1 2, .running 11 2 2, .finished 13 2 1, .running 13 3 4,
            .running 16 3 1, .finished 17 3 0])
      ∧ ∃ fuel r, run sample_records .RR .UN 8 3 fuel = .ok r :=
  ⟨by decide, ⟨_, rfl, rfl⟩, (round_robin_unlimited sample_records 8 3 (by decide)).1⟩

/-! ## Rounds that return, with limited memory -/

/-- After the run of a process in a consistent state `print_finished` returns. -/
theorem finish_ok (all : List Ptr) (sched : SchedFlag) (mem : MemFlag) (s1 : Sys) (p : Ptr)
    (w2 : Queue) (hInv : Inv all s1) (hp : p ∈ all) :
    ∃ s5, print_finished mem (record_statistic (after_run sched s1 p) p) p w2 = .ok s5 := by
  have h2 := inv_same_memory all _ _ (same_memory_add_curr_time sched s1 p) hInv
  have h3 := inv_same_memory all _ _ (same_memory_set_last (add_curr_time sched s1 p) p
    (add_curr_time sched s1 p).cpu.curr_time) h2
  have h4 : Inv all (record_statistic (after_run sched s1 p) p) :=
    inv_same_memory all _ _ (same_memory_record_statistic _ p) h3
  obtain ⟨s5, hs5, -⟩ := print_finished_inv all mem _ p w2 h4 hp
  exact ⟨s5, hs5⟩

/-- A round of `simulation` in a consistent state returns when the admission of the process at
the head of the waiting queue returns. -/
theorem sim_step_ok_inv (all : List Ptr) (sched : SchedFlag) (mem : MemFlag) (st : Sim)
    (hI : SimInv all st)
    (hadm : ∀ p w, st.waiting_queue = p :: w → ∃ s1, mem_alloc_func mem w st.sys p = .ok s1) :
    ∃ st', sim_step sched mem st = .ok st' := by
  apply sim_step_ok
  intro p w hwq
  obtain ⟨s1, hs1⟩ := hadm p w hwq
  have hp : p ∈ all := hI.waiting_mem p (by rw [hwq]; simp)
  have hw : ∀ x ∈ w, x ∈ all := fun x hx => hI.waiting_mem x (by rw [hwq]; simp [hx])
  have hInv1 := mem_alloc_func_inv all mem w st.sys s1 p hI.inv hp hw hs1
  exact ⟨s1, hs1, fun w2 => finish_ok all sched mem s1 p w2 hInv1 hp⟩

/-- Under virtual memory the admission of a dispatched process whose pages fit in the table
returns. -/
theorem vm_admit_ok (all : List Ptr) (f : MemFlag) (queue : Queue) (s : Sys) (p : Ptr)
    (hf : f = .VM ∨ f = .CM) (hInv : Inv all s) (hd : dispatched all s queue p)
    (h0 : 0 ≤ required_pages (s.heap p))
    (hle : required_pages (s.heap p) ≤ s.cpu.memory.total_page) :
    ∃ s', mem_alloc_func f queue s p = .ok s' := by
  have hsum := dispatched_sum all s queue p hInv hd
  obtain ⟨hp, hpq, hnd, hq, -⟩ := hd
  have hh := inv_holes_nonneg all s hInv
  have hn := inv_count_nonneg all s p hInv hp
  have hb := hInv.bound p hp
  have hreq : (required_pages (s.heap p)) = (s.heap p).mem_size_req.tdiv PAGE_SIZE := rfl
  have hfu : f ≠ .UN := by rcases hf with e | e <;> rw [e] <;> decide
  by_cases hz : (s.heap p).num_page_in_mem = required_pages (s.heap p)
  · exact mem_alloc_func_full_ok all f queue s p hfu hInv hp hz
  · rw [mem_alloc_func_eq f queue s p hfu (by omega), require_pages_vm f queue s p _ hf hh hn]
    have hm1 := min_le_left MIN_EXE_PAGE (required_pages (s.heap p))
    have hm2 := min_le_right MIN_EXE_PAGE (required_pages (s.heap p))
    by_cases hc : (s.heap p).num_page_in_mem + s.cpu.memory.num_holes
        < min MIN_EXE_PAGE (required_pages (s.heap p))
    · rw [if_pos hc]
      obtain ⟨s1, hev⟩ := evcit_ok all f queue s
        (min MIN_EXE_PAGE (required_pages (s.heap p)) - (s.heap p).num_page_in_mem)
        hInv hnd hq (by omega)
      obtain ⟨hInv1, hge, -⟩ := evcit_inv all f queue s s1 _ hInv hq hev
      obtain ⟨s', hg, -⟩ := grant_pages_ok all s1 p (required_pages (s.heap p))
        (min MIN_EXE_PAGE (required_pages (s.heap p)) - (s.heap p).num_page_in_mem)
        hInv1 hp h0 (by omega) hge
      refine ⟨s', ?_⟩
      rw [hev]; exact hg
    · rw [if_neg hc]
      have hmin : 0 ≤ min s.cpu.memory.num_holes
          (required_pages (s.heap p) - (s.heap p).num_page_in_mem) := le_min hh (by omega)
      obtain ⟨s', hg, -⟩ := grant_pages_ok all s p (required_pages (s.heap p))
        (min s.cpu.memory.num_holes (required_pages (s.heap p) - (s.heap p).num_page_in_mem))
        hInv hp h0 hmin (min_le_left _ _)
      exact ⟨s', hg⟩

/-- Under swapping the admission of a dispatched process adds nothing to its remaining time. -/
theorem sp_admit_remaining (queue : Queue) (s s1 : Sys) (p : Ptr) (hpq : p ∉ queue)
    (h : mem_alloc_func .SP queue s p = .ok s1) :
    (s1.heap p).remaining_time = (s.heap p).remaining_time := by
  rcases mem_alloc_func_cases .SP queue s s1 p (by decide) h with
    ⟨-, hself, -⟩ | ⟨hne, s2, n, hreq, hev, hgrant⟩
  · rw [hself]
  · obtain ⟨-, hself, -⟩ := grant_pages_shape s2 s1 p _ n hgrant
    rw [require_pages_sp] at hreq
    have hn : n = required_pages (s.heap p) - (s.heap p).num_page_in_mem := by
      split at hreq
      · obtain ⟨v, -, hv⟩ := map_ok _ _ _ hreq
        cases hv; rfl
      · cases hreq; rfl
    have hp2 : s2.heap p = s.heap p := by
      rcases hev with e | hev
      · rw [e]
      · exact (evcit_shape .SP queue s s2 _ hev).2.2.2.2.1 p hpq
    rw [hself, hp2, hn]
    show (s.heap p).remaining_time + (_ - ((s.heap p).num_page_in_mem + _)) = _
    omega

/-! ## Termination -/

/-- The loop of `simulation` with unlimited memory returns within the number of rounds given by
`rounds_left`, when the quantum of round robin is at least 1. -/
theorem sim_loop_unlimited (all : List Ptr) (sched : SchedFlag) (st : Sim) (hnd : all.Nodup)
    (hS : SchedInv all st) (hq : 1 ≤ st.sys.cpu.quantam) :
    ∃ r, sim_loop sched .UN (rounds_left sched st) st = .ok r := by
  refine sim_loop_terminates sched .UN
    (fun x => SchedInv all x ∧ 1 ≤ x.sys.cpu.quantam) (rounds_left sched) ?_ _ st
    ⟨hS, hq⟩ (le_refl _)
  intro x hG hne
  obtain ⟨x', hx'⟩ := sim_step_ok_un sched x
  refine ⟨x', hx', ⟨sim_step_sched all sched .UN x x' hnd hG.1 hx', ?_⟩, ?_⟩
  · rw [sim_step_quantam all sched .UN x x' hnd hG.1 hx']; exact hG.2
  · exact sim_step_measure all sched .UN x x' hnd hG.1 (fun _ => hG.2)
      (fun _ p w s1 _ hs1 => admit_un_remaining w x.sys s1 p hs1) hne hx'

/-- The loop of `simulation` with limited memory returns within the number of rounds given by
`rounds_left`, from a consistent state where the pages of every process fit in the table, when
the scheduler does not preempt or the memory mode is swapping, and the quantum is at least 1. -/
theorem sim_loop_bounded (all : List Ptr) (sched : SchedFlag) (mem : MemFlag) (st : Sim)
    (hm : mem ≠ .UN) (hmode : sched ≠ .RR ∨ mem = .SP) (hI : SimInv all st)
    (hS : SchedInv all st) (hq : 1 ≤ st.sys.cpu.quantam)
    (hfit : ∀ x ∈ all, 0 ≤ required_pages (st.sys.heap x)
      ∧ required_pages (st.sys.heap x) ≤ st.sys.cpu.memory.total_page) :
    ∃ r, sim_loop sched mem (rounds_left sched st) st = .ok r := by
  refine sim_loop_terminates sched mem
    (fun x => SimInv all x ∧ SchedInv all x ∧ 1 ≤ x.sys.cpu.quantam
      ∧ ∀ y ∈ all, 0 ≤ required_pages (x.sys.heap y)
        ∧ required_pages (x.sys.heap y) ≤ x.sys.cpu.memory.total_page)
    (rounds_left sched) ?_ _ st ⟨hI, hS, hq, hfit⟩ (le_refl _)
  intro x hG hne
  obtain ⟨hIx, hSx, hqx, hfx⟩ := hG
  have hnd := hIx.inv.nodup
  have hadm : ∀ p w, x.waiting_queue = p :: w →
      ∃ s1, mem_alloc_func mem w x.sys p = .ok s1 := by
    intro p w hwq
    have hd := sim_inv_dispatched all x p w hIx (by rw [hwq, dequeue_cons])
    have hp : p ∈ all := hd.1
    cases mem with
    | UN => exact absurd rfl hm
    | SP =>
      obtain ⟨s1, hs1, -⟩ := sp_admit_ok all w x.sys p hIx.inv hd (hfx p hp).1 (hfx p hp).2
      exact ⟨s1, hs1⟩
    | VM => exact vm_admit_ok all .VM w x.sys p (Or.inl rfl) hIx.inv hd (hfx p hp).1 (hfx p hp).2
    | CM => exact vm_admit_ok all .CM w x.sys p (Or.inr rfl) hIx.inv hd (hfx p hp).1 (hfx p hp).2
  obtain ⟨x', hx'⟩ := sim_step_ok_inv all sched mem x hIx hadm
  have hid := sim_step_identity all sched mem x x' hnd hSx hx'
  have htot := sim_step_total all sched mem x x' hnd hSx hx'
  refine ⟨x', hx', ⟨sim_step_inv all sched mem x x' hm hIx hx',
    sim_step_sched all sched mem x x' hnd hSx hx', ?_, ?_⟩, ?_⟩
  · rw [sim_step_quantam all sched mem x x' hnd hSx hx']; exact hqx
  · intro y hy
    unfold required_pages
    rw [(hid y).2.2.2, htot]
    exact hfx y hy
  · apply sim_step_measure all sched mem x x' hnd hSx (fun _ => hqx) ?_ hne hx'
    intro hrr p w s1 hwq hs1
    rcases hmode with h1 | h1
    · exact absurd hrr h1
    · subst h1
      have hd := sim_inv_dispatched all x p w hIx (by rw [hwq, dequeue_cons])
      exact sp_admit_remaining w x.sys s1 p hd.2.1 hs1

/-- Claim C38 as amended, general termination: for every input with unique process ids in which
the pages of every process are not negative in number and fit in the table, every quantum of at
least 1, and every combination of scheduler and memory mode other than round robin with virtual
memory or with the custom mode, the run returns when it is given enough rounds, and every
process of the input is completed. -/
theorem general_termination (records : List Record) (sched : SchedFlag) (mem : MemFlag)
    (frames : Nat) (quantum : Int) (hmode : sched ≠ .RR ∨ mem = .UN ∨ mem = .SP)
    (hu : unique_ids records) (hq : 1 ≤ quantum)
    (hfit : ∀ x ∈ records, 0 ≤ required_pages x.toProcess
      ∧ required_pages x.toProcess ≤ frames) :
    ∃ fuel r, run records sched mem frames quantum fuel = .ok r
      ∧ r.complete_queue.Perm (List.range records.length) := by
  have hnd := List.nodup_range records.length
  have h0 := sim_init_start records frames quantum
  have hS0 := sim_init_sched records frames quantum _ h0
  have hsys0 := (sim_init_sys _ _ _ h0).1
  have hq0 : 1 ≤ (sim_start records frames quantum).sys.cpu.quantam := by
    rw [hsys0]; exact hq
  have hloop : ∃ r, sim_loop sched mem (rounds_left sched (sim_start records frames quantum))
      (sim_start records frames quantum) = .ok r := by
    by_cases hm : mem = .UN
    · subst hm
      exact sim_loop_unlimited _ sched _ hnd hS0 hq0
    · refine sim_loop_bounded _ sched mem _ hm ?_
        (sim_init_inv records frames quantum _ hu h0) hS0 hq0 ?_
      · rcases hmode with h1 | h1 | h1
        · exact Or.inl h1
        · exact absurd h1 hm
        · exact Or.inr h1
      · intro x hx
        rw [hsys0, init_heap records frames quantum x (List.mem_range.1 hx)]
        have := hfit _ (List.getElem_mem (List.mem_range.1 hx))
        refine ⟨this.1, ?_⟩
        show _ ≤ ((List.replicate frames INVALID).length : Int)
        rw [List.length_replicate]
        exact this.2
  obtain ⟨r, hr⟩ := hloop
  have hrun : run records sched mem frames quantum
      (rounds_left sched (sim_start records frames quantum)) = .ok r := by
    unfold run simulation
    rw [h0]
    exact hr
  refine ⟨_, r, hrun, ?_⟩
  obtain ⟨st0, h0', hreach, hqq, hwq⟩ := run_simreach records sched mem frames quantum _ r hrun
  have hparts := (sim_reach_sched _ sched mem st0 r hnd
    (sim_init_sched records frames quantum st0 h0') hreach).parts
  rw [hqq, hwq] at hparts
  simpa using hparts

/-- Witness for C38 as amended: the sample input with 8 frames under round robin with quantum 3
and swapping. -/
theorem general_termination_witness :
    (SchedFlag.RR ≠ SchedFlag.RR ∨ MemFlag.SP = MemFlag.UN ∨ MemFlag.SP = MemFlag.SP)
      ∧ unique_ids sample_records ∧ (1 : Int) ≤ 3
      ∧ (∀ x ∈ sample_records, 0 ≤ required_pages x.toProcess
        ∧ required_pages x.toProcess ≤ (8 : Nat))
      ∧ ∃ fuel r, run sample_records .RR .SP 8 3 fuel = .ok r
        ∧ r.complete_queue.Perm (List.range sample_records.length) :=
  ⟨Or.inr (Or.inr rfl), sample_unique, by decide, by decide,
    general_termination sample_records .RR .SP 8 3 (Or.inr (Or.inr rfl)) sample_unique
      (by decide) (by decide)⟩

/-! ## A run that never ends -/

/-- With limited memory an admission adds to the remaining time the pages of the process that
are not loaded after it. -/
theorem admit_remaining (f : MemFlag) (queue : Queue) (s s1 : Sys) (p : Ptr) (hf : f ≠ .UN)
    (h : mem_alloc_func f queue s p = .ok s1) :
    (s1.heap p).remaining_time = (s.heap p).remaining_time
      + (required_pages (s.heap p) - (s1.heap p).num_page_in_mem) := by
  rcases mem_alloc_func_cases f queue s s1 p hf h with
    ⟨hfull, hself, -⟩ | ⟨hne, s2, n, hreq, hev, hgrant⟩
  · rw [hself]
    show (s.heap p).remaining_time = _ + (_ - (s.heap p).num_page_in_mem)
    omega
  · obtain ⟨-, hself, -⟩ := grant_pages_shape s2 s1 p _ n hgrant
    have hp2 : (s2.heap p).remaining_time = (s.heap p).remaining_time := by
      rcases hev with e | hev
      · rw [e]
      · exact same_but_pages_remaining ((evcit_shape f queue s s2 _ hev).2.2.2.2.2.1 p)
    rw [hself]
    show (s2.heap p).remaining_time + (_ - ((s2.heap p).num_page_in_mem + n))
      = _ + (_ - ((s2.heap p).num_page_in_mem + n))
    rw [hp2]

theorem thrash_waiting (st : Sim) (hT : Thrash st) : ∃ p w, st.waiting_queue = p :: w := by
  have hparts := hT.sched.parts
  rw [hT.queue, hT.complete] at hparts
  have hlen := hparts.length_eq
  cases hwq : st.waiting_queue with
  | nil => rw [hwq] at hlen; simp at hlen
  | cons p w => exact ⟨p, w, rfl⟩

/-- A round from a state of `Thrash` returns and leads to a state of `Thrash`: the dispatched
process ends the admission with 4 of its 5 pages, so the admission adds one unit to its
remaining time, and the slice of one unit takes it back. -/
theorem thrash_step (st : Sim) (hT : Thrash st) :
    ∃ st', sim_step .RR .VM st = .ok st' ∧ Thrash st' := by
  obtain ⟨hI, hS, hqq, hcq, hqt, hholes, htot, hreq, hpages, hrem⟩ := hT
  have hnd := hI.inv.nodup
  obtain ⟨p0, w0, hwq0⟩ := thrash_waiting st ⟨hI, hS, hqq, hcq, hqt, hholes, htot, hreq, hpages, hrem⟩
  have hadm : ∀ p w, st.waiting_queue = p :: w →
      ∃ s1, mem_alloc_func .VM w st.sys p = .ok s1 := by
    intro p w hwq
    have hd := sim_inv_dispatched [0, 1] st p w hI (by rw [hwq, dequeue_cons])
    have hp : p ∈ [0, 1] := hd.1
    exact vm_admit_ok [0, 1] .VM w st.sys p (Or.inl rfl) hI.inv hd
      (by rw [hreq p hp]; decide) (by rw [hreq p hp, htot])
  obtain ⟨st', hs⟩ := sim_step_ok_inv [0, 1] .RR .VM st hI hadm
  refine ⟨st', hs, ?_⟩
  have hI' := sim_step_inv [0, 1] .RR .VM st st' (by decide) hI hs
  have hS' := sim_step_sched [0, 1] .RR .VM st st' hnd hS hs
  have hid := sim_step_identity [0, 1] .RR .VM st st' hnd hS hs
  have htot' := sim_step_total [0, 1] .RR .VM st st' hnd hS hs
  have hqt' := sim_step_quantam [0, 1] .RR .VM st st' hnd hS hs
  obtain ⟨moved, hmv⟩ := sim_step_suffix .RR .VM st st' hs
  have hq' : st'.queue = [] := by
    rw [hqq] at hmv
    exact (List.append_eq_nil.1 hmv.symm).2
  rcases sim_step_round [0, 1] .RR .VM st st' hnd hS hs with
    ⟨p, w, s1, q', w2, hwq, hs1, harr, hp, hw, hpw, hpq, hpc, hpq', hpw2, hadm1, hoth, hcase⟩
      | ⟨hwq, -⟩ | ⟨hwq, -⟩
  · obtain ⟨-, -, e3, -⟩ := sim_step_stamp [0, 1] .RR .VM st st' p w s1 hnd hS hwq hs1 hs
    obtain ⟨hno, hyes⟩ := vm_admit_result [0, 1] .VM w st.sys s1 p (Or.inl rfl) hI.inv hp hs1
    have hn0 := inv_count_nonneg [0, 1] st.sys p hI.inv hp
    have hpp := hpages p hp
    have hmin : min MIN_EXE_PAGE (required_pages (st.sys.heap p)) = 4 := by
      rw [hreq p hp]; decide
    have hres : (s1.heap p).num_page_in_mem = 4 ∧ s1.cpu.memory.num_holes = 0 := by
      by_cases hc : (st.sys.heap p).num_page_in_mem + st.sys.cpu.memory.num_holes
          < min MIN_EXE_PAGE (required_pages (st.sys.heap p))
      · obtain ⟨-, a, b⟩ := hyes hc hw hpw
        rw [a, hmin]
        exact ⟨rfl, b⟩
      · obtain ⟨-, a, b⟩ := hno hc
        rw [hmin, hholes] at hc
        rw [a, b, hholes, hreq p hp]
        have h4 : (st.sys.heap p).num_page_in_mem = 4 := by omega
        rw [h4]
        exact ⟨by decide, by decide⟩
    have hr1 := admit_remaining .VM w st.sys s1 p (by decide) hs1
    rw [hres.1, hreq p hp] at hr1
    obtain ⟨-, b⟩ := (add_curr_time_spec .RR s1 p).2 rfl
    have hq1 : s1.cpu.quantam = 1 := by rw [hadm1.cpu]; exact hqt
    have hremp := hrem p hp
    have hrem' : (st'.sys.heap p).remaining_time = (st.sys.heap p).remaining_time := by
      rw [e3, b, hq1, hr1, min_eq_right (by omega)]
      omega
    have hmem3 : (after_run .RR s1 p).cpu.memory = s1.cpu.memory := by
      rw [(after_run_fields .RR s1 p).1, (add_curr_time_fields .RR s1 p).1]
    rcases hcase with ⟨-, -, hst'⟩ | ⟨hfin, -⟩
    · have hsys : st'.sys = after_run .RR s1 p := by rw [hst']
      have hholes' : st'.sys.cpu.memory.num_holes = 0 := by
        rw [hsys, hmem3]; exact hres.2
      have hpage_p : (st'.sys.heap p).num_page_in_mem = 4 := by
        rw [hsys, (same_but_times_fields (after_run_times .RR s1 p p)).2.2.2.2.1]
        exact hres.1
      have hsum := hI'.inv.sum
      rw [hholes', htot', htot] at hsum
      have hsum2 : (st'.sys.heap 0).num_page_in_mem + (st'.sys.heap 1).num_page_in_mem
          = 5 := by
        have : resident_sum st'.sys.heap [0, 1]
            = (st'.sys.heap 0).num_page_in_mem + (st'.sys.heap 1).num_page_in_mem := by
          simp [resident_sum]
        rw [this] at hsum
        omega
      have hn0' := inv_count_nonneg [0, 1] st'.sys 0 hI'.inv (by simp)
      have hn1' := inv_count_nonneg [0, 1] st'.sys 1 hI'.inv (by simp)
      refine ⟨hI', hS', hq', by rw [hst']; exact hcq, by rw [hqt']; exact hqt, hholes',
        by rw [htot']; exact htot, ?_, ?_, ?_⟩
      · intro x hx
        unfold required_pages
        rw [(hid x).2.2.2]
        exact hreq x hx
      · intro x hx
        have hx' : x = 0 ∨ x = 1 := by simpa using hx
        have hp' : p = 0 ∨ p = 1 := by simpa using hp
        rcases hx' with e | e <;> rcases hp' with e' | e' <;> subst e <;> subst e' <;> omega
      · intro x hx
        by_cases hxp : x = p
        · rw [hxp, hrem']; exact hremp
        · rw [hoth x hxp, same_but_pages_remaining (hadm1.others x hxp)]
          exact hrem x hx
    · exfalso
      apply hfin
      refine ⟨rfl, ?_⟩
      rw [(after_run_fields .RR s1 p).2.2.2]
      show ((add_curr_time .RR s1 p).heap p).remaining_time ≠ 0
      rw [← e3, hrem']
      omega
  · rw [hwq0] at hwq; cases hwq
  · rw [hwq0] at hwq; cases hwq

/-- From a state of `Thrash` the loop of `simulation` uses up every number of rounds. -/
theorem thrash_loop (fuel : Nat) :
    ∀ st, Thrash st → sim_loop .RR .VM fuel st = .error .OutOfFuel := by
  induction fuel with
  | zero =>
    intro st hT
    obtain ⟨p, w, hwq⟩ := thrash_waiting st hT
    have hc : get_queue_size st.waiting_queue > 0 ∨ get_queue_size st.queue > 0 := by
      left
      rw [hwq]
      show ((p :: w).length : Int) > 0
      simp only [List.length_cons]; omega
    unfold sim_loop
    rw [if_pos hc]
  | succ fuel ih =>
    intro st hT
    obtain ⟨p, w, hwq⟩ := thrash_waiting st hT
    obtain ⟨st', hs, hT'⟩ := thrash_step st hT
    have hc : get_queue_size st.waiting_queue > 0 ∨ get_queue_size st.queue > 0 := by
      left
      rw [hwq]
      show ((p :: w).length : Int) > 0
      simp only [List.length_cons]; omega
    unfold sim_loop
    rw [if_pos hc, hs]
    exact ih st' hT'

theorem thrash_unique : unique_ids thrash_records := ⟨by decide, by decide⟩

theorem thrash_first_step :
    sim_step .RR .VM (sim_start thrash_records 5 1)
      = .ok (after_step .RR .VM (sim_start thrash_records 5 1)) := rfl

theorem thrash_second_step :
    sim_step .RR .VM (after_step .RR .VM (sim_start thrash_records 5 1)) = .ok thrash_start := rfl

theorem thrash_reach : SimReach .RR .VM (sim_start thrash_records 5 1) thrash_start :=
  SimReach.step (SimReach.step SimReach.start thrash_first_step) thrash_second_step

/-- After the first two rounds the run on `thrash_records` is in a state of `Thrash`: the first
process holds 1 page and the second one 4, with remaining times 4 and 5. -/
theorem thrash_start_inv : Thrash thrash_start := by
  have h0 := sim_init_start thrash_records 5 1
  have hI : SimInv [0, 1] thrash_start :=
    sim_reach_inv (List.range thrash_records.length) .RR .VM _ _ (by decide)
      (sim_init_inv thrash_records 5 1 _ thrash_unique h0) thrash_reach
  have hS : SchedInv [0, 1] thrash_start :=
    sim_reach_sched (List.range thrash_records.length) .RR .VM _ _ (List.nodup_range _)
      (sim_init_sched thrash_records 5 1 _ h0) thrash_reach
  have hp0 : (thrash_start.sys.heap 0).num_page_in_mem = 1 := rfl
  have hp1 : (thrash_start.sys.heap 1).num_page_in_mem = 4 := rfl
  have hr0 : (thrash_start.sys.heap 0).remaining_time = 4 := rfl
  have hr1 : (thrash_start.sys.heap 1).remaining_time = 5 := rfl
  refine ⟨hI, hS, rfl, rfl, rfl, rfl, rfl, ?_, ?_, ?_⟩
  · intro x hx
    have hx' : x = 0 ∨ x = 1 := by simpa using hx
    rcases hx' with e | e <;> subst e <;> rfl
  · intro x hx
    have hx' : x = 0 ∨ x = 1 := by simpa using hx
    rcases hx' with e | e <;> subst e <;> omega
  · intro x hx
    have hx' : x = 0 ∨ x = 1 := by simpa using hx
    rcases hx' with e | e <;> subst e <;> omega

theorem sim_loop_next (sched : SchedFlag) (mem : MemFlag) (fuel : Nat) (st st1 : Sim)
    (hne : st.waiting_queue ≠ []) (hs : sim_step sched mem st = .ok st1) :
    sim_loop sched mem (fuel + 1) st = sim_loop sched mem fuel st1 := by
  have hc : get_queue_size st.waiting_queue > 0 ∨ get_queue_size st.queue > 0 := by
    left
    cases hq : st.waiting_queue with
    | nil => exact absurd hq hne
    | cons a l => show ((a :: l).length : Int) > 0; simp only [List.length_cons]; omega
  conv_lhs => unfold sim_loop
  rw [if_pos hc, hs]
  rfl

theorem sim_loop_out (sched : SchedFlag) (mem : MemFlag) (st : Sim)
    (hne : st.waiting_queue ≠ []) : sim_loop sched mem 0 st = .error .OutOfFuel := by
  have hc : get_queue_size st.waiting_queue > 0 ∨ get_queue_size st.queue > 0 := by
    left
    cases hq : st.waiting_queue with
    | nil => exact absurd hq hne
    | cons a l => show ((a :: l).length : Int) > 0; simp only [List.length_cons]; omega
  unfold sim_loop
  rw [if_pos hc]

/-- The run that C38 fails on: two processes of 5 pages each, with job times 5 and unique ids,
a table of 5 frames, round robin with quantum 1 and virtual memory. From the third round on each
dispatched process gets 4 of its 5 pages, so each admission adds one unit of remaining time and
each slice takes one unit: no process ever completes, and the run uses up every number of
rounds. -/
theorem thrash_never_ends :
    unique_ids thrash_records ∧ (∀ x ∈ thrash_records, 1 ≤ x.job_time) ∧ (1 : Int) ≤ 1
      ∧ (∀ x ∈ thrash_records, required_pages x.toProcess ≤ (5 : Nat))
      ∧ ∀ fuel, run thrash_records .RR .VM 5 1 fuel = .error .OutOfFuel := by
  refine ⟨thrash_unique, by decide, by decide, by decide, ?_⟩
  intro fuel
  have h0 := sim_init_start thrash_records 5 1
  have hw0 : (sim_start thrash_records 5 1).waiting_queue ≠ [] := by decide
  have hw1 : (after_step .RR .VM (sim_start thrash_records 5 1)).waiting_queue ≠ [] := by decide
  unfold run simulation
  rw [h0]
  show sim_loop .RR .VM fuel (sim_start thrash_records 5 1) = _
  cases fuel with
  | zero => exact sim_loop_out .RR .VM _ hw0
  | succ n =>
    rw [sim_loop_next .RR .VM n _ _ hw0 thrash_first_step]
    cases n with
    | zero => exact sim_loop_out .RR .VM _ hw1
    | succ m =>
      rw [sim_loop_next .RR .VM m _ _ hw1 thrash_second_step]
      exact thrash_loop m thrash_start thrash_start_inv

/-! ## The usage of 7 of 25 frames -/

/-- The value of `fl` at the fraction `a / b` in lowest terms, from the exponent `s` of the last
bit and the significand `m`. -/
theorem fl_eval (a b : Nat) (s : Int) (m : Nat) (ha : 0 < a) (hb : 0 < b)
    (hc : Nat.Coprime a b) (hs : binade a b - 52 = s)
    (hm : round_even (a * 2 ^ (-s).toNat) (b * 2 ^ s.toNat) = m) :
    fl ((a : ℚ) / (b : ℚ)) = (m : ℚ) * (2 : ℚ) ^ s := by
  have hpos : (0 : ℚ) < (a : ℚ) / (b : ℚ) := by positivity
  have hnum : ((a : ℚ) / (b : ℚ)).num = (a : Int) := by
    have := Rat.num_div_eq_of_coprime (a := (a : Int)) (b := (b : Int))
      (by exact_mod_cast hb) (by simpa using hc)
    simpa using this
  have hden : (((a : ℚ) / (b : ℚ)).den : Int) = (b : Int) := by
    have := Rat.den_div_eq_of_coprime (a := (a : Int)) (b := (b : Int))
      (by exact_mod_cast hb) (by simpa using hc)
    simpa using this
  have hden' : ((a : ℚ) / (b : ℚ)).den = b := by exact_mod_cast hden
  unfold fl
  rw [if_neg (ne_of_gt hpos), if_neg (not_lt.2 (le_of_lt hpos))]
  simp only [hnum, hden', Int.natAbs_ofNat, hs, hm, one_mul]

/-- The number 7 is a `double`. -/
theorem fl_seven : fl 7 = 7 := by
  have h := fl_eval 7 1 (-50) (7 * 2 ^ 50) (by decide) (by decide) (by decide) (by decide!)
    (by decide!)
  norm_num at h
  exact h

/-- The number 25 is a `double`. -/
theorem fl_twenty_five : fl 25 = 25 := by
  have h := fl_eval 25 1 (-48) (25 * 2 ^ 48) (by decide) (by decide) (by decide) (by decide!)
    (by decide!)
  norm_num at h
  exact h

/-- The quotient `7 / 25` is rounded upward. -/
theorem fl_quotient : fl (7 / 25) = 1261007895663739 / 4503599627370496 := by
  have h := fl_eval 7 25 (-54) 5044031582654956 (by decide) (by decide) (by decide!)
    (by decide!) (by decide!)
  norm_num at h
  rw [h]

/-- The rounded quotient is a `double`. -/
theorem fl_quotient_one :
    fl (1261007895663739 / 4503599627370496) = 1261007895663739 / 4503599627370496 := by
  have h := fl_eval 1261007895663739 4503599627370496 (-54) 5044031582654956 (by decide)
    (by decide) (by decide!) (by norm_num [binade, Nat.log2]; decide) (by decide!)
  norm_num at h
  rw [h]

/-- The product with 100 is rounded to a number above 28. -/
theorem fl_percent :
    fl (100 * (1261007895663739 / 4503599627370496))
      = 7881299347898369 / 281474976710656 := by
  have e : (100 * (1261007895663739 / 4503599627370496) : ℚ)
      = ((31525197391593475 : Nat) : ℚ) / ((1125899906842624 : Nat) : ℚ) := by norm_num
  rw [e, fl_eval 31525197391593475 1125899906842624 (-48) 7881299347898369 (by decide)
    (by decide) (by decide!) (by norm_num [binade, Nat.log2]; decide) (by decide!)]
  norm_num

/-- The usage that the code computes for 7 of 25 frames is 29. -/
theorem usage_seven : my_ceil (double_mul 100 (double_mul
    (double_div (double_mul (double_of 7) 1) (double_of 25)) 1)) = 29 := by
  have h7 : double_of 7 = 7 := by
    unfold double_of
    rw [Int.cast_ofNat, fl_seven]
  have h25 : double_of 25 = 25 := by
    unfold double_of
    rw [Int.cast_ofNat, fl_twenty_five]
  rw [h7, h25]
  unfold double_mul double_div
  simp only [mul_one]
  rw [fl_seven, fl_quotient, fl_quotient_one, fl_percent,
    my_ceil_eq_ceil _ (by norm_num), Int.ceil_eq_iff]
  constructor <;> norm_num

/-- Claim C26, usage accounting, at an input on which the code departs from it: the only process
of `usage_records` needs 7 pages, and in the first round of the run with 25 frames under round
robin and swapping the allocation of its 7 frames adds 29 to its `mem_usage` and to the aggregate
`memory_use`, the value that the line `RUNNING` prints, while the ceiling of `100 * 7 / 25` is 28:
the quotient `7 * 1.0 / 25` is rounded upward in `double`, its product with 100 lies above 28,
and `my_ceil` maps it to 29. -/
theorem usage_rounds_up :
    sim_step .RR .SP (sim_start usage_records 25 2)
        = .ok (after_step .RR .SP (sim_start usage_records 25 2))
      ∧ (after_step .RR .SP (sim_start usage_records 25 2)).sys.cpu.memory.total_page = 25
      ∧ ((after_step .RR .SP (sim_start usage_records 25 2)).sys.heap 0).num_page_in_mem = 7
      ∧ ((after_step .RR .SP (sim_start usage_records 25 2)).sys.heap 0).mem_usage = 29
      ∧ (after_step .RR .SP (sim_start usage_records 25 2)).sys.cpu.memory.memory_use = 29
      ∧ (after_step .RR .SP (sim_start usage_records 25 2)).sys.out
          = [.mem_running 0 1 5 14 29 [0, 1, 2, 3, 4, 5, 6]]
      ∧ ⌈(100 * 7 : ℚ) / 25⌉ = 28 := by
  have hp : ((after_step .RR .SP (sim_start usage_records 25 2)).sys.heap 0).mem_usage
      = 0 + my_ceil (double_mul 100 (double_mul
          (double_div (double_mul (double_of 7) 1) (double_of 25)) 1)) := rfl
  have hm : (after_step .RR .SP (sim_start usage_records 25 2)).sys.cpu.memory.memory_use
      = 0 + my_ceil (double_mul 100 (double_mul
          (double_div (double_mul (double_of 7) 1) (double_of 25)) 1)) := rfl
  have ho : (after_step .RR .SP (sim_start usage_records 25 2)).sys.out
      = [.mem_running 0 1 5 14 (0 + my_ceil (double_mul 100 (double_mul
          (double_div (double_mul (double_of 7) 1) (double_of 25)) 1))) [0, 1, 2, 3, 4, 5, 6]] :=
    rfl
  rw [usage_seven] at hp hm ho
  refine ⟨rfl, rfl, rfl, hp, hm, ho, ?_⟩
  rw [Int.ceil_eq_iff]
  constructor <;> norm_num

end PMM
